import Mathlib

/-! Extendible cuckoo hash table with n keys per bucket (`src/tables/xuckoon.c`).

A shallow embedding of the table operations of `xuckoon.c` and a verification
of its contract.

Modelling conventions.

* A `Bucket *` is an index into the list `heap` of the buckets allocated for an
  inner table (`new_bucket` appends to it); the slot array `buckets` holds such
  indices, so several slots may alias one bucket exactly as in the C code.
* A bucket's `keys` is the whole `malloc`ed array (`bucketsize` entries, the
  entries at and after `nkeys` being uninitialised memory, whose contents are
  the parameter `junk`); `nkeys` is the C field.
* `int` values that the code keeps non-negative (`id`, `depth`, `nkeys`, `size`,
  `nbuckets`, `replacements`, addresses) are `Nat`; `int64` keys and the `int`
  results of the hash functions are `Int`.  `double_table` asserts
  `size < MAX_TABLE_SIZE`, which keeps every shift and sum inside the range of
  `int` for any `MAX_TABLE_SIZE` that is itself at most `2^30`.
* `h1`, `h2` and `MAX_TABLE_SIZE` come from `inthash.h`, which is not part of
  the sources; they are parameters (`Env`).
* `rand()` is a stream `rnd : Nat → Nat` of non-negative results, consumed from
  position 0; `srand(time(NULL))` at the start of an insert makes the stream a
  fresh argument of every insert call.
* Every access outside an array, through an invalid pointer, a right operand of
  `%` equal to zero and a negative shift is undefined behaviour and yields
  `Fault.undefined`; the failed assertion of `double_table` yields
  `Fault.tableTooLarge`.  The recursion of `insert_key` is driven by a fuel
  argument and yields `Fault.outOfFuel` when the fuel is used up.
* The field `time` and the calls of `clock()` only accumulate CPU time for the
  statistics printout; no other field and no return value depends on them, and
  they are left out.
* `free_inner_table` is modelled by the list of the bucket pointers it passes
  to `free`; reading a bucket that has been freed is undefined behaviour.
* `insert_key_log` and `xuckoon_hash_table_insert_log` are `insert_key` and
  `xuckoon_hash_table_insert` with a ghost record of which hash function is
  used on which inner table; without the record they are the functions
  themselves (`insert_key_log_fst`, `insert_log_fst`).
* The single-key variant (`src/tables/xuckoo.c`), the extendible table
  (`src/tables/xtndbln.c`) and the flat cuckoo table (`src/tables/cuckoo.c`)
  are embedded with the same conventions in the namespaces `Xuckoo`, `Xtndbln`
  and `Cuckoo`.
-/

namespace Xuckoon

/-- Ways in which a call can fail to return. -/
inductive Fault where
  | tableTooLarge
  | undefined
  | outOfFuel
deriving DecidableEq, Repr

/-- Result of a call: a value, or a fault. -/
inductive Res (α : Type) where
  | ok : α → Res α
  | fault : Fault → Res α
deriving DecidableEq, Repr

/-- The C struct `Bucket` (`struct xtndbln_bucket`). -/
structure Bucket where
  id : Nat
  depth : Nat
  nkeys : Nat
  keys : List Int
deriving DecidableEq, Repr

/-- The C struct `InnerTable`; `heap` holds the buckets allocated for this table
and `buckets` the slot array of pointers into it. -/
structure InnerTable where
  heap : List Bucket
  buckets : List Nat
  size : Nat
  depth : Nat
  nbuckets : Nat
  nkeys : Nat
deriving DecidableEq, Repr

/-- The C struct `xuckoon_table` (without the CPU-time counter). -/
structure XuckooNHashTable where
  table1 : InnerTable
  table2 : InnerTable
  bucketsize : Nat
deriving DecidableEq, Repr

/-- What `inthash.h` provides, and the contents of uninitialised key arrays. -/
structure Env where
  h1 : Int → Int
  h2 : Int → Int
  MAX_TABLE_SIZE : Nat
  junk : Nat → Int

/-- The macro `rightmostnbits(n, x)`, that is `(x) & ((1 << (n)) - 1)`. -/
def rightmostnbits (n : Nat) (x : Int) : Int :=
  Int.land x ((((1 : Nat) <<< n : Nat) : Int) - 1)

/-- An `int` used as an array index. -/
def index (x : Int) : Res Nat :=
  match x with
  | Int.ofNat a => .ok a
  | Int.negSucc _ => .fault .undefined

/-- The expression `table->buckets[address]`, dereferenced: the pointer and the
bucket it points to. -/
def bucketAt (table : InnerTable) (address : Nat) : Res (Nat × Bucket) :=
  match table.buckets[address]? with
  | none => .fault .undefined
  | some p =>
    match table.heap[p]? with
    | none => .fault .undefined
    | some b => .ok (p, b)

/-- The address `rightmostnbits(table->depth, h(key))` as an index. -/
def addressOf (table : InnerTable) (h : Int → Int) (key : Int) : Res Nat :=
  index (rightmostnbits table.depth (h key))

/-- The function `new_bucket`: the bucket it allocates. -/
def new_bucket (junk : Nat → Int) (first_address depth bucketsize : Nat) : Bucket :=
  { id := first_address, depth := depth, nkeys := 0,
    keys := (List.range bucketsize).map junk }

/-- The function `initialise_table`. -/
def initialise_table (junk : Nat → Int) (bucketsize : Nat) : InnerTable :=
  { heap := [new_bucket junk 0 0 bucketsize], buckets := [0], size := 1, depth := 0,
    nbuckets := 1, nkeys := 0 }

/-- The loop of `find_key`: compares `keys[i]`, `keys[i+1]`, ... with `key`,
for `n` more iterations. -/
def find_loop (keys : List Int) (key : Int) : Nat → Nat → Res Bool
  | _, 0 => .ok false
  | i, n + 1 =>
    match keys[i]? with
    | none => .fault .undefined
    | some k => if k = key then .ok true else find_loop keys key (i + 1) n

/-- The function `find_key`. -/
def find_key (table : InnerTable) (address : Nat) (key : Int) : Res Bool :=
  match bucketAt table address with
  | .fault e => .fault e
  | .ok (_, b) =>
    if b.nkeys ≠ 0 then find_loop b.keys key 0 b.nkeys else .ok false

/-- The function `double_table`. -/
def double_table (env : Env) (table : InnerTable) : Res InnerTable :=
  let size := table.size * 2
  if size < env.MAX_TABLE_SIZE then
    .ok { table with
          buckets := table.buckets ++ table.buckets.take table.size
          size := size
          depth := table.depth + 1 }
  else .fault .tableTooLarge

/-- The two statements `keys[nkeys] = key; nkeys++` on the bucket at pointer `p`. -/
def appendKey (table : InnerTable) (p : Nat) (b : Bucket) (key : Int) : Res InnerTable :=
  if b.nkeys < b.keys.length then
    .ok { table with
          heap := table.heap.set p { b with keys := b.keys.set b.nkeys key, nkeys := b.nkeys + 1 } }
  else .fault .undefined

/-- The function `reinsert_key`. -/
def reinsert_key (table : InnerTable) (key : Int) (h : Int → Int) : Res InnerTable :=
  match addressOf table h key with
  | .fault e => .fault e
  | .ok address =>
    match bucketAt table address with
    | .fault e => .fault e
    | .ok (p, b) => appendKey table p b key

/-- The redirect loop of `split_bucket`: for `prefix = 0, ..., n-1` the slot
`(prefix << new_depth) | suffix` is made to point at `newbucket`. -/
def redirect (newbucket new_depth suffix : Nat) (buckets : List Nat) : Nat → Res (List Nat)
  | 0 => .ok buckets
  | n + 1 =>
    match redirect newbucket new_depth suffix buckets n with
    | .fault e => .fault e
    | .ok bs =>
      let a := (n <<< new_depth) ||| suffix
      if a < bs.length then .ok (bs.set a newbucket) else .fault .undefined

/-- The final loop of `split_bucket`: reads `bucket->keys[i]`, `bucket->keys[i+1]`,
... (`n` more of them) from the bucket at pointer `p` and reinserts each. -/
def reinsert_loop (h : Int → Int) (p : Nat) : Nat → Nat → InnerTable → Res InnerTable
  | _, 0, table => .ok table
  | i, n + 1, table =>
    match table.heap[p]? with
    | none => .fault .undefined
    | some bucket =>
      match bucket.keys[i]? with
      | none => .fault .undefined
      | some key =>
        match reinsert_key table key h with
        | .fault e => .fault e
        | .ok table1 => reinsert_loop h p (i + 1) n table1

/-- The steps SECOND, THIRD and FINALLY of `split_bucket`, on the table as it is
after the first step. -/
def split_rest (env : Env) (table : InnerTable) (address bucketsize : Nat)
    (h : Int → Int) : Res InnerTable :=
  -- SECOND, create a new bucket and update both buckets' depth
  match bucketAt table address with
  | .fault e => .fault e
  | .ok (p, bucket) =>
    let depth := bucket.depth
    let first_address := bucket.id
    let new_depth := depth + 1
    let heap1 := table.heap.set p { bucket with depth := new_depth }
    let new_first_address := (1 <<< depth) ||| first_address
    let newbucket := heap1.length
    let heap2 := heap1 ++ [new_bucket env.junk new_first_address new_depth bucketsize]
    let nbuckets := table.nbuckets + 1
    -- THIRD, redirect every second address pointing to this bucket
    match index (rightmostnbits depth first_address) with
    | .fault e => .fault e
    | .ok bit_address =>
      let suffix := (1 <<< depth) ||| bit_address
      if table.depth < new_depth then .fault .undefined else
      let maxprefix := 1 <<< (table.depth - new_depth)
      match redirect newbucket new_depth suffix table.buckets maxprefix with
      | .fault e => .fault e
      | .ok buckets =>
        -- FINALLY, remove and reinsert the keys
        let nkeys := bucket.nkeys
        let heap3 := heap2.set p { bucket with depth := new_depth, nkeys := 0 }
        reinsert_loop h p 0 nkeys
          { table with heap := heap3, buckets := buckets, nbuckets := nbuckets }

/-- The function `split_bucket`. -/
def split_bucket (env : Env) (table : InnerTable) (address bucketsize : Nat)
    (h : Int → Int) : Res InnerTable :=
  -- FIRST, do we need to grow the table?
  match bucketAt table address with
  | .fault e => .fault e
  | .ok (_, b0) =>
    match (if b0.depth = table.depth then double_table env table else .ok table) with
    | .fault e => .fault e
    | .ok table => split_rest env table address bucketsize h

/-- The function `insert_key`; the result is the returned flag, the table passed
as `tableA`, the table passed as `tableB`, and `*replacements`. -/
def insert_key (env : Env) (bucketsize : Nat) :
    Nat → Int → InnerTable → InnerTable → (Int → Int) → (Int → Int) → Nat → (Nat → Nat) →
      Res (Bool × InnerTable × InnerTable × Nat)
  | 0, _, _, _, _, _, _, _ => .fault .outOfFuel
  | fuel + 1, key, tableA, tableB, hA, hB, replacements, rnd =>
    match addressOf tableA hA key with
    | .fault e => .fault e
    | .ok address =>
      match bucketAt tableA address with
      | .fault e => .fault e
      | .ok (p, b) =>
        if b.nkeys ≠ bucketsize then
          -- bucket not full, so insert key
          match appendKey tableA p b key with
          | .fault e => .fault e
          | .ok tableA1 => .ok (true, { tableA1 with nkeys := tableA1.nkeys + 1 }, tableB, replacements)
        else if b.nkeys = 0 then .fault .undefined
        else
          -- bucket full, so pop a random preexisting key
          let random_index := rnd 0 % b.nkeys
          match b.keys[random_index]? with
          | none => .fault .undefined
          | some prekey =>
            -- and insert the new key
            let tableA1 : InnerTable :=
              { tableA with heap := tableA.heap.set p { b with keys := b.keys.set random_index key } }
            -- split bucket if number of replacements is too high
            match (if replacements ≥ 1000 then split_bucket env tableA1 address bucketsize hA
                   else .ok tableA1) with
            | .fault e => .fault e
            | .ok tableA2 =>
              -- insert preexisting key using recursive call
              match insert_key env bucketsize fuel prekey tableB tableA2 hB hA (replacements + 1)
                      (fun i => rnd (i + 1)) with
              | .fault e => .fault e
              | .ok (r, tB, tA, reps) => .ok (r, tA, tB, reps)

/-- The function `new_xuckoon_hash_table`. -/
def new_xuckoon_hash_table (env : Env) (bucketsize : Nat) : XuckooNHashTable :=
  { table1 := initialise_table env.junk bucketsize,
    table2 := initialise_table env.junk bucketsize,
    bucketsize := bucketsize }

/-- The test `find_key(table1, addressA, key) || find_key(table2, addressB, key)`
with both addresses computed first, as in insert and lookup. -/
def findEither (env : Env) (table : XuckooNHashTable) (key : Int) : Res Bool :=
  match addressOf table.table1 env.h1 key with
  | .fault e => .fault e
  | .ok addressA =>
    match addressOf table.table2 env.h2 key with
    | .fault e => .fault e
    | .ok addressB =>
      match find_key table.table1 addressA key with
      | .fault e => .fault e
      | .ok true => .ok true
      | .ok false => find_key table.table2 addressB key

/-- The function `xuckoon_hash_table_insert`: the returned flag and the table
after the call. -/
def xuckoon_hash_table_insert (env : Env) (fuel : Nat) (rnd : Nat → Nat)
    (table : XuckooNHashTable) (key : Int) : Res (Bool × XuckooNHashTable) :=
  -- is this key already there?
  match findEither env table key with
  | .fault e => .fault e
  | .ok true => .ok (false, table)
  | .ok false =>
    -- set tableA as the table with fewer keys (or table 1 if nkeys is same)
    if table.table1.nkeys ≤ table.table2.nkeys then
      match insert_key env table.bucketsize fuel key table.table1 table.table2 env.h1 env.h2 0 rnd with
      | .fault e => .fault e
      | .ok (inserted, tA, tB, _) => .ok (inserted, { table with table1 := tA, table2 := tB })
    else
      match insert_key env table.bucketsize fuel key table.table2 table.table1 env.h2 env.h1 0 rnd with
      | .fault e => .fault e
      | .ok (inserted, tA, tB, _) => .ok (inserted, { table with table1 := tB, table2 := tA })

/-- The function `xuckoon_hash_table_lookup`: the returned flag. -/
def xuckoon_hash_table_lookup (env : Env) (table : XuckooNHashTable) (key : Int) : Res Bool :=
  findEither env table key

/-- The loop of `free_inner_table`, for `i` running from `n - 1` down to 0: the
bucket `table->buckets[i]` is read, and freed when its id is `i`.  `freed` lists
the pointers already passed to `free` (latest first); reading the id of a bucket
that has been freed is undefined behaviour. -/
def free_loop (table : InnerTable) : Nat → List Nat → Res (List Nat)
  | 0, freed => .ok freed
  | i + 1, freed =>
    match bucketAt table i with
    | .fault e => .fault e
    | .ok (p, b) =>
      if p ∈ freed then .fault .undefined
      else if b.id = i then free_loop table i (p :: freed)
      else free_loop table i freed

/-- The function `free_inner_table`: the pointers of the buckets it frees, the
one freed last (at the lowest index) first. -/
def free_inner_table (table : InnerTable) : Res (List Nat) :=
  free_loop table table.size []

/-- The names of the two inner tables and of the two hash functions: `first`
for `table1` and `h1`, `second` for `table2` and `h2`. -/
inductive Role where
  | first
  | second
deriving DecidableEq, Repr

/-- The hash function with a given name. -/
def hashOf (env : Env) : Role → (Int → Int)
  | .first => env.h1
  | .second => env.h2

/-- The function `insert_key` with a record of its uses of the hash functions.
The arguments `ta`, `tb` name the inner tables passed as `tableA`, `tableB` and
`ha`, `hb` name the hash functions passed as `hA`, `hB`; the second component of
the result lists, in order, a pair (table, hash function) for every address
computed with `rightmostnbits(tableA->depth, hA(key))` and for every call
`split_bucket(tableA, address, bucketsize, hA)`. -/
def insert_key_log (env : Env) (bucketsize : Nat) :
    Nat → Int → Role → Role → Role → Role → InnerTable → InnerTable → Nat → (Nat → Nat) →
      Res (Bool × InnerTable × InnerTable × Nat) × List (Role × Role)
  | 0, _, _, _, _, _, _, _, _, _ => (.fault .outOfFuel, [])
  | fuel + 1, key, ta, tb, ha, hb, tableA, tableB, replacements, rnd =>
    match addressOf tableA (hashOf env ha) key with
    | .fault e => (.fault e, [(ta, ha)])
    | .ok address =>
      match bucketAt tableA address with
      | .fault e => (.fault e, [(ta, ha)])
      | .ok (p, b) =>
        if b.nkeys ≠ bucketsize then
          match appendKey tableA p b key with
          | .fault e => (.fault e, [(ta, ha)])
          | .ok tableA1 =>
            (.ok (true, { tableA1 with nkeys := tableA1.nkeys + 1 }, tableB, replacements),
              [(ta, ha)])
        else if b.nkeys = 0 then (.fault .undefined, [(ta, ha)])
        else
          let random_index := rnd 0 % b.nkeys
          match b.keys[random_index]? with
          | none => (.fault .undefined, [(ta, ha)])
          | some prekey =>
            let tableA1 : InnerTable :=
              { tableA with heap := tableA.heap.set p { b with keys := b.keys.set random_index key } }
            match (if replacements ≥ 1000 then
                     (split_bucket env tableA1 address bucketsize (hashOf env ha), [(ta, ha)])
                   else (.ok tableA1, [])) with
            | (.fault e, uses) => (.fault e, (ta, ha) :: uses)
            | (.ok tableA2, uses) =>
              match insert_key_log env bucketsize fuel prekey tb ta hb ha tableB tableA2
                      (replacements + 1) (fun i => rnd (i + 1)) with
              | (.fault e, rest) => (.fault e, (ta, ha) :: uses ++ rest)
              | (.ok (r, tB, tA, reps), rest) => (.ok (r, tA, tB, reps), (ta, ha) :: uses ++ rest)

/-- The function `xuckoon_hash_table_insert` with a record of its uses of the
hash functions: the two addresses computed with `h1` for `table1` and `h2` for
`table2`, then those of `insert_key`. -/
def xuckoon_hash_table_insert_log (env : Env) (fuel : Nat) (rnd : Nat → Nat)
    (table : XuckooNHashTable) (key : Int) :
    Res (Bool × XuckooNHashTable) × List (Role × Role) :=
  match findEither env table key with
  | .fault e => (.fault e, [(.first, .first), (.second, .second)])
  | .ok true => (.ok (false, table), [(.first, .first), (.second, .second)])
  | .ok false =>
    if table.table1.nkeys ≤ table.table2.nkeys then
      match insert_key_log env table.bucketsize fuel key .first .second .first .second
              table.table1 table.table2 0 rnd with
      | (.fault e, uses) => (.fault e, (.first, .first) :: (.second, .second) :: uses)
      | (.ok (inserted, tA, tB, _), uses) =>
        (.ok (inserted, { table with table1 := tA, table2 := tB }),
          (.first, .first) :: (.second, .second) :: uses)
    else
      match insert_key_log env table.bucketsize fuel key .second .first .second .first
              table.table2 table.table1 0 rnd with
      | (.fault e, uses) => (.fault e, (.first, .first) :: (.second, .second) :: uses)
      | (.ok (inserted, tA, tB, _), uses) =>
        (.ok (inserted, { table with table1 := tB, table2 := tA }),
          (.first, .first) :: (.second, .second) :: uses)

/-- The function `xuckoon_hash_table_lookup` with a record of its uses of the
hash functions. -/
def xuckoon_hash_table_lookup_log (env : Env) (table : XuckooNHashTable) (key : Int) :
    Res Bool × List (Role × Role) :=
  (findEither env table key, [(.first, .first), (.second, .second)])

/-! ## The single-key variant (`src/tables/xuckoo.c`)

A bucket holds one key and the flag `full`.  The macro `rightmostnbits` and the
redirect loop of `split_bucket` have the same text as in `xuckoon.c`; their
definitions above are used.  The field `time` is left out. -/

namespace Xuckoo

/-- The C struct `Bucket` (`struct bucket`). -/
structure Bucket where
  id : Nat
  depth : Nat
  full : Bool
  key : Int
deriving DecidableEq, Repr

/-- The C struct `InnerTable`; `heap` holds the buckets allocated for this table
and `buckets` the slot array of pointers into it. -/
structure InnerTable where
  heap : List Bucket
  buckets : List Nat
  size : Nat
  depth : Nat
  nbuckets : Nat
  nkeys : Nat
deriving DecidableEq, Repr

/-- The C struct `xuckoo_table` (without the CPU-time counter). -/
structure XuckooHashTable where
  table1 : InnerTable
  table2 : InnerTable
deriving DecidableEq, Repr

/-- The expression `table->buckets[address]`, dereferenced: the pointer and the
bucket it points to. -/
def bucketAt (table : InnerTable) (address : Nat) : Res (Nat × Bucket) :=
  match table.buckets[address]? with
  | none => .fault .undefined
  | some p =>
    match table.heap[p]? with
    | none => .fault .undefined
    | some b => .ok (p, b)

/-- The address `rightmostnbits(table->depth, h(key))` as an index. -/
def addressOf (table : InnerTable) (h : Int → Int) (key : Int) : Res Nat :=
  index (rightmostnbits table.depth (h key))

/-- The function `new_bucket`: the bucket it allocates; its field `key` is not
initialised. -/
def new_bucket (junk : Nat → Int) (first_address depth : Nat) : Bucket :=
  { id := first_address, depth := depth, full := false, key := junk 0 }

/-- The function `initialise_table`. -/
def initialise_table (junk : Nat → Int) : InnerTable :=
  { heap := [new_bucket junk 0 0], buckets := [0], size := 1, depth := 0,
    nbuckets := 1, nkeys := 0 }

/-- The function `double_table`. -/
def double_table (env : Env) (table : InnerTable) : Res InnerTable :=
  let size := table.size * 2
  if size < env.MAX_TABLE_SIZE then
    .ok { table with
          buckets := table.buckets ++ table.buckets.take table.size
          size := size
          depth := table.depth + 1 }
  else .fault .tableTooLarge

/-- The function `reinsert_key`. -/
def reinsert_key (table : InnerTable) (key : Int) (h : Int → Int) : Res InnerTable :=
  match addressOf table h key with
  | .fault e => .fault e
  | .ok address =>
    match bucketAt table address with
    | .fault e => .fault e
    | .ok (p, b) => .ok { table with heap := table.heap.set p { b with key := key, full := true } }

/-- The steps SECOND, THIRD and FINALLY of `split_bucket`, on the table as it is
after the first step. -/
def split_rest (env : Env) (table : InnerTable) (address : Nat) (h : Int → Int) :
    Res InnerTable :=
  -- SECOND, create a new bucket and update both buckets' depth
  match bucketAt table address with
  | .fault e => .fault e
  | .ok (p, bucket) =>
    let depth := bucket.depth
    let first_address := bucket.id
    let new_depth := depth + 1
    let heap1 := table.heap.set p { bucket with depth := new_depth }
    let new_first_address := (1 <<< depth) ||| first_address
    let newbucket := heap1.length
    let heap2 := heap1 ++ [new_bucket env.junk new_first_address new_depth]
    let nbuckets := table.nbuckets + 1
    -- THIRD, redirect every second address pointing to this bucket
    match index (rightmostnbits depth first_address) with
    | .fault e => .fault e
    | .ok bit_address =>
      let suffix := (1 <<< depth) ||| bit_address
      if table.depth < new_depth then .fault .undefined else
      let maxprefix := 1 <<< (table.depth - new_depth)
      match redirect newbucket new_depth suffix table.buckets maxprefix with
      | .fault e => .fault e
      | .ok buckets =>
        -- FINALLY, remove and reinsert the key
        let key := bucket.key
        let heap3 := heap2.set p { bucket with depth := new_depth, full := false }
        reinsert_key { table with heap := heap3, buckets := buckets, nbuckets := nbuckets } key h

/-- The function `split_bucket`. -/
def split_bucket (env : Env) (table : InnerTable) (address : Nat) (h : Int → Int) :
    Res InnerTable :=
  -- FIRST, do we need to grow the table?
  match bucketAt table address with
  | .fault e => .fault e
  | .ok (_, b0) =>
    match (if b0.depth = table.depth then double_table env table else .ok table) with
    | .fault e => .fault e
    | .ok table => split_rest env table address h

/-- The function `insert_key`; the result is the returned flag, the table passed
as `tableA`, the table passed as `tableB`, and `*replacements`. -/
def insert_key (env : Env) :
    Nat → Int → InnerTable → InnerTable → (Int → Int) → (Int → Int) → Nat →
      Res (Bool × InnerTable × InnerTable × Nat)
  | 0, _, _, _, _, _, _ => .fault .outOfFuel
  | fuel + 1, key, tableA, tableB, hA, hB, replacements =>
    match addressOf tableA hA key with
    | .fault e => .fault e
    | .ok address =>
      match bucketAt tableA address with
      | .fault e => .fault e
      | .ok (p, b) =>
        if b.full = false then
          -- address not in use, so insert key
          .ok (true,
            { tableA with
              heap := tableA.heap.set p { b with key := key, full := true },
              nkeys := tableA.nkeys + 1 },
            tableB, replacements)
        else
          -- address in use, so pop the preexisting key
          let prekey := b.key
          -- and insert the new key
          let tableA1 : InnerTable :=
            { tableA with heap := tableA.heap.set p { b with key := key } }
          -- split bucket if number of replacements is too high
          match (if replacements ≥ 1000 then split_bucket env tableA1 address hA
                 else .ok tableA1) with
          | .fault e => .fault e
          | .ok tableA2 =>
            -- insert preexisting key using recursive call
            match insert_key env fuel prekey tableB tableA2 hB hA (replacements + 1) with
            | .fault e => .fault e
            | .ok (r, tB, tA, reps) => .ok (r, tA, tB, reps)

/-- The function `new_xuckoo_hash_table`. -/
def new_xuckoo_hash_table (env : Env) : XuckooHashTable :=
  { table1 := initialise_table env.junk, table2 := initialise_table env.junk }

/-- The test `table->buckets[address]->full && table->buckets[address]->key == key`. -/
def holds (table : InnerTable) (address : Nat) (key : Int) : Res Bool :=
  match bucketAt table address with
  | .fault e => .fault e
  | .ok (_, b) => .ok (b.full && decide (b.key = key))

/-- The disjunction of the two tests, with both addresses computed first, as in
insert and lookup. -/
def findEither (env : Env) (table : XuckooHashTable) (key : Int) : Res Bool :=
  match addressOf table.table1 env.h1 key with
  | .fault e => .fault e
  | .ok addressA =>
    match addressOf table.table2 env.h2 key with
    | .fault e => .fault e
    | .ok addressB =>
      match holds table.table1 addressA key with
      | .fault e => .fault e
      | .ok true => .ok true
      | .ok false => holds table.table2 addressB key

/-- The function `xuckoo_hash_table_insert`: the returned flag and the table
after the call. -/
def xuckoo_hash_table_insert (env : Env) (fuel : Nat) (table : XuckooHashTable) (key : Int) :
    Res (Bool × XuckooHashTable) :=
  -- is this key already there?
  match findEither env table key with
  | .fault e => .fault e
  | .ok true => .ok (false, table)
  | .ok false =>
    -- set tableA as the table with fewer keys (or table 1 if nkeys is same)
    if table.table1.nkeys ≤ table.table2.nkeys then
      match insert_key env fuel key table.table1 table.table2 env.h1 env.h2 0 with
      | .fault e => .fault e
      | .ok (inserted, tA, tB, _) => .ok (inserted, { table1 := tA, table2 := tB })
    else
      match insert_key env fuel key table.table2 table.table1 env.h2 env.h1 0 with
      | .fault e => .fault e
      | .ok (inserted, tA, tB, _) => .ok (inserted, { table1 := tB, table2 := tA })

/-- The function `xuckoo_hash_table_lookup`: the returned flag. -/
def xuckoo_hash_table_lookup (env : Env) (table : XuckooHashTable) (key : Int) : Res Bool :=
  findEither env table key

end Xuckoo

/-! ## The extendible table with n keys per bucket (`src/tables/xtndbln.c`)

The bucket struct, `new_bucket`, the macro `rightmostnbits` and the redirect loop
of `split_bucket` have the same text in `xtndbln.c` as in `xuckoon.c`; their
definitions above are used for both.  The hash function of this table is `h1`.
The statistics `stats.nbuckets` and `stats.nkeys` are doubles holding counts;
they are natural numbers here, and `stats.time` is left out. -/

namespace Xtndbln

/-- The C struct `xtndbln_table`; `heap` holds the buckets allocated for the
table and `buckets` the slot array of pointers into it. -/
structure XtndblNHashTable where
  heap : List Bucket
  buckets : List Nat
  size : Nat
  depth : Nat
  bucketsize : Nat
  nbuckets : Nat
  nkeys : Nat
deriving DecidableEq, Repr

/-- The expression `table->buckets[address]`, dereferenced: the pointer and the
bucket it points to. -/
def bucketAt (table : XtndblNHashTable) (address : Nat) : Res (Nat × Bucket) :=
  match table.buckets[address]? with
  | none => .fault .undefined
  | some p =>
    match table.heap[p]? with
    | none => .fault .undefined
    | some b => .ok (p, b)

/-- The function `double_table`. -/
def double_table (env : Env) (table : XtndblNHashTable) : Res XtndblNHashTable :=
  let size := table.size * 2
  if size < env.MAX_TABLE_SIZE then
    .ok { table with
          buckets := table.buckets ++ table.buckets.take table.size
          size := size
          depth := table.depth + 1 }
  else .fault .tableTooLarge

/-- The function `reinsert_key`. -/
def reinsert_key (env : Env) (table : XtndblNHashTable) (key : Int) : Res XtndblNHashTable :=
  match index (rightmostnbits table.depth (env.h1 key)) with
  | .fault e => .fault e
  | .ok address =>
    match bucketAt table address with
    | .fault e => .fault e
    | .ok (p, b) =>
      if b.nkeys < b.keys.length then
        .ok { table with
              heap := table.heap.set p { b with keys := b.keys.set b.nkeys key, nkeys := b.nkeys + 1 } }
      else .fault .undefined

/-- The final loop of `split_bucket`: reads `bucket->keys[i]`, `bucket->keys[i+1]`,
... (`n` more of them) from the bucket at pointer `p` and reinserts each. -/
def reinsert_loop (env : Env) (p : Nat) : Nat → Nat → XtndblNHashTable → Res XtndblNHashTable
  | _, 0, table => .ok table
  | i, n + 1, table =>
    match table.heap[p]? with
    | none => .fault .undefined
    | some bucket =>
      match bucket.keys[i]? with
      | none => .fault .undefined
      | some key =>
        match reinsert_key env table key with
        | .fault e => .fault e
        | .ok table1 => reinsert_loop env p (i + 1) n table1

/-- The function `split_bucket`. -/
def split_bucket (env : Env) (table : XtndblNHashTable) (address : Nat) : Res XtndblNHashTable :=
  -- FIRST, do we need to grow the table?
  match bucketAt table address with
  | .fault e => .fault e
  | .ok (_, b0) =>
    match (if b0.depth = table.depth then double_table env table else .ok table) with
    | .fault e => .fault e
    | .ok table =>
      -- SECOND, create a new bucket and update both buckets' depth
      match bucketAt table address with
      | .fault e => .fault e
      | .ok (p, bucket) =>
        let depth := bucket.depth
        let first_address := bucket.id
        let new_depth := depth + 1
        let heap1 := table.heap.set p { bucket with depth := new_depth }
        let new_first_address := (1 <<< depth) ||| first_address
        let newbucket := heap1.length
        let heap2 := heap1 ++ [new_bucket env.junk new_first_address new_depth table.bucketsize]
        let nbuckets := table.nbuckets + 1
        -- THIRD, redirect every second address pointing to this bucket
        match index (rightmostnbits depth first_address) with
        | .fault e => .fault e
        | .ok bit_address =>
          let suffix := (1 <<< depth) ||| bit_address
          if table.depth < new_depth then .fault .undefined else
          let maxprefix := 1 <<< (table.depth - new_depth)
          match redirect newbucket new_depth suffix table.buckets maxprefix with
          | .fault e => .fault e
          | .ok buckets =>
            -- FINALLY, remove and reinsert the keys
            let nkeys := bucket.nkeys
            let heap3 := heap2.set p { bucket with depth := new_depth, nkeys := 0 }
            reinsert_loop env p 0 nkeys
              { table with heap := heap3, buckets := buckets, nbuckets := nbuckets }

/-- The function `new_xtndbln_hash_table`. -/
def new_xtndbln_hash_table (env : Env) (bucketsize : Nat) : XtndblNHashTable :=
  { heap := [new_bucket env.junk 0 0 bucketsize], buckets := [0], size := 1, depth := 0,
    bucketsize := bucketsize, nbuckets := 1, nkeys := 0 }

/-- The loop `while (table->buckets[address]->nkeys == table->bucketsize)` of
`xtndbln_hash_table_insert`, driven by a fuel argument: the table and the
address when the loop is left. -/
def make_space (env : Env) (hash : Int) : Nat → XtndblNHashTable → Nat → Res (XtndblNHashTable × Nat)
  | 0, _, _ => .fault .outOfFuel
  | fuel + 1, table, address =>
    match bucketAt table address with
    | .fault e => .fault e
    | .ok (_, b) =>
      if b.nkeys = table.bucketsize then
        match split_bucket env table address with
        | .fault e => .fault e
        | .ok table1 =>
          -- and recalculate address because we might now need more bits
          match index (rightmostnbits table1.depth hash) with
          | .fault e => .fault e
          | .ok address1 => make_space env hash fuel table1 address1
      else .ok (table, address)

/-- The function `xtndbln_hash_table_insert`: the returned flag and the table
after the call. -/
def xtndbln_hash_table_insert (env : Env) (fuel : Nat) (table : XtndblNHashTable) (key : Int) :
    Res (Bool × XtndblNHashTable) :=
  -- calculate table address
  let hash := env.h1 key
  match index (rightmostnbits table.depth hash) with
  | .fault e => .fault e
  | .ok address =>
    match bucketAt table address with
    | .fault e => .fault e
    | .ok (_, b) =>
      -- is this key already there?
      match (if b.nkeys ≠ 0 then find_loop b.keys key 0 table.bucketsize else .ok false) with
      | .fault e => .fault e
      | .ok true => .ok (false, table)
      | .ok false =>
        -- if not, make space in the table until our target bucket has space
        match make_space env hash fuel table address with
        | .fault e => .fault e
        | .ok (table1, address1) =>
          -- there's now space! we can insert this key
          match bucketAt table1 address1 with
          | .fault e => .fault e
          | .ok (p, b1) =>
            if b1.nkeys < b1.keys.length then
              let b2 : Bucket := { b1 with keys := b1.keys.set b1.nkeys key, nkeys := b1.nkeys + 1 }
              .ok (true, { table1 with heap := table1.heap.set p b2, nkeys := table1.nkeys + 1 })
            else .fault .undefined

/-- The function `xtndbln_hash_table_lookup`: the returned flag. -/
def xtndbln_hash_table_lookup (env : Env) (table : XtndblNHashTable) (key : Int) : Res Bool :=
  match index (rightmostnbits table.depth (env.h1 key)) with
  | .fault e => .fault e
  | .ok address =>
    match bucketAt table address with
    | .fault e => .fault e
    | .ok (_, b) => if b.nkeys ≠ 0 then find_loop b.keys key 0 b.nkeys else .ok false

end Xtndbln

/-! ## The flat cuckoo table (`src/tables/cuckoo.c`)

The pointers `tableA` and `tableB` of `insert_key` point to the two inner table
structs of the cuckoo table, which `double_table` re-initialises in place; they
are modelled by the names `Role.first` and `Role.second` of the two inner
tables.  `double_table`, `insert_key` and `cuckoo_hash_table_insert` call each
other; their recursion is driven by one fuel argument, of which every call and
every iteration of the rehash loop uses one unit.  The field `time` is left
out. -/

namespace Cuckoo

/-- The C struct `InnerTable`: the parallel arrays `slots` and `inuse`, and
`load`. -/
structure InnerTable where
  slots : List Int
  inuse : List Bool
  load : Nat
deriving DecidableEq, Repr

/-- The C struct `cuckoo_table` (without the CPU-time counter). -/
structure CuckooHashTable where
  table1 : InnerTable
  table2 : InnerTable
  size : Nat
deriving DecidableEq, Repr

/-- The inner table a pointer points to. -/
def deref (table : CuckooHashTable) : Role → InnerTable
  | .first => table.table1
  | .second => table.table2

/-- The cuckoo table after an assignment to the inner table a pointer points to. -/
def assign (table : CuckooHashTable) : Role → InnerTable → CuckooHashTable
  | .first, t => { table with table1 := t }
  | .second, t => { table with table2 := t }

/-- The address `h(key) % table->size` (the `%` of C) as an index; `x` is the
hash value. -/
def slotOf (size : Nat) (x : Int) : Res Nat :=
  if size = 0 then .fault .undefined else index (Int.tmod x (size : Int))

/-- The function `initialise_table`: the inner table it sets up. -/
def initialise_table (env : Env) (size : Nat) : Res InnerTable :=
  if size < env.MAX_TABLE_SIZE then
    .ok { slots := (List.range size).map env.junk, inuse := List.replicate size false, load := 0 }
  else .fault .tableTooLarge

/-- The test `t->inuse[h] && t->slots[h] == key`. -/
def holds (t : InnerTable) (h : Nat) (key : Int) : Res Bool :=
  match t.inuse[h]? with
  | none => .fault .undefined
  | some false => .ok false
  | some true =>
    match t.slots[h]? with
    | none => .fault .undefined
    | some k => .ok (decide (k = key))

/-- One statement `if (oldinuse[i] == true) cuckoo_hash_table_insert(table,
oldslots[i])` of the rehash loop, for the insert function `ins`. -/
def rehash_slot (ins : CuckooHashTable → Int → Res (Bool × CuckooHashTable)) (old : InnerTable)
    (i : Nat) (table : CuckooHashTable) : Res CuckooHashTable :=
  match old.inuse[i]? with
  | none => .fault .undefined
  | some false => .ok table
  | some true =>
    match old.slots[i]? with
    | none => .fault .undefined
    | some k =>
      match ins table k with
      | .fault e => .fault e
      | .ok (_, table1) => .ok table1

mutual

/-- The function `insert_key`; the result is the returned flag, the table after
the call, and `*replacements`. -/
def insert_key (env : Env) :
    Nat → Int → CuckooHashTable → Role → Role → (Int → Int) → (Int → Int) → Nat →
      Res (Bool × CuckooHashTable × Nat)
  | 0, _, _, _, _, _, _, _ => .fault .outOfFuel
  | fuel + 1, key, table, tableA, tableB, hA, hB, replacements =>
    match slotOf table.size (hA key) with
    | .fault e => .fault e
    | .ok h =>
      match (deref table tableA).inuse[h]? with
      | none => .fault .undefined
      | some false =>
        -- address not in use, so insert key
        if h < (deref table tableA).slots.length then
          .ok (true,
            assign table tableA
              { slots := (deref table tableA).slots.set h key,
                inuse := (deref table tableA).inuse.set h true,
                load := (deref table tableA).load + 1 },
            replacements)
        else .fault .undefined
      | some true =>
        -- address in use, so pop the preexisting key
        match (deref table tableA).slots[h]? with
        | none => .fault .undefined
        | some prekey =>
          -- and insert the new key
          let table1 := assign table tableA
            { deref table tableA with slots := (deref table tableA).slots.set h key }
          -- double table and rehash all values if number of replacements is too high
          match (if replacements ≥ 1000 then double_table env fuel table1 else .ok table1) with
          | .fault e => .fault e
          | .ok table2 =>
            -- insert preexisting key using recursive call
            insert_key env fuel prekey table2 tableB tableA hB hA (replacements + 1)

/-- The function `double_table`. -/
def double_table (env : Env) : Nat → CuckooHashTable → Res CuckooHashTable
  | 0, _ => .fault .outOfFuel
  | fuel + 1, table =>
    match initialise_table env (table.size * 2) with
    | .fault e => .fault e
    | .ok new1 =>
      match initialise_table env (table.size * 2) with
      | .fault e => .fault e
      | .ok new2 =>
        rehash env fuel table.table1 table.table2 0 table.size
          { table1 := new1, table2 := new2, size := table.size * 2 }

/-- The rehash loop of `double_table`, for `n` more iterations from index `i`;
`old1` and `old2` are the old inner tables. -/
def rehash (env : Env) :
    Nat → InnerTable → InnerTable → Nat → Nat → CuckooHashTable → Res CuckooHashTable
  | _, _, _, _, 0, table => .ok table
  | 0, _, _, _, _ + 1, _ => .fault .outOfFuel
  | fuel + 1, old1, old2, i, n + 1, table =>
    match rehash_slot (cuckoo_hash_table_insert env fuel) old1 i table with
    | .fault e => .fault e
    | .ok table1 =>
      match rehash_slot (cuckoo_hash_table_insert env fuel) old2 i table1 with
      | .fault e => .fault e
      | .ok table2 => rehash env fuel old1 old2 (i + 1) n table2

/-- The function `cuckoo_hash_table_insert`: the returned flag and the table
after the call. -/
def cuckoo_hash_table_insert (env : Env) :
    Nat → CuckooHashTable → Int → Res (Bool × CuckooHashTable)
  | 0, _, _ => .fault .outOfFuel
  | fuel + 1, table, key =>
    -- calculate the addresses for the key
    match slotOf table.size (env.h1 key) with
    | .fault e => .fault e
    | .ok hA =>
      match slotOf table.size (env.h2 key) with
      | .fault e => .fault e
      | .ok hB =>
        -- check if the key is already in the table
        match holds table.table1 hA key with
        | .fault e => .fault e
        | .ok true => .ok (false, table)
        | .ok false =>
          match holds table.table2 hB key with
          | .fault e => .fault e
          | .ok true => .ok (false, table)
          | .ok false =>
            -- key is not in table - so insert it
            match insert_key env fuel key table .first .second env.h1 env.h2 0 with
            | .fault e => .fault e
            | .ok (inserted, table1, _) => .ok (inserted, table1)

end

/-- The function `new_cuckoo_hash_table`. -/
def new_cuckoo_hash_table (env : Env) (size : Nat) : Res CuckooHashTable :=
  match initialise_table env size with
  | .fault e => .fault e
  | .ok t1 =>
    match initialise_table env size with
    | .fault e => .fault e
    | .ok t2 => .ok { table1 := t1, table2 := t2, size := size }

/-- The function `cuckoo_hash_table_lookup`: the returned flag. -/
def cuckoo_hash_table_lookup (env : Env) (table : CuckooHashTable) (key : Int) : Res Bool :=
  match slotOf table.size (env.h1 key) with
  | .fault e => .fault e
  | .ok hA =>
    match slotOf table.size (env.h2 key) with
    | .fault e => .fault e
    | .ok hB =>
      match holds table.table1 hA key with
      | .fault e => .fault e
      | .ok true => .ok true
      | .ok false => holds table.table2 hB key

end Cuckoo

/-! ## Specification-level definitions -/

/-- The value `x mod 2^n` as a natural number: what an address of width `n`
computed from the hash value `x` should be. -/
def addr (n : Nat) (x : Int) : Nat := (x % (2 : Int) ^ n).toNat

/-- The keys a bucket holds: the first `nkeys` entries of its array. -/
def bucketKeys (b : Bucket) : List Int := b.keys.take b.nkeys

/-- The keys stored in an inner table, bucket by bucket. -/
def tableKeys (t : InnerTable) : List Int := t.heap.flatMap bucketKeys

/-- The keys stored in the whole structure. -/
def allKeys (T : XuckooNHashTable) : List Int := tableKeys T.table1 ++ tableKeys T.table2

/-- Consistency of one bucket of a table of depth `D` with capacity `bs`
addressed by the hash function `h`. -/
structure BucketOK (bs D : Nat) (h : Int → Int) (b : Bucket) : Prop where
  depth_le : b.depth ≤ D
  id_lt : b.id < 2 ^ b.depth
  nkeys_le : b.nkeys ≤ bs
  keys_len : b.keys.length = bs
  placed : ∀ k ∈ bucketKeys b, addr b.depth (h k) = b.id

/-- The structural invariant of an inner table: the slot array has `2^depth`
entries, every slot holds a valid pointer, every allocated bucket is consistent,
a slot `i` points to a bucket exactly when the low `depth` bits of `i` are the
bucket's id, and `nbuckets` counts the allocated buckets. -/
structure Struct (bs : Nat) (h : Int → Int) (t : InnerTable) : Prop where
  size_eq : t.size = 2 ^ t.depth
  len_eq : t.buckets.length = t.size
  ptr_ok : ∀ (i p : Nat), t.buckets[i]? = some p → p < t.heap.length
  bucket_ok : ∀ (p : Nat) (b : Bucket), t.heap[p]? = some b → BucketOK bs t.depth h b
  slots : ∀ (i p : Nat) (b : Bucket), i < t.size → t.heap[p]? = some b →
    (t.buckets[i]? = some p ↔ i % 2 ^ b.depth = b.id)
  nbuckets_eq : t.nbuckets = t.heap.length

/-- The invariant of an inner table: the structural invariant, and `nkeys`
counts the stored keys. -/
structure Inv (bs : Nat) (h : Int → Int) (t : InnerTable) : Prop where
  struct : Struct bs h t
  nkeys_eq : t.nkeys = (tableKeys t).length

/-- The invariant of the whole structure. -/
structure GInv (env : Env) (bs : Nat) (T : XuckooNHashTable) : Prop where
  inv1 : Inv bs env.h1 T.table1
  inv2 : Inv bs env.h2 T.table2
  bucketsize_eq : T.bucketsize = bs
  nodup : (allKeys T).Nodup

/-- The states reachable from a fresh table of bucket capacity `bs` by insert
calls that return. -/
inductive Reachable (env : Env) (bs : Nat) : XuckooNHashTable → Prop where
  | fresh : Reachable env bs (new_xuckoon_hash_table env bs)
  | insert (fuel : Nat) (rnd : Nat → Nat) (T : XuckooNHashTable) (key : Int) (r : Bool)
      (T' : XuckooNHashTable) :
      Reachable env bs T → xuckoon_hash_table_insert env fuel rnd T key = .ok (r, T') →
      Reachable env bs T'

/-- One insert call of a sequence: its key, the fuel given to it and its random
source. -/
structure Call where
  key : Int
  fuel : Nat
  rnd : Nat → Nat

/-- A sequence of insert calls, one after the other; the result is the list of
the returned flags and the final table. -/
def insertSeq (env : Env) : List Call → XuckooNHashTable → Res (List Bool × XuckooNHashTable)
  | [], T => .ok ([], T)
  | c :: cs, T =>
    match xuckoon_hash_table_insert env c.fuel c.rnd T c.key with
    | .fault e => .fault e
    | .ok (r, T1) =>
      match insertSeq env cs T1 with
      | .fault e => .fault e
      | .ok (rs, T') => .ok (r :: rs, T')

/-- The address invariant of the directory: every slot `i` below `size` holds a
valid pointer to a bucket `b` with `i mod 2^b.depth = b.id mod 2^b.depth`. -/
def AddrInv (t : InnerTable) : Prop :=
  ∀ i, i < t.size → ∃ p b, bucketAt t i = .ok (p, b) ∧ i % 2 ^ b.depth = b.id % 2 ^ b.depth

/-- The size bound the assertion of `double_table` maintains: a table has its
initial size 1 or a size below `MAX_TABLE_SIZE`. -/
def SizeOK (env : Env) (t : InnerTable) : Prop :=
  t.size = 1 ∨ t.size < env.MAX_TABLE_SIZE

/-- The key placement invariant of an inner table addressed by `h`: every key
among the first `nkeys` entries of an allocated bucket addresses that bucket, and
the low `depth` bits of its hash value are those of the bucket's id. -/
def KeyPlaced (h : Int → Int) (t : InnerTable) : Prop :=
  ∀ (p : Nat) (b : Bucket) (k : Int), t.heap[p]? = some b → k ∈ b.keys.take b.nkeys →
    (∃ a, addressOf t h k = .ok a ∧ bucketAt t a = .ok (p, b)) ∧
    rightmostnbits b.depth (h k) = rightmostnbits b.depth (b.id : Int)

/-- The exchange of the two tables that `insert_key` applies to the result of
its recursive call. -/
def swapTables :
    Res (Bool × InnerTable × InnerTable × Nat) → Res (Bool × InnerTable × InnerTable × Nat)
  | .fault e => .fault e
  | .ok (r, tB, tA, reps) => .ok (r, tA, tB, reps)

/-- An inner table of depth 0 whose only bucket is `b`. -/
def flatTable (b : Bucket) : InnerTable :=
  { heap := [b], buckets := [0], size := 1, depth := 0, nbuckets := 1, nkeys := b.nkeys }

/-- The bucket `b` after the statements `keys[nkeys] = key; nkeys++`. -/
def pushKey (b : Bucket) (key : Int) : Bucket :=
  { b with keys := b.keys.set b.nkeys key, nkeys := b.nkeys + 1 }

/-- Bit `d` of the hash value `x` in two's complement, `(x >> d) & 1`. -/
def hashBit (d : Nat) (x : Int) : Int := (x / (2 : Int) ^ d) % 2

/-- The keys of a list whose hash value has bit `d` equal to `v`, in their
order. -/
def keysWithBit (h : Int → Int) (d : Nat) (v : Int) (keys : List Int) : List Int :=
  keys.filter (fun k => decide (hashBit d (h k) = v))

/-- The test `table->buckets[i]->id == i` of `free_inner_table`. -/
def canonicalAt (t : InnerTable) (i : Nat) : Bool :=
  match bucketAt t i with
  | .ok (_, b) => decide (b.id = i)
  | .fault _ => false

/-- The number of slot indices `i < size` at which the referenced bucket has
id `i`: the references at which `free_inner_table` frees. -/
def canonicalSlots (t : InnerTable) : Nat :=
  (List.range t.size).countP (canonicalAt t)

/-- The canonical slot invariant of an inner table: every allocated bucket is
the one referenced at the slot whose index is its id, no two allocated buckets
have the same id, the slot indices `i` with `buckets[i]->id == i` are as many as
`nbuckets`, and `free_inner_table` runs without undefined behaviour and frees
every allocated bucket exactly once. -/
def Canonical (t : InnerTable) : Prop :=
  (∀ (p : Nat) (b : Bucket), t.heap[p]? = some b → bucketAt t b.id = .ok (p, b)) ∧
  (∀ (p q : Nat) (b c : Bucket), t.heap[p]? = some b → t.heap[q]? = some c → b.id = c.id →
    p = q) ∧
  canonicalSlots t = t.nbuckets ∧
  ∃ freed, free_inner_table t = .ok freed ∧ freed.Nodup ∧
    (∀ p, p ∈ freed ↔ p < t.heap.length) ∧ freed.length = t.nbuckets

/-! ### The single-key variant and the n-key engine at capacity 1 -/

/-- A call of the interface: an insert, with the fuel given to it and the random
source of the n-key engine, or a lookup. -/
inductive Op where
  | insert (key : Int) (fuel : Nat) (rnd : Nat → Nat)
  | lookup (key : Int)

/-- A sequence of calls on the n-key engine, one after the other: the returned
flags and the final table. -/
def runOps (env : Env) : List Op → XuckooNHashTable → Res (List Bool × XuckooNHashTable)
  | [], T => .ok ([], T)
  | .insert key fuel rnd :: ops, T =>
    match xuckoon_hash_table_insert env fuel rnd T key with
    | .fault e => .fault e
    | .ok (r, T1) =>
      match runOps env ops T1 with
      | .fault e => .fault e
      | .ok (rs, T') => .ok (r :: rs, T')
  | .lookup key :: ops, T =>
    match xuckoon_hash_table_lookup env T key with
    | .fault e => .fault e
    | .ok r =>
      match runOps env ops T with
      | .fault e => .fault e
      | .ok (rs, T') => .ok (r :: rs, T')

/-- A sequence of calls on the single-key variant, one after the other: the
returned flags and the final table. -/
def Xuckoo.runOps (env : Env) :
    List Op → Xuckoo.XuckooHashTable → Res (List Bool × Xuckoo.XuckooHashTable)
  | [], T => .ok ([], T)
  | .insert key fuel _ :: ops, T =>
    match Xuckoo.xuckoo_hash_table_insert env fuel T key with
    | .fault e => .fault e
    | .ok (r, T1) =>
      match Xuckoo.runOps env ops T1 with
      | .fault e => .fault e
      | .ok (rs, T') => .ok (r :: rs, T')
  | .lookup key :: ops, T =>
    match Xuckoo.xuckoo_hash_table_lookup env T key with
    | .fault e => .fault e
    | .ok r =>
      match Xuckoo.runOps env ops T with
      | .fault e => .fault e
      | .ok (rs, T') => .ok (r :: rs, T')

/-- Correspondence of a bucket of the single-key variant with a bucket of the
n-key engine at capacity 1: same id and depth, a key array of one entry, and the
bucket is full exactly when `nkeys = 1`, with the same key. -/
def BucketRel (b1 : Xuckoo.Bucket) (b : Bucket) : Prop :=
  b1.id = b.id ∧ b1.depth = b.depth ∧ b.keys.length = 1 ∧
  ((b1.full = true ∧ b.nkeys = 1 ∧ b.keys[0]? = some b1.key) ∨
   (b1.full = false ∧ b.nkeys = 0))

/-- Correspondence of two inner tables: the same slot array, size, depth,
`nbuckets` and `nkeys`, and corresponding buckets. -/
structure TableRel (t1 : Xuckoo.InnerTable) (t : InnerTable) : Prop where
  heap : List.Forall₂ BucketRel t1.heap t.heap
  buckets : t1.buckets = t.buckets
  size : t1.size = t.size
  depth : t1.depth = t.depth
  nbuckets : t1.nbuckets = t.nbuckets
  nkeys : t1.nkeys = t.nkeys

/-- Correspondence of the two structures. -/
structure Corr (T1 : Xuckoo.XuckooHashTable) (T : XuckooNHashTable) : Prop where
  rel1 : TableRel T1.table1 T.table1
  rel2 : TableRel T1.table2 T.table2
  bucketsize_eq : T.bucketsize = 1

/-! ### The flat cuckoo table -/

/-- The key an inner table of the cuckoo table holds at index `i`, if the slot
is in use. -/
def Cuckoo.entry (t : Cuckoo.InnerTable) (i : Nat) : Option Int :=
  if t.inuse[i]? = some true then t.slots[i]? else none

/-- The keys stored in an inner table of the cuckoo table: those of the slots in
use, by index. -/
def Cuckoo.stored (t : Cuckoo.InnerTable) : List Int :=
  (List.range t.inuse.length).filterMap (Cuckoo.entry t)

/-- The keys stored in the cuckoo table. -/
def Cuckoo.allStored (T : Cuckoo.CuckooHashTable) : List Int :=
  Cuckoo.stored T.table1 ++ Cuckoo.stored T.table2

/-- The keys the rehash loop of `double_table` inserts in `n` iterations from
index `i`, in order. -/
def Cuckoo.remaining (old1 old2 : Cuckoo.InnerTable) : Nat → Nat → List Int
  | _, 0 => []
  | i, n + 1 =>
    (Cuckoo.entry old1 i).toList ++ (Cuckoo.entry old2 i).toList ++
      Cuckoo.remaining old1 old2 (i + 1) n

/-- Consistency of an inner table of a cuckoo table of size `size` addressed by
the hash function `h`: both arrays have `size` entries, every stored key is at
its address, and `load` counts the stored keys. -/
structure Cuckoo.TableOK (h : Int → Int) (size : Nat) (t : Cuckoo.InnerTable) : Prop where
  len_slots : t.slots.length = size
  len_inuse : t.inuse.length = size
  placed : ∀ (i : Nat) (k : Int), Cuckoo.entry t i = some k → Cuckoo.slotOf size (h k) = .ok i
  load_eq : t.load = (Cuckoo.stored t).length

/-- The invariant of the cuckoo table. -/
structure Cuckoo.Inv (env : Env) (T : Cuckoo.CuckooHashTable) : Prop where
  size_pos : 0 < T.size
  ok1 : Cuckoo.TableOK env.h1 T.size T.table1
  ok2 : Cuckoo.TableOK env.h2 T.size T.table2

/-- The states of the cuckoo table reachable from a new table of initial size at
least 1 by insert calls that return. -/
inductive Cuckoo.Reachable (env : Env) : Cuckoo.CuckooHashTable → Prop where
  | fresh (size : Nat) (T : Cuckoo.CuckooHashTable) :
      1 ≤ size → Cuckoo.new_cuckoo_hash_table env size = .ok T → Cuckoo.Reachable env T
  | insert (fuel : Nat) (T : Cuckoo.CuckooHashTable) (key : Int) (r : Bool)
      (T' : Cuckoo.CuckooHashTable) :
      Cuckoo.Reachable env T → Cuckoo.cuckoo_hash_table_insert env fuel T key = .ok (r, T') →
      Cuckoo.Reachable env T'

/-! ## Concrete data for the examples -/

/-- An environment for the examples: `h1 k = k`, `h2 k = k / 2`. -/
def exEnv : Env :=
  { h1 := fun k => k, h2 := fun k => k / 2, MAX_TABLE_SIZE := 1024, junk := fun _ => 0 }

/-- Three insert calls with the keys 4, 20, 5. -/
def exCalls : List Call :=
  [⟨4, 10, fun _ => 0⟩, ⟨20, 10, fun _ => 0⟩, ⟨5, 10, fun _ => 0⟩]

/-- The calls `exCalls` followed by a second insert of the key 20. -/
def exCallsDup : List Call := exCalls ++ [⟨20, 10, fun _ => 0⟩]

/-- The table after the insert of the key 5 into a fresh table of bucket
capacity 2. -/
def exTable5 : XuckooNHashTable :=
  { table1 := { heap := [{ id := 0, depth := 0, nkeys := 1, keys := [5, 0] }],
                buckets := [0], size := 1, depth := 0, nbuckets := 1, nkeys := 1 },
    table2 := { heap := [{ id := 0, depth := 0, nkeys := 0, keys := [0, 0] }],
                buckets := [0], size := 1, depth := 0, nbuckets := 1, nkeys := 0 },
    bucketsize := 2 }

/-- The table after the calls `exCalls` (and after `exCallsDup`) on a fresh table
of bucket capacity 2. -/
def exTable : XuckooNHashTable :=
  { table1 := { heap := [{ id := 0, depth := 0, nkeys := 2, keys := [4, 5] }],
                buckets := [0], size := 1, depth := 0, nbuckets := 1, nkeys := 2 },
    table2 := { heap := [{ id := 0, depth := 0, nkeys := 1, keys := [20, 0] }],
                buckets := [0], size := 1, depth := 0, nbuckets := 1, nkeys := 1 },
    bucketsize := 2 }

/-- An environment in which all keys collide and no table may double. -/
def cexEnv : Env :=
  { h1 := fun _ => 0, h2 := fun _ => 0, MAX_TABLE_SIZE := 2, junk := fun _ => 0 }

/-- An inner table of depth 0 whose only bucket has capacity 1 and holds `a`. -/
def cexSingle (a : Int) : InnerTable :=
  { heap := [{ id := 0, depth := 0, nkeys := 1, keys := [a] }],
    buckets := [0], size := 1, depth := 0, nbuckets := 1, nkeys := 1 }

/-- The table after inserting the keys 1 and 2 into a fresh table of bucket
capacity 1 in the environment `cexEnv`. -/
def cexTable : XuckooNHashTable :=
  { table1 := cexSingle 1, table2 := cexSingle 2, bucketsize := 1 }

/-- The table after inserting the keys 0 and 2 into a fresh table of bucket
capacity 1 in the environment `exEnv`. -/
def splitTable : XuckooNHashTable :=
  { table1 := cexSingle 0, table2 := cexSingle 2, bucketsize := 1 }

/-- The table after inserting the key 1 into `splitTable`: both inner tables
have been split once. -/
def splitTableAfter : XuckooNHashTable :=
  { table1 := { heap := [{ id := 0, depth := 1, nkeys := 1, keys := [0] },
                         { id := 1, depth := 1, nkeys := 1, keys := [1] }],
                buckets := [0, 1], size := 2, depth := 1, nbuckets := 2, nkeys := 2 },
    table2 := { heap := [{ id := 0, depth := 1, nkeys := 0, keys := [2] },
                         { id := 1, depth := 1, nkeys := 1, keys := [2] }],
                buckets := [0, 1], size := 2, depth := 1, nbuckets := 2, nkeys := 1 },
    bucketsize := 1 }

/-- The table after inserting the keys 4 and 20 into a fresh table of bucket
capacity 1 in the environment `exEnv`. -/
def twoKeyTable : XuckooNHashTable :=
  { table1 := cexSingle 4, table2 := cexSingle 20, bucketsize := 1 }

/-- The table after inserting the keys 1, 2, 3, 4, 5 into a fresh table of
bucket capacity 4 in the environment `exEnv`. -/
def fiveKeyTable : XuckooNHashTable :=
  { table1 := { heap := [{ id := 0, depth := 0, nkeys := 3, keys := [1, 3, 5, 0] }],
                buckets := [0], size := 1, depth := 0, nbuckets := 1, nkeys := 3 },
    table2 := { heap := [{ id := 0, depth := 0, nkeys := 2, keys := [2, 4, 0, 0] }],
                buckets := [0], size := 1, depth := 0, nbuckets := 1, nkeys := 2 },
    bucketsize := 4 }

/-- The only bucket of the first inner table of `exTable`. -/
def exBucket : Bucket := { id := 0, depth := 0, nkeys := 2, keys := [4, 5] }

/-- The first inner table of `exTable` after `split_bucket` at address 0 (with
`h1`, capacity 2): the directory is doubled, the key 4 stays and the key 5 is in
the sibling. -/
def exSplit1 : InnerTable :=
  { heap := [{ id := 0, depth := 1, nkeys := 1, keys := [4, 5] },
             { id := 1, depth := 1, nkeys := 1, keys := [5, 0] }],
    buckets := [0, 1], size := 2, depth := 1, nbuckets := 2, nkeys := 2 }

/-- An environment in which uninitialised key positions hold the value 7:
`h1 k = k`, `h2 k = k / 2`. -/
def junkEnv : Env :=
  { h1 := fun k => k, h2 := fun k => k / 2, MAX_TABLE_SIZE := 1024, junk := fun _ => 7 }

/-- The extendible table of bucket capacity 2 after the insert of the key 5
into a fresh table, in the environment `junkEnv`: the second position of the
bucket has not been written. -/
def junkTable : Xtndbln.XtndblNHashTable :=
  { heap := [{ id := 0, depth := 0, nkeys := 1, keys := [5, 7] }], buckets := [0], size := 1,
    depth := 0, bucketsize := 2, nbuckets := 1, nkeys := 1 }

/-- An environment with non-negative hash values: `h1 k = |k|`, `h2 k = |k| / 2`. -/
def absEnv : Env :=
  { h1 := fun k => (k.natAbs : Int), h2 := fun k => ((k.natAbs / 2 : Nat) : Int),
    MAX_TABLE_SIZE := 1024, junk := fun _ => 0 }

/-- The cuckoo table of size 1 whose inner tables hold `a` and `b`. -/
def cuckooFull (a b : Int) : Cuckoo.CuckooHashTable :=
  { table1 := { slots := [a], inuse := [true], load := 1 },
    table2 := { slots := [b], inuse := [true], load := 1 }, size := 1 }

/-- The cuckoo table after the insert of the key 2 into `cuckooFull 1 0` in the
environment `absEnv`: the table has been doubled. -/
def cuckooDoubled : Cuckoo.CuckooHashTable :=
  { table1 := { slots := [2, 1], inuse := [true, true], load := 2 },
    table2 := { slots := [0, 0], inuse := [true, false], load := 1 }, size := 2 }


/-- Two inserts, a lookup, a repeated insert and two more lookups. -/
def exOps : List Op :=
  [.insert 1 10 (fun _ => 0), .insert 5 10 (fun _ => 0), .lookup 5,
   .insert 5 10 (fun _ => 0), .lookup 3, .lookup 1]

/-- The single-key structure after the calls `exOps`. -/
def exSingle : Xuckoo.XuckooHashTable :=
  { table1 := { heap := [{ id := 0, depth := 0, full := true, key := 1 }],
                buckets := [0], size := 1, depth := 0, nbuckets := 1, nkeys := 1 },
    table2 := { heap := [{ id := 0, depth := 0, full := true, key := 5 }],
                buckets := [0], size := 1, depth := 0, nbuckets := 1, nkeys := 1 } }

/-- The n-key structure of capacity 1 after the calls `exOps`. -/
def exCapacityOne : XuckooNHashTable :=
  { table1 := { heap := [{ id := 0, depth := 0, nkeys := 1, keys := [1] }],
                buckets := [0], size := 1, depth := 0, nbuckets := 1, nkeys := 1 },
    table2 := { heap := [{ id := 0, depth := 0, nkeys := 1, keys := [5] }],
                buckets := [0], size := 1, depth := 0, nbuckets := 1, nkeys := 1 },
    bucketsize := 1 }

/-- The table after inserting the key 4 into `splitTable`: table1 has been split
twice and table2 once; the bucket of id 1 of table1 has depth 1 in a table of
depth 2 and is referenced from the slots 1 and 3. -/
def deepTable : XuckooNHashTable :=
  { table1 := { heap := [{ id := 0, depth := 2, nkeys := 1, keys := [4] },
                         { id := 1, depth := 1, nkeys := 0, keys := [0] },
                         { id := 2, depth := 2, nkeys := 0, keys := [0] }],
                buckets := [0, 1, 2, 1], size := 4, depth := 2, nbuckets := 3, nkeys := 1 },
    table2 := { heap := [{ id := 0, depth := 1, nkeys := 1, keys := [0] },
                         { id := 1, depth := 1, nkeys := 1, keys := [2] }],
                buckets := [0, 1], size := 2, depth := 1, nbuckets := 2, nkeys := 2 },
    bucketsize := 1 }

/-- The inner table `deepTable.table1` after `double_table`. -/
def deepDoubled : InnerTable :=
  { heap := [{ id := 0, depth := 2, nkeys := 1, keys := [4] },
             { id := 1, depth := 1, nkeys := 0, keys := [0] },
             { id := 2, depth := 2, nkeys := 0, keys := [0] }],
    buckets := [0, 1, 2, 1, 0, 1, 2, 1], size := 8, depth := 3, nbuckets := 3, nkeys := 1 }

/-- The inner table `deepTable.table1` after `split_bucket` at address 0: the
table has been doubled and the key 4 has moved to the new bucket of id 4. -/
def deepSplit : InnerTable :=
  { heap := [{ id := 0, depth := 3, nkeys := 0, keys := [4] },
             { id := 1, depth := 1, nkeys := 0, keys := [0] },
             { id := 2, depth := 2, nkeys := 0, keys := [0] },
             { id := 4, depth := 3, nkeys := 1, keys := [4] }],
    buckets := [0, 1, 2, 1, 3, 1, 2, 1], size := 8, depth := 3, nbuckets := 4, nkeys := 1 }

/-- The inner table `deepTable.table1` after the write of an eviction: the key 8
has overwritten the key 4 in the bucket at address 0. -/
def deepEvicted : InnerTable :=
  { heap := [{ id := 0, depth := 2, nkeys := 1, keys := [8] },
             { id := 1, depth := 1, nkeys := 0, keys := [0] },
             { id := 2, depth := 2, nkeys := 0, keys := [0] }],
    buckets := [0, 1, 2, 1], size := 4, depth := 2, nbuckets := 3, nkeys := 1 }

theorem ldiff_mask (n m : Nat) : Nat.ldiff (2 ^ n - 1) m = 2 ^ n - 1 - m % 2 ^ n := by
  apply Nat.eq_of_testBit_eq
  intro i
  have hlt : m % 2 ^ n < 2 ^ n := Nat.mod_lt _ (Nat.two_pow_pos n)
  have e : 2 ^ n - 1 - m % 2 ^ n = 2 ^ n - (m % 2 ^ n + 1) := by omega
  rw [e, Nat.testBit_ldiff, Nat.testBit_two_pow_sub_one, Nat.testBit_two_pow_sub_succ hlt,
    Nat.testBit_mod_two_pow]
  cases decide (i < n) <;> simp

theorem rightmostnbits_eq_emod (n : Nat) (x : Int) :
    rightmostnbits n x = x % (2 : Int) ^ n := by
  unfold rightmostnbits
  have hm : (((1 : Nat) <<< n : Nat) : Int) - 1 = ((2 ^ n - 1 : Nat) : Int) := by
    rw [Nat.shiftLeft_eq, Nat.one_mul]
    have := Nat.two_pow_pos n
    omega
  rw [hm]
  cases x with
  | ofNat m =>
    show ((m &&& (2 ^ n - 1) : Nat) : Int) = _
    rw [Nat.and_pow_two_sub_one_eq_mod]
    simp
  | negSucc m =>
    show ((Nat.ldiff (2 ^ n - 1) m : Nat) : Int) = _
    have hpos : (0 : Int) < (2 : Int) ^ n := by positivity
    rw [Int.negSucc_emod m hpos, ldiff_mask]
    have hlt : m % 2 ^ n < 2 ^ n := Nat.mod_lt _ (Nat.two_pow_pos n)
    have : ((m : Int) % (2 : Int) ^ n) = ((m % 2 ^ n : Nat) : Int) := by simp
    rw [this]
    have h1 : ((2 ^ n - 1 - m % 2 ^ n : Nat) : Int) = ((2 ^ n : Nat) : Int) - 1 - ((m % 2 ^ n : Nat) : Int) := by
      omega
    rw [h1]; simp

theorem index_rightmostnbits (n : Nat) (x : Int) :
    index (rightmostnbits n x) = .ok (addr n x) := by
  rw [rightmostnbits_eq_emod]
  have hnn : 0 ≤ x % (2 : Int) ^ n := Int.emod_nonneg _ (by positivity)
  unfold addr
  generalize x % (2 : Int) ^ n = y at hnn
  cases y with
  | ofNat a => rfl
  | negSucc a => exact absurd hnn (by simp)

theorem addr_lt (n : Nat) (x : Int) : addr n x < 2 ^ n := by
  unfold addr
  have hnn : 0 ≤ x % (2 : Int) ^ n := Int.emod_nonneg _ (by positivity)
  rw [Int.toNat_lt hnn]
  have := Int.emod_lt_of_pos x (show (0 : Int) < (2 : Int) ^ n by positivity)
  simpa using this

theorem addr_mod (d D : Nat) (x : Int) (h : d ≤ D) : addr D x % 2 ^ d = addr d x := by
  unfold addr
  have hnn : 0 ≤ x % (2 : Int) ^ D := Int.emod_nonneg _ (by positivity)
  have hnn2 : 0 ≤ x % (2 : Int) ^ d := Int.emod_nonneg _ (by positivity)
  have hdvd : ((2 : Int) ^ d) ∣ (2 : Int) ^ D := pow_dvd_pow 2 h
  have e := Int.emod_emod_of_dvd x hdvd
  apply Int.ofNat_inj.mp
  rw [Int.toNat_of_nonneg hnn2, ← e]
  have : ((((x % (2 : Int) ^ D).toNat % 2 ^ d : Nat)) : Int)
      = ((x % (2 : Int) ^ D).toNat : Int) % ((2 ^ d : Nat) : Int) := by simp
  rw [this, Int.toNat_of_nonneg hnn]; simp

theorem addr_natCast (n f : Nat) (h : f < 2 ^ n) : addr n (f : Int) = f := by
  unfold addr
  have : ((f : Int) % (2 : Int) ^ n) = ((f % 2 ^ n : Nat) : Int) := by simp
  rw [this, Nat.mod_eq_of_lt h]; simp

theorem one_shiftLeft_or (d f : Nat) (h : f < 2 ^ d) : (1 <<< d) ||| f = 2 ^ d + f := by
  rw [Nat.shiftLeft_eq, Nat.one_mul]
  have := Nat.mul_add_lt_is_or h 1
  simpa using this.symm

theorem shiftLeft_or (n d s : Nat) (h : s < 2 ^ d) : (n <<< d) ||| s = n * 2 ^ d + s := by
  rw [Nat.shiftLeft_eq]
  have := Nat.mul_add_lt_is_or h n
  rw [Nat.mul_comm] at this
  exact this.symm



/-! ### Addresses and slot patterns -/

theorem addressOf_eq (t : InnerTable) (h : Int → Int) (key : Int) :
    addressOf t h key = .ok (addr t.depth (h key)) := by
  unfold addressOf
  exact index_rightmostnbits _ _

theorem mod_succ_cases (i d f : Nat) (h : i % 2 ^ d = f) :
    i % 2 ^ (d + 1) = f ∨ i % 2 ^ (d + 1) = 2 ^ d + f := by
  have e := @Nat.mod_pow_succ i 2 d
  rcases Nat.mod_two_eq_zero_or_one (i / 2 ^ d) with h0 | h1
  · left; rw [e, h0, h]; simp
  · right; rw [e, h1, h]; simp [Nat.add_comm]

theorem mod_of_mod_succ (i d f : Nat) (hf : f < 2 ^ d)
    (h : i % 2 ^ (d + 1) = f ∨ i % 2 ^ (d + 1) = 2 ^ d + f) : i % 2 ^ d = f := by
  have hdvd : 2 ^ d ∣ 2 ^ (d + 1) := pow_dvd_pow 2 (Nat.le_succ d)
  have e := Nat.mod_mod_of_dvd i hdvd
  rcases h with h | h
  · rw [← e, h, Nat.mod_eq_of_lt hf]
  · rw [← e, h, Nat.add_mod_left, Nat.mod_eq_of_lt hf]

theorem pattern_iff (D nd s i : Nat) (hnd : nd ≤ D) (hs : s < 2 ^ nd) :
    (∃ m, m < 2 ^ (D - nd) ∧ i = m * 2 ^ nd + s) ↔ (i < 2 ^ D ∧ i % 2 ^ nd = s) := by
  have hD : 2 ^ D = 2 ^ (D - nd) * 2 ^ nd := by
    rw [← pow_add]; congr 1; omega
  constructor
  · rintro ⟨m, hm, rfl⟩
    constructor
    · rw [hD]
      calc m * 2 ^ nd + s < m * 2 ^ nd + 2 ^ nd := by omega
        _ = (m + 1) * 2 ^ nd := by ring
        _ ≤ 2 ^ (D - nd) * 2 ^ nd := Nat.mul_le_mul_right _ hm
    · rw [Nat.mul_add_mod_of_lt hs]
  · rintro ⟨hi, hmod⟩
    refine ⟨i / 2 ^ nd, ?_, ?_⟩
    · rw [Nat.div_lt_iff_lt_mul (Nat.two_pow_pos nd), ← hD]; exact hi
    · rw [← hmod]; exact (Nat.div_add_mod' i (2 ^ nd)).symm

/-! ### Buckets reached through slots -/

theorem bucketAt_ok_iff (t : InnerTable) (i p : Nat) (b : Bucket) :
    bucketAt t i = .ok (p, b) ↔ t.buckets[i]? = some p ∧ t.heap[p]? = some b := by
  unfold bucketAt
  constructor
  · intro h
    split at h
    · exact absurd h (by simp)
    · rename_i q hq
      split at h
      · exact absurd h (by simp)
      · rename_i c hc
        simp only [Res.ok.injEq, Prod.mk.injEq] at h
        obtain ⟨rfl, rfl⟩ := h
        exact ⟨hq, hc⟩
  · rintro ⟨h1, h2⟩
    simp [h1, h2]

theorem Struct.slot_bucket {bs : Nat} {h : Int → Int} {t : InnerTable} (hS : Struct bs h t)
    (i : Nat) (hi : i < t.size) :
    ∃ p b, t.buckets[i]? = some p ∧ t.heap[p]? = some b ∧ i % 2 ^ b.depth = b.id := by
  have hlen : i < t.buckets.length := by rw [hS.len_eq]; exact hi
  have h1 : t.buckets[i]? = some t.buckets[i] := List.getElem?_eq_getElem hlen
  have hp := hS.ptr_ok i _ h1
  have h2 : t.heap[t.buckets[i]]? = some t.heap[t.buckets[i]] := List.getElem?_eq_getElem hp
  exact ⟨_, _, h1, h2, (hS.slots i _ _ hi h2).mp h1⟩

theorem Struct.addr_lt_size {bs : Nat} {h : Int → Int} {t : InnerTable} (hS : Struct bs h t)
    (x : Int) : addr t.depth x < t.size := by
  rw [hS.size_eq]; exact addr_lt _ _

/-- Under the structural invariant the bucket addressed by a key exists, and a
bucket holds the key only if it is that bucket. -/
theorem Struct.home {bs : Nat} {h : Int → Int} {t : InnerTable} (hS : Struct bs h t)
    (key : Int) :
    ∃ p b, t.buckets[addr t.depth (h key)]? = some p ∧ t.heap[p]? = some b ∧
      addr b.depth (h key) = b.id ∧
      ∀ p' b', t.heap[p']? = some b' → key ∈ bucketKeys b' → p' = p := by
  obtain ⟨p, b, h1, h2, h3⟩ := hS.slot_bucket _ (hS.addr_lt_size (h key))
  refine ⟨p, b, h1, h2, ?_, ?_⟩
  · rw [← h3]; exact (addr_mod _ _ _ (hS.bucket_ok p b h2).depth_le).symm
  · intro p' b' hb' hmem
    have hok := hS.bucket_ok p' b' hb'
    have hpl := hok.placed key hmem
    have : addr t.depth (h key) % 2 ^ b'.depth = b'.id := by
      rw [addr_mod _ _ _ hok.depth_le]; exact hpl
    have := (hS.slots _ p' b' (hS.addr_lt_size (h key)) hb').mpr this
    rw [h1] at this
    exact (Option.some.inj this).symm



/-! ### Searching a bucket -/

theorem find_loop_spec (keys : List Int) (key : Int) :
    ∀ (n i : Nat), i + n ≤ keys.length →
      find_loop keys key i n = .ok (decide (key ∈ (keys.drop i).take n)) := by
  intro n
  induction n with
  | zero => intro i _; simp [find_loop]
  | succ n ih =>
    intro i hi
    have hlt : i < keys.length := by omega
    have hd : keys.drop i = keys[i] :: keys.drop (i + 1) := List.drop_eq_getElem_cons hlt
    unfold find_loop
    rw [List.getElem?_eq_getElem hlt]
    simp only
    by_cases hk : keys[i] = key
    · rw [if_pos hk, hd]
      simp only [List.take_succ_cons, List.mem_cons, hk, true_or, decide_True]
    · rw [if_neg hk, ih (i + 1) (by omega), hd]
      have hk' : ¬ key = keys[i] := fun e => hk e.symm
      simp only [List.take_succ_cons, List.mem_cons, hk', false_or]

theorem find_key_bucket (t : InnerTable) (i p : Nat) (b : Bucket) (key : Int)
    (h1 : t.buckets[i]? = some p) (h2 : t.heap[p]? = some b) (hn : b.nkeys ≤ b.keys.length) :
    find_key t i key = .ok (decide (key ∈ bucketKeys b)) := by
  unfold find_key
  rw [(bucketAt_ok_iff t i p b).mpr ⟨h1, h2⟩]
  simp only
  by_cases h0 : b.nkeys = 0
  · simp [h0, bucketKeys]
  · rw [if_pos h0, find_loop_spec _ _ _ _ (by omega)]
    simp [bucketKeys]

theorem mem_tableKeys (t : InnerTable) (key : Int) :
    key ∈ tableKeys t ↔ ∃ (p : Nat) (b : Bucket), t.heap[p]? = some b ∧ key ∈ bucketKeys b := by
  unfold tableKeys
  rw [List.mem_flatMap]
  constructor
  · rintro ⟨b, hb, hk⟩
    obtain ⟨p, hp⟩ := List.mem_iff_getElem?.mp hb
    exact ⟨p, b, hp, hk⟩
  · rintro ⟨p, b, hp, hk⟩
    exact ⟨b, List.mem_iff_getElem?.mpr ⟨p, hp⟩, hk⟩

/-- Under the structural invariant, `find_key` at the address of a key decides
whether the key is stored anywhere in the inner table. -/
theorem Struct.find_key_eq {bs : Nat} {h : Int → Int} {t : InnerTable} (hS : Struct bs h t)
    (key : Int) :
    find_key t (addr t.depth (h key)) key = .ok (decide (key ∈ tableKeys t)) := by
  obtain ⟨p, b, h1, h2, _, huniq⟩ := hS.home key
  have hok := hS.bucket_ok p b h2
  rw [find_key_bucket t _ p b key h1 h2 (by rw [hok.keys_len]; exact hok.nkeys_le)]
  congr 1
  apply decide_eq_decide.mpr
  rw [mem_tableKeys]
  constructor
  · intro hk; exact ⟨p, b, h2, hk⟩
  · rintro ⟨p', b', hb', hk⟩
    have := huniq p' b' hb' hk
    subst this
    rw [h2] at hb'
    cases hb'
    exact hk

theorem findEither_eq {env : Env} {bs : Nat} {T : XuckooNHashTable}
    (h1 : Struct bs env.h1 T.table1) (h2 : Struct bs env.h2 T.table2) (key : Int) :
    findEither env T key = .ok (decide (key ∈ allKeys T)) := by
  unfold findEither
  rw [addressOf_eq, addressOf_eq]
  simp only
  rw [h1.find_key_eq key, h2.find_key_eq key]
  unfold allKeys
  by_cases ha : key ∈ tableKeys T.table1
  · simp [ha]
  · simp [ha]



/-! ### Updating one bucket -/

theorem take_set_self (l : List Int) (n : Nat) (a : Int) : (l.set n a).take n = l.take n := by
  apply List.ext_getElem?
  intro i
  rw [List.getElem?_take, List.getElem?_take]
  split
  · rw [List.getElem?_set_ne (by omega)]
  · rfl

theorem take_succ_set (l : List Int) (n : Nat) (a : Int) (h : n < l.length) :
    (l.set n a).take (n + 1) = l.take n ++ [a] := by
  rw [List.take_succ, take_set_self, List.getElem?_set_self h]
  rfl

theorem keys_set_perm (l : List Bucket) (b' : Bucket) :
    ∀ (p : Nat) (b : Bucket), l[p]? = some b →
      ((l.set p b').flatMap bucketKeys ++ bucketKeys b).Perm
        (l.flatMap bucketKeys ++ bucketKeys b') := by
  induction l with
  | nil => intro p b h; simp at h
  | cons x xs ih =>
    intro p b h
    cases p with
    | zero =>
      simp only [List.getElem?_cons_zero, Option.some.injEq] at h
      subst h
      simp only [List.set_cons_zero, List.flatMap_cons]
      rw [← Multiset.coe_eq_coe]
      simp only [← Multiset.coe_add]
      abel
    | succ p =>
      simp only [List.getElem?_cons_succ] at h
      have := ih p b h
      simp only [List.set_cons_succ, List.flatMap_cons, List.append_assoc]
      exact List.Perm.append_left _ this

theorem tableKeys_set_perm (t : InnerTable) (p : Nat) (b b' : Bucket) (hb : t.heap[p]? = some b) :
    (tableKeys { t with heap := t.heap.set p b' } ++ bucketKeys b).Perm
      (tableKeys t ++ bucketKeys b') :=
  keys_set_perm t.heap b' p b hb

/-- Replacing a bucket by a consistent one with the same id and depth keeps the
structural invariant. -/
theorem Struct.set_bucket {bs : Nat} {h : Int → Int} {t : InnerTable} (hS : Struct bs h t)
    (p : Nat) (b b' : Bucket) (hb : t.heap[p]? = some b)
    (hid : b'.id = b.id) (hdep : b'.depth = b.depth) (hok : BucketOK bs t.depth h b') :
    Struct bs h { t with heap := t.heap.set p b' } := by
  have hp : p < t.heap.length := (List.getElem?_eq_some.mp hb).1
  refine ⟨hS.size_eq, hS.len_eq, ?_, ?_, ?_, ?_⟩
  · intro i q hq
    simp only [List.length_set]
    exact hS.ptr_ok i q hq
  · intro q c hc
    simp only at hc
    by_cases hpq : p = q
    · subst hpq
      rw [List.getElem?_set_self hp] at hc
      cases hc
      exact hok
    · rw [List.getElem?_set_ne hpq] at hc
      exact hS.bucket_ok q c hc
  · intro i q c hi hc
    simp only at hc hi ⊢
    by_cases hpq : p = q
    · subst hpq
      rw [List.getElem?_set_self hp] at hc
      cases hc
      rw [hid, hdep]
      exact hS.slots i p b hi hb
    · rw [List.getElem?_set_ne hpq] at hc
      exact hS.slots i q c hi hc
  · simp only [List.length_set]
    exact hS.nbuckets_eq

/-- Appending a key to the bucket it addresses, when there is room. -/
theorem appendKey_spec {bs : Nat} {h : Int → Int} {t : InnerTable} (hS : Struct bs h t)
    (p : Nat) (b : Bucket) (key : Int) (hb : t.heap[p]? = some b) (hn : b.nkeys < bs)
    (hpl : addr b.depth (h key) = b.id) :
    ∃ t', appendKey t p b key = .ok t' ∧ Struct bs h t' ∧
      (tableKeys t').Perm (key :: tableKeys t) ∧
      t' = { t with
              heap := t.heap.set p
                { b with keys := b.keys.set b.nkeys key, nkeys := b.nkeys + 1 } } := by
  have hok := hS.bucket_ok p b hb
  have hlen : b.nkeys < b.keys.length := by rw [hok.keys_len]; exact hn
  refine ⟨_, ?_, ?_, ?_, rfl⟩
  · unfold appendKey; rw [if_pos hlen]
  · have hbk : bucketKeys { b with keys := b.keys.set b.nkeys key, nkeys := b.nkeys + 1 }
        = bucketKeys b ++ [key] := by
      simp only [bucketKeys]; exact take_succ_set _ _ _ hlen
    refine hS.set_bucket p b
      { b with keys := b.keys.set b.nkeys key, nkeys := b.nkeys + 1 } hb rfl rfl ?_
    refine ⟨hok.depth_le, hok.id_lt, ?_, ?_, ?_⟩
    · show b.nkeys + 1 ≤ bs; omega
    · show (b.keys.set b.nkeys key).length = bs; rw [List.length_set]; exact hok.keys_len
    · intro k hk
      rw [hbk] at hk
      rcases List.mem_append.mp hk with hk | hk
      · exact hok.placed k hk
      · simp only [List.mem_singleton] at hk; subst hk; exact hpl
  · have hbk : bucketKeys { b with keys := b.keys.set b.nkeys key, nkeys := b.nkeys + 1 }
        = bucketKeys b ++ [key] := by
      simp only [bucketKeys]; exact take_succ_set _ _ _ hlen
    have := tableKeys_set_perm t p b
      { b with keys := b.keys.set b.nkeys key, nkeys := b.nkeys + 1 } hb
    rw [hbk] at this
    rw [← Multiset.coe_eq_coe] at this ⊢
    simp only [← Multiset.coe_add, ← Multiset.cons_coe, ← Multiset.singleton_add] at this ⊢
    have e : ∀ (x y z : Multiset Int), x + y = z + (y + ({key} : Multiset Int)) →
        x = {key} + z := by
      intro x y z hxy
      have : x + y = ({key} + z) + y := by rw [hxy]; abel
      exact add_right_cancel this
    apply e _ _ _ this



/-! ### Overwriting a key of a full bucket -/

theorem set_take_perm (key prekey : Int) :
    ∀ (ks : List Int) (r n : Nat), r < n → ks[r]? = some prekey →
      (prekey :: (ks.set r key).take n).Perm (key :: ks.take n) := by
  intro ks
  induction ks with
  | nil => intro r n _ h; simp at h
  | cons x xs ih =>
    intro r n hrn h
    obtain ⟨n', rfl⟩ : ∃ n', n = n' + 1 := ⟨n - 1, by omega⟩
    cases r with
    | zero =>
      simp only [List.getElem?_cons_zero, Option.some.injEq] at h
      subst h
      simp only [List.set_cons_zero, List.take_succ_cons]
      exact List.Perm.swap _ _ _
    | succ r =>
      simp only [List.getElem?_cons_succ] at h
      have := ih r n' (by omega) h
      simp only [List.set_cons_succ, List.take_succ_cons]
      exact ((List.Perm.swap _ _ _).trans (this.cons x)).trans (List.Perm.swap _ _ _)

/-- The eviction step: the key at position `r` of a full bucket is overwritten by
a key addressed to that bucket. -/
theorem replace_spec {bs : Nat} {h : Int → Int} {t : InnerTable} (hS : Struct bs h t)
    (p : Nat) (b : Bucket) (key prekey : Int) (r : Nat) (hb : t.heap[p]? = some b)
    (hr : r < b.nkeys) (hpre : b.keys[r]? = some prekey) (hpl : addr b.depth (h key) = b.id) :
    Struct bs h { t with heap := t.heap.set p { b with keys := b.keys.set r key } } ∧
    (prekey :: tableKeys { t with heap := t.heap.set p { b with keys := b.keys.set r key } }).Perm
      (key :: tableKeys t) := by
  have hok := hS.bucket_ok p b hb
  have hperm : (prekey :: bucketKeys { b with keys := b.keys.set r key }).Perm
      (key :: bucketKeys b) := set_take_perm key prekey b.keys r b.nkeys hr hpre
  constructor
  · refine hS.set_bucket p b { b with keys := b.keys.set r key } hb rfl rfl ?_
    refine ⟨hok.depth_le, hok.id_lt, hok.nkeys_le, ?_, ?_⟩
    · show (b.keys.set r key).length = bs; rw [List.length_set]; exact hok.keys_len
    · intro k hk
      have : k ∈ key :: bucketKeys b := hperm.subset (List.mem_cons_of_mem _ hk)
      rcases List.mem_cons.mp this with rfl | hk'
      · exact hpl
      · exact hok.placed k hk'
  · have := tableKeys_set_perm t p b { b with keys := b.keys.set r key } hb
    rw [← Multiset.coe_eq_coe] at this hperm ⊢
    simp only [← Multiset.coe_add, ← Multiset.cons_coe, ← Multiset.singleton_add] at this hperm ⊢
    have e : ∀ (x y y' z : Multiset Int) (a c : Multiset Int), x + y = z + y' → a + y' = c + y →
        a + x = c + z := by
      intro x y y' z a c h1 h2
      have : (a + x) + (y + y') = (c + z) + (y + y') := by
        calc (a + x) + (y + y') = (x + y) + (a + y') := by abel
          _ = (z + y') + (c + y) := by rw [h1, h2]
          _ = (c + z) + (y + y') := by abel
      exact add_right_cancel this
    exact e _ _ _ _ _ _ this hperm

/-! ### Doubling the directory -/

theorem BucketOK.mono {bs D D' : Nat} {h : Int → Int} {b : Bucket} (hok : BucketOK bs D h b)
    (hD : D ≤ D') : BucketOK bs D' h b :=
  ⟨Nat.le_trans hok.depth_le hD, hok.id_lt, hok.nkeys_le, hok.keys_len, hok.placed⟩

theorem Struct.double {bs : Nat} {h : Int → Int} {t : InnerTable} (hS : Struct bs h t) :
    Struct bs h { t with buckets := t.buckets ++ t.buckets.take t.size,
                         size := t.size * 2, depth := t.depth + 1 } := by
  have htake : t.buckets.take t.size = t.buckets := by
    rw [← hS.len_eq]; exact List.take_length _
  rw [htake]
  refine ⟨?_, ?_, ?_, ?_, ?_, hS.nbuckets_eq⟩
  · show t.size * 2 = 2 ^ (t.depth + 1)
    rw [hS.size_eq, pow_succ]
  · show (t.buckets ++ t.buckets).length = t.size * 2
    rw [List.length_append, hS.len_eq]; omega
  · intro i p hp
    simp only at hp ⊢
    rw [List.getElem?_append] at hp
    split at hp
    · exact hS.ptr_ok _ _ hp
    · exact hS.ptr_ok _ _ hp
  · intro p b hb
    exact (hS.bucket_ok p b hb).mono (Nat.le_succ _)
  · intro i p b hi hb
    simp only at hi hb ⊢
    have hok := hS.bucket_ok p b hb
    rw [List.getElem?_append]
    by_cases hlt : i < t.buckets.length
    · rw [if_pos hlt]
      exact hS.slots i p b (by rw [← hS.len_eq]; exact hlt) hb
    · rw [if_neg hlt]
      have hj : i - t.buckets.length < t.size := by rw [hS.len_eq] at hlt ⊢; omega
      rw [hS.slots _ p b hj hb]
      have hi' : i = (i - t.buckets.length) + 2 ^ b.depth * 2 ^ (t.depth - b.depth) := by
        rw [← pow_add, Nat.add_sub_cancel' hok.depth_le, ← hS.size_eq, ← hS.len_eq]
        omega
      conv_rhs => rw [hi']
      rw [Nat.add_mul_mod_self_left]

/-- What `double_table` returns. -/
theorem double_table_eq (env : Env) (t : InnerTable) :
    double_table env t =
      if t.size * 2 < env.MAX_TABLE_SIZE then
        .ok { t with buckets := t.buckets ++ t.buckets.take t.size,
                     size := t.size * 2, depth := t.depth + 1 }
      else .fault .tableTooLarge := rfl

/-! ### The redirect loop -/

theorem redirect_spec (q nd s : Nat) (B : List Nat) (hs : s < 2 ^ nd) :
    ∀ n, (∀ m, m < n → m * 2 ^ nd + s < B.length) →
      ∃ B', redirect q nd s B n = .ok B' ∧ B'.length = B.length ∧
        ∀ i, B'[i]? = if (∃ m, m < n ∧ i = m * 2 ^ nd + s) then some q else B[i]? := by
  intro n
  induction n with
  | zero =>
    intro _
    refine ⟨B, rfl, rfl, ?_⟩
    intro i
    rw [if_neg]
    rintro ⟨m, hm, _⟩
    omega
  | succ n ih =>
    intro hb
    obtain ⟨B1, h1, hl1, hg1⟩ := ih (fun m hm => hb m (by omega))
    have ha : (n <<< nd) ||| s = n * 2 ^ nd + s := shiftLeft_or n nd s hs
    have hlt : n * 2 ^ nd + s < B1.length := by rw [hl1]; exact hb n (by omega)
    refine ⟨B1.set (n * 2 ^ nd + s) q, ?_, ?_, ?_⟩
    · unfold redirect
      rw [h1]
      simp only [ha]
      rw [if_pos hlt]
    · rw [List.length_set, hl1]
    · intro i
      by_cases hi : n * 2 ^ nd + s = i
      · subst hi
        rw [List.getElem?_set_self hlt, if_pos ⟨n, by omega, rfl⟩]
      · rw [List.getElem?_set_ne hi, hg1 i]
        have : (∃ m, m < n + 1 ∧ i = m * 2 ^ nd + s) ↔ (∃ m, m < n ∧ i = m * 2 ^ nd + s) := by
          constructor
          · rintro ⟨m, hm, he⟩
            refine ⟨m, ?_, he⟩
            rcases Nat.lt_succ_iff_lt_or_eq.mp hm with h | h
            · exact h
            · subst h; exact absurd he.symm hi
          · rintro ⟨m, hm, he⟩
            exact ⟨m, by omega, he⟩
        simp only [this]



/-! ### Reinserting the keys of a split bucket -/

theorem reinsert_key_spec {bs : Nat} {h : Int → Int} {t : InnerTable} (hS : Struct bs h t)
    (key : Int) (p : Nat) (b : Bucket) (h1 : t.buckets[addr t.depth (h key)]? = some p)
    (h2 : t.heap[p]? = some b) (hn : b.nkeys < bs) :
    reinsert_key t key h = .ok { t with
        heap := t.heap.set p { b with keys := b.keys.set b.nkeys key, nkeys := b.nkeys + 1 } } ∧
    Struct bs h { t with
        heap := t.heap.set p { b with keys := b.keys.set b.nkeys key, nkeys := b.nkeys + 1 } } ∧
    (tableKeys { t with
        heap := t.heap.set p { b with keys := b.keys.set b.nkeys key, nkeys := b.nkeys + 1 } }).Perm
      (key :: tableKeys t) := by
  obtain ⟨p0, b0, g1, g2, g3, _⟩ := hS.home key
  rw [h1] at g1
  cases g1
  rw [h2] at g2
  cases g2
  obtain ⟨t', e1, e2, e3, e4⟩ := appendKey_spec hS p b key h2 hn g3
  subst e4
  refine ⟨?_, e2, e3⟩
  unfold reinsert_key
  rw [addressOf_eq]
  simp only
  rw [(bucketAt_ok_iff t _ p b).mpr ⟨h1, h2⟩]
  exact e1

theorem reinsert_loop_spec {bs : Nat} {h : Int → Int} (p q : Nat) (hpq : p ≠ q) :
    ∀ (n i : Nat) (t : InnerTable) (bp bq : Bucket), Struct bs h t →
      t.heap[p]? = some bp → t.heap[q]? = some bq →
      bp.nkeys ≤ i → bq.nkeys ≤ i → i + n ≤ bs →
      (∀ m key, i ≤ m → m < i + n → bp.keys[m]? = some key →
        t.buckets[addr t.depth (h key)]? = some p ∨
        t.buckets[addr t.depth (h key)]? = some q) →
      ∃ t', reinsert_loop h p i n t = .ok t' ∧ Struct bs h t' ∧
        t'.buckets = t.buckets ∧ t'.size = t.size ∧ t'.depth = t.depth ∧
        t'.nbuckets = t.nbuckets ∧ t'.nkeys = t.nkeys ∧ t'.heap.length = t.heap.length ∧
        (tableKeys t').Perm (tableKeys t ++ (bp.keys.drop i).take n) := by
  intro n
  induction n with
  | zero =>
    intro i t bp bq hS _ _ _ _ _ _
    exact ⟨t, rfl, hS, rfl, rfl, rfl, rfl, rfl, rfl, by simp⟩
  | succ n ih =>
    intro i t bp bq hS hbp hbq hnp hnq hin hpl
    have hokp := hS.bucket_ok p bp hbp
    have hi : i < bp.keys.length := by rw [hokp.keys_len]; omega
    have hkey : bp.keys[i]? = some bp.keys[i] := List.getElem?_eq_getElem hi
    -- the state after reinserting `bp.keys[i]`
    have step : ∃ t1 bp1 bq1, reinsert_key t bp.keys[i] h = .ok t1 ∧ Struct bs h t1 ∧
        (tableKeys t1).Perm (bp.keys[i] :: tableKeys t) ∧
        t1.heap[p]? = some bp1 ∧ t1.heap[q]? = some bq1 ∧
        bp1.nkeys ≤ i + 1 ∧ bq1.nkeys ≤ i + 1 ∧
        (∀ m, i < m → bp1.keys[m]? = bp.keys[m]?) ∧
        t1.buckets = t.buckets ∧ t1.size = t.size ∧ t1.depth = t.depth ∧
        t1.nbuckets = t.nbuckets ∧ t1.nkeys = t.nkeys ∧ t1.heap.length = t.heap.length := by
      have hp : p < t.heap.length := (List.getElem?_eq_some.mp hbp).1
      have hq : q < t.heap.length := (List.getElem?_eq_some.mp hbq).1
      rcases hpl i _ (Nat.le_refl i) (by omega) hkey with hh | hh
      · obtain ⟨e1, e2, e3⟩ := reinsert_key_spec hS bp.keys[i] p bp hh hbp (by omega)
        refine ⟨_, { bp with keys := bp.keys.set bp.nkeys bp.keys[i], nkeys := bp.nkeys + 1 }, bq,
          e1, e2, e3, ?_, ?_, ?_, ?_, ?_, rfl, rfl, rfl, rfl, rfl, ?_⟩
        · exact List.getElem?_set_self hp
        · show (t.heap.set p _)[q]? = some bq
          rw [List.getElem?_set_ne hpq]; exact hbq
        · show bp.nkeys + 1 ≤ i + 1; omega
        · omega
        · intro m hm
          show (bp.keys.set bp.nkeys bp.keys[i])[m]? = bp.keys[m]?
          rw [List.getElem?_set_ne (by omega)]
        · show (t.heap.set p _).length = t.heap.length
          rw [List.length_set]
      · obtain ⟨e1, e2, e3⟩ := reinsert_key_spec hS bp.keys[i] q bq hh hbq (by omega)
        refine ⟨_, bp, { bq with keys := bq.keys.set bq.nkeys bp.keys[i], nkeys := bq.nkeys + 1 },
          e1, e2, e3, ?_, ?_, ?_, ?_, ?_, rfl, rfl, rfl, rfl, rfl, ?_⟩
        · show (t.heap.set q _)[p]? = some bp
          rw [List.getElem?_set_ne (Ne.symm hpq)]; exact hbp
        · exact List.getElem?_set_self hq
        · omega
        · show bq.nkeys + 1 ≤ i + 1; omega
        · intro m _; rfl
        · show (t.heap.set q _).length = t.heap.length
          rw [List.length_set]
    obtain ⟨t1, bp1, bq1, e1, hS1, hperm1, hbp1, hbq1, hnp1, hnq1, hsame, fb, fs, fd, fnb, fnk, fl⟩ :=
      step
    have hpl1 : ∀ m key, i + 1 ≤ m → m < i + 1 + n → bp1.keys[m]? = some key →
        t1.buckets[addr t1.depth (h key)]? = some p ∨
        t1.buckets[addr t1.depth (h key)]? = some q := by
      intro m key hm1 hm2 hk
      rw [hsame m (by omega)] at hk
      rw [fb, fd]
      exact hpl m key (by omega) (by omega) hk
    obtain ⟨t', r1, r2, r3, r4, r5, r6, r7, r8, r9⟩ :=
      ih (i + 1) t1 bp1 bq1 hS1 hbp1 hbq1 hnp1 hnq1 (by omega) hpl1
    refine ⟨t', ?_, r2, r3.trans fb, r4.trans fs, r5.trans fd, r6.trans fnb, r7.trans fnk,
      r8.trans fl, ?_⟩
    · unfold reinsert_loop
      rw [hbp]
      simp only
      rw [hkey]
      simp only
      rw [e1]
      exact r1
    · have hdrop : bp1.keys.drop (i + 1) = bp.keys.drop (i + 1) := by
        apply List.ext_getElem?
        intro j
        rw [List.getElem?_drop, List.getElem?_drop]
        exact hsame _ (by omega)
      rw [hdrop] at r9
      rw [List.drop_eq_getElem_cons hi, List.take_succ_cons]
      refine r9.trans ?_
      refine (List.Perm.append_right _ hperm1).trans ?_
      simp only [List.cons_append]
      exact List.perm_middle.symm



/-! ### Splitting a bucket -/

theorem heap_split_get (l : List Bucket) (p : Nat) (x y c : Bucket) (r : Nat)
    (hp : p < l.length) (h : (l.set p x ++ [y])[r]? = some c) :
    (r = p ∧ c = x) ∨ (r = l.length ∧ c = y) ∨ (r ≠ p ∧ l[r]? = some c) := by
  rw [List.getElem?_append, List.length_set] at h
  by_cases hr : r < l.length
  · rw [if_pos hr] at h
    by_cases hrp : p = r
    · subst hrp
      rw [List.getElem?_set_self hp] at h
      left; exact ⟨rfl, (Option.some.inj h).symm⟩
    · rw [List.getElem?_set_ne hrp] at h
      right; right; exact ⟨fun e => hrp e.symm, h⟩
  · rw [if_neg hr] at h
    have : r - l.length = 0 := by
      by_contra hne
      rw [List.getElem?_eq_none (by simp; omega)] at h
      exact absurd h (by simp)
    rw [this] at h
    right; left
    refine ⟨by omega, ?_⟩
    simpa using h.symm

theorem new_bucket_ok (junk : Nat → Int) (bs D d f : Nat) (h : Int → Int) (hd : d ≤ D)
    (hf : f < 2 ^ d) : BucketOK bs D h (new_bucket junk f d bs) := by
  refine ⟨hd, hf, Nat.zero_le _, ?_, ?_⟩
  · simp [new_bucket]
  · intro k hk
    simp [bucketKeys, new_bucket] at hk

/-- The state of `split_bucket` when the final loop starts: the old bucket is
deepened and drained, the sibling is allocated and the sibling's slots point to it. -/
theorem Struct.split_start {bs : Nat} {h : Int → Int} {td : InnerTable} (hS : Struct bs h td)
    (p : Nat) (bucket newb : Bucket) (B' : List Nat)
    (h2 : td.heap[p]? = some bucket) (hd : bucket.depth < td.depth)
    (hnew : BucketOK bs td.depth h newb) (hnd : newb.depth = bucket.depth + 1)
    (hni : newb.id = 2 ^ bucket.depth + bucket.id)
    (hlen : B'.length = td.buckets.length)
    (hB : ∀ i, i < td.size → B'[i]? =
      if i % 2 ^ (bucket.depth + 1) = 2 ^ bucket.depth + bucket.id then some td.heap.length
      else td.buckets[i]?) :
    Struct bs h { td with
      heap := td.heap.set p { bucket with depth := bucket.depth + 1, nkeys := 0 } ++ [newb],
      buckets := B', nbuckets := td.nbuckets + 1 } := by
  have hok := hS.bucket_ok p bucket h2
  have hp : p < td.heap.length := (List.getElem?_eq_some.mp h2).1
  have hf := hok.id_lt
  refine ⟨hS.size_eq, hlen.trans hS.len_eq, ?_, ?_, ?_, ?_⟩
  · intro i x hx
    simp only [List.length_append, List.length_set, List.length_singleton] at hx ⊢
    have hi : i < td.size := by
      rw [← hS.len_eq, ← hlen]; exact (List.getElem?_eq_some.mp hx).1
    rw [hB i hi] at hx
    split at hx
    · cases hx; omega
    · have := hS.ptr_ok i x hx; omega
  · intro r c hc
    rcases heap_split_get _ _ _ _ _ _ hp hc with ⟨_, rfl⟩ | ⟨_, rfl⟩ | ⟨_, hc'⟩
    · refine ⟨hd, ?_, Nat.zero_le _, hok.keys_len, ?_⟩
      · show bucket.id < 2 ^ (bucket.depth + 1)
        rw [pow_succ]; omega
      · intro k hk
        simp [bucketKeys] at hk
    · exact hnew
    · exact hS.bucket_ok r c hc'
  · intro i r c hi hc
    simp only at hi hc ⊢
    rw [hB i hi]
    rcases heap_split_get _ _ _ _ _ _ hp hc with ⟨rfl, rfl⟩ | ⟨rfl, rfl⟩ | ⟨hrp, hc'⟩
    · show _ ↔ i % 2 ^ (bucket.depth + 1) = bucket.id
      by_cases hc1 : i % 2 ^ (bucket.depth + 1) = 2 ^ bucket.depth + bucket.id
      · rw [if_pos hc1]
        constructor
        · intro e; have := Option.some.inj e; omega
        · intro e; rw [e] at hc1
          have := Nat.two_pow_pos bucket.depth; omega
      · rw [if_neg hc1, hS.slots i r bucket hi h2]
        constructor
        · intro e
          rcases mod_succ_cases i _ _ e with g | g
          · exact g
          · exact absurd g hc1
        · intro e
          exact mod_of_mod_succ i _ _ hf (Or.inl e)
    · rw [hnd, hni]
      by_cases hc1 : i % 2 ^ (bucket.depth + 1) = 2 ^ bucket.depth + bucket.id
      · rw [if_pos hc1]; simp [hc1]
      · rw [if_neg hc1]
        constructor
        · intro e; have := hS.ptr_ok i _ e; omega
        · intro e; exact absurd e hc1
    · by_cases hc1 : i % 2 ^ (bucket.depth + 1) = 2 ^ bucket.depth + bucket.id
      · rw [if_pos hc1]
        have hr : r < td.heap.length := (List.getElem?_eq_some.mp hc').1
        constructor
        · intro e; have := Option.some.inj e; omega
        · intro e
          have g1 := (hS.slots i r c hi hc').mpr e
          have g2 := (hS.slots i p bucket hi h2).mpr
            (mod_of_mod_succ i _ _ hf (Or.inr hc1))
          rw [g1] at g2
          exact absurd (Option.some.inj g2) hrp
      · rw [if_neg hc1]
        exact hS.slots i r c hi hc'
  · simp only [List.length_append, List.length_set, List.length_singleton]
    rw [hS.nbuckets_eq]



theorem split_rest_spec (env : Env) {bs : Nat} {h : Int → Int} {td : InnerTable}
    (hS : Struct bs h td) (address p : Nat) (bucket : Bucket)
    (h1 : td.buckets[address]? = some p) (h2 : td.heap[p]? = some bucket)
    (hd : bucket.depth < td.depth) :
    ∃ t', split_rest env td address bs h = .ok t' ∧ Struct bs h t' ∧
      (tableKeys t').Perm (tableKeys td) ∧ t'.nkeys = td.nkeys ∧
      t'.size = td.size ∧ t'.depth = td.depth ∧ t'.nbuckets = td.nbuckets + 1 := by
  have hok := hS.bucket_ok p bucket h2
  have hp : p < td.heap.length := (List.getElem?_eq_some.mp h2).1
  have hf := hok.id_lt
  have hs : 2 ^ bucket.depth + bucket.id < 2 ^ (bucket.depth + 1) := by rw [pow_succ]; omega
  have hidx : index (rightmostnbits bucket.depth (bucket.id : Int)) = .ok bucket.id := by
    rw [index_rightmostnbits, addr_natCast _ _ hf]
  have hsuf : (1 <<< bucket.depth) ||| bucket.id = 2 ^ bucket.depth + bucket.id :=
    one_shiftLeft_or _ _ hf
  have hmax : 1 <<< (td.depth - (bucket.depth + 1)) = 2 ^ (td.depth - (bucket.depth + 1)) := by
    rw [Nat.shiftLeft_eq, Nat.one_mul]
  have hnd : bucket.depth + 1 ≤ td.depth := hd
  have hbound : ∀ m, m < 2 ^ (td.depth - (bucket.depth + 1)) →
      m * 2 ^ (bucket.depth + 1) + (2 ^ bucket.depth + bucket.id) < td.buckets.length := by
    intro m hm
    rw [hS.len_eq, hS.size_eq]
    exact ((pattern_iff td.depth _ _ _ hnd hs).mp ⟨m, hm, rfl⟩).1
  obtain ⟨B', hr1, hr2, hr3⟩ := redirect_spec td.heap.length (bucket.depth + 1)
    (2 ^ bucket.depth + bucket.id) td.buckets hs _ hbound
  have hB : ∀ i, i < td.size → B'[i]? =
      if i % 2 ^ (bucket.depth + 1) = 2 ^ bucket.depth + bucket.id then some td.heap.length
      else td.buckets[i]? := by
    intro i hi
    rw [hr3 i]
    have := pattern_iff td.depth (bucket.depth + 1) (2 ^ bucket.depth + bucket.id) i hnd hs
    rw [hS.size_eq] at hi
    by_cases hc : i % 2 ^ (bucket.depth + 1) = 2 ^ bucket.depth + bucket.id
    · rw [if_pos (this.mpr ⟨hi, hc⟩), if_pos hc]
    · rw [if_neg (fun e => hc (this.mp e).2), if_neg hc]
  have hnew : BucketOK bs td.depth h
      (new_bucket env.junk (2 ^ bucket.depth + bucket.id) (bucket.depth + 1) bs) :=
    new_bucket_ok _ _ _ _ _ _ hnd hs
  have hS3 := hS.split_start p bucket _ B' h2 hd hnew rfl rfl hr2 hB
  -- the final loop
  have hq3 : (td.heap.set p { bucket with depth := bucket.depth + 1, nkeys := 0 } ++
      [new_bucket env.junk (2 ^ bucket.depth + bucket.id) (bucket.depth + 1) bs])[td.heap.length]?
      = some (new_bucket env.junk (2 ^ bucket.depth + bucket.id) (bucket.depth + 1) bs) := by
    rw [List.getElem?_append_right (by rw [List.length_set])]
    simp [List.length_set]
  have hp3 : (td.heap.set p { bucket with depth := bucket.depth + 1, nkeys := 0 } ++
      [new_bucket env.junk (2 ^ bucket.depth + bucket.id) (bucket.depth + 1) bs])[p]?
      = some { bucket with depth := bucket.depth + 1, nkeys := 0 } := by
    rw [List.getElem?_append_left (by rw [List.length_set]; exact hp)]
    exact List.getElem?_set_self hp
  obtain ⟨t', l1, l2, _, l4, l5, l6, l7, _, l9⟩ :=
    @reinsert_loop_spec bs h p td.heap.length (Nat.ne_of_lt hp) bucket.nkeys 0 _
      { bucket with depth := bucket.depth + 1, nkeys := 0 } _ hS3 hp3 hq3
      (Nat.le_refl 0) (Nat.le_refl 0) (by simpa using hok.nkeys_le)
      (by
        intro m key _ hm hk
        simp only [Nat.zero_add] at hm
        simp only at hk ⊢
        have hmem : key ∈ bucketKeys bucket := by
          unfold bucketKeys
          rw [List.mem_iff_getElem?]
          exact ⟨m, by rw [List.getElem?_take, if_pos hm]; exact hk⟩
        have hpl := hok.placed key hmem
        have halt := hS.addr_lt_size (h key)
        have hmod : addr td.depth (h key) % 2 ^ bucket.depth = bucket.id := by
          rw [addr_mod _ _ _ hok.depth_le]; exact hpl
        rcases mod_succ_cases _ _ _ hmod with g | g
        · left
          exact (hS3.slots _ p _ halt hp3).mpr g
        · right
          exact (hS3.slots _ td.heap.length _ halt hq3).mpr g)
  refine ⟨t', ?_, l2, ?_, l7, l4, l5, l6⟩
  · unfold split_rest
    rw [(bucketAt_ok_iff td address p bucket).mpr ⟨h1, h2⟩]
    simp only [hidx, hsuf, hmax, List.length_set, if_neg (Nat.not_lt.mpr hnd), hr1]
    rw [List.set_append_left _ _ (by rw [List.length_set]; exact hp), List.set_set]
    exact l1
  · refine l9.trans ?_
    have e : (List.drop 0 bucket.keys).take bucket.nkeys = bucketKeys bucket := rfl
    simp only at e ⊢
    rw [e]
    have k1 := keys_set_perm td.heap { bucket with depth := bucket.depth + 1, nkeys := 0 } p
      bucket h2
    have k2 : bucketKeys { bucket with depth := bucket.depth + 1, nkeys := 0 } = [] := by
      simp [bucketKeys]
    have k3 : bucketKeys (new_bucket env.junk (2 ^ bucket.depth + bucket.id)
        (bucket.depth + 1) bs) = [] := by simp [bucketKeys, new_bucket]
    rw [k2, List.append_nil] at k1
    unfold tableKeys
    simp only [List.flatMap_append, List.flatMap_cons, List.flatMap_nil, k3, List.append_nil]
    exact k1

/-- The function `split_bucket` on a table satisfying the structural invariant:
it fails only by the size assertion of `double_table`, and otherwise keeps the
invariant and the stored keys. -/
theorem split_bucket_spec (env : Env) {bs : Nat} {h : Int → Int} {t : InnerTable}
    (hS : Struct bs h t) (address : Nat) (ha : address < t.size) :
    split_bucket env t address bs h = .fault .tableTooLarge ∨
    ∃ t', split_bucket env t address bs h = .ok t' ∧ Struct bs h t' ∧
      (tableKeys t').Perm (tableKeys t) ∧ t'.nkeys = t.nkeys ∧
      t'.nbuckets = t.nbuckets + 1 := by
  obtain ⟨p, b, h1, h2, _⟩ := hS.slot_bucket address ha
  have hok := hS.bucket_ok p b h2
  unfold split_bucket
  rw [(bucketAt_ok_iff t address p b).mpr ⟨h1, h2⟩]
  simp only
  by_cases hdep : b.depth = t.depth
  · rw [if_pos hdep, double_table_eq]
    by_cases hmax : t.size * 2 < env.MAX_TABLE_SIZE
    · rw [if_pos hmax]
      simp only
      right
      have hSd := hS.double
      have h1' : (t.buckets ++ t.buckets.take t.size)[address]? = some p := by
        rw [List.getElem?_append_left (by rw [hS.len_eq]; exact ha)]; exact h1
      obtain ⟨t', r1, r2, r3, r4, _, _, r7⟩ :=
        split_rest_spec env hSd address p b h1' h2 (by show b.depth < t.depth + 1; omega)
      exact ⟨t', r1, r2, r3, r4, r7⟩
    · rw [if_neg hmax]
      left; rfl
  · rw [if_neg hdep]
    simp only
    right
    obtain ⟨t', r1, r2, r3, r4, _, _, r7⟩ :=
      split_rest_spec env hS address p b h1 h2
        (Nat.lt_of_le_of_ne hok.depth_le hdep)
    exact ⟨t', r1, r2, r3, r4, r7⟩



/-! ### The eviction chain -/

theorem Struct.with_nkeys {bs : Nat} {h : Int → Int} {t : InnerTable} (hS : Struct bs h t)
    (n : Nat) : Struct bs h { t with nkeys := n } :=
  ⟨hS.size_eq, hS.len_eq, hS.ptr_ok, hS.bucket_ok, hS.slots, hS.nbuckets_eq⟩

theorem insert_key_spec (env : Env) {bs : Nat} (hbs : 1 ≤ bs) :
    ∀ (fuel : Nat) (key : Int) (tA tB : InnerTable) (hA hB : Int → Int) (reps : Nat)
      (rnd : Nat → Nat) (r : Bool) (tA' tB' : InnerTable) (reps' : Nat),
      Inv bs hA tA → Inv bs hB tB →
      insert_key env bs fuel key tA tB hA hB reps rnd = .ok (r, tA', tB', reps') →
      r = true ∧ Inv bs hA tA' ∧ Inv bs hB tB' ∧
      (tableKeys tA' ++ tableKeys tB').Perm (key :: (tableKeys tA ++ tableKeys tB)) := by
  intro fuel
  induction fuel with
  | zero =>
    intro key tA tB hA hB reps rnd r tA' tB' reps' _ _ hrun
    simp [insert_key] at hrun
  | succ fuel ih =>
    intro key tA tB hA hB reps rnd r tA' tB' reps' hIA hIB hrun
    have hS := hIA.struct
    obtain ⟨p, b, h1, h2, hpl, _⟩ := hS.home key
    have hok := hS.bucket_ok p b h2
    unfold insert_key at hrun
    rw [addressOf_eq] at hrun
    simp only at hrun
    rw [(bucketAt_ok_iff tA _ p b).mpr ⟨h1, h2⟩] at hrun
    simp only at hrun
    by_cases hfull : b.nkeys = bs
    · -- the bucket is full: evict
      rw [if_neg (by simpa using hfull)] at hrun
      have hne : b.nkeys ≠ 0 := by omega
      rw [if_neg hne] at hrun
      have hri : rnd 0 % b.nkeys < b.nkeys := Nat.mod_lt _ (by omega)
      have hril : rnd 0 % b.nkeys < b.keys.length := by rw [hok.keys_len]; omega
      rw [List.getElem?_eq_getElem hril] at hrun
      simp only at hrun
      obtain ⟨hS1, hperm1⟩ := replace_spec hS p b key b.keys[rnd 0 % b.nkeys] (rnd 0 % b.nkeys)
        h2 hri (List.getElem?_eq_getElem hril) hpl
      obtain ⟨tA1, htA1⟩ : ∃ tA1 : InnerTable, tA1 =
          { tA with
            heap := tA.heap.set p { b with keys := b.keys.set (rnd 0 % b.nkeys) key } } :=
        ⟨_, rfl⟩
      have hnk1 : tA1.nkeys = tA.nkeys := by rw [htA1]
      rw [← htA1] at hrun hS1 hperm1
      -- the table after the optional split
      have hsplit : (if reps ≥ 1000 then split_bucket env tA1 (addr tA.depth (hA key)) bs hA
            else .ok tA1) = .fault .tableTooLarge ∨
          ∃ tA2, (if reps ≥ 1000 then split_bucket env tA1 (addr tA.depth (hA key)) bs hA
            else .ok tA1) = .ok tA2 ∧
            Struct bs hA tA2 ∧ tA2.nkeys = tA.nkeys ∧ (tableKeys tA2).Perm (tableKeys tA1) := by
        by_cases hrep : reps ≥ 1000
        · rw [if_pos hrep]
          have hlt : addr tA.depth (hA key) < tA1.size := by
            rw [htA1]; exact hS.addr_lt_size _
          rcases split_bucket_spec env hS1 (addr tA.depth (hA key)) hlt
            with hf | ⟨t2, e1, e2, e3, e4, _⟩
          · left; exact hf
          · right; exact ⟨t2, e1, e2, e4.trans hnk1, e3⟩
        · rw [if_neg hrep]
          right; exact ⟨_, rfl, hS1, hnk1, List.Perm.refl _⟩
      rcases hsplit with hf | ⟨tA2, e1, hS2, hnk2, hperm2⟩
      · rw [hf] at hrun
        exact absurd hrun (by simp)
      · rw [e1] at hrun
        simp only at hrun
        have hI2 : Inv bs hA tA2 := by
          refine ⟨hS2, ?_⟩
          rw [hnk2, hIA.nkeys_eq, hperm2.length_eq]
          have := hperm1.length_eq
          simp only [List.length_cons] at this
          omega
        cases hrec : insert_key env bs fuel b.keys[rnd 0 % b.nkeys] tB tA2 hB hA (reps + 1)
            (fun i => rnd (i + 1)) with
        | fault e =>
          rw [hrec] at hrun
          exact absurd hrun (by simp)
        | ok res =>
          obtain ⟨r0, tB0, tA0, reps0⟩ := res
          rw [hrec] at hrun
          simp only [Res.ok.injEq, Prod.mk.injEq] at hrun
          obtain ⟨rfl, rfl, rfl, rfl⟩ := hrun
          obtain ⟨g1, g2, g3, g4⟩ := ih _ _ _ _ _ _ _ _ _ _ _ hIB hI2 hrec
          refine ⟨g1, g3, g2, ?_⟩
          rw [← Multiset.coe_eq_coe] at g4 hperm1 hperm2 ⊢
          simp only [← Multiset.coe_add, ← Multiset.cons_coe, ← Multiset.singleton_add]
            at g4 hperm1 hperm2 ⊢
          rw [hperm2] at g4
          calc (↑(tableKeys tA0) : Multiset Int) + ↑(tableKeys tB0)
              = ↑(tableKeys tB0) + ↑(tableKeys tA0) := by abel
            _ = {b.keys[rnd 0 % b.nkeys]} + (↑(tableKeys tB) + ↑(tableKeys tA1)) := g4
            _ = ↑(tableKeys tB) + ({b.keys[rnd 0 % b.nkeys]} + ↑(tableKeys tA1)) := by abel
            _ = {key} + (↑(tableKeys tA) + ↑(tableKeys tB)) := by rw [hperm1]; abel
    · -- the bucket is not full: the key is appended
      rw [if_pos (by simpa using hfull)] at hrun
      have hlt : b.nkeys < bs := Nat.lt_of_le_of_ne hok.nkeys_le hfull
      obtain ⟨t', e1, e2, e3, _⟩ := appendKey_spec hS p b key h2 hlt hpl
      rw [e1] at hrun
      simp only [Res.ok.injEq, Prod.mk.injEq] at hrun
      obtain ⟨rfl, rfl, rfl, rfl⟩ := hrun
      refine ⟨rfl, ⟨e2.with_nkeys _, ?_⟩, hIB, ?_⟩
      · show t'.nkeys + 1 = (tableKeys t').length
        have := e3.length_eq
        simp only [List.length_cons] at this
        rw [this, ← hIA.nkeys_eq]
        rename_i e4; rw [e4]
      · show (tableKeys t' ++ tableKeys tB).Perm _
        exact List.Perm.append_right _ e3



/-! ### The whole structure -/

theorem initialise_table_inv (junk : Nat → Int) (bs : Nat) (h : Int → Int) :
    Inv bs h (initialise_table junk bs) := by
  refine ⟨⟨rfl, rfl, ?_, ?_, ?_, rfl⟩, ?_⟩
  · intro i p hp
    simp only [initialise_table] at hp ⊢
    cases i with
    | zero => simp at hp; subst hp; simp
    | succ i => simp at hp
  · intro p b hb
    simp only [initialise_table] at hb ⊢
    cases p with
    | zero =>
      simp at hb; subst hb
      exact new_bucket_ok junk bs 0 0 0 h (Nat.le_refl 0) (by simp)
    | succ p => simp at hb
  · intro i p b hi hb
    simp only [initialise_table] at hi hb ⊢
    have hi0 : i = 0 := by omega
    subst hi0
    cases p with
    | zero =>
      simp at hb; subst hb
      simp [new_bucket]
    | succ p => simp at hb
  · simp [initialise_table, tableKeys, bucketKeys, new_bucket]

theorem new_table_ginv (env : Env) (bs : Nat) : GInv env bs (new_xuckoon_hash_table env bs) := by
  refine ⟨initialise_table_inv _ _ _, initialise_table_inv _ _ _, rfl, ?_⟩
  simp [allKeys, new_xuckoon_hash_table, initialise_table, tableKeys, bucketKeys, new_bucket]

/-- What a returning insert does to a structure satisfying the invariant. -/
theorem insert_spec (env : Env) {bs : Nat} (hbs : 1 ≤ bs) {T : XuckooNHashTable}
    (hG : GInv env bs T) (fuel : Nat) (rnd : Nat → Nat) (key : Int) (r : Bool)
    (T' : XuckooNHashTable)
    (hrun : xuckoon_hash_table_insert env fuel rnd T key = .ok (r, T')) :
    GInv env bs T' ∧
    (key ∈ allKeys T → r = false ∧ T' = T) ∧
    (key ∉ allKeys T → r = true ∧ (allKeys T').Perm (key :: allKeys T)) := by
  unfold xuckoon_hash_table_insert at hrun
  rw [findEither_eq hG.inv1.struct hG.inv2.struct] at hrun
  by_cases hmem : key ∈ allKeys T
  · rw [decide_eq_true hmem] at hrun
    simp only [Res.ok.injEq, Prod.mk.injEq] at hrun
    obtain ⟨rfl, rfl⟩ := hrun
    exact ⟨hG, fun _ => ⟨rfl, rfl⟩, fun hn => absurd hmem hn⟩
  · rw [decide_eq_false hmem, hG.bucketsize_eq] at hrun
    simp only at hrun
    have hnodup : ∀ l : List Int, l.Perm (key :: allKeys T) → l.Nodup := by
      intro l hl
      rw [hl.nodup_iff]
      exact List.nodup_cons.mpr ⟨hmem, hG.nodup⟩
    by_cases hle : T.table1.nkeys ≤ T.table2.nkeys
    · rw [if_pos hle] at hrun
      cases hrec : insert_key env bs fuel key T.table1 T.table2 env.h1 env.h2 0 rnd with
      | fault e => rw [hrec] at hrun; exact absurd hrun (by simp)
      | ok res =>
        obtain ⟨r0, tA, tB, reps⟩ := res
        rw [hrec] at hrun
        simp only [Res.ok.injEq, Prod.mk.injEq] at hrun
        obtain ⟨rfl, rfl⟩ := hrun
        obtain ⟨g1, g2, g3, g4⟩ := insert_key_spec env hbs _ _ _ _ _ _ _ _ _ _ _ _
          hG.inv1 hG.inv2 hrec
        have hperm : (allKeys { T with table1 := tA, table2 := tB }).Perm (key :: allKeys T) := g4
        exact ⟨⟨g2, g3, rfl, hnodup _ hperm⟩, fun hn => absurd hn hmem,
          fun _ => ⟨g1, hperm⟩⟩
    · rw [if_neg hle] at hrun
      cases hrec : insert_key env bs fuel key T.table2 T.table1 env.h2 env.h1 0 rnd with
      | fault e => rw [hrec] at hrun; exact absurd hrun (by simp)
      | ok res =>
        obtain ⟨r0, tA, tB, reps⟩ := res
        rw [hrec] at hrun
        simp only [Res.ok.injEq, Prod.mk.injEq] at hrun
        obtain ⟨rfl, rfl⟩ := hrun
        obtain ⟨g1, g2, g3, g4⟩ := insert_key_spec env hbs _ _ _ _ _ _ _ _ _ _ _ _
          hG.inv2 hG.inv1 hrec
        have hperm : (allKeys { T with table1 := tB, table2 := tA }).Perm (key :: allKeys T) := by
          show (tableKeys tB ++ tableKeys tA).Perm (key :: (tableKeys T.table1 ++ tableKeys T.table2))
          refine List.perm_append_comm.trans (g4.trans ?_)
          exact List.Perm.cons _ List.perm_append_comm
        exact ⟨⟨g3, g2, rfl, hnodup _ hperm⟩, fun hn => absurd hn hmem,
          fun _ => ⟨g1, hperm⟩⟩

theorem addr_zero (x : Int) : addr 0 x = 0 := by
  unfold addr
  simp

/-- With bucket capacity 0 no insert into a fresh table returns: the only bucket
counts as full and the victim index would be `rand() % 0`. -/
theorem insert_fresh_zero (env : Env) (fuel : Nat) (rnd : Nat → Nat) (key : Int) (r : Bool)
    (T' : XuckooNHashTable) :
    xuckoon_hash_table_insert env fuel rnd (new_xuckoon_hash_table env 0) key ≠ .ok (r, T') := by
  intro hrun
  have hG := new_table_ginv env 0
  unfold xuckoon_hash_table_insert at hrun
  rw [findEither_eq hG.inv1.struct hG.inv2.struct] at hrun
  have hmem : key ∉ allKeys (new_xuckoon_hash_table env 0) := by
    simp [allKeys, new_xuckoon_hash_table, initialise_table, tableKeys, bucketKeys, new_bucket]
  rw [decide_eq_false hmem] at hrun
  simp only at hrun
  have hkey : ∀ (h h' : Int → Int),
      insert_key env 0 fuel key (initialise_table env.junk 0) (initialise_table env.junk 0)
        h h' 0 rnd = .fault .outOfFuel ∨
      insert_key env 0 fuel key (initialise_table env.junk 0) (initialise_table env.junk 0)
        h h' 0 rnd = .fault .undefined := by
    intro h h'
    cases fuel with
    | zero => left; rfl
    | succ fuel =>
      right
      rw [insert_key, addressOf_eq]
      have : addr (initialise_table env.junk 0).depth (h key) = 0 := addr_zero _
      rw [this]
      rfl
  have h1 := hkey env.h1 env.h2
  have h2 := hkey env.h2 env.h1
  split at hrun
  · rcases h1 with e | e
    · simp only [new_xuckoon_hash_table] at hrun
      rw [e] at hrun; exact absurd hrun (by simp)
    · simp only [new_xuckoon_hash_table] at hrun
      rw [e] at hrun; exact absurd hrun (by simp)
  · rcases h2 with e | e
    · simp only [new_xuckoon_hash_table] at hrun
      rw [e] at hrun; exact absurd hrun (by simp)
    · simp only [new_xuckoon_hash_table] at hrun
      rw [e] at hrun; exact absurd hrun (by simp)

theorem Reachable.ginv_and {env : Env} {bs : Nat} {T : XuckooNHashTable}
    (hR : Reachable env bs T) :
    GInv env bs T ∧ (bs = 0 → T = new_xuckoon_hash_table env 0) := by
  induction hR with
  | fresh => exact ⟨new_table_ginv env bs, fun h => by rw [h]⟩
  | insert fuel rnd T key r T' _ hrun ih =>
    by_cases hbs : bs = 0
    · exfalso
      have hT := ih.2 hbs
      rw [hT] at hrun
      exact insert_fresh_zero env fuel rnd key r T' hrun
    · exact ⟨(insert_spec env (by omega) ih.1 fuel rnd key r T' hrun).1, fun h => absurd h hbs⟩

/-- Every reachable state satisfies the invariant. -/
theorem Reachable.ginv {env : Env} {bs : Nat} {T : XuckooNHashTable}
    (hR : Reachable env bs T) : GInv env bs T :=
  hR.ginv_and.1

/-- What a returning insert does to a reachable state. -/
theorem Reachable.insert_step {env : Env} {bs : Nat} {T : XuckooNHashTable}
    (hR : Reachable env bs T) (fuel : Nat) (rnd : Nat → Nat) (key : Int) (r : Bool)
    (T' : XuckooNHashTable)
    (hrun : xuckoon_hash_table_insert env fuel rnd T key = .ok (r, T')) :
    GInv env bs T' ∧
    (key ∈ allKeys T → r = false ∧ T' = T) ∧
    (key ∉ allKeys T → r = true ∧ (allKeys T').Perm (key :: allKeys T)) := by
  by_cases hbs : bs = 0
  · exfalso
    have hT := hR.ginv_and.2 hbs
    subst hbs
    rw [hT] at hrun
    exact insert_fresh_zero env fuel rnd key r T' hrun
  · exact Xuckoon.insert_spec env (by omega) hR.ginv fuel rnd key r T' hrun

theorem lookup_eq {env : Env} {bs : Nat} {T : XuckooNHashTable} (hG : GInv env bs T)
    (key : Int) : xuckoon_hash_table_lookup env T key = .ok (decide (key ∈ allKeys T)) :=
  findEither_eq hG.inv1.struct hG.inv2.struct key



/-! ### What the operations leave alone (no invariant needed) -/

theorem appendKey_nkeys {t t' : InnerTable} {p : Nat} {b : Bucket} {key : Int}
    (h : appendKey t p b key = .ok t') : t'.nkeys = t.nkeys := by
  unfold appendKey at h
  split at h
  · simp only [Res.ok.injEq] at h; subst h; rfl
  · exact absurd h (by simp)

theorem reinsert_key_nkeys {t t' : InnerTable} {key : Int} {h : Int → Int}
    (hr : reinsert_key t key h = .ok t') : t'.nkeys = t.nkeys := by
  unfold reinsert_key at hr
  split at hr
  · exact absurd hr (by simp)
  · split at hr
    · exact absurd hr (by simp)
    · exact appendKey_nkeys hr

theorem reinsert_loop_nkeys (h : Int → Int) (p : Nat) :
    ∀ (n i : Nat) (t t' : InnerTable), reinsert_loop h p i n t = .ok t' → t'.nkeys = t.nkeys := by
  intro n
  induction n with
  | zero =>
    intro i t t' hr
    simp only [reinsert_loop, Res.ok.injEq] at hr
    subst hr; rfl
  | succ n ih =>
    intro i t t' hr
    unfold reinsert_loop at hr
    split at hr
    · exact absurd hr (by simp)
    · split at hr
      · exact absurd hr (by simp)
      · split at hr
        · exact absurd hr (by simp)
        · rename_i t1 h1
          exact (ih _ _ _ hr).trans (reinsert_key_nkeys h1)

theorem split_rest_nkeys {env : Env} {t t' : InnerTable} {address bs : Nat} {h : Int → Int}
    (hr : split_rest env t address bs h = .ok t') : t'.nkeys = t.nkeys := by
  unfold split_rest at hr
  split at hr
  · exact absurd hr (by simp)
  · simp only at hr
    split at hr
    · exact absurd hr (by simp)
    · split at hr
      · exact absurd hr (by simp)
      · split at hr
        · exact absurd hr (by simp)
        · have := reinsert_loop_nkeys _ _ _ _ _ _ hr
          exact this

theorem split_bucket_nkeys {env : Env} {t t' : InnerTable} {address bs : Nat} {h : Int → Int}
    (hr : split_bucket env t address bs h = .ok t') : t'.nkeys = t.nkeys := by
  unfold split_bucket at hr
  split at hr
  · exact absurd hr (by simp)
  · rename_i p b0 _
    split at hr
    · exact absurd hr (by simp)
    · rename_i td hd
      have : td.nkeys = t.nkeys := by
        split at hd
        · rw [double_table_eq] at hd
          split at hd
          · simp only [Res.ok.injEq] at hd; subst hd; rfl
          · exact absurd hd (by simp)
        · simp only [Res.ok.injEq] at hd; subst hd; rfl
      exact (split_rest_nkeys hr).trans this

/-- A returning `insert_key` returns true and has incremented exactly one of the
two key counters, by one. -/
theorem insert_key_count (env : Env) (bs : Nat) :
    ∀ (fuel : Nat) (key : Int) (tA tB : InnerTable) (hA hB : Int → Int) (reps : Nat)
      (rnd : Nat → Nat) (r : Bool) (tA' tB' : InnerTable) (reps' : Nat),
      insert_key env bs fuel key tA tB hA hB reps rnd = .ok (r, tA', tB', reps') →
      r = true ∧ tA'.nkeys + tB'.nkeys = tA.nkeys + tB.nkeys + 1 := by
  intro fuel
  induction fuel with
  | zero =>
    intro key tA tB hA hB reps rnd r tA' tB' reps' hrun
    simp [insert_key] at hrun
  | succ fuel ih =>
    intro key tA tB hA hB reps rnd r tA' tB' reps' hrun
    unfold insert_key at hrun
    split at hrun
    · exact absurd hrun (by simp)
    · split at hrun
      · exact absurd hrun (by simp)
      · rename_i p b _
        simp only at hrun
        split at hrun
        · split at hrun
          · exact absurd hrun (by simp)
          · rename_i t1 h1
            simp only [Res.ok.injEq, Prod.mk.injEq] at hrun
            obtain ⟨rfl, rfl, rfl, rfl⟩ := hrun
            refine ⟨rfl, ?_⟩
            show t1.nkeys + 1 + tB.nkeys = _
            rw [appendKey_nkeys h1]; omega
        · split at hrun
          · exact absurd hrun (by simp)
          · split at hrun
            · exact absurd hrun (by simp)
            · split at hrun
              · exact absurd hrun (by simp)
              · rename_i tA2 h2
                split at hrun
                · exact absurd hrun (by simp)
                · rename_i r0 tB0 tA0 reps0 hrec
                  simp only [Res.ok.injEq, Prod.mk.injEq] at hrun
                  obtain ⟨rfl, rfl, rfl, rfl⟩ := hrun
                  obtain ⟨g1, g2⟩ := ih _ _ _ _ _ _ _ _ _ _ _ hrec
                  have : tA2.nkeys = tA.nkeys := by
                    split at h2
                    · have := split_bucket_nkeys h2
                      exact this
                    · simp only [Res.ok.injEq] at h2; subst h2; rfl
                  refine ⟨g1, ?_⟩
                  omega

/-- A returning insert returns false exactly when the duplicate check finds the
key, and then leaves the structure as it is; otherwise it returns true and the
sum of the two key counters has grown by one. -/
theorem insert_result (env : Env) (fuel : Nat) (rnd : Nat → Nat) (T : XuckooNHashTable)
    (key : Int) (r : Bool) (T' : XuckooNHashTable)
    (hrun : xuckoon_hash_table_insert env fuel rnd T key = .ok (r, T')) :
    (findEither env T key = .ok true ∧ r = false ∧ T' = T) ∨
    (findEither env T key = .ok false ∧ r = true ∧
      T'.table1.nkeys + T'.table2.nkeys = T.table1.nkeys + T.table2.nkeys + 1) := by
  unfold xuckoon_hash_table_insert at hrun
  split at hrun
  · exact absurd hrun (by simp)
  · rename_i hf
    simp only [Res.ok.injEq, Prod.mk.injEq] at hrun
    obtain ⟨rfl, rfl⟩ := hrun
    exact Or.inl ⟨hf, rfl, rfl⟩
  · rename_i hf
    right
    split at hrun
    · split at hrun
      · exact absurd hrun (by simp)
      · rename_i r0 tA tB reps hrec
        simp only [Res.ok.injEq, Prod.mk.injEq] at hrun
        obtain ⟨rfl, rfl⟩ := hrun
        obtain ⟨g1, g2⟩ := insert_key_count env _ _ _ _ _ _ _ _ _ _ _ _ _ hrec
        exact ⟨hf, g1, g2⟩
    · split at hrun
      · exact absurd hrun (by simp)
      · rename_i r0 tA tB reps hrec
        simp only [Res.ok.injEq, Prod.mk.injEq] at hrun
        obtain ⟨rfl, rfl⟩ := hrun
        obtain ⟨g1, g2⟩ := insert_key_count env _ _ _ _ _ _ _ _ _ _ _ _ _ hrec
        refine ⟨hf, g1, ?_⟩
        show tB.nkeys + tA.nkeys = _
        omega



/-! ### Sequences of inserts -/

theorem insertSeq_cons_ok {env : Env} {c : Call} {cs : List Call} {T T' : XuckooNHashTable}
    {flags : List Bool} (h : insertSeq env (c :: cs) T = .ok (flags, T')) :
    ∃ r T1 rs, xuckoon_hash_table_insert env c.fuel c.rnd T c.key = .ok (r, T1) ∧
      insertSeq env cs T1 = .ok (rs, T') ∧ flags = r :: rs := by
  unfold insertSeq at h
  split at h
  · exact absurd h (by simp)
  · rename_i r T1 h1
    split at h
    · exact absurd h (by simp)
    · rename_i rs T2 h2
      simp only [Res.ok.injEq, Prod.mk.injEq] at h
      obtain ⟨rfl, rfl⟩ := h
      exact ⟨r, T1, rs, h1, h2, rfl⟩

theorem insertSeq_reachable {env : Env} {bs : Nat} :
    ∀ (calls : List Call) (T T' : XuckooNHashTable) (flags : List Bool),
      Reachable env bs T → insertSeq env calls T = .ok (flags, T') → Reachable env bs T' := by
  intro calls
  induction calls with
  | nil =>
    intro T T' flags hR h
    simp only [insertSeq, Res.ok.injEq, Prod.mk.injEq] at h
    obtain ⟨_, rfl⟩ := h
    exact hR
  | cons c cs ih =>
    intro T T' flags hR h
    obtain ⟨r, T1, rs, h1, h2, _⟩ := insertSeq_cons_ok h
    exact ih T1 T' rs (Reachable.insert _ _ _ _ _ _ hR h1) h2

theorem insertSeq_keys {env : Env} {bs : Nat} :
    ∀ (calls : List Call) (T T' : XuckooNHashTable) (flags : List Bool),
      Reachable env bs T → insertSeq env calls T = .ok (flags, T') →
      ∀ k, k ∈ allKeys T' ↔ (k ∈ allKeys T ∨ k ∈ calls.map Call.key) := by
  intro calls
  induction calls with
  | nil =>
    intro T T' flags _ h k
    simp only [insertSeq, Res.ok.injEq, Prod.mk.injEq] at h
    obtain ⟨_, rfl⟩ := h
    simp
  | cons c cs ih =>
    intro T T' flags hR h k
    obtain ⟨r, T1, rs, h1, h2, _⟩ := insertSeq_cons_ok h
    obtain ⟨_, hin, hout⟩ := hR.insert_step _ _ _ _ _ h1
    rw [ih T1 T' rs (Reachable.insert _ _ _ _ _ _ hR h1) h2 k]
    have hk1 : k ∈ allKeys T1 ↔ (k ∈ allKeys T ∨ k = c.key) := by
      by_cases hmem : c.key ∈ allKeys T
      · rw [(hin hmem).2]
        constructor
        · intro h; exact Or.inl h
        · rintro (h | h)
          · exact h
          · rw [h]; exact hmem
      · rw [(hout hmem).2.mem_iff, List.mem_cons]
        tauto
    rw [hk1, List.map_cons, List.mem_cons]
    tauto

theorem insertSeq_count {env : Env} :
    ∀ (calls : List Call) (T T' : XuckooNHashTable) (flags : List Bool),
      insertSeq env calls T = .ok (flags, T') →
      T'.table1.nkeys + T'.table2.nkeys = T.table1.nkeys + T.table2.nkeys + flags.count true := by
  intro calls
  induction calls with
  | nil =>
    intro T T' flags h
    simp only [insertSeq, Res.ok.injEq, Prod.mk.injEq] at h
    obtain ⟨rfl, rfl⟩ := h
    simp
  | cons c cs ih =>
    intro T T' flags h
    obtain ⟨r, T1, rs, h1, h2, rfl⟩ := insertSeq_cons_ok h
    rw [ih T1 T' rs h2]
    rcases insert_result env _ _ _ _ _ _ h1 with ⟨_, rfl, rfl⟩ | ⟨_, rfl, hc⟩
    · simp
    · rw [hc, List.count_cons_self]; omega

/-! ### Buckets and slots -/

/-- Under the structural invariant the keys of a table are the keys of the
buckets that its slots point to. -/
theorem Struct.mem_tableKeys_iff_slot {bs : Nat} {h : Int → Int} {t : InnerTable}
    (hS : Struct bs h t) (key : Int) :
    key ∈ tableKeys t ↔
      ∃ (i p : Nat) (b : Bucket), bucketAt t i = .ok (p, b) ∧ key ∈ b.keys.take b.nkeys := by
  rw [mem_tableKeys]
  constructor
  · rintro ⟨p, b, hb, hk⟩
    have hok := hS.bucket_ok p b hb
    have hlt : b.id < t.size := by
      rw [hS.size_eq]
      exact Nat.lt_of_lt_of_le hok.id_lt (Nat.pow_le_pow_right (by decide) hok.depth_le)
    have := (hS.slots b.id p b hlt hb).mpr (Nat.mod_eq_of_lt hok.id_lt)
    exact ⟨b.id, p, b, (bucketAt_ok_iff t _ p b).mpr ⟨this, hb⟩, hk⟩
  · rintro ⟨i, p, b, hb, hk⟩
    exact ⟨p, b, ((bucketAt_ok_iff t i p b).mp hb).2, hk⟩

theorem Struct.addrInv {bs : Nat} {h : Int → Int} {t : InnerTable} (hS : Struct bs h t) :
    AddrInv t := by
  intro i hi
  obtain ⟨p, b, h1, h2, h3⟩ := hS.slot_bucket i hi
  refine ⟨p, b, (bucketAt_ok_iff t i p b).mpr ⟨h1, h2⟩, ?_⟩
  rw [h3, Nat.mod_eq_of_lt (hS.bucket_ok p b h2).id_lt]

theorem flatMap_length_le (bs : Nat) :
    ∀ (l : List Bucket), (∀ b ∈ l, (bucketKeys b).length ≤ bs) →
      (l.flatMap bucketKeys).length ≤ l.length * bs := by
  intro l
  induction l with
  | nil => intro _; simp
  | cons x xs ih =>
    intro hl
    simp only [List.flatMap_cons, List.length_append, List.length_cons]
    have h1 := hl x (List.mem_cons_self _ _)
    have h2 := ih (fun b hb => hl b (List.mem_cons_of_mem _ hb))
    rw [Nat.add_mul, Nat.one_mul]
    omega

theorem Inv.nkeys_le {bs : Nat} {h : Int → Int} {t : InnerTable} (hI : Inv bs h t) :
    t.nkeys ≤ t.nbuckets * bs := by
  rw [hI.nkeys_eq, hI.struct.nbuckets_eq]
  apply flatMap_length_le
  intro b hb
  obtain ⟨p, hp⟩ := List.mem_iff_getElem?.mp hb
  have hok := hI.struct.bucket_ok p b hp
  simp only [bucketKeys, List.length_take]
  exact Nat.le_trans (Nat.min_le_left _ _) hok.nkeys_le



/-! ### The example runs -/

theorem exRun :
    insertSeq exEnv exCalls (new_xuckoon_hash_table exEnv 2) =
      .ok ([true, true, true], exTable) := by
  decide

theorem exRunDup :
    insertSeq exEnv exCallsDup (new_xuckoon_hash_table exEnv 2) =
      .ok ([true, true, true, false], exTable) := by
  decide

theorem exReach : Reachable exEnv 2 exTable :=
  insertSeq_reachable _ _ _ _ Reachable.fresh exRun

theorem exInsert5 :
    xuckoon_hash_table_insert exEnv 10 (fun _ => 0) (new_xuckoon_hash_table exEnv 2) 5 =
      .ok (true, exTable5) := by
  decide

/-! ## The contract of insert and lookup -/

/-- C1 (no key loss): for every bucket capacity `bs ≥ 1`, all hash functions,
every random source and every sequence of insert calls with pairwise distinct
keys on a fresh table, if every call returns then lookup returns true for every
key of the sequence afterwards. -/
theorem no_key_loss (env : Env) (bs : Nat) (_hbs : 1 ≤ bs) (calls : List Call)
    (_hdistinct : (calls.map Call.key).Nodup) (flags : List Bool) (T' : XuckooNHashTable)
    (hrun : insertSeq env calls (new_xuckoon_hash_table env bs) = .ok (flags, T')) :
    ∀ c ∈ calls, xuckoon_hash_table_lookup env T' c.key = .ok true := by
  intro c hc
  have hG' := (insertSeq_reachable _ _ _ _ Reachable.fresh hrun).ginv
  rw [lookup_eq hG']
  have := (insertSeq_keys calls _ _ _ Reachable.fresh hrun c.key).mpr
    (Or.inr (List.mem_map_of_mem _ hc))
  rw [decide_eq_true this]

theorem no_key_loss_witness :
    xuckoon_hash_table_lookup exEnv exTable 4 = .ok true ∧
    xuckoon_hash_table_lookup exEnv exTable 20 = .ok true ∧
    xuckoon_hash_table_lookup exEnv exTable 5 = .ok true :=
  have h := no_key_loss exEnv 2 (by decide) exCalls (by decide) _ _ exRun
  ⟨h ⟨4, 10, fun _ => 0⟩ (List.Mem.head _),
   h ⟨20, 10, fun _ => 0⟩ (List.Mem.tail _ (List.Mem.head _)),
   h ⟨5, 10, fun _ => 0⟩ (List.Mem.tail _ (List.Mem.tail _ (List.Mem.head _)))⟩

/-- C2 (insert result): an insert that returns has returned false exactly when
lookup of the key was true immediately before the call, and true exactly when
that lookup was false; this holds in every state, reachable or not. -/
theorem insert_result_iff (env : Env) (fuel : Nat) (rnd : Nat → Nat) (T : XuckooNHashTable)
    (key : Int) (r : Bool) (T' : XuckooNHashTable)
    (hrun : xuckoon_hash_table_insert env fuel rnd T key = .ok (r, T')) :
    (r = false ↔ xuckoon_hash_table_lookup env T key = .ok true) ∧
    (r = true ↔ xuckoon_hash_table_lookup env T key = .ok false) := by
  unfold xuckoon_hash_table_lookup
  rcases insert_result env fuel rnd T key r T' hrun with ⟨hf, rfl, _⟩ | ⟨hf, rfl, _⟩
  · rw [hf]; simp
  · rw [hf]; simp

theorem insert_result_iff_witness :
    (true = false ↔
      xuckoon_hash_table_lookup exEnv (new_xuckoon_hash_table exEnv 2) 5 = .ok true) ∧
    (true = true ↔
      xuckoon_hash_table_lookup exEnv (new_xuckoon_hash_table exEnv 2) 5 = .ok false) :=
  insert_result_iff exEnv 10 (fun _ => 0) (new_xuckoon_hash_table exEnv 2) 5 true exTable5
    exInsert5

/-- C3 (lookup is set membership): in every state reachable from a fresh table
by insert calls, lookup returns (without fault) whether the key is among the
stored keys, and it returns true exactly when some slot of one of the two inner
tables points to a bucket holding the key among its first `nkeys` entries. -/
theorem lookup_is_membership (env : Env) (bs : Nat) (T : XuckooNHashTable)
    (hR : Reachable env bs T) (key : Int) :
    xuckoon_hash_table_lookup env T key = .ok (decide (key ∈ allKeys T)) ∧
    (xuckoon_hash_table_lookup env T key = .ok true ↔
      ∃ (i p : Nat) (b : Bucket),
        (bucketAt T.table1 i = .ok (p, b) ∨ bucketAt T.table2 i = .ok (p, b)) ∧
        key ∈ b.keys.take b.nkeys) := by
  have hG := hR.ginv
  refine ⟨lookup_eq hG key, ?_⟩
  rw [lookup_eq hG key]
  simp only [Res.ok.injEq, decide_eq_true_eq]
  unfold allKeys
  rw [List.mem_append, hG.inv1.struct.mem_tableKeys_iff_slot, hG.inv2.struct.mem_tableKeys_iff_slot]
  constructor
  · rintro (⟨i, p, b, h1, h2⟩ | ⟨i, p, b, h1, h2⟩)
    · exact ⟨i, p, b, Or.inl h1, h2⟩
    · exact ⟨i, p, b, Or.inr h1, h2⟩
  · rintro ⟨i, p, b, h1 | h1, h2⟩
    · exact Or.inl ⟨i, p, b, h1, h2⟩
    · exact Or.inr ⟨i, p, b, h1, h2⟩

theorem lookup_is_membership_witness :
    xuckoon_hash_table_lookup exEnv exTable 5 = .ok (decide ((5 : Int) ∈ allKeys exTable)) ∧
    (xuckoon_hash_table_lookup exEnv exTable 5 = .ok true ↔
      ∃ (i p : Nat) (b : Bucket),
        (bucketAt exTable.table1 i = .ok (p, b) ∨ bucketAt exTable.table2 i = .ok (p, b)) ∧
        (5 : Int) ∈ b.keys.take b.nkeys) :=
  lookup_is_membership exEnv 2 exTable exReach 5

/-- C5 (insert only adds the inserted key): in every reachable state and for
every key that is not stored, after an insert that returns the keys stored in
all buckets of both inner tables are, as a multiset, the keys stored before plus
one occurrence of the inserted key. -/
theorem insert_adds_only_key (env : Env) (bs : Nat) (T : XuckooNHashTable)
    (hR : Reachable env bs T) (key : Int) (habsent : key ∉ allKeys T) (fuel : Nat)
    (rnd : Nat → Nat) (r : Bool) (T' : XuckooNHashTable)
    (hrun : xuckoon_hash_table_insert env fuel rnd T key = .ok (r, T')) :
    (allKeys T').Perm (key :: allKeys T) :=
  ((hR.insert_step fuel rnd key r T' hrun).2.2 habsent).2

theorem insert_adds_only_key_witness :
    (allKeys exTable5).Perm (5 :: allKeys (new_xuckoon_hash_table exEnv 2)) :=
  insert_adds_only_key exEnv 2 _ Reachable.fresh 5 (by decide) 10 (fun _ => 0)
    true exTable5 exInsert5

/-- C6 (uniqueness invariant): in every reachable state the list of the keys
stored in all buckets of both inner tables has no repetition, so every stored
key occurs exactly once in the whole structure. -/
theorem keys_unique (env : Env) (bs : Nat) (T : XuckooNHashTable)
    (hR : Reachable env bs T) :
    (allKeys T).Nodup ∧ ∀ k ∈ allKeys T, (allKeys T).count k = 1 :=
  ⟨hR.ginv.nodup, fun _ hk => List.count_eq_one_of_mem hR.ginv.nodup hk⟩

theorem keys_unique_witness :
    (allKeys exTable).Nodup ∧ ∀ k ∈ allKeys exTable, (allKeys exTable).count k = 1 :=
  keys_unique exEnv 2 exTable exReach

/-- C7 (duplicate insert does not mutate): when the duplicate check of insert
(`find_key` on the bucket addressed in table1 via h1, or else in table2 via h2)
finds the key, insert returns false and the structure (both inner tables with all
their buckets, and the bucket size) is unchanged. -/
theorem duplicate_insert_unchanged (env : Env) (fuel : Nat) (rnd : Nat → Nat)
    (T : XuckooNHashTable) (key : Int) (hfound : findEither env T key = .ok true) :
    xuckoon_hash_table_insert env fuel rnd T key = .ok (false, T) := by
  unfold xuckoon_hash_table_insert
  rw [hfound]

theorem duplicate_insert_unchanged_witness :
    findEither exEnv exTable 20 = .ok true ∧
    xuckoon_hash_table_insert exEnv 10 (fun _ => 0) exTable 20 = .ok (false, exTable) :=
  ⟨by decide, duplicate_insert_unchanged exEnv 10 (fun _ => 0) exTable 20 (by decide)⟩

/-- C8 (key counter total): after a sequence of insert calls on a fresh table
that all return, `table1.nkeys + table2.nkeys` is the number of calls that
returned true, which is the number of distinct keys of the calls. -/
theorem nkeys_total (env : Env) (bs : Nat) (calls : List Call) (flags : List Bool)
    (T' : XuckooNHashTable)
    (hrun : insertSeq env calls (new_xuckoon_hash_table env bs) = .ok (flags, T')) :
    T'.table1.nkeys + T'.table2.nkeys = flags.count true ∧
    flags.count true = ((calls.map Call.key).dedup).length := by
  have hc := insertSeq_count calls _ _ _ hrun
  have hc' : T'.table1.nkeys + T'.table2.nkeys = flags.count true := by
    rw [hc]; simp [new_xuckoon_hash_table, initialise_table]
  refine ⟨hc', ?_⟩
  have hG' := (insertSeq_reachable _ _ _ _ Reachable.fresh hrun).ginv
  have hmem := insertSeq_keys calls _ _ _ Reachable.fresh hrun
  have hperm : (allKeys T').Perm ((calls.map Call.key).dedup) := by
    rw [List.perm_ext_iff_of_nodup hG'.nodup (List.nodup_dedup _)]
    intro k
    rw [hmem k, List.mem_dedup]
    have : k ∉ allKeys (new_xuckoon_hash_table env bs) := by
      simp [allKeys, new_xuckoon_hash_table, initialise_table, tableKeys, bucketKeys, new_bucket]
    tauto
  rw [← hc', ← hperm.length_eq, hG'.inv1.nkeys_eq, hG'.inv2.nkeys_eq]
  simp [allKeys]

theorem nkeys_total_witness :
    exTable.table1.nkeys + exTable.table2.nkeys = [true, true, true, false].count true ∧
    [true, true, true, false].count true = ((exCallsDup.map Call.key).dedup).length :=
  nkeys_total exEnv 2 exCallsDup _ exTable exRunDup

/-- C9 (capacity bound on counters): in every reachable state, for each of the
two inner tables, `nbuckets * bucketsize ≥ nkeys`. -/
theorem capacity_bound (env : Env) (bs : Nat) (T : XuckooNHashTable)
    (hR : Reachable env bs T) :
    T.table1.nkeys ≤ T.table1.nbuckets * T.bucketsize ∧
    T.table2.nkeys ≤ T.table2.nbuckets * T.bucketsize := by
  have hG := hR.ginv
  rw [hG.bucketsize_eq]
  exact ⟨hG.inv1.nkeys_le, hG.inv2.nkeys_le⟩

theorem capacity_bound_witness :
    exTable.table1.nkeys ≤ exTable.table1.nbuckets * exTable.bucketsize ∧
    exTable.table2.nkeys ≤ exTable.table2.nbuckets * exTable.bucketsize :=
  capacity_bound exEnv 2 exTable exReach

/-- C10 (directory address invariant): every slot `i < size` of an inner table
points to a bucket `b` with `i mod 2^b.depth = b.id mod 2^b.depth`.  This holds
after `initialise_table`, in both inner tables of every reachable state (so it is
preserved by insert), and after `double_table` and `split_bucket` applied to a
table satisfying the structural invariant. -/
theorem address_invariant (env : Env) (bs : Nat) :
    AddrInv (initialise_table env.junk bs) ∧
    (∀ T, Reachable env bs T → AddrInv T.table1 ∧ AddrInv T.table2) ∧
    (∀ (h : Int → Int) (t t' : InnerTable), Struct bs h t → double_table env t = .ok t' →
      AddrInv t') ∧
    (∀ (h : Int → Int) (t t' : InnerTable) (address : Nat), Struct bs h t → address < t.size →
      split_bucket env t address bs h = .ok t' → AddrInv t') := by
  refine ⟨(initialise_table_inv env.junk bs env.h1).struct.addrInv, ?_, ?_, ?_⟩
  · intro T hR
    have hG := hR.ginv
    exact ⟨hG.inv1.struct.addrInv, hG.inv2.struct.addrInv⟩
  · intro h t t' hS hd
    rw [double_table_eq] at hd
    split at hd
    · simp only [Res.ok.injEq] at hd
      subst hd
      exact hS.double.addrInv
    · exact absurd hd (by simp)
  · intro h t t' address hS ha hs
    rcases split_bucket_spec env hS address ha with hf | ⟨t2, e1, e2, _⟩
    · rw [hf] at hs; exact absurd hs (by simp)
    · rw [e1] at hs
      simp only [Res.ok.injEq] at hs
      subst hs
      exact e2.addrInv



/-! ### Three colliding keys at capacity 1 -/

theorem cex_step (fuel : Nat) (x a b : Int) (reps : Nat) (rnd : Nat → Nat) :
    insert_key cexEnv 1 (fuel + 1) x (cexSingle a) (cexSingle b) (fun _ => 0) (fun _ => 0)
        reps rnd =
      if reps ≥ 1000 then .fault .tableTooLarge
      else
        match insert_key cexEnv 1 fuel a (cexSingle b) (cexSingle x) (fun _ => 0) (fun _ => 0)
            (reps + 1) (fun i => rnd (i + 1)) with
        | .fault e => .fault e
        | .ok (r, tB, tA, reps) => .ok (r, tA, tB, reps) := by
  have haddr : addressOf (cexSingle a) (fun _ => 0) x = .ok 0 := by
    rw [addressOf_eq]; rfl
  have hb : bucketAt (cexSingle a) 0 = .ok (0, { id := 0, depth := 0, nkeys := 1, keys := [a] }) :=
    rfl
  rw [insert_key, haddr]
  simp only [hb]
  have hsplit : split_bucket cexEnv (cexSingle x) 0 1 (fun _ => 0) = .fault .tableTooLarge := rfl
  by_cases hrep : reps ≥ 1000
  · simp only [cexSingle] at hsplit
    simp [hrep, cexSingle, Nat.mod_one, hsplit]
  · simp [hrep, cexSingle, Nat.mod_one]

theorem cex_chain_never_ok :
    ∀ (fuel : Nat) (x a b : Int) (reps : Nat) (rnd : Nat → Nat),
      insert_key cexEnv 1 fuel x (cexSingle a) (cexSingle b) (fun _ => 0) (fun _ => 0) reps rnd
        = .fault .outOfFuel ∨
      insert_key cexEnv 1 fuel x (cexSingle a) (cexSingle b) (fun _ => 0) (fun _ => 0) reps rnd
        = .fault .tableTooLarge := by
  intro fuel
  induction fuel with
  | zero => intro x a b reps rnd; left; rfl
  | succ fuel ih =>
    intro x a b reps rnd
    rw [cex_step]
    by_cases hrep : reps ≥ 1000
    · right; rw [if_pos hrep]
    · rw [if_neg hrep]
      rcases ih a b x (reps + 1) (fun i => rnd (i + 1)) with h | h
      · left; rw [h]
      · right; rw [h]

theorem cex_chain_asserts :
    ∀ (n extra : Nat) (x a b : Int) (reps : Nat) (rnd : Nat → Nat), reps + n = 1000 →
      insert_key cexEnv 1 (n + 1 + extra) x (cexSingle a) (cexSingle b) (fun _ => 0)
        (fun _ => 0) reps rnd = .fault .tableTooLarge := by
  intro n
  induction n with
  | zero =>
    intro extra x a b reps rnd hr
    rw [show 0 + 1 + extra = extra + 1 by omega, cex_step, if_pos (by omega)]
  | succ n ih =>
    intro extra x a b reps rnd hr
    rw [show n + 1 + 1 + extra = (n + 1 + extra) + 1 by omega, cex_step, if_neg (by omega),
      ih extra a b x (reps + 1) (fun i => rnd (i + 1)) (by omega)]

theorem cex_insert_eq (fuel : Nat) (rnd : Nat → Nat) :
    xuckoon_hash_table_insert cexEnv fuel rnd cexTable 3 =
      match insert_key cexEnv 1 fuel 3 (cexSingle 1) (cexSingle 2) (fun _ => 0) (fun _ => 0)
          0 rnd with
      | .fault e => .fault e
      | .ok (inserted, tA, tB, _) =>
        .ok (inserted, { cexTable with table1 := tA, table2 := tB }) := rfl

theorem cexReach : Reachable cexEnv 1 cexTable :=
  insertSeq_reachable [⟨1, 10, fun _ => 0⟩, ⟨2, 10, fun _ => 0⟩] _ _ [true, true]
    Reachable.fresh (by decide)

/-- C4 as stated fails: with bucket capacity 1, hash functions under which all
keys collide and a size ceiling of 2, the table holding the keys 1 and 2 is
reachable and does not hold the key 3, yet no insert of 3 returns: it evicts 1000
times and then fails the size assertion of `double_table` (or, in the model, runs
out of fuel before that). -/
theorem idempotent_insert_counterexample :
    Reachable cexEnv 1 cexTable ∧ (3 : Int) ∉ allKeys cexTable ∧
    (∀ (fuel : Nat) (rnd : Nat → Nat) (r : Bool) (T1 : XuckooNHashTable),
      xuckoon_hash_table_insert cexEnv fuel rnd cexTable 3 ≠ .ok (r, T1)) ∧
    (∀ (fuel : Nat) (rnd : Nat → Nat), 1001 ≤ fuel →
      xuckoon_hash_table_insert cexEnv fuel rnd cexTable 3 = .fault .tableTooLarge) := by
  refine ⟨cexReach, by decide, ?_, ?_⟩
  · intro fuel rnd r T1 h
    rw [cex_insert_eq] at h
    rcases cex_chain_never_ok fuel 3 1 2 0 rnd with e | e
    · rw [e] at h; exact absurd h (by simp)
    · rw [e] at h; exact absurd h (by simp)
  · intro fuel rnd hf
    rw [cex_insert_eq]
    obtain ⟨extra, rfl⟩ : ∃ extra, fuel = 1000 + 1 + extra := ⟨fuel - 1001, by omega⟩
    rw [cex_chain_asserts 1000 extra 3 1 2 0 rnd (by omega)]

/-- C4, amended (idempotent insert): in every reachable state and for every key
that is not stored, if the first insert of the key returns, it returns true and
lookup of the key is true afterwards; a second insert of the key then returns
false for every fuel and random source and leaves the structure as it is, so that
lookup of the key is still true. -/
theorem idempotent_insert (env : Env) (bs : Nat) (T : XuckooNHashTable)
    (hR : Reachable env bs T) (key : Int) (habsent : key ∉ allKeys T) (fuel : Nat)
    (rnd : Nat → Nat) (r : Bool) (T1 : XuckooNHashTable)
    (hrun : xuckoon_hash_table_insert env fuel rnd T key = .ok (r, T1)) :
    r = true ∧ xuckoon_hash_table_lookup env T1 key = .ok true ∧
    ∀ (fuel' : Nat) (rnd' : Nat → Nat),
      xuckoon_hash_table_insert env fuel' rnd' T1 key = .ok (false, T1) := by
  obtain ⟨hG1, _, hout⟩ := hR.insert_step fuel rnd key r T1 hrun
  obtain ⟨hr, hperm⟩ := hout habsent
  have hmem : key ∈ allKeys T1 := hperm.mem_iff.mpr (List.mem_cons_self _ _)
  have hlook : xuckoon_hash_table_lookup env T1 key = .ok true := by
    rw [lookup_eq hG1, decide_eq_true hmem]
  refine ⟨hr, hlook, ?_⟩
  intro fuel' rnd'
  unfold xuckoon_hash_table_insert
  unfold xuckoon_hash_table_lookup at hlook
  rw [hlook]

theorem idempotent_insert_witness :
    true = true ∧ xuckoon_hash_table_lookup exEnv exTable5 5 = .ok true ∧
    ∀ (fuel' : Nat) (rnd' : Nat → Nat),
      xuckoon_hash_table_insert exEnv fuel' rnd' exTable5 5 = .ok (false, exTable5) :=
  idempotent_insert exEnv 2 _ Reachable.fresh 5 (by decide) 10 (fun _ => 0)
    true exTable5 exInsert5



/-! ### The directory fields under the operations (no invariant needed) -/

theorem appendKey_frame {t t' : InnerTable} {p : Nat} {b : Bucket} {key : Int}
    (h : appendKey t p b key = .ok t') :
    t'.buckets = t.buckets ∧ t'.size = t.size ∧ t'.depth = t.depth ∧
      t'.nbuckets = t.nbuckets := by
  unfold appendKey at h
  split at h
  · simp only [Res.ok.injEq] at h; subst h; exact ⟨rfl, rfl, rfl, rfl⟩
  · exact absurd h (by simp)

theorem reinsert_key_frame {t t' : InnerTable} {key : Int} {h : Int → Int}
    (hr : reinsert_key t key h = .ok t') :
    t'.buckets = t.buckets ∧ t'.size = t.size ∧ t'.depth = t.depth ∧
      t'.nbuckets = t.nbuckets := by
  unfold reinsert_key at hr
  split at hr
  · exact absurd hr (by simp)
  · split at hr
    · exact absurd hr (by simp)
    · exact appendKey_frame hr

theorem reinsert_loop_frame (h : Int → Int) (p : Nat) :
    ∀ (n i : Nat) (t t' : InnerTable), reinsert_loop h p i n t = .ok t' →
      t'.buckets = t.buckets ∧ t'.size = t.size ∧ t'.depth = t.depth ∧
        t'.nbuckets = t.nbuckets := by
  intro n
  induction n with
  | zero =>
    intro i t t' hr
    simp only [reinsert_loop, Res.ok.injEq] at hr
    subst hr; exact ⟨rfl, rfl, rfl, rfl⟩
  | succ n ih =>
    intro i t t' hr
    unfold reinsert_loop at hr
    split at hr
    · exact absurd hr (by simp)
    · split at hr
      · exact absurd hr (by simp)
      · split at hr
        · exact absurd hr (by simp)
        · rename_i t1 h1
          obtain ⟨a1, a2, a3, a4⟩ := ih _ _ _ hr
          obtain ⟨b1, b2, b3, b4⟩ := reinsert_key_frame h1
          exact ⟨a1.trans b1, a2.trans b2, a3.trans b3, a4.trans b4⟩

theorem split_rest_frame {env : Env} {t t' : InnerTable} {address bs : Nat} {h : Int → Int}
    (hr : split_rest env t address bs h = .ok t') :
    t'.size = t.size ∧ t'.depth = t.depth ∧ t'.nbuckets = t.nbuckets + 1 := by
  unfold split_rest at hr
  split at hr
  · exact absurd hr (by simp)
  · simp only at hr
    split at hr
    · exact absurd hr (by simp)
    · split at hr
      · exact absurd hr (by simp)
      · split at hr
        · exact absurd hr (by simp)
        · have := reinsert_loop_frame _ _ _ _ _ _ hr
          exact ⟨this.2.1, this.2.2.1, this.2.2.2⟩

/-- The directory fields after a returning `split_bucket`: one more bucket, and
the table is doubled exactly when the bucket at the address had the depth of the
table. -/
theorem split_bucket_frame {env : Env} {t t' : InnerTable} {address bs : Nat} {h : Int → Int}
    (hr : split_bucket env t address bs h = .ok t') :
    t'.nbuckets = t.nbuckets + 1 ∧
    ∃ p b0, bucketAt t address = .ok (p, b0) ∧
      ((b0.depth = t.depth ∧ t.size * 2 < env.MAX_TABLE_SIZE ∧ t'.size = t.size * 2 ∧
          t'.depth = t.depth + 1) ∨
       (b0.depth ≠ t.depth ∧ t'.size = t.size ∧ t'.depth = t.depth)) := by
  unfold split_bucket at hr
  split at hr
  · exact absurd hr (by simp)
  · rename_i p b0 hb
    split at hr
    · exact absurd hr (by simp)
    · rename_i td hd
      obtain ⟨f1, f2, f3⟩ := split_rest_frame hr
      split at hd
      · rename_i hdep
        rw [double_table_eq] at hd
        split at hd
        · rename_i hmax
          simp only [Res.ok.injEq] at hd
          subst hd
          exact ⟨f3, p, b0, hb, Or.inl ⟨hdep, hmax, f1, f2⟩⟩
        · exact absurd hd (by simp)
      · rename_i hdep
        simp only [Res.ok.injEq] at hd
        subst hd
        exact ⟨f3, p, b0, hb, Or.inr ⟨hdep, f1, f2⟩⟩

theorem SizeOK.split {env : Env} {t t' : InnerTable} {address bs : Nat} {h : Int → Int}
    (hs : SizeOK env t) (hr : split_bucket env t address bs h = .ok t') : SizeOK env t' := by
  obtain ⟨_, p, b0, _, hc | hc⟩ := split_bucket_frame hr
  · right; rw [hc.2.2.1]; exact hc.2.1
  · unfold SizeOK at hs ⊢; rw [hc.2.1]; exact hs

/-- A returning `insert_key` has only raised the replacement counter, has
performed one `split_bucket` (each adding one bucket) for every eviction made
with the counter at 1000 or more, and keeps the size bound of both tables. -/
theorem insert_key_frame (env : Env) (bs : Nat) :
    ∀ (fuel : Nat) (key : Int) (tA tB : InnerTable) (hA hB : Int → Int) (reps : Nat)
      (rnd : Nat → Nat) (r : Bool) (tA' tB' : InnerTable) (reps' : Nat),
      insert_key env bs fuel key tA tB hA hB reps rnd = .ok (r, tA', tB', reps') →
      reps ≤ reps' ∧
      tA'.nbuckets + tB'.nbuckets =
        tA.nbuckets + tB.nbuckets + ((reps' - 1000) - (reps - 1000)) ∧
      (SizeOK env tA → SizeOK env tB → SizeOK env tA' ∧ SizeOK env tB') := by
  intro fuel
  induction fuel with
  | zero =>
    intro key tA tB hA hB reps rnd r tA' tB' reps' hrun
    simp [insert_key] at hrun
  | succ fuel ih =>
    intro key tA tB hA hB reps rnd r tA' tB' reps' hrun
    unfold insert_key at hrun
    split at hrun
    · exact absurd hrun (by simp)
    · split at hrun
      · exact absurd hrun (by simp)
      · rename_i p b _
        simp only at hrun
        split at hrun
        · split at hrun
          · exact absurd hrun (by simp)
          · rename_i t1 h1
            simp only [Res.ok.injEq, Prod.mk.injEq] at hrun
            obtain ⟨rfl, rfl, rfl, rfl⟩ := hrun
            obtain ⟨_, f2, _, f4⟩ := appendKey_frame h1
            refine ⟨Nat.le_refl _, ?_, ?_⟩
            · show t1.nbuckets + tB.nbuckets = _
              rw [f4]; omega
            · intro sA sB
              refine ⟨?_, sB⟩
              show t1.size = 1 ∨ t1.size < env.MAX_TABLE_SIZE
              rw [f2]; exact sA
        · split at hrun
          · exact absurd hrun (by simp)
          · split at hrun
            · exact absurd hrun (by simp)
            · split at hrun
              · exact absurd hrun (by simp)
              · rename_i tA2 h2
                split at hrun
                · exact absurd hrun (by simp)
                · rename_i r0 tB0 tA0 reps0 hrec
                  simp only [Res.ok.injEq, Prod.mk.injEq] at hrun
                  obtain ⟨rfl, rfl, rfl, rfl⟩ := hrun
                  obtain ⟨g1, g2, g3⟩ := ih _ _ _ _ _ _ _ _ _ _ _ hrec
                  split at h2
                  · rename_i hrep
                    have hf := split_bucket_frame h2
                    have hnb : tA2.nbuckets = tA.nbuckets + 1 := hf.1
                    refine ⟨by omega, by omega, ?_⟩
                    intro sA sB
                    have sA2 : SizeOK env tA2 := by
                      refine SizeOK.split ?_ h2
                      exact sA
                    exact (g3 sB sA2).symm
                  · rename_i hrep
                    simp only [Res.ok.injEq] at h2
                    subst h2
                    refine ⟨by omega, ?_, ?_⟩
                    · have : tA.nbuckets = tA.nbuckets := rfl
                      simp only at g2
                      omega
                    · intro sA sB
                      exact (g3 sB sA).symm



/-! ### Size bound and number of buckets -/

theorem insert_sizeOK {env : Env} {fuel : Nat} {rnd : Nat → Nat} {T T' : XuckooNHashTable}
    {key : Int} {r : Bool} (h1 : SizeOK env T.table1) (h2 : SizeOK env T.table2)
    (hrun : xuckoon_hash_table_insert env fuel rnd T key = .ok (r, T')) :
    SizeOK env T'.table1 ∧ SizeOK env T'.table2 := by
  unfold xuckoon_hash_table_insert at hrun
  split at hrun
  · exact absurd hrun (by simp)
  · simp only [Res.ok.injEq, Prod.mk.injEq] at hrun
    obtain ⟨_, rfl⟩ := hrun
    exact ⟨h1, h2⟩
  · split at hrun
    · split at hrun
      · exact absurd hrun (by simp)
      · rename_i r0 tA tB reps hrec
        simp only [Res.ok.injEq, Prod.mk.injEq] at hrun
        obtain ⟨_, rfl⟩ := hrun
        exact (insert_key_frame env _ _ _ _ _ _ _ _ _ _ _ _ _ hrec).2.2 h1 h2
    · split at hrun
      · exact absurd hrun (by simp)
      · rename_i r0 tA tB reps hrec
        simp only [Res.ok.injEq, Prod.mk.injEq] at hrun
        obtain ⟨_, rfl⟩ := hrun
        exact ((insert_key_frame env _ _ _ _ _ _ _ _ _ _ _ _ _ hrec).2.2 h2 h1).symm

theorem Reachable.sizeOK {env : Env} {bs : Nat} {T : XuckooNHashTable}
    (hR : Reachable env bs T) : SizeOK env T.table1 ∧ SizeOK env T.table2 := by
  induction hR with
  | fresh => exact ⟨Or.inl rfl, Or.inl rfl⟩
  | insert fuel rnd T key r T' _ hrun ih => exact insert_sizeOK ih.1 ih.2 hrun

/-- Under the structural invariant distinct buckets have distinct ids below the
table size, so there are at most `size` buckets. -/
theorem Struct.nbuckets_le_size {bs : Nat} {h : Int → Int} {t : InnerTable}
    (hS : Struct bs h t) : t.nbuckets ≤ t.size := by
  rw [hS.nbuckets_eq]
  have hid : ∀ (p : Fin t.heap.length), (t.heap[p.1]).id < t.size := by
    intro p
    have hb : t.heap[p.1]? = some t.heap[p.1] := List.getElem?_eq_getElem p.2
    have hok := hS.bucket_ok _ _ hb
    rw [hS.size_eq]
    exact Nat.lt_of_lt_of_le hok.id_lt (Nat.pow_le_pow_right (by decide) hok.depth_le)
  have hinj : Function.Injective
      (fun p : Fin t.heap.length => (⟨(t.heap[p.1]).id, hid p⟩ : Fin t.size)) := by
    intro p q hpq
    simp only [Fin.mk.injEq] at hpq
    have hbp : t.heap[p.1]? = some t.heap[p.1] := List.getElem?_eq_getElem p.2
    have hbq : t.heap[q.1]? = some t.heap[q.1] := List.getElem?_eq_getElem q.2
    have e1 := (hS.slots _ p.1 _ (hid p) hbp).mpr
      (Nat.mod_eq_of_lt (hS.bucket_ok _ _ hbp).id_lt)
    have e2 := (hS.slots _ q.1 _ (hid q) hbq).mpr
      (Nat.mod_eq_of_lt (hS.bucket_ok _ _ hbq).id_lt)
    rw [hpq, e2] at e1
    exact Fin.ext (Option.some.inj e1).symm
  have := Fintype.card_le_of_injective _ hinj
  simpa using this

theorem SizeOK.le {env : Env} {t : InnerTable} (hs : SizeOK env t) :
    t.size ≤ env.MAX_TABLE_SIZE + 1 := by
  rcases hs with h | h <;> omega

/-! ### Termination of the eviction chain -/

/-- On tables satisfying the invariant `insert_key` returns, fails the size
assertion, or runs out of fuel; it never meets undefined behaviour, and it runs
out of fuel only when the fuel is at most the evictions left before the counter
reaches 1000 plus the buckets that can still be allocated. -/
theorem insert_key_total (env : Env) {bs : Nat} (hbs : 1 ≤ bs) :
    ∀ (fuel : Nat) (key : Int) (tA tB : InnerTable) (hA hB : Int → Int) (reps : Nat)
      (rnd : Nat → Nat),
      Inv bs hA tA → Inv bs hB tB → SizeOK env tA → SizeOK env tB →
      (∃ res, insert_key env bs fuel key tA tB hA hB reps rnd = .ok res) ∨
      insert_key env bs fuel key tA tB hA hB reps rnd = .fault .tableTooLarge ∨
      (insert_key env bs fuel key tA tB hA hB reps rnd = .fault .outOfFuel ∧
        fuel ≤ (1000 - reps) +
          (2 * (env.MAX_TABLE_SIZE + 1) - (tA.nbuckets + tB.nbuckets))) := by
  intro fuel
  induction fuel with
  | zero =>
    intro key tA tB hA hB reps rnd _ _ _ _
    right; right
    exact ⟨rfl, Nat.zero_le _⟩
  | succ fuel ih =>
    intro key tA tB hA hB reps rnd hIA hIB sA sB
    have hS := hIA.struct
    obtain ⟨p, b, h1, h2, hpl, _⟩ := hS.home key
    have hok := hS.bucket_ok p b h2
    unfold insert_key
    rw [addressOf_eq]
    simp only
    rw [(bucketAt_ok_iff tA _ p b).mpr ⟨h1, h2⟩]
    simp only
    by_cases hfull : b.nkeys = bs
    · rw [if_neg (by simpa using hfull)]
      have hne : b.nkeys ≠ 0 := by omega
      rw [if_neg hne]
      have hri : rnd 0 % b.nkeys < b.nkeys := Nat.mod_lt _ (by omega)
      have hril : rnd 0 % b.nkeys < b.keys.length := by rw [hok.keys_len]; omega
      rw [List.getElem?_eq_getElem hril]
      simp only
      obtain ⟨hS1, hperm1⟩ := replace_spec hS p b key b.keys[rnd 0 % b.nkeys] (rnd 0 % b.nkeys)
        h2 hri (List.getElem?_eq_getElem hril) hpl
      obtain ⟨tA1, htA1⟩ : ∃ tA1 : InnerTable, tA1 =
          { tA with
            heap := tA.heap.set p { b with keys := b.keys.set (rnd 0 % b.nkeys) key } } :=
        ⟨_, rfl⟩
      have hnk1 : tA1.nkeys = tA.nkeys := by rw [htA1]
      have hnb1 : tA1.nbuckets = tA.nbuckets := by rw [htA1]
      have hsz1 : SizeOK env tA1 := by rw [htA1]; exact sA
      rw [← htA1] at hS1 hperm1 ⊢
      have hI1 : Inv bs hA tA1 := by
        refine ⟨hS1, ?_⟩
        rw [hnk1, hIA.nkeys_eq]
        have := hperm1.length_eq
        simp only [List.length_cons] at this
        omega
      have hbA := hS1.nbuckets_le_size
      have hbB := hIB.struct.nbuckets_le_size
      have hlA := hsz1.le
      have hlB := sB.le
      by_cases hrep : reps ≥ 1000
      · rw [if_pos hrep]
        have hlt : addr tA.depth (hA key) < tA1.size := by
          rw [htA1]; exact hS.addr_lt_size _
        rcases split_bucket_spec env hS1 (addr tA.depth (hA key)) hlt
          with hfl | ⟨tA2, e1, e2, e3, e4, e5⟩
        · right; left; rw [hfl]
        · rw [e1]
          simp only
          have hI2 : Inv bs hA tA2 := ⟨e2, by rw [e4, hI1.nkeys_eq, e3.length_eq]⟩
          have hsz2 : SizeOK env tA2 := SizeOK.split hsz1 e1
          have hb2 := e2.nbuckets_le_size
          have hl2 := hsz2.le
          rcases ih b.keys[rnd 0 % b.nkeys] tB tA2 hB hA (reps + 1) (fun i => rnd (i + 1))
            hIB hI2 sB hsz2 with ⟨res, hres⟩ | hres | ⟨hres, hle⟩
          · left
            obtain ⟨r0, tB0, tA0, reps0⟩ := res
            rw [hres]
            exact ⟨_, rfl⟩
          · right; left; rw [hres]
          · right; right
            rw [hres]
            exact ⟨rfl, by omega⟩
      · rw [if_neg hrep]
        simp only
        rcases ih b.keys[rnd 0 % b.nkeys] tB tA1 hB hA (reps + 1) (fun i => rnd (i + 1))
          hIB hI1 sB hsz1 with ⟨res, hres⟩ | hres | ⟨hres, hle⟩
        · left
          obtain ⟨r0, tB0, tA0, reps0⟩ := res
          rw [hres]
          exact ⟨_, rfl⟩
        · right; left; rw [hres]
        · right; right
          rw [hres]
          exact ⟨rfl, by omega⟩
    · rw [if_pos (by simpa using hfull)]
      have hlt : b.nkeys < bs := Nat.lt_of_le_of_ne hok.nkeys_le hfull
      obtain ⟨t', e1, _⟩ := appendKey_spec hS p b key h2 hlt hpl
      rw [e1]
      left
      exact ⟨_, rfl⟩

/-- What an insert call does in a reachable state of capacity at least 1: it
returns, fails the size assertion, or (in the model) runs out of fuel, which
needs a fuel of at most `1002 + 2 * MAX_TABLE_SIZE`. -/
theorem Reachable.insert_total {env : Env} {bs : Nat} (hbs : 1 ≤ bs) {T : XuckooNHashTable}
    (hR : Reachable env bs T) (fuel : Nat) (rnd : Nat → Nat) (key : Int) :
    (∃ r T', xuckoon_hash_table_insert env fuel rnd T key = .ok (r, T')) ∨
    xuckoon_hash_table_insert env fuel rnd T key = .fault .tableTooLarge ∨
    (xuckoon_hash_table_insert env fuel rnd T key = .fault .outOfFuel ∧
      fuel ≤ 1002 + 2 * env.MAX_TABLE_SIZE) := by
  have hG := hR.ginv
  have hs := hR.sizeOK
  unfold xuckoon_hash_table_insert
  rw [findEither_eq hG.inv1.struct hG.inv2.struct]
  by_cases hmem : key ∈ allKeys T
  · rw [decide_eq_true hmem]
    left; exact ⟨_, _, rfl⟩
  · rw [decide_eq_false hmem, hG.bucketsize_eq]
    simp only
    by_cases hle : T.table1.nkeys ≤ T.table2.nkeys
    · rw [if_pos hle]
      rcases insert_key_total env hbs fuel key T.table1 T.table2 env.h1 env.h2 0 rnd
        hG.inv1 hG.inv2 hs.1 hs.2 with ⟨res, hres⟩ | hres | ⟨hres, hb⟩
      · obtain ⟨r0, tA, tB, reps⟩ := res
        rw [hres]; left; exact ⟨_, _, rfl⟩
      · rw [hres]; right; left; rfl
      · rw [hres]; right; right; exact ⟨rfl, by omega⟩
    · rw [if_neg hle]
      rcases insert_key_total env hbs fuel key T.table2 T.table1 env.h2 env.h1 0 rnd
        hG.inv2 hG.inv1 hs.2 hs.1 with ⟨res, hres⟩ | hres | ⟨hres, hb⟩
      · obtain ⟨r0, tA, tB, reps⟩ := res
        rw [hres]; left; exact ⟨_, _, rfl⟩
      · rw [hres]; right; left; rfl
      · rw [hres]; right; right; exact ⟨rfl, by omega⟩



/-! ### Counting the slots of a bucket -/

theorem count_eq_countP_range (p : Nat) :
    ∀ (l : List Nat), l.count p = (List.range l.length).countP (fun i => decide (l[i]? = some p)) := by
  intro l
  induction l with
  | nil => simp
  | cons a l ih =>
    rw [List.length_cons, List.range_succ_eq_map, List.countP_cons, List.countP_map,
      List.count_cons, ih]
    have e : ((fun i => decide ((a :: l)[i]? = some p)) ∘ Nat.succ)
        = (fun i => decide (l[i]? = some p)) := by
      funext i
      simp
    rw [e]
    congr 1
    by_cases hap : a = p
    · simp [hap]
    · have : ¬ p = a := fun e => hap e.symm
      simp [hap]

theorem countP_mod (d f : Nat) (hf : f < 2 ^ d) :
    ∀ e, (List.range (2 ^ (d + e))).countP (fun i => decide (i % 2 ^ d = f)) = 2 ^ e := by
  intro e
  induction e with
  | zero =>
    rw [Nat.add_zero, Nat.pow_zero]
    have h1 : (List.range (2 ^ d)).countP (fun i => decide (i % 2 ^ d = f))
        = (List.range (2 ^ d)).countP (fun i => decide (i = f)) := by
      apply List.countP_congr
      intro i hi
      rw [List.mem_range] at hi
      simp [Nat.mod_eq_of_lt hi]
    rw [h1]
    have h2 : (List.range (2 ^ d)).countP (fun i => decide (i = f))
        = (List.range (2 ^ d)).count f := by
      rw [List.count]
      apply List.countP_congr
      intro i _
      simp
    rw [h2]
    exact List.count_eq_one_of_mem (List.nodup_range _) (List.mem_range.mpr hf)
  | succ e ih =>
    have hp : 2 ^ (d + (e + 1)) = 2 ^ (d + e) + 2 ^ (d + e) := by
      rw [← Nat.add_assoc, pow_succ]; omega
    rw [hp, List.range_add, List.countP_append, List.countP_map, ih]
    have e2 : ((fun i => decide (i % 2 ^ d = f)) ∘ fun x => 2 ^ (d + e) + x)
        = (fun i => decide (i % 2 ^ d = f)) := by
      funext i
      have : (2 ^ (d + e) + i) % 2 ^ d = i % 2 ^ d := by
        rw [pow_add, Nat.add_comm, Nat.add_mul_mod_self_left]
      simp [this]
    rw [e2, ih, pow_succ]
    omega

/-- Under the structural invariant a bucket of depth `d` in a table of depth `D`
is referenced by exactly `2^(D - d)` slots. -/
theorem Struct.count_slots {bs : Nat} {h : Int → Int} {t : InnerTable} (hS : Struct bs h t)
    (p : Nat) (b : Bucket) (hb : t.heap[p]? = some b) :
    t.buckets.count p = 2 ^ (t.depth - b.depth) := by
  have hok := hS.bucket_ok p b hb
  rw [count_eq_countP_range, hS.len_eq, hS.size_eq]
  have h1 : (List.range (2 ^ t.depth)).countP (fun i => decide (t.buckets[i]? = some p))
      = (List.range (2 ^ t.depth)).countP (fun i => decide (i % 2 ^ b.depth = b.id)) := by
    apply List.countP_congr
    intro i hi
    rw [List.mem_range, ← hS.size_eq] at hi
    simp only [decide_eq_true_eq]
    exact hS.slots i p b hi hb
  rw [h1]
  have hD : t.depth = b.depth + (t.depth - b.depth) := by
    have := hok.depth_le; omega
  conv_lhs => rw [hD]
  exact countP_mod b.depth b.id hok.id_lt _

/-! ### Key placement -/

theorem Struct.keyPlaced {bs : Nat} {h : Int → Int} {t : InnerTable} (hS : Struct bs h t) :
    KeyPlaced h t := by
  intro p b k hb hk
  obtain ⟨p0, b0, g1, g2, _, huniq⟩ := hS.home k
  have hp := huniq p b hb hk
  subst hp
  rw [hb] at g2
  cases g2
  have hok := hS.bucket_ok p b hb
  have hpl := hok.placed k hk
  refine ⟨⟨_, addressOf_eq t h k, (bucketAt_ok_iff t _ p b).mpr ⟨g1, hb⟩⟩, ?_⟩
  rw [rightmostnbits_eq_emod, rightmostnbits_eq_emod]
  have hnn : 0 ≤ h k % (2 : Int) ^ b.depth := Int.emod_nonneg _ (by positivity)
  have e1 : h k % (2 : Int) ^ b.depth = ((addr b.depth (h k) : Nat) : Int) := by
    unfold addr
    rw [Int.toNat_of_nonneg hnn]
  have e2 : ((b.id : Nat) : Int) % (2 : Int) ^ b.depth = ((addr b.depth (b.id : Int) : Nat) : Int) := by
    unfold addr
    rw [Int.toNat_of_nonneg (Int.emod_nonneg _ (by positivity))]
  rw [e1, e2, hpl, addr_natCast _ _ hok.id_lt]



/-! ## Termination, the size ceiling and the fresh table -/

/-- C11 (insert terminates): in every reachable state of bucket capacity at
least 1, for every key, all hash functions and every random source, an insert
call given fuel for `1002 + 2 * MAX_TABLE_SIZE` evictions returns (the key was
found or a key of the chain was placed in a bucket that was not full) or fails
the size assertion of `double_table`; the eviction chain never exceeds that
length and never meets undefined behaviour. -/
theorem insert_terminates (env : Env) (bs : Nat) (hbs : 1 ≤ bs) (T : XuckooNHashTable)
    (hR : Reachable env bs T) (key : Int) (rnd : Nat → Nat) (fuel : Nat)
    (hfuel : 1003 + 2 * env.MAX_TABLE_SIZE ≤ fuel) :
    (∃ r T', xuckoon_hash_table_insert env fuel rnd T key = .ok (r, T')) ∨
    xuckoon_hash_table_insert env fuel rnd T key = .fault .tableTooLarge := by
  rcases hR.insert_total hbs fuel rnd key with h | h | ⟨_, hb⟩
  · exact Or.inl h
  · exact Or.inr h
  · omega

/-- C16 (fresh table): `new_xuckoon_hash_table` yields two inner tables, each
with size 1, depth 0, nbuckets 1, nkeys 0 and one slot pointing to the only
allocated bucket, which has id 0, depth 0 and no keys; lookup returns false for
every key on it. -/
theorem fresh_table (env : Env) (bs : Nat) :
    (∀ t, (t = (new_xuckoon_hash_table env bs).table1 ∨
           t = (new_xuckoon_hash_table env bs).table2) →
      t.size = 1 ∧ t.depth = 0 ∧ t.nbuckets = 1 ∧ t.nkeys = 0 ∧ t.buckets.length = 1 ∧
      ∃ b, t.heap = [b] ∧ bucketAt t 0 = .ok (0, b) ∧ b.id = 0 ∧ b.depth = 0 ∧ b.nkeys = 0 ∧
        b.keys.length = bs) ∧
    (new_xuckoon_hash_table env bs).bucketsize = bs ∧
    ∀ key, xuckoon_hash_table_lookup env (new_xuckoon_hash_table env bs) key = .ok false := by
  refine ⟨?_, rfl, ?_⟩
  · intro t ht
    have : t = initialise_table env.junk bs := by
      rcases ht with h | h <;> exact h
    subst this
    refine ⟨rfl, rfl, rfl, rfl, rfl, new_bucket env.junk 0 0 bs, rfl, rfl, rfl, rfl, rfl, ?_⟩
    simp [new_bucket]
  · intro key
    rw [lookup_eq (new_table_ginv env bs)]
    have : key ∉ allKeys (new_xuckoon_hash_table env bs) := by
      simp [allKeys, new_xuckoon_hash_table, initialise_table, tableKeys, bucketKeys, new_bucket]
    rw [decide_eq_false this]

/-! ## Role assignment -/

/-- C17 (role assignment): for an insert of a key that is not stored, in a
reachable state, the eviction chain starts in table1 (with h1) when
`table1.nkeys ≤ table2.nkeys` and in table2 (with h2) otherwise; if the bucket
addressed in the chosen table is not full, the key is appended to it, the nkeys
of that table grows by 1, and the other inner table is unchanged. -/
theorem role_assignment (env : Env) (bs : Nat) (T : XuckooNHashTable)
    (hR : Reachable env bs T) (key : Int) (habsent : key ∉ allKeys T) (fuel : Nat)
    (rnd : Nat → Nat) :
    (T.table1.nkeys ≤ T.table2.nkeys →
      xuckoon_hash_table_insert env fuel rnd T key =
        (match insert_key env T.bucketsize fuel key T.table1 T.table2 env.h1 env.h2 0 rnd with
         | .fault e => .fault e
         | .ok (inserted, tA, tB, _) => .ok (inserted, { T with table1 := tA, table2 := tB })) ∧
      ∀ (a p : Nat) (b : Bucket), addressOf T.table1 env.h1 key = .ok a →
        bucketAt T.table1 a = .ok (p, b) → b.nkeys ≠ T.bucketsize →
        xuckoon_hash_table_insert env (fuel + 1) rnd T key =
          .ok (true, { T with
            table1 := { T.table1 with
              heap := T.table1.heap.set p
                { b with keys := b.keys.set b.nkeys key, nkeys := b.nkeys + 1 },
              nkeys := T.table1.nkeys + 1 } })) ∧
    (¬ T.table1.nkeys ≤ T.table2.nkeys →
      xuckoon_hash_table_insert env fuel rnd T key =
        (match insert_key env T.bucketsize fuel key T.table2 T.table1 env.h2 env.h1 0 rnd with
         | .fault e => .fault e
         | .ok (inserted, tA, tB, _) => .ok (inserted, { T with table1 := tB, table2 := tA })) ∧
      ∀ (a p : Nat) (b : Bucket), addressOf T.table2 env.h2 key = .ok a →
        bucketAt T.table2 a = .ok (p, b) → b.nkeys ≠ T.bucketsize →
        xuckoon_hash_table_insert env (fuel + 1) rnd T key =
          .ok (true, { T with
            table2 := { T.table2 with
              heap := T.table2.heap.set p
                { b with keys := b.keys.set b.nkeys key, nkeys := b.nkeys + 1 },
              nkeys := T.table2.nkeys + 1 } })) := by
  have hG := hR.ginv
  have hunf : ∀ f, xuckoon_hash_table_insert env f rnd T key =
      if T.table1.nkeys ≤ T.table2.nkeys then
        (match insert_key env T.bucketsize f key T.table1 T.table2 env.h1 env.h2 0 rnd with
         | .fault e => .fault e
         | .ok (inserted, tA, tB, _) => .ok (inserted, { T with table1 := tA, table2 := tB }))
      else
        (match insert_key env T.bucketsize f key T.table2 T.table1 env.h2 env.h1 0 rnd with
         | .fault e => .fault e
         | .ok (inserted, tA, tB, _) => .ok (inserted, { T with table1 := tB, table2 := tA })) := by
    intro f
    unfold xuckoon_hash_table_insert
    rw [findEither_eq hG.inv1.struct hG.inv2.struct, decide_eq_false habsent]
  have hplace : ∀ (h h' : Int → Int) (tA tB : InnerTable) (a p : Nat) (b : Bucket),
      Struct bs h tA → addressOf tA h key = .ok a → bucketAt tA a = .ok (p, b) →
      b.nkeys ≠ T.bucketsize →
      insert_key env T.bucketsize (fuel + 1) key tA tB h h' 0 rnd =
        .ok (true, { tA with
            heap := tA.heap.set p
              { b with keys := b.keys.set b.nkeys key, nkeys := b.nkeys + 1 },
            nkeys := tA.nkeys + 1 }, tB, 0) := by
    intro h h' tA tB a p b hS ha hb hne
    have hok := hS.bucket_ok p b ((bucketAt_ok_iff tA a p b).mp hb).2
    have hlen : b.nkeys < b.keys.length := by
      rw [hok.keys_len]
      have := hok.nkeys_le
      rw [hG.bucketsize_eq] at hne
      omega
    rw [insert_key, ha]
    simp only
    rw [hb]
    simp only
    rw [if_pos hne]
    unfold appendKey
    rw [if_pos hlen]
  constructor
  · intro hle
    refine ⟨by rw [hunf, if_pos hle], ?_⟩
    intro a p b ha hb hne
    rw [hunf, if_pos hle, hplace env.h1 env.h2 T.table1 T.table2 a p b hG.inv1.struct ha hb hne]
  · intro hle
    refine ⟨by rw [hunf, if_neg hle], ?_⟩
    intro a p b ha hb hne
    rw [hunf, if_neg hle, hplace env.h2 env.h1 T.table2 T.table1 a p b hG.inv2.struct ha hb hne]

theorem role_assignment_witness :
    xuckoon_hash_table_insert exEnv (10 + 1) (fun _ => 0) (new_xuckoon_hash_table exEnv 2) 5 =
      .ok (true, { new_xuckoon_hash_table exEnv 2 with
        table1 := { (new_xuckoon_hash_table exEnv 2).table1 with
          heap := (new_xuckoon_hash_table exEnv 2).table1.heap.set 0
            { new_bucket exEnv.junk 0 0 2 with
              keys := (new_bucket exEnv.junk 0 0 2).keys.set (new_bucket exEnv.junk 0 0 2).nkeys 5,
              nkeys := (new_bucket exEnv.junk 0 0 2).nkeys + 1 },
          nkeys := (new_xuckoon_hash_table exEnv 2).table1.nkeys + 1 } }) :=
  ((role_assignment exEnv 2 (new_xuckoon_hash_table exEnv 2) Reachable.fresh 5 (by decide) 10
      (fun _ => 0)).1 (by decide)).2 0 0 (new_bucket exEnv.junk 0 0 2) (by decide) (by decide)
    (by decide)



/-! ## Invariants of the buckets and the directory -/

theorem reinsert_key_undefined_iff (t : InnerTable) (key : Int) (h : Int → Int) (a p : Nat)
    (b : Bucket) (ha : addressOf t h key = .ok a) (hb : bucketAt t a = .ok (p, b)) :
    reinsert_key t key h = .fault .undefined ↔ b.keys.length ≤ b.nkeys := by
  unfold reinsert_key
  rw [ha]
  simp only
  rw [hb]
  simp only
  unfold appendKey
  by_cases hlt : b.nkeys < b.keys.length
  · rw [if_pos hlt]
    constructor
    · intro e; exact absurd e (by simp)
    · intro e; omega
  · rw [if_neg hlt]
    constructor
    · intro _; omega
    · intro _; rfl

/-- C18 (bucket capacity invariant): in every reachable state every allocated
bucket of both inner tables has a key array of `bucketsize` entries and holds at
most `bucketsize` keys.  A `reinsert_key` is undefined behaviour exactly when the
bucket it writes to has no free entry left; `split_bucket` on a table satisfying
the structural invariant never meets undefined behaviour, and neither does an
insert call in a reachable state of capacity at least 1, so every reinsertion
writes inside the key array. -/
theorem bucket_capacity (env : Env) (bs : Nat) (hbs : 1 ≤ bs) :
    (∀ T, Reachable env bs T → ∀ t, (t = T.table1 ∨ t = T.table2) →
      ∀ (p : Nat) (b : Bucket), t.heap[p]? = some b →
        b.nkeys ≤ T.bucketsize ∧ b.keys.length = T.bucketsize) ∧
    (∀ (t : InnerTable) (key : Int) (h : Int → Int) (a p : Nat) (b : Bucket),
      addressOf t h key = .ok a → bucketAt t a = .ok (p, b) →
      (reinsert_key t key h = .fault .undefined ↔ b.keys.length ≤ b.nkeys)) ∧
    (∀ (h : Int → Int) (t : InnerTable) (address : Nat), Struct bs h t → address < t.size →
      split_bucket env t address bs h ≠ .fault .undefined) ∧
    (∀ T, Reachable env bs T → ∀ (fuel : Nat) (rnd : Nat → Nat) (key : Int),
      xuckoon_hash_table_insert env fuel rnd T key ≠ .fault .undefined) := by
  refine ⟨?_, reinsert_key_undefined_iff, ?_, ?_⟩
  · intro T hR t ht p b hb
    have hG := hR.ginv
    rw [hG.bucketsize_eq]
    rcases ht with rfl | rfl
    · have hok := hG.inv1.struct.bucket_ok p b hb
      exact ⟨hok.nkeys_le, hok.keys_len⟩
    · have hok := hG.inv2.struct.bucket_ok p b hb
      exact ⟨hok.nkeys_le, hok.keys_len⟩
  · intro h t address hS ha
    rcases split_bucket_spec env hS address ha with e | ⟨t', e, _⟩
    · rw [e]; simp
    · rw [e]; simp
  · intro T hR fuel rnd key
    rcases hR.insert_total hbs fuel rnd key with ⟨r, T', e⟩ | e | ⟨e, _⟩
    · rw [e]; simp
    · rw [e]; simp
    · rw [e]; simp

theorem bucket_capacity_witness :
    (∀ (p : Nat) (b : Bucket), exTable.table1.heap[p]? = some b →
      b.nkeys ≤ exTable.bucketsize ∧ b.keys.length = exTable.bucketsize) ∧
    xuckoon_hash_table_insert exEnv 10 (fun _ => 0) exTable 7 ≠ .fault .undefined :=
  ⟨(bucket_capacity exEnv 2 (by decide)).1 exTable exReach exTable.table1 (Or.inl rfl),
   (bucket_capacity exEnv 2 (by decide)).2.2.2 exTable exReach 10 (fun _ => 0) 7⟩

/-- C19 (key placement invariant): in every reachable state every key stored in
a bucket of table1 addresses that bucket through h1 at the depth of table1, and
the low `depth` bits of its h1 value are those of the bucket's id; likewise for
table2 with h2.  On a table satisfying the structural invariant the placement is
kept by an eviction (a stored key overwritten by a key addressed to the same
bucket), by `double_table` and by `split_bucket`. -/
theorem key_placement (env : Env) (bs : Nat) :
    (∀ T, Reachable env bs T → KeyPlaced env.h1 T.table1 ∧ KeyPlaced env.h2 T.table2) ∧
    (∀ (h : Int → Int) (t : InnerTable) (key : Int) (a p r : Nat) (b : Bucket),
      Struct bs h t → addressOf t h key = .ok a → bucketAt t a = .ok (p, b) → r < b.nkeys →
      KeyPlaced h { t with heap := t.heap.set p { b with keys := b.keys.set r key } }) ∧
    (∀ (h : Int → Int) (t t' : InnerTable), Struct bs h t → double_table env t = .ok t' →
      KeyPlaced h t') ∧
    (∀ (h : Int → Int) (t t' : InnerTable) (address : Nat), Struct bs h t → address < t.size →
      split_bucket env t address bs h = .ok t' → KeyPlaced h t') := by
  refine ⟨?_, ?_, ?_, ?_⟩
  · intro T hR
    have hG := hR.ginv
    exact ⟨hG.inv1.struct.keyPlaced, hG.inv2.struct.keyPlaced⟩
  · intro h t key a p r b hS ha hb hr
    obtain ⟨p0, b0, g1, g2, g3, _⟩ := hS.home key
    rw [addressOf_eq] at ha
    simp only [Res.ok.injEq] at ha
    subst ha
    obtain ⟨hb1, hb2⟩ := (bucketAt_ok_iff t _ p b).mp hb
    rw [hb1] at g1
    cases g1
    rw [hb2] at g2
    cases g2
    have hok := hS.bucket_ok p b hb2
    have hrl : r < b.keys.length := by
      rw [hok.keys_len]; exact Nat.lt_of_lt_of_le hr hok.nkeys_le
    exact (replace_spec hS p b key b.keys[r] r hb2 hr (List.getElem?_eq_getElem hrl) g3).1.keyPlaced
  · intro h t t' hS hd
    rw [double_table_eq] at hd
    split at hd
    · simp only [Res.ok.injEq] at hd
      subst hd
      exact hS.double.keyPlaced
    · exact absurd hd (by simp)
  · intro h t t' address hS ha hs
    rcases split_bucket_spec env hS address ha with hf | ⟨t2, e1, e2, _⟩
    · rw [hf] at hs; exact absurd hs (by simp)
    · rw [e1] at hs
      simp only [Res.ok.injEq] at hs
      subst hs
      exact e2.keyPlaced

/-- C20 (reference count invariant): in both inner tables of every reachable
state, an allocated bucket `b` (of depth at most the depth of the table and id
below `2^b.depth`) is referenced by exactly the slots `i < size` with
`i mod 2^b.depth = b.id`, and these are `2^(table.depth - b.depth)` slots of the
`size` slots of the table. -/
theorem reference_count (env : Env) (bs : Nat) (T : XuckooNHashTable)
    (hR : Reachable env bs T) (t : InnerTable) (ht : t = T.table1 ∨ t = T.table2)
    (p : Nat) (b : Bucket) (hb : t.heap[p]? = some b) :
    (∀ i, i < t.size → (t.buckets[i]? = some p ↔ i % 2 ^ b.depth = b.id)) ∧
    t.buckets.count p = 2 ^ (t.depth - b.depth) ∧
    t.buckets.length = t.size ∧ b.depth ≤ t.depth ∧ b.id < 2 ^ b.depth := by
  have hG := hR.ginv
  have key : ∀ (h : Int → Int), Struct bs h t →
      (∀ i, i < t.size → (t.buckets[i]? = some p ↔ i % 2 ^ b.depth = b.id)) ∧
      t.buckets.count p = 2 ^ (t.depth - b.depth) ∧
      t.buckets.length = t.size ∧ b.depth ≤ t.depth ∧ b.id < 2 ^ b.depth := by
    intro h hS
    have hok := hS.bucket_ok p b hb
    exact ⟨fun i hi => hS.slots i p b hi hb, hS.count_slots p b hb, hS.len_eq, hok.depth_le,
      hok.id_lt⟩
  rcases ht with rfl | rfl
  · exact key env.h1 hG.inv1.struct
  · exact key env.h2 hG.inv2.struct



/-! ### The random source at capacity 1 -/

/-- With bucket capacity 1 the result of `insert_key` does not depend on the
random source: the victim index is `rand() % 1`. -/
theorem insert_key_rnd_one (env : Env) :
    ∀ (fuel : Nat) (key : Int) (tA tB : InnerTable) (hA hB : Int → Int) (reps : Nat)
      (rnd rnd' : Nat → Nat),
      insert_key env 1 fuel key tA tB hA hB reps rnd =
        insert_key env 1 fuel key tA tB hA hB reps rnd' := by
  intro fuel
  induction fuel with
  | zero => intro key tA tB hA hB reps rnd rnd'; rfl
  | succ fuel ih =>
    intro key tA tB hA hB reps rnd rnd'
    rw [insert_key, insert_key]
    cases addressOf tA hA key with
    | fault e => rfl
    | ok a =>
      simp only
      cases bucketAt tA a with
      | fault e => rfl
      | ok pb =>
        obtain ⟨p, b⟩ := pb
        simp only
        by_cases h1 : b.nkeys = 1
        · simp only [h1, ne_eq, not_true_eq_false, if_false, Nat.mod_one, one_ne_zero]
          cases b.keys[0]? with
          | none => rfl
          | some prekey =>
            have hrec : ∀ tA2 : InnerTable,
                insert_key env 1 fuel prekey tB tA2 hB hA (reps + 1) (fun i => rnd (i + 1)) =
                insert_key env 1 fuel prekey tB tA2 hB hA (reps + 1) (fun i => rnd' (i + 1)) :=
              fun tA2 => ih prekey tB tA2 hB hA (reps + 1) _ _
            simp only [hrec]
        · simp only [ne_eq, h1, not_false_eq_true, if_true]

/-! ### Two full single buckets at capacity 1 -/

theorem swapTables_swapTables (x : Res (Bool × InnerTable × InnerTable × Nat)) :
    swapTables (swapTables x) = x := by
  cases x with
  | fault e => rfl
  | ok res => obtain ⟨r, tB, tA, reps⟩ := res; rfl

/-- One eviction between two tables of depth 0 whose only buckets are full, at
capacity 1 and before the counter has reached 1000: the incoming key takes the
place of the stored one, which goes on to the other table. -/
theorem single_step (env : Env) (fuel : Nat) (x a b : Int) (hA hB : Int → Int) (reps : Nat)
    (rnd : Nat → Nat) (hrep : reps < 1000) :
    insert_key env 1 (fuel + 1) x (cexSingle a) (cexSingle b) hA hB reps rnd =
      swapTables (insert_key env 1 fuel a (cexSingle b) (cexSingle x) hB hA (reps + 1) rnd) := by
  have haddr : addressOf (cexSingle a) hA x = .ok 0 := by
    rw [addressOf_eq]
    show Res.ok (addr 0 (hA x)) = _
    rw [addr_zero]
  have hb : bucketAt (cexSingle a) 0 = .ok (0, { id := 0, depth := 0, nkeys := 1, keys := [a] }) :=
    rfl
  rw [insert_key, haddr]
  simp only [hb]
  have hnot : ¬ reps ≥ 1000 := by omega
  rw [insert_key_rnd_one env fuel a (cexSingle b) (cexSingle x) hB hA (reps + 1) rnd
    (fun i => rnd (i + 1))]
  simp only [ne_eq, not_true_eq_false, if_false, Nat.mod_one, one_ne_zero, hnot,
    List.getElem?_cons_zero, cexSingle, List.set_cons_zero]
  cases insert_key env 1 fuel a
      { heap := [{ id := 0, depth := 0, nkeys := 1, keys := [b] }], buckets := [0], size := 1,
        depth := 0, nbuckets := 1, nkeys := 1 }
      { heap := [{ id := 0, depth := 0, nkeys := 1, keys := [x] }], buckets := [0], size := 1,
        depth := 0, nbuckets := 1, nkeys := 1 }
      hB hA (reps + 1) (fun i => rnd (i + 1)) with
  | fault e => rfl
  | ok res => obtain ⟨r, tB, tA, reps⟩ := res; rfl

theorem two_steps (env : Env) (fuel : Nat) (x a b : Int) (hA hB : Int → Int) (reps : Nat)
    (rnd : Nat → Nat) (hrep : reps + 2 ≤ 1000) :
    insert_key env 1 (fuel + 2) x (cexSingle a) (cexSingle b) hA hB reps rnd =
      insert_key env 1 fuel b (cexSingle x) (cexSingle a) hA hB (reps + 2) rnd := by
  rw [single_step env (fuel + 1) x a b hA hB reps rnd (by omega),
    single_step env fuel a b x hB hA (reps + 1) rnd (by omega), swapTables_swapTables]

theorem six_steps (env : Env) (fuel : Nat) (x a b : Int) (hA hB : Int → Int) (reps : Nat)
    (rnd : Nat → Nat) (hrep : reps + 6 ≤ 1000) :
    insert_key env 1 (fuel + 6) x (cexSingle a) (cexSingle b) hA hB reps rnd =
      insert_key env 1 fuel x (cexSingle a) (cexSingle b) hA hB (reps + 6) rnd := by
  rw [show fuel + 6 = (fuel + 4) + 2 from rfl, two_steps env _ x a b hA hB reps rnd (by omega),
    show fuel + 4 = (fuel + 2) + 2 from rfl, two_steps env _ b x a hA hB (reps + 2) rnd (by omega),
    two_steps env _ a b x hA hB (reps + 2 + 2) rnd (by omega)]

theorem many_steps (env : Env) (x a b : Int) (hA hB : Int → Int) (rnd : Nat → Nat) :
    ∀ (n fuel reps : Nat), reps + 6 * n ≤ 1000 →
      insert_key env 1 (fuel + 6 * n) x (cexSingle a) (cexSingle b) hA hB reps rnd =
        insert_key env 1 fuel x (cexSingle a) (cexSingle b) hA hB (reps + 6 * n) rnd := by
  intro n
  induction n with
  | zero => intro fuel reps _; rfl
  | succ n ih =>
    intro fuel reps hr
    rw [show fuel + 6 * (n + 1) = (fuel + 6 * n) + 6 by omega,
      six_steps env _ x a b hA hB reps rnd (by omega), ih fuel (reps + 6) (by omega),
      show reps + 6 + 6 * n = reps + 6 * (n + 1) by omega]

/-- The first 1000 evictions of a chain between two tables of depth 0 whose only
buckets are full, at capacity 1: no key is placed and no table changes shape;
the chain arrives at counter 1000 with the keys rotated. -/
theorem thousand_steps (env : Env) (fuel : Nat) (x a b : Int) (hA hB : Int → Int)
    (rnd : Nat → Nat) :
    insert_key env 1 (fuel + 1000) x (cexSingle a) (cexSingle b) hA hB 0 rnd =
      insert_key env 1 fuel a (cexSingle b) (cexSingle x) hA hB 1000 rnd := by
  rw [show fuel + 1000 = (fuel + 4) + 6 * 166 by omega,
    many_steps env x a b hA hB rnd 166 (fuel + 4) 0 (by omega),
    show fuel + 4 = (fuel + 2) + 2 from rfl, two_steps env _ x a b hA hB _ rnd (by omega),
    two_steps env _ b x a hA hB _ rnd (by omega)]

/-! ### Inserting while both tables are single buckets with room -/

theorem pushKey_keys (b : Bucket) (key : Int) (h : b.nkeys < b.keys.length) :
    bucketKeys (pushKey b key) = bucketKeys b ++ [key] := by
  simp only [bucketKeys, pushKey]
  exact take_succ_set _ _ _ h

theorem find_key_flat (b : Bucket) (key : Int) (hn : b.nkeys ≤ b.keys.length) :
    find_key (flatTable b) 0 key = .ok (decide (key ∈ bucketKeys b)) :=
  find_key_bucket (flatTable b) 0 0 b key rfl rfl hn

theorem addressOf_flat (b : Bucket) (h : Int → Int) (key : Int) :
    addressOf (flatTable b) h key = .ok 0 := by
  rw [addressOf_eq]
  show Res.ok (addr 0 (h key)) = _
  rw [addr_zero]

theorem insert_key_flat (env : Env) (bs fuel : Nat) (key : Int) (b : Bucket) (tB : InnerTable)
    (hA hB : Int → Int) (reps : Nat) (rnd : Nat → Nat)
    (hne : b.nkeys ≠ bs) (hlt : b.nkeys < b.keys.length) :
    insert_key env bs (fuel + 1) key (flatTable b) tB hA hB reps rnd =
      .ok (true, flatTable (pushKey b key), tB, reps) := by
  rw [insert_key, addressOf_flat]
  simp only
  rw [show bucketAt (flatTable b) 0 = .ok (0, b) from rfl]
  simp only
  rw [if_pos hne]
  unfold appendKey
  rw [if_pos hlt]
  rfl

/-- An insert into a structure whose two inner tables have depth 0 and a single
bucket each, of a key that neither bucket holds, when the bucket of the chosen
table has room: the key is appended there. -/
theorem insert_flat (env : Env) (bs fuel : Nat) (rnd : Nat → Nat) (key : Int) (b1 b2 : Bucket)
    (hk1 : key ∉ bucketKeys b1) (hk2 : key ∉ bucketKeys b2)
    (hl1 : b1.nkeys ≤ b1.keys.length) (hl2 : b2.nkeys ≤ b2.keys.length) :
    (b1.nkeys ≤ b2.nkeys → b1.nkeys ≠ bs → b1.nkeys < b1.keys.length →
      xuckoon_hash_table_insert env (fuel + 1) rnd
          { table1 := flatTable b1, table2 := flatTable b2, bucketsize := bs } key =
        .ok (true, { table1 := flatTable (pushKey b1 key), table2 := flatTable b2,
                     bucketsize := bs })) ∧
    (¬ b1.nkeys ≤ b2.nkeys → b2.nkeys ≠ bs → b2.nkeys < b2.keys.length →
      xuckoon_hash_table_insert env (fuel + 1) rnd
          { table1 := flatTable b1, table2 := flatTable b2, bucketsize := bs } key =
        .ok (true, { table1 := flatTable b1, table2 := flatTable (pushKey b2 key),
                     bucketsize := bs })) := by
  have hfind : findEither env { table1 := flatTable b1, table2 := flatTable b2, bucketsize := bs }
      key = .ok false := by
    unfold findEither
    rw [addressOf_flat, addressOf_flat]
    simp only
    rw [find_key_flat b1 key hl1, find_key_flat b2 key hl2, decide_eq_false hk1,
      decide_eq_false hk2]
  constructor
  · intro hle hne hlt
    unfold xuckoon_hash_table_insert
    rw [hfind]
    simp only
    rw [if_pos (show (flatTable b1).nkeys ≤ (flatTable b2).nkeys from hle),
      insert_key_flat env bs fuel key b1 _ _ _ _ _ hne hlt]
  · intro hle hne hlt
    unfold xuckoon_hash_table_insert
    rw [hfind]
    simp only
    rw [if_neg (show ¬ (flatTable b1).nkeys ≤ (flatTable b2).nkeys from hle),
      insert_key_flat env bs fuel key b2 _ _ _ _ _ hne hlt]

theorem insertSeq_cons_eq {env : Env} {c : Call} {cs : List Call} {T T1 T' : XuckooNHashTable}
    {r : Bool} {rs : List Bool}
    (h1 : xuckoon_hash_table_insert env c.fuel c.rnd T c.key = .ok (r, T1))
    (h2 : insertSeq env cs T1 = .ok (rs, T')) :
    insertSeq env (c :: cs) T = .ok (r :: rs, T') := by
  rw [insertSeq, h1]
  simp only
  rw [h2]



/-! ### Runs on a fresh table without eviction -/

theorem new_table_flat (env : Env) (bs : Nat) :
    new_xuckoon_hash_table env bs =
      { table1 := flatTable (new_bucket env.junk 0 0 bs),
        table2 := flatTable (new_bucket env.junk 0 0 bs), bucketsize := bs } := rfl

theorem new_bucket_length (junk : Nat → Int) (f d bs : Nat) :
    (new_bucket junk f d bs).keys.length = bs := by
  simp [new_bucket]

theorem new_bucket_keys (junk : Nat → Int) (f d bs : Nat) :
    bucketKeys (new_bucket junk f d bs) = [] := by
  simp [bucketKeys, new_bucket]

theorem pushKey_length (b : Bucket) (key : Int) :
    (pushKey b key).keys.length = b.keys.length := by
  simp [pushKey]

theorem tableKeys_flat (b : Bucket) : tableKeys (flatTable b) = bucketKeys b := by
  simp [tableKeys, flatTable]

/-- Two distinct keys inserted into a fresh table of capacity 1: the first is
appended to the bucket of table1 and the second to the bucket of table2. -/
theorem two_inserts (env : Env) (k1 k2 : Int) (hne : k1 ≠ k2) (f1 f2 : Nat)
    (r1 r2 : Nat → Nat) :
    insertSeq env [⟨k1, f1 + 1, r1⟩, ⟨k2, f2 + 1, r2⟩] (new_xuckoon_hash_table env 1) =
      .ok ([true, true],
        { table1 := flatTable (pushKey (new_bucket env.junk 0 0 1) k1),
          table2 := flatTable (pushKey (new_bucket env.junk 0 0 1) k2), bucketsize := 1 }) := by
  have hl0 := new_bucket_length env.junk 0 0 1
  have hk0 := new_bucket_keys env.junk 0 0 1
  have hn0 : (new_bucket env.junk 0 0 1).nkeys = 0 := rfl
  have hka : bucketKeys (pushKey (new_bucket env.junk 0 0 1) k1) = [k1] := by
    rw [pushKey_keys _ _ (by rw [hl0, hn0]; decide), hk0]; rfl
  have hna : (pushKey (new_bucket env.junk 0 0 1) k1).nkeys = 1 := rfl
  have hla : (pushKey (new_bucket env.junk 0 0 1) k1).keys.length = 1 := by
    rw [pushKey_length, hl0]
  have s1 := (insert_flat env 1 f1 r1 k1 (new_bucket env.junk 0 0 1) (new_bucket env.junk 0 0 1)
    (by rw [hk0]; simp) (by rw [hk0]; simp) (by rw [hn0]; omega) (by rw [hn0]; omega)).1
    (Nat.le_refl _) (by rw [hn0]; decide) (by rw [hl0, hn0]; decide)
  have s2 := (insert_flat env 1 f2 r2 k2 (pushKey (new_bucket env.junk 0 0 1) k1)
    (new_bucket env.junk 0 0 1)
    (by rw [hka]; simp; exact fun e => hne e.symm) (by rw [hk0]; simp)
    (by rw [hna, hla]) (by rw [hn0]; omega)).2
    (by rw [hna, hn0]; decide) (by rw [hn0]; decide) (by rw [hl0, hn0]; decide)
  rw [new_table_flat]
  exact insertSeq_cons_eq s1 (insertSeq_cons_eq s2 rfl)

/-- Five distinct keys inserted into a fresh table of capacity 4: they are
appended alternately to the bucket of table1 and to the bucket of table2. -/
theorem five_inserts (env : Env) (k1 k2 k3 k4 k5 : Int) (hd : [k1, k2, k3, k4, k5].Nodup)
    (f1 f2 f3 f4 f5 : Nat) (r1 r2 r3 r4 r5 : Nat → Nat) :
    insertSeq env [⟨k1, f1 + 1, r1⟩, ⟨k2, f2 + 1, r2⟩, ⟨k3, f3 + 1, r3⟩, ⟨k4, f4 + 1, r4⟩,
        ⟨k5, f5 + 1, r5⟩] (new_xuckoon_hash_table env 4) =
      .ok ([true, true, true, true, true],
        { table1 := flatTable
            (pushKey (pushKey (pushKey (new_bucket env.junk 0 0 4) k1) k3) k5),
          table2 := flatTable (pushKey (pushKey (new_bucket env.junk 0 0 4) k2) k4),
          bucketsize := 4 }) := by
  simp only [List.nodup_cons, List.mem_cons, List.mem_singleton, not_or, List.not_mem_nil,
    not_false_eq_true, List.nodup_nil, and_true] at hd
  obtain ⟨⟨h12, h13, h14, h15⟩, ⟨h23, h24, h25⟩, ⟨h34, h35⟩, h45⟩ := hd
  have hl0 := new_bucket_length env.junk 0 0 4
  have hk0 := new_bucket_keys env.junk 0 0 4
  have hn0 : (new_bucket env.junk 0 0 4).nkeys = 0 := rfl
  -- the buckets of table1
  have hla1 : (pushKey (new_bucket env.junk 0 0 4) k1).keys.length = 4 := by
    rw [pushKey_length, hl0]
  have hka1 : bucketKeys (pushKey (new_bucket env.junk 0 0 4) k1) = [k1] := by
    rw [pushKey_keys _ _ (by rw [hl0, hn0]; decide), hk0]; rfl
  have hna1 : (pushKey (new_bucket env.junk 0 0 4) k1).nkeys = 1 := rfl
  have hla2 : (pushKey (pushKey (new_bucket env.junk 0 0 4) k1) k3).keys.length = 4 := by
    rw [pushKey_length, hla1]
  have hka2 : bucketKeys (pushKey (pushKey (new_bucket env.junk 0 0 4) k1) k3) = [k1, k3] := by
    rw [pushKey_keys _ _ (by rw [hla1, hna1]; decide), hka1]; rfl
  have hna2 : (pushKey (pushKey (new_bucket env.junk 0 0 4) k1) k3).nkeys = 2 := rfl
  -- the buckets of table2
  have hlc1 : (pushKey (new_bucket env.junk 0 0 4) k2).keys.length = 4 := by
    rw [pushKey_length, hl0]
  have hkc1 : bucketKeys (pushKey (new_bucket env.junk 0 0 4) k2) = [k2] := by
    rw [pushKey_keys _ _ (by rw [hl0, hn0]; decide), hk0]; rfl
  have hnc1 : (pushKey (new_bucket env.junk 0 0 4) k2).nkeys = 1 := rfl
  have hlc2 : (pushKey (pushKey (new_bucket env.junk 0 0 4) k2) k4).keys.length = 4 := by
    rw [pushKey_length, hlc1]
  have hkc2 : bucketKeys (pushKey (pushKey (new_bucket env.junk 0 0 4) k2) k4) = [k2, k4] := by
    rw [pushKey_keys _ _ (by rw [hlc1, hnc1]; decide), hkc1]; rfl
  have hnc2 : (pushKey (pushKey (new_bucket env.junk 0 0 4) k2) k4).nkeys = 2 := rfl
  have s1 := (insert_flat env 4 f1 r1 k1 (new_bucket env.junk 0 0 4) (new_bucket env.junk 0 0 4)
    (by rw [hk0]; simp) (by rw [hk0]; simp) (by rw [hn0]; omega) (by rw [hn0]; omega)).1
    (Nat.le_refl _) (by rw [hn0]; decide) (by rw [hl0, hn0]; decide)
  have s2 := (insert_flat env 4 f2 r2 k2 (pushKey (new_bucket env.junk 0 0 4) k1)
    (new_bucket env.junk 0 0 4)
    (by rw [hka1]; simp; exact fun e => h12 e.symm) (by rw [hk0]; simp)
    (by rw [hna1, hla1]; decide) (by rw [hn0]; omega)).2
    (by rw [hna1, hn0]; decide) (by rw [hn0]; decide) (by rw [hl0, hn0]; decide)
  have s3 := (insert_flat env 4 f3 r3 k3 (pushKey (new_bucket env.junk 0 0 4) k1)
    (pushKey (new_bucket env.junk 0 0 4) k2)
    (by rw [hka1]; simp; exact fun e => h13 e.symm)
    (by rw [hkc1]; simp; exact fun e => h23 e.symm)
    (by rw [hna1, hla1]; decide) (by rw [hnc1, hlc1]; decide)).1
    (by rw [hna1, hnc1]) (by rw [hna1]; decide) (by rw [hla1, hna1]; decide)
  have s4 := (insert_flat env 4 f4 r4 k4 (pushKey (pushKey (new_bucket env.junk 0 0 4) k1) k3)
    (pushKey (new_bucket env.junk 0 0 4) k2)
    (by rw [hka2]; simp; exact ⟨fun e => h14 e.symm, fun e => h34 e.symm⟩)
    (by rw [hkc1]; simp; exact fun e => h24 e.symm)
    (by rw [hna2, hla2]; decide) (by rw [hnc1, hlc1]; decide)).2
    (by rw [hna2, hnc1]; decide) (by rw [hnc1]; decide) (by rw [hlc1, hnc1]; decide)
  have s5 := (insert_flat env 4 f5 r5 k5 (pushKey (pushKey (new_bucket env.junk 0 0 4) k1) k3)
    (pushKey (pushKey (new_bucket env.junk 0 0 4) k2) k4)
    (by rw [hka2]; simp; exact ⟨fun e => h15 e.symm, fun e => h35 e.symm⟩)
    (by rw [hkc2]; simp; exact ⟨fun e => h25 e.symm, fun e => h45 e.symm⟩)
    (by rw [hna2, hla2]; decide) (by rw [hnc2, hlc2]; decide)).1
    (by rw [hna2, hnc2]) (by rw [hna2]; decide) (by rw [hla2, hna2]; decide)
  rw [new_table_flat]
  exact insertSeq_cons_eq s1 (insertSeq_cons_eq s2 (insertSeq_cons_eq s3
    (insertSeq_cons_eq s4 (insertSeq_cons_eq s5 rfl))))



/-! ## Scenarios -/

theorem mem_allKeys_of (T : XuckooNHashTable) (k : Int) (ks1 ks2 : List Int)
    (h1 : tableKeys T.table1 = ks1) (h2 : tableKeys T.table2 = ks2) (hk : k ∈ ks1 ++ ks2) :
    k ∈ allKeys T := by
  unfold allKeys
  rw [h1, h2]
  exact hk

theorem splitReach : Reachable exEnv 1 splitTable :=
  insertSeq_reachable [⟨0, 10, fun _ => 0⟩, ⟨2, 10, fun _ => 0⟩] _ _ [true, true]
    Reachable.fresh (by decide)

/-- The eviction chain of the insert of key 1 into `splitTable`: 1002 evictions,
the last two with a forced split, then a placement. -/
theorem split_chain (rnd : Nat → Nat) :
    insert_key exEnv 1 1003 1 (cexSingle 0) (cexSingle 2) exEnv.h1 exEnv.h2 0 rnd =
      .ok (true, splitTableAfter.table1, splitTableAfter.table2, 1002) := by
  rw [show (1003 : Nat) = 3 + 1000 from rfl, thousand_steps,
    insert_key_rnd_one exEnv 3 0 (cexSingle 2) (cexSingle 1) exEnv.h1 exEnv.h2 1000 rnd
      (fun _ => 0)]
  decide

theorem split_run (rnd : Nat → Nat) :
    xuckoon_hash_table_insert exEnv 1003 rnd splitTable 1 = .ok (true, splitTableAfter) := by
  have hfind : findEither exEnv splitTable 1 = .ok false := by decide
  unfold xuckoon_hash_table_insert
  rw [hfind]
  simp only
  rw [if_pos (show splitTable.table1.nkeys ≤ splitTable.table2.nkeys by decide)]
  have := split_chain rnd
  simp only [splitTable] at this ⊢
  rw [this]
  rfl

/-- C12 as stated fails on both counts.  In the environment `exEnv` (h1 k = k,
h2 k = k / 2) with capacity 1, the insert of key 1 into the reachable table
holding 0 and 2 evicts 1002 times, returns, and has split a bucket twice (once in
each inner table), not once.  In the environment `cexEnv` the insert of key 3
into the reachable table holding 1 and 2 evicts 1000 times and then fails the
size assertion, so it does not complete. -/
theorem forced_splits_counterexample :
    (Reachable exEnv 1 splitTable ∧
     (∀ rnd, insert_key exEnv 1 1003 1 splitTable.table1 splitTable.table2 exEnv.h1 exEnv.h2 0
        rnd = .ok (true, splitTableAfter.table1, splitTableAfter.table2, 1002)) ∧
     (∀ rnd, xuckoon_hash_table_insert exEnv 1003 rnd splitTable 1
        = .ok (true, splitTableAfter)) ∧
     splitTableAfter.table1.nbuckets = splitTable.table1.nbuckets + 1 ∧
     splitTableAfter.table2.nbuckets = splitTable.table2.nbuckets + 1) ∧
    (Reachable cexEnv 1 cexTable ∧
     ∀ (fuel : Nat) (rnd : Nat → Nat), 1001 ≤ fuel →
       xuckoon_hash_table_insert cexEnv fuel rnd cexTable 3 = .fault .tableTooLarge) := by
  refine ⟨⟨splitReach, split_chain, split_run, rfl, rfl⟩, cexReach, ?_⟩
  intro fuel rnd hf
  rw [cex_insert_eq]
  obtain ⟨extra, rfl⟩ : ∃ extra, fuel = 1000 + 1 + extra := ⟨fuel - 1001, by omega⟩
  rw [cex_chain_asserts 1000 extra 3 1 2 0 rnd (by omega)]

/-- C12, amended (forced splits): every returning `split_bucket` adds exactly
one bucket to its table, and when the eviction chain of an insert call (started
with the replacement counter at 0) returns after `n` evictions, the two inner
tables together have gained `n - 1000` buckets: a split is forced at the 1001st
and at every later eviction, so there are `n - 1000` forced splits when
`n > 1000` and none otherwise. -/
theorem forced_splits (env : Env) (bs fuel : Nat) (key : Int) (tA tB : InnerTable)
    (hA hB : Int → Int) (rnd : Nat → Nat) (r : Bool) (tA' tB' : InnerTable) (n : Nat)
    (hrun : insert_key env bs fuel key tA tB hA hB 0 rnd = .ok (r, tA', tB', n)) :
    tA'.nbuckets + tB'.nbuckets = tA.nbuckets + tB.nbuckets + (n - 1000) ∧
    ∀ (t t' : InnerTable) (address : Nat) (h : Int → Int),
      split_bucket env t address bs h = .ok t' → t'.nbuckets = t.nbuckets + 1 := by
  constructor
  · have := (insert_key_frame env bs fuel key tA tB hA hB 0 rnd r tA' tB' n hrun).2.1
    omega
  · intro t t' address h hs
    exact (split_bucket_frame hs).1

theorem forced_splits_witness :
    splitTableAfter.table1.nbuckets + splitTableAfter.table2.nbuckets =
      (cexSingle 0).nbuckets + (cexSingle 2).nbuckets + (1002 - 1000) :=
  (forced_splits exEnv 1 1003 1 (cexSingle 0) (cexSingle 2) exEnv.h1 exEnv.h2 (fun _ => 0) true
    splitTableAfter.table1 splitTableAfter.table2 1002 (split_chain (fun _ => 0))).1

/-- C13 as stated fails: in the environment `exEnv` (h1 k = k) with capacity 1,
the keys 4 and 20 have h1 values agreeing on bit 0, yet after inserting them
into a fresh table, with any positive fuel and any random sources, table1 still
has depth 0: the second key went to table2. -/
theorem split_on_saturation_counterexample :
    exEnv.h1 4 % 2 = exEnv.h1 20 % 2 ∧
    (∀ (f1 f2 : Nat) (r1 r2 : Nat → Nat),
      insertSeq exEnv [⟨4, f1 + 1, r1⟩, ⟨20, f2 + 1, r2⟩] (new_xuckoon_hash_table exEnv 1) =
        .ok ([true, true], twoKeyTable)) ∧
    twoKeyTable.table1.depth = 0 ∧ ¬ 1 ≤ twoKeyTable.table1.depth := by
  refine ⟨by decide, ?_, rfl, by decide⟩
  intro f1 f2 r1 r2
  rw [two_inserts exEnv 4 20 (by decide) f1 f2 r1 r2]
  rfl

/-- C13, amended (two keys, capacity 1): starting from a fresh table, inserting
two distinct keys, whatever their hash values, returns true twice, puts the
first key in table1 and the second in table2 and leaves both inner tables at
depth 0 with one bucket; lookup returns true for both keys afterwards. -/
theorem two_keys_no_split (env : Env) (k1 k2 : Int) (hne : k1 ≠ k2) (f1 f2 : Nat)
    (r1 r2 : Nat → Nat) :
    ∃ T', insertSeq env [⟨k1, f1 + 1, r1⟩, ⟨k2, f2 + 1, r2⟩] (new_xuckoon_hash_table env 1) =
        .ok ([true, true], T') ∧
      T'.table1.depth = 0 ∧ T'.table1.nbuckets = 1 ∧ T'.table2.depth = 0 ∧
      T'.table2.nbuckets = 1 ∧ tableKeys T'.table1 = [k1] ∧ tableKeys T'.table2 = [k2] ∧
      xuckoon_hash_table_lookup env T' k1 = .ok true ∧
      xuckoon_hash_table_lookup env T' k2 = .ok true := by
  have hrun := two_inserts env k1 k2 hne f1 f2 r1 r2
  have hl0 := new_bucket_length env.junk 0 0 1
  have hk0 := new_bucket_keys env.junk 0 0 1
  have hn0 : (new_bucket env.junk 0 0 1).nkeys = 0 := rfl
  have hk1 : tableKeys (flatTable (pushKey (new_bucket env.junk 0 0 1) k1)) = [k1] := by
    rw [tableKeys_flat, pushKey_keys _ _ (by rw [hl0, hn0]; decide), hk0]; rfl
  have hk2 : tableKeys (flatTable (pushKey (new_bucket env.junk 0 0 1) k2)) = [k2] := by
    rw [tableKeys_flat, pushKey_keys _ _ (by rw [hl0, hn0]; decide), hk0]; rfl
  have hG := (insertSeq_reachable _ _ _ _ (@Reachable.fresh env 1) hrun).ginv
  refine ⟨_, hrun, rfl, rfl, rfl, rfl, hk1, hk2, ?_, ?_⟩
  · rw [lookup_eq hG, decide_eq_true (mem_allKeys_of _ k1 _ _ hk1 hk2 (by simp))]
  · rw [lookup_eq hG, decide_eq_true (mem_allKeys_of _ k2 _ _ hk1 hk2 (by simp))]

theorem two_keys_no_split_witness :
    ∃ T', insertSeq exEnv [⟨4, 0 + 1, fun _ => 0⟩, ⟨20, 0 + 1, fun _ => 0⟩]
        (new_xuckoon_hash_table exEnv 1) = .ok ([true, true], T') ∧
      T'.table1.depth = 0 ∧ T'.table1.nbuckets = 1 ∧ T'.table2.depth = 0 ∧
      T'.table2.nbuckets = 1 ∧ tableKeys T'.table1 = [4] ∧ tableKeys T'.table2 = [20] ∧
      xuckoon_hash_table_lookup exEnv T' 4 = .ok true ∧
      xuckoon_hash_table_lookup exEnv T' 20 = .ok true :=
  two_keys_no_split exEnv 4 20 (by decide) 0 0 (fun _ => 0) (fun _ => 0)

/-- C14 as stated fails: in the environment `exEnv` with capacity 4, after
inserting the five distinct keys 1, 2, 3, 4, 5 into a fresh table, with any
positive fuel and any random sources, table1 still has depth 0 and one bucket:
three keys are in table1 and two in table2, and no bucket was ever full. -/
theorem five_key_scenario_counterexample :
    (∀ (f1 f2 f3 f4 f5 : Nat) (r1 r2 r3 r4 r5 : Nat → Nat),
      insertSeq exEnv [⟨1, f1 + 1, r1⟩, ⟨2, f2 + 1, r2⟩, ⟨3, f3 + 1, r3⟩, ⟨4, f4 + 1, r4⟩,
          ⟨5, f5 + 1, r5⟩] (new_xuckoon_hash_table exEnv 4) =
        .ok ([true, true, true, true, true], fiveKeyTable)) ∧
    fiveKeyTable.table1.depth = 0 ∧ ¬ 0 < fiveKeyTable.table1.depth ∧
    fiveKeyTable.table1.nbuckets = 1 := by
  refine ⟨?_, rfl, by decide, rfl⟩
  intro f1 f2 f3 f4 f5 r1 r2 r3 r4 r5
  rw [five_inserts exEnv 1 2 3 4 5 (by decide) f1 f2 f3 f4 f5 r1 r2 r3 r4 r5]
  rfl

/-- C14, amended (five keys, capacity 4): starting from a fresh table, inserting
five distinct keys returns true five times and puts the first, third and fifth
key in table1 and the second and fourth in table2; no bucket is split, so both
inner tables keep depth 0 and one bucket, and lookup returns true for all five
keys. -/
theorem five_keys_no_split (env : Env) (k1 k2 k3 k4 k5 : Int)
    (hd : [k1, k2, k3, k4, k5].Nodup) (f1 f2 f3 f4 f5 : Nat) (r1 r2 r3 r4 r5 : Nat → Nat) :
    ∃ T', insertSeq env [⟨k1, f1 + 1, r1⟩, ⟨k2, f2 + 1, r2⟩, ⟨k3, f3 + 1, r3⟩,
          ⟨k4, f4 + 1, r4⟩, ⟨k5, f5 + 1, r5⟩] (new_xuckoon_hash_table env 4) =
        .ok ([true, true, true, true, true], T') ∧
      T'.table1.depth = 0 ∧ T'.table1.nbuckets = 1 ∧ T'.table2.depth = 0 ∧
      T'.table2.nbuckets = 1 ∧ tableKeys T'.table1 = [k1, k3, k5] ∧
      tableKeys T'.table2 = [k2, k4] ∧
      ∀ k ∈ [k1, k2, k3, k4, k5], xuckoon_hash_table_lookup env T' k = .ok true := by
  have hrun := five_inserts env k1 k2 k3 k4 k5 hd f1 f2 f3 f4 f5 r1 r2 r3 r4 r5
  have hl0 := new_bucket_length env.junk 0 0 4
  have hk0 := new_bucket_keys env.junk 0 0 4
  have hn0 : (new_bucket env.junk 0 0 4).nkeys = 0 := rfl
  have hk1 : tableKeys (flatTable
      (pushKey (pushKey (pushKey (new_bucket env.junk 0 0 4) k1) k3) k5)) = [k1, k3, k5] := by
    rw [tableKeys_flat,
      pushKey_keys _ _ (by simp only [pushKey_length, hl0]; exact (by decide : (2 : Nat) < 4)),
      pushKey_keys _ _ (by simp only [pushKey_length, hl0]; exact (by decide : (1 : Nat) < 4)),
      pushKey_keys _ _ (by rw [hl0, hn0]; decide), hk0]
    rfl
  have hk2 : tableKeys (flatTable (pushKey (pushKey (new_bucket env.junk 0 0 4) k2) k4))
      = [k2, k4] := by
    rw [tableKeys_flat,
      pushKey_keys _ _ (by simp only [pushKey_length, hl0]; exact (by decide : (1 : Nat) < 4)),
      pushKey_keys _ _ (by rw [hl0, hn0]; decide), hk0]
    rfl
  have hG := (insertSeq_reachable _ _ _ _ (@Reachable.fresh env 4) hrun).ginv
  refine ⟨_, hrun, rfl, rfl, rfl, rfl, hk1, hk2, ?_⟩
  intro k hk
  have hmem : k ∈ [k1, k3, k5] ++ [k2, k4] := by
    simp only [List.mem_cons, List.mem_singleton, List.not_mem_nil, or_false] at hk
    simp only [List.mem_append, List.mem_cons, List.mem_singleton, List.not_mem_nil, or_false]
    tauto
  rw [lookup_eq hG, decide_eq_true (mem_allKeys_of _ k _ _ hk1 hk2 hmem)]

theorem five_keys_no_split_witness :
    ∃ T', insertSeq exEnv [⟨1, 0 + 1, fun _ => 0⟩, ⟨2, 0 + 1, fun _ => 0⟩,
          ⟨3, 0 + 1, fun _ => 0⟩, ⟨4, 0 + 1, fun _ => 0⟩, ⟨5, 0 + 1, fun _ => 0⟩]
          (new_xuckoon_hash_table exEnv 4) =
        .ok ([true, true, true, true, true], T') ∧
      T'.table1.depth = 0 ∧ T'.table1.nbuckets = 1 ∧ T'.table2.depth = 0 ∧
      T'.table2.nbuckets = 1 ∧ tableKeys T'.table1 = [1, 3, 5] ∧
      tableKeys T'.table2 = [2, 4] ∧
      ∀ k ∈ [(1 : Int), 2, 3, 4, 5], xuckoon_hash_table_lookup exEnv T' k = .ok true :=
  five_keys_no_split exEnv 1 2 3 4 5 (by decide) 0 0 0 0 0 (fun _ => 0) (fun _ => 0)
    (fun _ => 0) (fun _ => 0) (fun _ => 0)



/-! ### The next bit of a hash value -/

theorem hashBit_cases (d : Nat) (x : Int) : hashBit d x = 0 ∨ hashBit d x = 1 :=
  Int.emod_two_eq _

theorem emod_succ (d : Nat) (x : Int) :
    x % (2 : Int) ^ (d + 1) = x % (2 : Int) ^ d + (2 : Int) ^ d * hashBit d x := by
  have hp : (0 : Int) < (2 : Int) ^ d := by positivity
  have h1 := Int.emod_add_ediv x ((2 : Int) ^ d)
  have h2 := Int.emod_add_ediv (x / (2 : Int) ^ d) 2
  have h3 := Int.emod_nonneg x (ne_of_gt hp)
  have h4 := Int.emod_lt_of_pos x hp
  have hb : 0 ≤ hashBit d x ∧ hashBit d x < 2 :=
    ⟨Int.emod_nonneg _ (by norm_num), Int.emod_lt_of_pos _ (by norm_num)⟩
  have key : x = (x % (2 : Int) ^ d + (2 : Int) ^ d * hashBit d x) +
      (x / (2 : Int) ^ d / 2) * (2 : Int) ^ (d + 1) := by
    unfold hashBit
    rw [pow_succ]
    have e : x / (2 : Int) ^ d = (x / (2 : Int) ^ d) % 2 + 2 * (x / (2 : Int) ^ d / 2) := h2.symm
    calc x = x % (2 : Int) ^ d + (2 : Int) ^ d * (x / (2 : Int) ^ d) := h1.symm
      _ = x % (2 : Int) ^ d + (2 : Int) ^ d * ((x / (2 : Int) ^ d) % 2 + 2 * (x / (2 : Int) ^ d / 2)) := by
          rw [← e]
      _ = _ := by ring
  have hlt : x % (2 : Int) ^ d + (2 : Int) ^ d * hashBit d x < (2 : Int) ^ (d + 1) := by
    rw [pow_succ]
    rcases hashBit_cases d x with h | h <;> rw [h] <;> linarith
  have hnn : 0 ≤ x % (2 : Int) ^ d + (2 : Int) ^ d * hashBit d x := by
    have := mul_nonneg (le_of_lt hp) hb.1
    linarith
  conv_lhs => rw [key]
  rw [Int.add_mul_emod_self, Int.emod_eq_of_lt hnn hlt]

theorem addr_succ (d : Nat) (x : Int) :
    addr (d + 1) x = addr d x + 2 ^ d * (hashBit d x).toNat := by
  unfold addr
  rw [emod_succ]
  have hp : (0 : Int) < (2 : Int) ^ d := by positivity
  have h3 := Int.emod_nonneg x (ne_of_gt hp)
  rcases hashBit_cases d x with h | h
  · rw [h]; simp
  · rw [h]
    simp only [mul_one, Int.toNat_one]
    rw [Int.toNat_add h3 (le_of_lt hp)]
    congr 1
    exact_mod_cast Int.toNat_natCast (2 ^ d)

/-- A key addressed to a bucket of depth `d` with id `f` is addressed, with one
more bit, to `f` when bit `d` of its hash value is 0 and to `2^d + f` when it is 1. -/
theorem addr_succ_iff (d f : Nat) (x : Int) (hx : addr d x = f) :
    (addr (d + 1) x = f ↔ hashBit d x = 0) ∧ (addr (d + 1) x = 2 ^ d + f ↔ hashBit d x = 1) := by
  rw [addr_succ, hx]
  have hp := Nat.two_pow_pos d
  rcases hashBit_cases d x with h | h
  · rw [h]; simp only [Int.toNat_zero, mul_zero, add_zero, true_iff, zero_ne_one, iff_false]
    constructor
    · trivial
    · omega
  · rw [h]; simp only [Int.toNat_one, mul_one, one_ne_zero, iff_false, iff_true]
    constructor
    · omega
    · omega



/-! ### Where the final loop of a split puts the keys -/

theorem bucketKeys_push (b : Bucket) (key : Int) (h : b.nkeys < b.keys.length) :
    bucketKeys { b with keys := b.keys.set b.nkeys key, nkeys := b.nkeys + 1 } =
      bucketKeys b ++ [key] := by
  simp only [bucketKeys]; exact take_succ_set _ _ _ h

/-- The final loop of `split_bucket`, between the drained bucket at `p` and the
sibling at `q`: each bucket receives, in order, the keys whose address points to
it, and no other bucket changes. -/
theorem reinsert_loop_contents {bs : Nat} {h : Int → Int} (p q : Nat) (hpq : p ≠ q) :
    ∀ (n i : Nat) (t : InnerTable) (bp bq : Bucket), Struct bs h t →
      t.heap[p]? = some bp → t.heap[q]? = some bq →
      bp.nkeys ≤ i → bq.nkeys ≤ i → i + n ≤ bs →
      (∀ m key, i ≤ m → m < i + n → bp.keys[m]? = some key →
        t.buckets[addr t.depth (h key)]? = some p ∨
        t.buckets[addr t.depth (h key)]? = some q) →
      ∃ t' bp' bq', reinsert_loop h p i n t = .ok t' ∧
        t'.heap[p]? = some bp' ∧ t'.heap[q]? = some bq' ∧
        bp'.id = bp.id ∧ bp'.depth = bp.depth ∧ bq'.id = bq.id ∧ bq'.depth = bq.depth ∧
        bucketKeys bp' = bucketKeys bp ++ ((bp.keys.drop i).take n).filter
          (fun k => decide (t.buckets[addr t.depth (h k)]? = some p)) ∧
        bucketKeys bq' = bucketKeys bq ++ ((bp.keys.drop i).take n).filter
          (fun k => decide (t.buckets[addr t.depth (h k)]? = some q)) ∧
        (∀ r, r ≠ p → r ≠ q → t'.heap[r]? = t.heap[r]?) := by
  intro n
  induction n with
  | zero =>
    intro i t bp bq hS hbp hbq _ _ _ _
    exact ⟨t, bp, bq, rfl, hbp, hbq, rfl, rfl, rfl, rfl, by simp, by simp, fun _ _ _ => rfl⟩
  | succ n ih =>
    intro i t bp bq hS hbp hbq hnp hnq hin hpl
    have hokp := hS.bucket_ok p bp hbp
    have hokq := hS.bucket_ok q bq hbq
    have hi : i < bp.keys.length := by rw [hokp.keys_len]; omega
    have hkey : bp.keys[i]? = some bp.keys[i] := List.getElem?_eq_getElem hi
    have hp : p < t.heap.length := (List.getElem?_eq_some.mp hbp).1
    have hq : q < t.heap.length := (List.getElem?_eq_some.mp hbq).1
    have hunf : ∀ t1, reinsert_key t bp.keys[i] h = .ok t1 →
        reinsert_loop h p i (n + 1) t = reinsert_loop h p (i + 1) n t1 := by
      intro t1 e1
      rw [reinsert_loop, hbp]
      simp only
      rw [hkey]
      simp only
      rw [e1]
    have hdropi : (bp.keys.drop i).take (n + 1) = bp.keys[i] :: (bp.keys.drop (i + 1)).take n := by
      rw [List.drop_eq_getElem_cons hi, List.take_succ_cons]
    rcases hpl i _ (Nat.le_refl i) (by omega) hkey with hh | hh
    · -- the key goes back to the bucket at `p`
      obtain ⟨e1, e2, _⟩ := reinsert_key_spec hS bp.keys[i] p bp hh hbp (by omega)
      have hbp1 : (t.heap.set p
          { bp with keys := bp.keys.set bp.nkeys bp.keys[i], nkeys := bp.nkeys + 1 })[p]? =
          some { bp with keys := bp.keys.set bp.nkeys bp.keys[i], nkeys := bp.nkeys + 1 } :=
        List.getElem?_set_self hp
      have hbq1 : (t.heap.set p
          { bp with keys := bp.keys.set bp.nkeys bp.keys[i], nkeys := bp.nkeys + 1 })[q]? =
          some bq := by
        rw [List.getElem?_set_ne hpq]; exact hbq
      obtain ⟨t', bp', bq', r1, r2, r3, r4, r5, r6, r7, r8, r9, r10⟩ :=
        ih (i + 1) _ _ bq e2 hbp1 hbq1 (by show bp.nkeys + 1 ≤ i + 1; omega) (by omega) (by omega)
          (by
            intro m key hm1 hm2 hk
            have hk' : bp.keys[m]? = some key := by
              have : (bp.keys.set bp.nkeys bp.keys[i])[m]? = some key := hk
              rwa [List.getElem?_set_ne (by omega)] at this
            exact hpl m key (by omega) (by omega) hk')
      have hdrop : (bp.keys.set bp.nkeys bp.keys[i]).drop (i + 1) = bp.keys.drop (i + 1) := by
        apply List.ext_getElem?
        intro j
        rw [List.getElem?_drop, List.getElem?_drop, List.getElem?_set_ne (by omega)]
      have hnq' : ¬ t.buckets[addr t.depth (h bp.keys[i])]? = some q := by
        rw [hh]; intro e; exact hpq (Option.some.inj e)
      refine ⟨t', bp', bq', ?_, r2, r3, r4, r5, r6, r7, ?_, ?_, ?_⟩
      · rw [hunf _ e1]; exact r1
      · rw [r8, bucketKeys_push bp _ (by rw [hokp.keys_len]; omega), hdropi]
        simp only [hdrop, List.filter_cons, hh, decide_True, if_true, List.append_assoc,
          List.singleton_append]
      · rw [r9, hdropi]
        simp only [hdrop, List.filter_cons, hnq', decide_False, Bool.false_eq_true, if_false]
      · intro r hrp hrq
        rw [r10 r hrp hrq]
        show (t.heap.set p _)[r]? = t.heap[r]?
        rw [List.getElem?_set_ne (Ne.symm hrp)]
    · -- the key goes to the sibling at `q`
      obtain ⟨e1, e2, _⟩ := reinsert_key_spec hS bp.keys[i] q bq hh hbq (by omega)
      have hbp1 : (t.heap.set q
          { bq with keys := bq.keys.set bq.nkeys bp.keys[i], nkeys := bq.nkeys + 1 })[p]? =
          some bp := by
        rw [List.getElem?_set_ne (Ne.symm hpq)]; exact hbp
      have hbq1 : (t.heap.set q
          { bq with keys := bq.keys.set bq.nkeys bp.keys[i], nkeys := bq.nkeys + 1 })[q]? =
          some { bq with keys := bq.keys.set bq.nkeys bp.keys[i], nkeys := bq.nkeys + 1 } :=
        List.getElem?_set_self hq
      obtain ⟨t', bp', bq', r1, r2, r3, r4, r5, r6, r7, r8, r9, r10⟩ :=
        ih (i + 1) _ bp _ e2 hbp1 hbq1 (by omega) (by show bq.nkeys + 1 ≤ i + 1; omega) (by omega)
          (by
            intro m key hm1 hm2 hk
            exact hpl m key (by omega) (by omega) hk)
      have hnp' : ¬ t.buckets[addr t.depth (h bp.keys[i])]? = some p := by
        rw [hh]; intro e; exact hpq (Option.some.inj e).symm
      refine ⟨t', bp', bq', ?_, r2, r3, r4, r5, r6, r7, ?_, ?_, ?_⟩
      · rw [hunf _ e1]; exact r1
      · rw [r8, hdropi]
        simp only [List.filter_cons, hnp', decide_False, Bool.false_eq_true, if_false]
      · rw [r9, bucketKeys_push bq _ (by rw [hokq.keys_len]; omega), hdropi]
        simp only [List.filter_cons, hh, decide_True, if_true, List.append_assoc,
          List.singleton_append]
      · intro r hrp hrq
        rw [r10 r hrp hrq]
        show (t.heap.set q _)[r]? = t.heap[r]?
        rw [List.getElem?_set_ne (Ne.symm hrq)]



/-! ### The table after a split, in detail -/

/-- The steps SECOND, THIRD and FINALLY of `split_bucket` on a table satisfying
the structural invariant, for a bucket less deep than the table: the buckets,
their keys and the slot array afterwards. -/
theorem split_rest_detail (env : Env) {bs : Nat} {h : Int → Int} {td : InnerTable}
    (hS : Struct bs h td) (address p : Nat) (bucket : Bucket)
    (h1 : td.buckets[address]? = some p) (h2 : td.heap[p]? = some bucket)
    (hd : bucket.depth < td.depth) :
    ∃ t' b0 b1, split_rest env td address bs h = .ok t' ∧ Struct bs h t' ∧
      t'.heap.length = td.heap.length + 1 ∧
      t'.heap[p]? = some b0 ∧ t'.heap[td.heap.length]? = some b1 ∧
      b0.id = bucket.id ∧ b0.depth = bucket.depth + 1 ∧
      b1.id = (1 <<< bucket.depth) ||| bucket.id ∧ b1.id = 2 ^ bucket.depth + bucket.id ∧
      b1.depth = bucket.depth + 1 ∧
      bucketKeys b0 = keysWithBit h bucket.depth 0 (bucketKeys bucket) ∧
      bucketKeys b1 = keysWithBit h bucket.depth 1 (bucketKeys bucket) ∧
      (∀ r, r ≠ p → r < td.heap.length → t'.heap[r]? = td.heap[r]?) ∧
      t'.buckets.length = td.buckets.length ∧
      (∀ i, i < td.size → t'.buckets[i]? =
        if i % 2 ^ (bucket.depth + 1) = 2 ^ bucket.depth + bucket.id then some td.heap.length
        else td.buckets[i]?) ∧
      t'.size = td.size ∧ t'.depth = td.depth ∧ t'.nbuckets = td.nbuckets + 1 ∧
      t'.nkeys = td.nkeys := by
  have hok := hS.bucket_ok p bucket h2
  have hp : p < td.heap.length := (List.getElem?_eq_some.mp h2).1
  have hf := hok.id_lt
  have hs : 2 ^ bucket.depth + bucket.id < 2 ^ (bucket.depth + 1) := by rw [pow_succ]; omega
  have hidx : index (rightmostnbits bucket.depth (bucket.id : Int)) = .ok bucket.id := by
    rw [index_rightmostnbits, addr_natCast _ _ hf]
  have hsuf : (1 <<< bucket.depth) ||| bucket.id = 2 ^ bucket.depth + bucket.id :=
    one_shiftLeft_or _ _ hf
  have hmax : 1 <<< (td.depth - (bucket.depth + 1)) = 2 ^ (td.depth - (bucket.depth + 1)) := by
    rw [Nat.shiftLeft_eq, Nat.one_mul]
  have hnd : bucket.depth + 1 ≤ td.depth := hd
  have hbound : ∀ m, m < 2 ^ (td.depth - (bucket.depth + 1)) →
      m * 2 ^ (bucket.depth + 1) + (2 ^ bucket.depth + bucket.id) < td.buckets.length := by
    intro m hm
    rw [hS.len_eq, hS.size_eq]
    exact ((pattern_iff td.depth _ _ _ hnd hs).mp ⟨m, hm, rfl⟩).1
  obtain ⟨B', hr1, hr2, hr3⟩ := redirect_spec td.heap.length (bucket.depth + 1)
    (2 ^ bucket.depth + bucket.id) td.buckets hs _ hbound
  have hB : ∀ i, i < td.size → B'[i]? =
      if i % 2 ^ (bucket.depth + 1) = 2 ^ bucket.depth + bucket.id then some td.heap.length
      else td.buckets[i]? := by
    intro i hi
    rw [hr3 i]
    have := pattern_iff td.depth (bucket.depth + 1) (2 ^ bucket.depth + bucket.id) i hnd hs
    rw [hS.size_eq] at hi
    by_cases hc : i % 2 ^ (bucket.depth + 1) = 2 ^ bucket.depth + bucket.id
    · rw [if_pos (this.mpr ⟨hi, hc⟩), if_pos hc]
    · rw [if_neg (fun e => hc (this.mp e).2), if_neg hc]
  have hnew : BucketOK bs td.depth h
      (new_bucket env.junk (2 ^ bucket.depth + bucket.id) (bucket.depth + 1) bs) :=
    new_bucket_ok _ _ _ _ _ _ hnd hs
  have hS3 := hS.split_start p bucket _ B' h2 hd hnew rfl rfl hr2 hB
  have hq3 : (td.heap.set p { bucket with depth := bucket.depth + 1, nkeys := 0 } ++
      [new_bucket env.junk (2 ^ bucket.depth + bucket.id) (bucket.depth + 1) bs])[td.heap.length]?
      = some (new_bucket env.junk (2 ^ bucket.depth + bucket.id) (bucket.depth + 1) bs) := by
    rw [List.getElem?_append_right (by rw [List.length_set])]
    simp [List.length_set]
  have hp3 : (td.heap.set p { bucket with depth := bucket.depth + 1, nkeys := 0 } ++
      [new_bucket env.junk (2 ^ bucket.depth + bucket.id) (bucket.depth + 1) bs])[p]?
      = some { bucket with depth := bucket.depth + 1, nkeys := 0 } := by
    rw [List.getElem?_append_left (by rw [List.length_set]; exact hp)]
    exact List.getElem?_set_self hp
  have hplace : ∀ key, key ∈ bucketKeys bucket →
      (B'[addr td.depth (h key)]? = some p ↔ hashBit bucket.depth (h key) = 0) ∧
      (B'[addr td.depth (h key)]? = some td.heap.length ↔ hashBit bucket.depth (h key) = 1) := by
    intro key hmem
    have hpl := hok.placed key hmem
    have halt := hS.addr_lt_size (h key)
    have hb := addr_succ_iff _ _ _ hpl
    have g0 : B'[addr td.depth (h key)]? = some p ↔
        addr td.depth (h key) % 2 ^ (bucket.depth + 1) = bucket.id :=
      hS3.slots _ p _ halt hp3
    have g1 : B'[addr td.depth (h key)]? = some td.heap.length ↔
        addr td.depth (h key) % 2 ^ (bucket.depth + 1) = 2 ^ bucket.depth + bucket.id :=
      hS3.slots _ td.heap.length _ halt hq3
    rw [addr_mod _ _ _ hnd] at g0 g1
    exact ⟨g0.trans hb.1, g1.trans hb.2⟩
  have hloop : ∀ m key, 0 ≤ m → m < 0 + bucket.nkeys → bucket.keys[m]? = some key →
      B'[addr td.depth (h key)]? = some p ∨ B'[addr td.depth (h key)]? = some td.heap.length := by
    intro m key _ hm hk
    simp only [Nat.zero_add] at hm
    have hmem : key ∈ bucketKeys bucket := by
      unfold bucketKeys
      rw [List.mem_iff_getElem?]
      exact ⟨m, by rw [List.getElem?_take, if_pos hm]; exact hk⟩
    rcases hashBit_cases bucket.depth (h key) with g | g
    · left; exact (hplace key hmem).1.mpr g
    · right; exact (hplace key hmem).2.mpr g
  obtain ⟨t', b0, b1, l1, l2, l3, l4, l5, l6, l7, l8, l9, l10⟩ :=
    @reinsert_loop_contents bs h p td.heap.length (Nat.ne_of_lt hp) bucket.nkeys 0 _
      { bucket with depth := bucket.depth + 1, nkeys := 0 } _ hS3 hp3 hq3
      (Nat.le_refl 0) (Nat.le_refl 0) (by simpa using hok.nkeys_le) hloop
  have hrun : split_rest env td address bs h = .ok t' := by
    unfold split_rest
    rw [(bucketAt_ok_iff td address p bucket).mpr ⟨h1, h2⟩]
    simp only [hidx, hsuf, hmax, List.length_set, if_neg (Nat.not_lt.mpr hnd), hr1]
    rw [List.set_append_left _ _ (by rw [List.length_set]; exact hp), List.set_set]
    exact l1
  obtain ⟨t'', s1, s2, _, s4, s5, s6, s7⟩ := split_rest_spec env hS address p bucket h1 h2 hd
  rw [hrun] at s1
  cases s1
  obtain ⟨f1, _, _, _⟩ := reinsert_loop_frame _ _ _ _ _ _ l1
  have hlen : t'.heap.length = td.heap.length + 1 := by
    rw [← s2.nbuckets_eq, s7, hS.nbuckets_eq]
  have e0 : (List.drop 0 bucket.keys).take bucket.nkeys = bucketKeys bucket := rfl
  have k0 : bucketKeys { bucket with depth := bucket.depth + 1, nkeys := 0 } = [] := by
    simp [bucketKeys]
  have k1 : bucketKeys (new_bucket env.junk (2 ^ bucket.depth + bucket.id)
      (bucket.depth + 1) bs) = [] := by simp [bucketKeys, new_bucket]
  refine ⟨t', b0, b1, hrun, s2, hlen, l2, l3, l4, l5, ?_, l6, l7, ?_, ?_, ?_, ?_, ?_,
    s5, s6, s7, s4⟩
  · rw [l6, hsuf]; rfl
  · rw [l8, k0, List.nil_append]
    simp only at e0 ⊢
    rw [e0]
    unfold keysWithBit
    apply List.filter_congr
    intro key hmem
    simp only [decide_eq_decide]
    exact (hplace key hmem).1
  · rw [l9, k1, List.nil_append]
    simp only at e0 ⊢
    rw [e0]
    unfold keysWithBit
    apply List.filter_congr
    intro key hmem
    simp only [decide_eq_decide]
    exact (hplace key hmem).2
  · intro r hrp hr
    rw [l10 r hrp (Nat.ne_of_lt hr)]
    show (td.heap.set p _ ++ _)[r]? = td.heap[r]?
    rw [List.getElem?_append_left (by rw [List.length_set]; exact hr),
      List.getElem?_set_ne (Ne.symm hrp)]
  · rw [f1]; exact hr2
  · intro i hi
    rw [f1]
    exact hB i hi



theorem Struct.double_slot {bs : Nat} {h : Int → Int} {t : InnerTable} (hS : Struct bs h t)
    (i : Nat) (hi : i < t.size * 2) :
    (t.buckets ++ t.buckets.take t.size)[i]? = t.buckets[i % t.size]? := by
  have htake : t.buckets.take t.size = t.buckets := by
    rw [← hS.len_eq]; exact List.take_length _
  rw [htake, List.getElem?_append]
  by_cases hlt : i < t.buckets.length
  · rw [if_pos hlt, Nat.mod_eq_of_lt (by rw [← hS.len_eq]; exact hlt)]
  · rw [if_neg hlt]
    rw [hS.len_eq] at hlt ⊢
    have : i % t.size = i - t.size := by
      rw [Nat.mod_eq_sub_mod (by omega), Nat.mod_eq_of_lt (by omega)]
    rw [this]

/-- The function `split_bucket` on a table satisfying the structural invariant,
in detail: it fails only by the size assertion, when the bucket has the depth of
the table and the doubled size is not below `MAX_TABLE_SIZE`; otherwise it
returns, the table is doubled exactly when the bucket had the depth of the
table, one sibling is allocated at the end of the heap, the keys of the bucket
are divided between the two by bit `depth` of their hash values, the slots
of the sibling's address pattern point to the sibling and every other slot and
bucket is as before. -/
theorem split_bucket_detail (env : Env) {bs : Nat} {h : Int → Int} {t : InnerTable}
    (hS : Struct bs h t) (address p : Nat) (b : Bucket)
    (hbk : bucketAt t address = .ok (p, b)) :
      ((b.depth = t.depth ∧ ¬ t.size * 2 < env.MAX_TABLE_SIZE ∧
          split_bucket env t address bs h = .fault .tableTooLarge) ∨
       ∃ t' b0 b1, split_bucket env t address bs h = .ok t' ∧ Struct bs h t' ∧
        (b.depth = t.depth → t.size * 2 < env.MAX_TABLE_SIZE) ∧
        t'.size = (if b.depth = t.depth then t.size * 2 else t.size) ∧
        t'.depth = (if b.depth = t.depth then t.depth + 1 else t.depth) ∧
        t'.heap.length = t.heap.length + 1 ∧
        t'.heap[p]? = some b0 ∧ t'.heap[t.heap.length]? = some b1 ∧
        b0.id = b.id ∧ b0.depth = b.depth + 1 ∧
        b1.id = (1 <<< b.depth) ||| b.id ∧ b1.id = 2 ^ b.depth + b.id ∧
        b1.depth = b.depth + 1 ∧
        bucketKeys b0 = keysWithBit h b.depth 0 (bucketKeys b) ∧
        bucketKeys b1 = keysWithBit h b.depth 1 (bucketKeys b) ∧
        (∀ r, r ≠ p → r < t.heap.length → t'.heap[r]? = t.heap[r]?) ∧
        t'.buckets.length = t'.size ∧
        (∀ i, i < t'.size → t'.buckets[i]? =
          if i % 2 ^ (b.depth + 1) = 2 ^ b.depth + b.id then some t.heap.length
          else t.buckets[i % t.size]?) ∧
        t'.nbuckets = t.nbuckets + 1 ∧ t'.nkeys = t.nkeys) := by
  obtain ⟨h1, h2⟩ := (bucketAt_ok_iff t address p b).mp hbk
  have ha : address < t.size := by
    rw [← hS.len_eq]; exact (List.getElem?_eq_some.mp h1).1
  have hok := hS.bucket_ok p b h2
  unfold split_bucket
  rw [hbk]
  simp only
  by_cases hdep : b.depth = t.depth
  · rw [if_pos hdep, double_table_eq]
    by_cases hmax : t.size * 2 < env.MAX_TABLE_SIZE
    · rw [if_pos hmax]
      simp only
      right
      have hSd := hS.double
      have h1' : (t.buckets ++ t.buckets.take t.size)[address]? = some p := by
        rw [List.getElem?_append_left (by rw [hS.len_eq]; exact ha)]; exact h1
      obtain ⟨t', b0, b1, r1, r2, r3, r4, r5, r6, r7, r8, r9, r10, r11, r12, r13, r14, r15, r16,
        r17, r18, r19⟩ :=
        split_rest_detail env hSd address p b h1' h2 (by show b.depth < t.depth + 1; omega)
      refine ⟨t', b0, b1, r1, r2, fun _ => hmax, ?_, ?_, r3, r4, r5, r6, r7, r8, r9, r10, r11,
        r12, r13, ?_, ?_, r18, r19⟩
      · rw [if_pos hdep]; exact r16
      · rw [if_pos hdep]; exact r17
      · rw [r14, r16]; exact hSd.len_eq
      · intro i hi
        rw [r16] at hi
        rw [r15 i hi]
        have := hS.double_slot i hi
        simp only at this ⊢
        rw [this]
    · rw [if_neg hmax]
      left; exact ⟨hdep, hmax, rfl⟩
  · rw [if_neg hdep]
    simp only
    right
    obtain ⟨t', b0, b1, r1, r2, r3, r4, r5, r6, r7, r8, r9, r10, r11, r12, r13, r14, r15, r16,
      r17, r18, r19⟩ :=
      split_rest_detail env hS address p b h1 h2 (Nat.lt_of_le_of_ne hok.depth_le hdep)
    refine ⟨t', b0, b1, r1, r2, fun e => absurd e hdep, ?_, ?_, r3, r4, r5, r6, r7, r8, r9, r10,
      r11, r12, r13, ?_, ?_, r18, r19⟩
    · rw [if_neg hdep]; exact r16
    · rw [if_neg hdep]; exact r17
    · rw [r14, r16]; exact hS.len_eq
    · intro i hi
      rw [r16] at hi
      rw [r15 i hi, Nat.mod_eq_of_lt hi]



theorem keysWithBit_perm (h : Int → Int) (d : Nat) (l : List Int) :
    (keysWithBit h d 0 l ++ keysWithBit h d 1 l).Perm l := by
  have e : keysWithBit h d 1 l = l.filter (fun k => !(decide (hashBit d (h k) = 0))) := by
    unfold keysWithBit
    apply List.filter_congr
    intro k _
    rcases hashBit_cases d (h k) with g | g <;> simp [g]
  rw [e]
  exact List.filter_append_perm _ l

theorem exStruct1 : Struct 2 exEnv.h1 exTable.table1 := exReach.ginv.inv1.struct

theorem exSplit : split_bucket exEnv exTable.table1 0 2 exEnv.h1 = .ok exSplit1 := by decide

theorem split_bucket_unfold (env : Env) (t : InnerTable) (address bs : Nat) (h : Int → Int)
    (p : Nat) (b : Bucket) (hb : bucketAt t address = .ok (p, b)) :
    (b.depth ≠ t.depth → split_bucket env t address bs h = split_rest env t address bs h) ∧
    (b.depth = t.depth → ∀ td, double_table env t = .ok td →
      split_bucket env t address bs h = split_rest env td address bs h) ∧
    (b.depth = t.depth → ∀ e, double_table env t = .fault e →
      split_bucket env t address bs h = .fault e) := by
  refine ⟨?_, ?_, ?_⟩
  · intro hd
    unfold split_bucket
    rw [hb]
    simp only [if_neg hd]
  · intro hd td htd
    unfold split_bucket
    rw [hb]
    simp only [if_pos hd, htd]
  · intro hd e htd
    unfold split_bucket
    rw [hb]
    simp only [if_pos hd, htd]

/-! ## Splitting and doubling -/

/-- C21 (split partitions keys by the next hash bit): `split_bucket` applied, in
a table satisfying the structural invariant (which gives the address invariant
and the key placement invariant, and holds in every reachable table), to the
bucket `b` of depth `d` at pointer `p`, fails only by the size assertion of
`double_table`; when it returns, the old bucket holds exactly the former keys of
`b` whose hash value has bit `d` equal to 0 and the new sibling (allocated at the
end of the heap) exactly those with bit `d` equal to 1, each in their original
order, so the keys of the two buckets together are a permutation of the former
keys of `b`. -/
theorem split_partitions_keys (env : Env) (bs : Nat) (h : Int → Int) (t : InnerTable)
    (hS : Struct bs h t) (address p : Nat) (b : Bucket)
    (hb : bucketAt t address = .ok (p, b)) :
    (b.depth = t.depth ∧ ¬ t.size * 2 < env.MAX_TABLE_SIZE ∧
      split_bucket env t address bs h = .fault .tableTooLarge) ∨
    ∃ t' b0 b1, split_bucket env t address bs h = .ok t' ∧
      t'.heap[p]? = some b0 ∧ t'.heap[t.heap.length]? = some b1 ∧
      b0.id = b.id ∧ b1.id = 2 ^ b.depth + b.id ∧
      bucketKeys b0 = keysWithBit h b.depth 0 (bucketKeys b) ∧
      bucketKeys b1 = keysWithBit h b.depth 1 (bucketKeys b) ∧
      (bucketKeys b0 ++ bucketKeys b1).Perm (bucketKeys b) := by
  rcases split_bucket_detail env hS address p b hb with hf | ⟨t', b0, b1, r1, _, _, _, _, _, r7,
      r8, r9, _, _, r12, _, r14, r15, _⟩
  · exact Or.inl hf
  · refine Or.inr ⟨t', b0, b1, r1, r7, r8, r9, r12, r14, r15, ?_⟩
    rw [r14, r15]
    exact keysWithBit_perm h b.depth _

theorem split_partitions_keys_witness :
    ∃ t' b0 b1, split_bucket exEnv exTable.table1 0 2 exEnv.h1 = .ok t' ∧
      t'.heap[0]? = some b0 ∧ t'.heap[exTable.table1.heap.length]? = some b1 ∧
      b0.id = exBucket.id ∧ b1.id = 2 ^ exBucket.depth + exBucket.id ∧
      bucketKeys b0 = keysWithBit exEnv.h1 exBucket.depth 0 (bucketKeys exBucket) ∧
      bucketKeys b1 = keysWithBit exEnv.h1 exBucket.depth 1 (bucketKeys exBucket) ∧
      (bucketKeys b0 ++ bucketKeys b1).Perm (bucketKeys exBucket) :=
  (split_partitions_keys exEnv 2 exEnv.h1 exTable.table1 exStruct1 0 0 exBucket
    (by decide)).resolve_left (fun hf => hf.2.1 (by decide))

/-- C22 (split redirects exactly the sibling's addresses): when `split_bucket`
on the bucket `b` (id `f`, depth `d`, at pointer `p`) of a table satisfying the
structural invariant returns, a slot index `i` of the resulting (possibly
doubled) table references the new sibling if and only if
`i mod 2^(d+1) = 2^d + (f mod 2^d)`; these slots, which all referenced `b`
before, are `2^(depth - (d+1))` in number (`depth` the depth of the resulting
table), no slot referenced the sibling's pointer before, and every other slot
`i` holds the pointer that slot `i mod size` held before the call, which is
slot `i` after the doubling, if one happened. -/
theorem split_redirects_sibling_slots (env : Env) (bs : Nat) (h : Int → Int) (t : InnerTable)
    (hS : Struct bs h t) (address p : Nat) (b : Bucket)
    (hb : bucketAt t address = .ok (p, b)) :
    (b.depth = t.depth ∧ ¬ t.size * 2 < env.MAX_TABLE_SIZE ∧
      split_bucket env t address bs h = .fault .tableTooLarge) ∨
    ∃ t', split_bucket env t address bs h = .ok t' ∧
      t'.buckets.length = t'.size ∧
      (∀ i, i < t'.size →
        (t'.buckets[i]? = some t.heap.length ↔
          i % 2 ^ (b.depth + 1) = 2 ^ b.depth + b.id % 2 ^ b.depth)) ∧
      t'.buckets.count t.heap.length = 2 ^ (t'.depth - (b.depth + 1)) ∧
      (∀ i : Nat, t.buckets[i]? ≠ some t.heap.length) ∧
      (∀ i, i < t'.size → i % 2 ^ (b.depth + 1) = 2 ^ b.depth + b.id % 2 ^ b.depth →
        t.buckets[i % t.size]? = some p) ∧
      (∀ i, i < t'.size → i % 2 ^ (b.depth + 1) ≠ 2 ^ b.depth + b.id % 2 ^ b.depth →
        t'.buckets[i]? = t.buckets[i % t.size]?) := by
  obtain ⟨_, h2⟩ := (bucketAt_ok_iff t address p b).mp hb
  have hok := hS.bucket_ok p b h2
  have hmod : b.id % 2 ^ b.depth = b.id := Nat.mod_eq_of_lt hok.id_lt
  have hfresh : ∀ i : Nat, t.buckets[i]? ≠ some t.heap.length := by
    intro i e
    exact absurd (hS.ptr_ok i _ e) (Nat.lt_irrefl _)
  rcases split_bucket_detail env hS address p b hb with hf | ⟨t', b0, b1, r1, r2, _, r4, _, _, _,
      r8, _, _, _, _, r13, _, _, _, r17, r18, _⟩
  · exact Or.inl hf
  · refine Or.inr ⟨t', r1, r17, ?_, ?_, hfresh, ?_, ?_⟩
    · intro i hi
      rw [r18 i hi, hmod]
      by_cases hc : i % 2 ^ (b.depth + 1) = 2 ^ b.depth + b.id
      · rw [if_pos hc]; exact ⟨fun _ => hc, fun _ => rfl⟩
      · rw [if_neg hc]
        exact ⟨fun e => absurd e (hfresh _), fun e => absurd e hc⟩
    · rw [r2.count_slots t.heap.length b1 r8, r13]
    · intro i hi hc
      rw [hmod] at hc
      have hpos : 0 < t.size := by rw [hS.size_eq]; exact Nat.two_pow_pos _
      have hlt : i % t.size < t.size := Nat.mod_lt _ hpos
      rw [hS.slots _ p b hlt h2]
      have hdvd : 2 ^ b.depth ∣ t.size := by
        rw [hS.size_eq]; exact Nat.pow_dvd_pow 2 hok.depth_le
      rw [Nat.mod_mod_of_dvd _ hdvd]
      exact mod_of_mod_succ i _ _ hok.id_lt (Or.inr hc)
    · intro i hi hc
      rw [hmod] at hc
      rw [r18 i hi, if_neg hc]

theorem split_redirects_sibling_slots_witness :
    ∃ t', split_bucket exEnv exTable.table1 0 2 exEnv.h1 = .ok t' ∧
      t'.buckets.length = t'.size ∧
      (∀ i, i < t'.size →
        (t'.buckets[i]? = some exTable.table1.heap.length ↔
          i % 2 ^ (exBucket.depth + 1) = 2 ^ exBucket.depth + exBucket.id % 2 ^ exBucket.depth)) ∧
      t'.buckets.count exTable.table1.heap.length = 2 ^ (t'.depth - (exBucket.depth + 1)) ∧
      (∀ i : Nat, exTable.table1.buckets[i]? ≠ some exTable.table1.heap.length) ∧
      (∀ i, i < t'.size →
        i % 2 ^ (exBucket.depth + 1) = 2 ^ exBucket.depth + exBucket.id % 2 ^ exBucket.depth →
        exTable.table1.buckets[i % exTable.table1.size]? = some 0) ∧
      (∀ i, i < t'.size →
        i % 2 ^ (exBucket.depth + 1) ≠ 2 ^ exBucket.depth + exBucket.id % 2 ^ exBucket.depth →
        t'.buckets[i]? = exTable.table1.buckets[i % exTable.table1.size]?) :=
  (split_redirects_sibling_slots exEnv 2 exEnv.h1 exTable.table1 exStruct1 0 0 exBucket
    (by decide)).resolve_left (fun hf => hf.2.1 (by decide))

/-- C23 (split creates one sibling): `split_bucket` on the bucket `b` (id `f`,
depth `d`, at pointer `p`) of a table satisfying the structural invariant fails
only by the size assertion; when it returns, exactly one bucket has been
allocated, with id `(1 << d) | f` (which is `2^d + f`) and depth `d + 1`, the
old bucket has depth `d + 1` and still the id `f`, every other bucket is
unchanged, `nbuckets` has grown by exactly 1 and `nkeys` is unchanged. -/
theorem split_creates_one_sibling (env : Env) (bs : Nat) (h : Int → Int) (t : InnerTable)
    (hS : Struct bs h t) (address p : Nat) (b : Bucket)
    (hb : bucketAt t address = .ok (p, b)) :
    (b.depth = t.depth ∧ ¬ t.size * 2 < env.MAX_TABLE_SIZE ∧
      split_bucket env t address bs h = .fault .tableTooLarge) ∨
    ∃ t' b0 b1, split_bucket env t address bs h = .ok t' ∧
      t'.heap.length = t.heap.length + 1 ∧
      t'.heap[t.heap.length]? = some b1 ∧
      b1.id = (1 <<< b.depth) ||| b.id ∧ b1.id = 2 ^ b.depth + b.id ∧ b1.depth = b.depth + 1 ∧
      t'.heap[p]? = some b0 ∧ b0.depth = b.depth + 1 ∧ b0.id = b.id ∧
      (∀ r, r ≠ p → r < t.heap.length → t'.heap[r]? = t.heap[r]?) ∧
      t'.nbuckets = t.nbuckets + 1 ∧ t'.nkeys = t.nkeys := by
  rcases split_bucket_detail env hS address p b hb with hf | ⟨t', b0, b1, r1, _, _, _, _, r6, r7,
      r8, r9, r10, r11, r12, r13, _, _, r16, _, _, r19, r20⟩
  · exact Or.inl hf
  · exact Or.inr ⟨t', b0, b1, r1, r6, r8, r11, r12, r13, r7, r10, r9, r16, r19, r20⟩

theorem split_creates_one_sibling_witness :
    ∃ t' b0 b1, split_bucket exEnv exTable.table1 0 2 exEnv.h1 = .ok t' ∧
      t'.heap.length = exTable.table1.heap.length + 1 ∧
      t'.heap[exTable.table1.heap.length]? = some b1 ∧
      b1.id = (1 <<< exBucket.depth) ||| exBucket.id ∧
      b1.id = 2 ^ exBucket.depth + exBucket.id ∧ b1.depth = exBucket.depth + 1 ∧
      t'.heap[0]? = some b0 ∧ b0.depth = exBucket.depth + 1 ∧ b0.id = exBucket.id ∧
      (∀ r, r ≠ 0 → r < exTable.table1.heap.length → t'.heap[r]? = exTable.table1.heap[r]?) ∧
      t'.nbuckets = exTable.table1.nbuckets + 1 ∧ t'.nkeys = exTable.table1.nkeys :=
  (split_creates_one_sibling exEnv 2 exEnv.h1 exTable.table1 exStruct1 0 0 exBucket
    (by decide)).resolve_left (fun hf => hf.2.1 (by decide))

/-- C24 (directory doubling): on a table whose slot array has `size` entries,
`double_table` fails (by its assertion) exactly when `2 * size` is not below
`MAX_TABLE_SIZE`; otherwise it returns a table of size `2 * size` and depth
`depth + 1` in which, for every `i < size`, slot `i` is unchanged and slot
`size + i` references the same bucket as slot `i`; `nkeys`, `nbuckets` and all
buckets (their id, depth and keys) are unchanged. -/
theorem directory_doubling (env : Env) (t : InnerTable) (hlen : t.buckets.length = t.size) :
    (¬ t.size * 2 < env.MAX_TABLE_SIZE → double_table env t = .fault .tableTooLarge) ∧
    (t.size * 2 < env.MAX_TABLE_SIZE →
      ∃ t', double_table env t = .ok t' ∧
        t'.size = 2 * t.size ∧ t'.depth = t.depth + 1 ∧ t'.buckets.length = t'.size ∧
        (∀ i, i < t.size →
          t'.buckets[i]? = t.buckets[i]? ∧ t'.buckets[t.size + i]? = t.buckets[i]? ∧
          bucketAt t' i = bucketAt t i ∧ bucketAt t' (t.size + i) = bucketAt t i) ∧
        t'.nkeys = t.nkeys ∧ t'.nbuckets = t.nbuckets ∧ t'.heap = t.heap) := by
  have htake : t.buckets.take t.size = t.buckets := by
    rw [← hlen]; exact List.take_length _
  constructor
  · intro hmax
    rw [double_table_eq, if_neg hmax]
  · intro hmax
    refine ⟨{ t with buckets := t.buckets ++ t.buckets.take t.size,
                     size := t.size * 2, depth := t.depth + 1 },
      by rw [double_table_eq, if_pos hmax], ?_, rfl, ?_, ?_, rfl, rfl, rfl⟩
    · show t.size * 2 = 2 * t.size
      omega
    · show (t.buckets ++ t.buckets.take t.size).length = t.size * 2
      rw [htake, List.length_append, hlen]; omega
    · intro i hi
      have e1 : (t.buckets ++ t.buckets.take t.size)[i]? = t.buckets[i]? := by
        rw [List.getElem?_append_left (by rw [hlen]; exact hi)]
      have e2 : (t.buckets ++ t.buckets.take t.size)[t.size + i]? = t.buckets[i]? := by
        rw [htake, List.getElem?_append_right (by rw [hlen]; omega), hlen, Nat.add_sub_cancel_left]
      refine ⟨e1, e2, ?_, ?_⟩
      · unfold bucketAt
        simp only [e1]
      · unfold bucketAt
        simp only [e2]

theorem directory_doubling_witness :
    (¬ exTable.table1.size * 2 < exEnv.MAX_TABLE_SIZE →
      double_table exEnv exTable.table1 = .fault .tableTooLarge) ∧
    (exTable.table1.size * 2 < exEnv.MAX_TABLE_SIZE →
      ∃ t', double_table exEnv exTable.table1 = .ok t' ∧
        t'.size = 2 * exTable.table1.size ∧ t'.depth = exTable.table1.depth + 1 ∧
        t'.buckets.length = t'.size ∧
        (∀ i, i < exTable.table1.size →
          t'.buckets[i]? = exTable.table1.buckets[i]? ∧
          t'.buckets[exTable.table1.size + i]? = exTable.table1.buckets[i]? ∧
          bucketAt t' i = bucketAt exTable.table1 i ∧
          bucketAt t' (exTable.table1.size + i) = bucketAt exTable.table1 i) ∧
        t'.nkeys = exTable.table1.nkeys ∧ t'.nbuckets = exTable.table1.nbuckets ∧
        t'.heap = exTable.table1.heap) :=
  directory_doubling exEnv exTable.table1 (by decide)

/-- C25 (doubling happens only at full depth): `split_bucket` calls
`double_table` if and only if the bucket `b` at the given address has the depth
of the table: when the depths differ it is the rest of the split applied to the
table as it is, and when they are equal it is the rest of the split applied to
the doubled table (or the failed assertion of `double_table`).  On a table
satisfying the structural invariant, with `b` less deep than the table the call
returns and leaves size and depth unchanged; with `b` as deep as the table it
fails by the size assertion or returns with the size doubled and the depth
raised by one. -/
theorem doubling_only_at_full_depth (env : Env) (bs : Nat) (h : Int → Int) (t : InnerTable)
    (hS : Struct bs h t) (address p : Nat) (b : Bucket)
    (hb : bucketAt t address = .ok (p, b)) :
    ((b.depth ≠ t.depth → split_bucket env t address bs h = split_rest env t address bs h) ∧
     (b.depth = t.depth → ∀ td, double_table env t = .ok td →
        split_bucket env t address bs h = split_rest env td address bs h) ∧
     (b.depth = t.depth → ∀ e, double_table env t = .fault e →
        split_bucket env t address bs h = .fault e)) ∧
    (b.depth < t.depth →
      ∃ t', split_bucket env t address bs h = .ok t' ∧ t'.size = t.size ∧ t'.depth = t.depth) ∧
    (b.depth = t.depth →
      (¬ t.size * 2 < env.MAX_TABLE_SIZE ∧
        split_bucket env t address bs h = .fault .tableTooLarge) ∨
      ∃ t', split_bucket env t address bs h = .ok t' ∧ t'.size = t.size * 2 ∧
        t'.depth = t.depth + 1) ∧
    (∀ t', split_bucket env t address bs h = .ok t' →
      (t'.depth = t.depth + 1 ↔ b.depth = t.depth) ∧ (t'.depth = t.depth ↔ b.depth < t.depth) ∧
      (t'.size = t.size * 2 ↔ b.depth = t.depth) ∧ (t'.size = t.size ↔ b.depth < t.depth)) := by
  obtain ⟨_, h2⟩ := (bucketAt_ok_iff t address p b).mp hb
  have hok := hS.bucket_ok p b h2
  have hpos : 0 < t.size := by rw [hS.size_eq]; exact Nat.two_pow_pos _
  have hdet := split_bucket_detail env hS address p b hb
  refine ⟨split_bucket_unfold env t address bs h p b hb, ?_, ?_, ?_⟩
  · intro hlt
    rcases hdet with hf | ⟨t', _, _, r1, _, _, r4, r5, _⟩
    · exact absurd hf.1 (Nat.ne_of_lt hlt)
    · rw [if_neg (Nat.ne_of_lt hlt)] at r4 r5
      exact ⟨t', r1, r4, r5⟩
  · intro heq
    rcases hdet with hf | ⟨t', _, _, r1, _, _, r4, r5, _⟩
    · exact Or.inl hf.2
    · rw [if_pos heq] at r4 r5
      exact Or.inr ⟨t', r1, r4, r5⟩
  · intro t' hrun
    rcases hdet with hf | ⟨t'', _, _, r1, _, _, r4, r5, _⟩
    · rw [hf.2.2] at hrun
      exact absurd hrun (by simp)
    · rw [r1] at hrun
      cases hrun
      have hle := hok.depth_le
      by_cases heq : b.depth = t.depth
      · rw [if_pos heq] at r4 r5
        rw [r4, r5]
        refine ⟨⟨fun _ => heq, fun _ => rfl⟩, ⟨fun e => by omega, fun e => by omega⟩,
          ⟨fun _ => heq, fun _ => rfl⟩, ⟨fun e => by omega, fun e => by omega⟩⟩
      · rw [if_neg heq] at r4 r5
        rw [r4, r5]
        refine ⟨⟨fun e => by omega, fun e => absurd e heq⟩, ⟨fun _ => by omega, fun _ => rfl⟩,
          ⟨fun e => by omega, fun e => absurd e heq⟩, ⟨fun _ => by omega, fun _ => rfl⟩⟩

theorem doubling_only_at_full_depth_witness :
    (exBucket.depth = exTable.table1.depth →
      (¬ exTable.table1.size * 2 < exEnv.MAX_TABLE_SIZE ∧
        split_bucket exEnv exTable.table1 0 2 exEnv.h1 = .fault .tableTooLarge) ∨
      ∃ t', split_bucket exEnv exTable.table1 0 2 exEnv.h1 = .ok t' ∧
        t'.size = exTable.table1.size * 2 ∧ t'.depth = exTable.table1.depth + 1) ∧
    ((exSplit1.depth = exTable.table1.depth + 1 ↔ exBucket.depth = exTable.table1.depth) ∧
      (exSplit1.depth = exTable.table1.depth ↔ exBucket.depth < exTable.table1.depth) ∧
      (exSplit1.size = exTable.table1.size * 2 ↔ exBucket.depth = exTable.table1.depth) ∧
      (exSplit1.size = exTable.table1.size ↔ exBucket.depth < exTable.table1.depth)) :=
  ⟨(doubling_only_at_full_depth exEnv 2 exEnv.h1 exTable.table1 exStruct1 0 0 exBucket
      (by decide)).2.2.1,
   (doubling_only_at_full_depth exEnv 2 exEnv.h1 exTable.table1 exStruct1 0 0 exBucket
      (by decide)).2.2.2 exSplit1 exSplit⟩



/-! ### One step of the eviction chain -/

/-- A call of `insert_key` that finds room: the key is appended and the
replacement counter is returned as it was passed. -/
theorem insert_key_place (env : Env) (bs fuel : Nat) (key : Int) (tA tB : InnerTable)
    (hA hB : Int → Int) (reps : Nat) (rnd : Nat → Nat) (address p : Nat) (b : Bucket)
    (ha : addressOf tA hA key = .ok address) (hb : bucketAt tA address = .ok (p, b))
    (hroom : b.nkeys ≠ bs) (r : Bool) (tA' tB' : InnerTable) (n : Nat)
    (hrun : insert_key env bs (fuel + 1) key tA tB hA hB reps rnd = .ok (r, tA', tB', n)) :
    n = reps ∧ tB' = tB ∧ tA'.nbuckets = tA.nbuckets := by
  rw [insert_key, ha] at hrun
  simp only [hb] at hrun
  rw [if_pos hroom] at hrun
  cases happ : appendKey tA p b key with
  | fault e => rw [happ] at hrun; exact absurd hrun (by simp)
  | ok tA1 =>
    rw [happ] at hrun
    simp only [Res.ok.injEq, Prod.mk.injEq] at hrun
    obtain ⟨_, rfl, rfl, rfl⟩ := hrun
    exact ⟨rfl, rfl, (appendKey_frame happ).2.2.2⟩

/-- A call of `insert_key` that finds the bucket full: the victim is replaced
by the key, `split_bucket` is called exactly when the counter passed in is at
least 1000, and the victim is inserted with the tables exchanged and the counter
raised by one. -/
theorem insert_key_evict (env : Env) (bs fuel : Nat) (key : Int) (tA tB : InnerTable)
    (hA hB : Int → Int) (reps : Nat) (rnd : Nat → Nat) (address p : Nat) (b : Bucket)
    (prekey : Int)
    (ha : addressOf tA hA key = .ok address) (hb : bucketAt tA address = .ok (p, b))
    (hfull : b.nkeys = bs) (hne : b.nkeys ≠ 0)
    (hpre : b.keys[rnd 0 % b.nkeys]? = some prekey) :
    (reps < 1000 →
      insert_key env bs (fuel + 1) key tA tB hA hB reps rnd =
        swapTables (insert_key env bs fuel prekey tB
          { tA with heap := tA.heap.set p { b with keys := b.keys.set (rnd 0 % b.nkeys) key } }
          hB hA (reps + 1) (fun i => rnd (i + 1)))) ∧
    (1000 ≤ reps → ∀ tA2,
      split_bucket env
        { tA with heap := tA.heap.set p { b with keys := b.keys.set (rnd 0 % b.nkeys) key } }
        address bs hA = .ok tA2 →
      insert_key env bs (fuel + 1) key tA tB hA hB reps rnd =
        swapTables (insert_key env bs fuel prekey tB tA2 hB hA (reps + 1)
          (fun i => rnd (i + 1)))) ∧
    (1000 ≤ reps → ∀ e,
      split_bucket env
        { tA with heap := tA.heap.set p { b with keys := b.keys.set (rnd 0 % b.nkeys) key } }
        address bs hA = .fault e →
      insert_key env bs (fuel + 1) key tA tB hA hB reps rnd = .fault e) := by
  have hswap : ∀ x : Res (Bool × InnerTable × InnerTable × Nat),
      (match x with
        | .fault e => (Res.fault e : Res (Bool × InnerTable × InnerTable × Nat))
        | .ok (r, tB, tA, reps) => .ok (r, tA, tB, reps)) = swapTables x := by
    intro x
    cases x with
    | fault e => rfl
    | ok res => obtain ⟨r, tB, tA, reps⟩ := res; rfl
  subst hfull
  refine ⟨?_, ?_, ?_⟩
  · intro hlt
    have hnot : ¬ reps ≥ 1000 := by omega
    rw [insert_key, ha]
    simp only [hb, ne_eq, not_true_eq_false, if_false, hne, hpre, hnot]
    exact hswap _
  · intro hge tA2 hsplit
    rw [insert_key, ha]
    simp only [hb, ne_eq, not_true_eq_false, if_false, hne, hpre, hge, ge_iff_le,
      if_true, hsplit]
    exact hswap _
  · intro hge e hsplit
    rw [insert_key, ha]
    simp only [hb, ne_eq, not_true_eq_false, if_false, hne, hpre, hge, ge_iff_le,
      if_true, hsplit]



/-! ## Threshold timing -/

/-- C26 as stated fails: the forced split is not performed at the 1000th
eviction.  In the environment `exEnv` with capacity 1, the insert of key 1 into
the reachable table holding 0 and 2 arrives, after its first 1000 evictions, at
the replacement counter 1000 with both inner tables still single buckets of
depth 0; in particular the 1000th eviction itself (made with the counter at 999,
which it raises to 1000) only exchanges the key of the bucket.  The call goes
on, splits at its 1001st and 1002nd eviction and returns with the counter at
1002 and one more bucket in each inner table. -/
theorem threshold_timing_counterexample :
    Reachable exEnv 1 splitTable ∧
    (∀ (fuel : Nat) (rnd : Nat → Nat),
      insert_key exEnv 1 (fuel + 1000) 1 splitTable.table1 splitTable.table2 exEnv.h1 exEnv.h2 0
          rnd =
        insert_key exEnv 1 fuel 0 (cexSingle 2) (cexSingle 1) exEnv.h1 exEnv.h2 1000 rnd) ∧
    (∀ (fuel : Nat) (rnd : Nat → Nat),
      insert_key exEnv 1 (fuel + 1) 1 (cexSingle 0) (cexSingle 2) exEnv.h2 exEnv.h1 999 rnd =
        swapTables
          (insert_key exEnv 1 fuel 0 (cexSingle 2) (cexSingle 1) exEnv.h1 exEnv.h2 1000 rnd)) ∧
    ((cexSingle 1).nbuckets = 1 ∧ (cexSingle 1).depth = 0 ∧
      (cexSingle 2).nbuckets = 1 ∧ (cexSingle 2).depth = 0) ∧
    (∀ rnd, insert_key exEnv 1 1003 1 splitTable.table1 splitTable.table2 exEnv.h1 exEnv.h2 0
        rnd = .ok (true, splitTableAfter.table1, splitTableAfter.table2, 1002)) ∧
    splitTableAfter.table1.nbuckets = 2 ∧ splitTableAfter.table2.nbuckets = 2 := by
  refine ⟨splitReach, ?_, ?_, ⟨rfl, rfl, rfl, rfl⟩, split_chain, rfl, rfl⟩
  · intro fuel rnd
    exact thousand_steps exEnv fuel 1 0 2 exEnv.h1 exEnv.h2 rnd
  · intro fuel rnd
    exact single_step exEnv fuel 1 0 2 exEnv.h2 exEnv.h1 999 rnd (by decide)

/-- C26, amended (threshold timing): in a call of `insert_key` that finds the
addressed bucket full (an eviction), with the replacement counter at `reps` on
entry, the victim is replaced by the key; if `reps < 1000` no `split_bucket` is
performed, and if `reps ≥ 1000` a `split_bucket` of the addressed bucket is
performed (its failure is the failure of the call); then the victim is inserted
with the tables exchanged and the counter at `reps + 1`.  The counter is tested
before it is incremented: since an insert call starts the counter at 0, the
first 1000 evictions of the call split nothing and the 1001st and every later
eviction forces a split; so when the chain started at 0 returns with the counter
at `n`, the two tables have gained `n - 1000` buckets, and a call that finds room
returns the counter unchanged. -/
theorem threshold_timing (env : Env) (bs fuel : Nat) (key : Int) (tA tB : InnerTable)
    (hA hB : Int → Int) (reps : Nat) (rnd : Nat → Nat) (address p : Nat) (b : Bucket)
    (prekey : Int)
    (ha : addressOf tA hA key = .ok address) (hb : bucketAt tA address = .ok (p, b))
    (hfull : b.nkeys = bs) (hne : b.nkeys ≠ 0)
    (hpre : b.keys[rnd 0 % b.nkeys]? = some prekey) :
    (reps < 1000 →
      insert_key env bs (fuel + 1) key tA tB hA hB reps rnd =
        swapTables (insert_key env bs fuel prekey tB
          { tA with heap := tA.heap.set p { b with keys := b.keys.set (rnd 0 % b.nkeys) key } }
          hB hA (reps + 1) (fun i => rnd (i + 1)))) ∧
    (1000 ≤ reps → ∀ tA2,
      split_bucket env
        { tA with heap := tA.heap.set p { b with keys := b.keys.set (rnd 0 % b.nkeys) key } }
        address bs hA = .ok tA2 →
      tA2.nbuckets = tA.nbuckets + 1 ∧
      insert_key env bs (fuel + 1) key tA tB hA hB reps rnd =
        swapTables (insert_key env bs fuel prekey tB tA2 hB hA (reps + 1)
          (fun i => rnd (i + 1)))) ∧
    (1000 ≤ reps → ∀ e,
      split_bucket env
        { tA with heap := tA.heap.set p { b with keys := b.keys.set (rnd 0 % b.nkeys) key } }
        address bs hA = .fault e →
      insert_key env bs (fuel + 1) key tA tB hA hB reps rnd = .fault e) ∧
    (∀ (r : Bool) (tA' tB' : InnerTable) (n : Nat),
      insert_key env bs (fuel + 1) key tA tB hA hB 0 rnd = .ok (r, tA', tB', n) →
      1 ≤ n ∧ tA'.nbuckets + tB'.nbuckets = tA.nbuckets + tB.nbuckets + (n - 1000)) ∧
    (∀ (key' : Int) (a' p' : Nat) (b' : Bucket) (r : Bool) (tA' tB' : InnerTable) (n : Nat),
      addressOf tA hA key' = .ok a' → bucketAt tA a' = .ok (p', b') → b'.nkeys ≠ bs →
      insert_key env bs (fuel + 1) key' tA tB hA hB reps rnd = .ok (r, tA', tB', n) →
      n = reps ∧ tA'.nbuckets = tA.nbuckets ∧ tB' = tB) := by
  obtain ⟨e1, e2, e3⟩ :=
    insert_key_evict env bs fuel key tA tB hA hB reps rnd address p b prekey ha hb hfull hne hpre
  refine ⟨e1, ?_, e3, ?_, ?_⟩
  · intro hge tA2 hsplit
    exact ⟨(split_bucket_frame hsplit).1, e2 hge tA2 hsplit⟩
  · intro r tA' tB' n hrun
    have hfr := insert_key_frame env bs (fuel + 1) key tA tB hA hB 0 rnd r tA' tB' n hrun
    refine ⟨?_, by have := hfr.2.1; omega⟩
    have e0 := (insert_key_evict env bs fuel key tA tB hA hB 0 rnd address p b prekey ha hb
      hfull hne hpre).1 (by decide)
    rw [e0] at hrun
    cases hrec : insert_key env bs fuel prekey tB
        { tA with heap := tA.heap.set p { b with keys := b.keys.set (rnd 0 % b.nkeys) key } }
        hB hA (0 + 1) (fun i => rnd (i + 1)) with
    | fault e => rw [hrec] at hrun; exact absurd hrun (by simp [swapTables])
    | ok res =>
      obtain ⟨r0, tB0, tA0, n0⟩ := res
      rw [hrec] at hrun
      simp only [swapTables, Res.ok.injEq, Prod.mk.injEq] at hrun
      obtain ⟨_, _, _, rfl⟩ := hrun
      exact (insert_key_frame env bs fuel prekey tB _ hB hA (0 + 1) _ r0 tB0 tA0 n0 hrec).1
  · intro key' a' p' b' r tA' tB' n ha' hb' hroom hrun
    obtain ⟨g1, g2, g3⟩ := insert_key_place env bs fuel key' tA tB hA hB reps rnd a' p' b' ha' hb'
      hroom r tA' tB' n hrun
    exact ⟨g1, g3, g2⟩

theorem threshold_timing_witness :
    insert_key exEnv 1 (3 + 1) 1 (cexSingle 0) (cexSingle 2) exEnv.h2 exEnv.h1 999 (fun _ => 0) =
      swapTables (insert_key exEnv 1 3 0 (cexSingle 2) (cexSingle 1) exEnv.h1 exEnv.h2 1000
        (fun _ => 0)) :=
  (threshold_timing exEnv 1 3 1 (cexSingle 0) (cexSingle 2) exEnv.h2 exEnv.h1 999 (fun _ => 0)
    0 0 { id := 0, depth := 0, nkeys := 1, keys := [0] } 0 (by decide) (by decide) (by decide)
    (by decide) (by decide)).1 (by decide)



/-! ### The record of the uses of the hash functions -/

/-- Leaving out the record, `insert_key_log` is `insert_key`. -/
theorem insert_key_log_fst (env : Env) (bs : Nat) :
    ∀ (fuel : Nat) (key : Int) (ta tb ha hb : Role) (tA tB : InnerTable) (reps : Nat)
      (rnd : Nat → Nat),
      (insert_key_log env bs fuel key ta tb ha hb tA tB reps rnd).1 =
        insert_key env bs fuel key tA tB (hashOf env ha) (hashOf env hb) reps rnd := by
  intro fuel
  induction fuel with
  | zero => intro key ta tb ha hb tA tB reps rnd; rfl
  | succ fuel ih =>
    intro key ta tb ha hb tA tB reps rnd
    rw [insert_key_log, insert_key]
    cases addressOf tA (hashOf env ha) key with
    | fault e => rfl
    | ok address =>
      simp only
      cases bucketAt tA address with
      | fault e => rfl
      | ok pb =>
        obtain ⟨p, b⟩ := pb
        simp only
        by_cases hroom : b.nkeys ≠ bs
        · simp only [hroom, ne_eq, not_false_eq_true, if_true]
          cases appendKey tA p b key with
          | fault e => rfl
          | ok tA1 => rfl
        · simp only [hroom, if_false]
          by_cases hz : b.nkeys = 0
          · simp only [hz, if_true]
          · simp only [hz, if_false]
            cases b.keys[rnd 0 % b.nkeys]? with
            | none => rfl
            | some prekey =>
              simp only
              by_cases hge : reps ≥ 1000
              · simp only [hge, if_true]
                cases split_bucket env
                    { tA with heap := tA.heap.set p
                                { b with keys := b.keys.set (rnd 0 % b.nkeys) key } }
                    address bs (hashOf env ha) with
                | fault e => rfl
                | ok tA2 =>
                  simp only
                  have := ih prekey tb ta hb ha tB tA2 (reps + 1) (fun i => rnd (i + 1))
                  rw [← this]
                  rcases insert_key_log env bs fuel prekey tb ta hb ha tB tA2 (reps + 1)
                      (fun i => rnd (i + 1)) with ⟨res, rest⟩
                  cases res with
                  | fault e => rfl
                  | ok v => obtain ⟨r, x, y, n⟩ := v; rfl
              · simp only [hge, if_false]
                have := ih prekey tb ta hb ha tB
                  { tA with heap := tA.heap.set p
                              { b with keys := b.keys.set (rnd 0 % b.nkeys) key } }
                  (reps + 1) (fun i => rnd (i + 1))
                rw [← this]
                rcases insert_key_log env bs fuel prekey tb ta hb ha tB
                    { tA with heap := tA.heap.set p
                                { b with keys := b.keys.set (rnd 0 % b.nkeys) key } }
                    (reps + 1) (fun i => rnd (i + 1)) with ⟨res, rest⟩
                cases res with
                | fault e => rfl
                | ok v => obtain ⟨r, x, y, n⟩ := v; rfl



/-- Every use of a hash function recorded for `insert_key` is a use of the
function passed as `hA` on the table passed as `tableA`, or of the function
passed as `hB` on the table passed as `tableB`. -/
theorem insert_key_log_uses (env : Env) (bs : Nat) :
    ∀ (fuel : Nat) (key : Int) (ta tb ha hb : Role) (tA tB : InnerTable) (reps : Nat)
      (rnd : Nat → Nat) (u : Role × Role),
      u ∈ (insert_key_log env bs fuel key ta tb ha hb tA tB reps rnd).2 →
      u = (ta, ha) ∨ u = (tb, hb) := by
  intro fuel
  induction fuel with
  | zero =>
    intro key ta tb ha hb tA tB reps rnd u hu
    simp [insert_key_log] at hu
  | succ fuel ih =>
    intro key ta tb ha hb tA tB reps rnd u hu
    rw [insert_key_log] at hu
    cases haddr : addressOf tA (hashOf env ha) key with
    | fault e =>
      rw [haddr] at hu
      simp only [List.mem_singleton] at hu
      exact Or.inl hu
    | ok address =>
      rw [haddr] at hu
      simp only at hu
      cases hbk : bucketAt tA address with
      | fault e =>
        rw [hbk] at hu
        simp only [List.mem_singleton] at hu
        exact Or.inl hu
      | ok pb =>
        obtain ⟨p, b⟩ := pb
        rw [hbk] at hu
        simp only at hu
        by_cases hroom : b.nkeys ≠ bs
        · simp only [hroom, ne_eq, not_false_eq_true, if_true] at hu
          cases happ : appendKey tA p b key with
          | fault e =>
            rw [happ] at hu
            simp only [List.mem_singleton] at hu
            exact Or.inl hu
          | ok tA1 =>
            rw [happ] at hu
            simp only [List.mem_singleton] at hu
            exact Or.inl hu
        · simp only [hroom, if_false] at hu
          by_cases hz : b.nkeys = 0
          · simp only [hz, if_true, List.mem_singleton] at hu
            exact Or.inl hu
          · simp only [hz, if_false] at hu
            cases hpre : b.keys[rnd 0 % b.nkeys]? with
            | none =>
              rw [hpre] at hu
              simp only [List.mem_singleton] at hu
              exact Or.inl hu
            | some prekey =>
              rw [hpre] at hu
              simp only at hu
              by_cases hge : reps ≥ 1000
              · simp only [hge, if_true] at hu
                cases hsp : split_bucket env
                    { tA with heap := tA.heap.set p
                                { b with keys := b.keys.set (rnd 0 % b.nkeys) key } }
                    address bs (hashOf env ha) with
                | fault e =>
                  rw [hsp] at hu
                  simp only [List.mem_cons, List.mem_singleton, List.not_mem_nil, or_false,
                    or_self] at hu
                  exact Or.inl hu
                | ok tA2 =>
                  rw [hsp] at hu
                  simp only at hu
                  have hrec := ih prekey tb ta hb ha tB tA2 (reps + 1) (fun i => rnd (i + 1)) u
                  rcases hlog : insert_key_log env bs fuel prekey tb ta hb ha tB tA2 (reps + 1)
                      (fun i => rnd (i + 1)) with ⟨res, rest⟩
                  rw [hlog] at hu hrec
                  have hmem : u = (ta, ha) ∨ u ∈ rest := by
                    cases res with
                    | fault e =>
                      simp only [List.cons_append, List.nil_append, List.mem_cons] at hu
                      rcases hu with h | h | h
                      · exact Or.inl h
                      · exact Or.inl h
                      · exact Or.inr h
                    | ok v =>
                      obtain ⟨r, x, y, n⟩ := v
                      simp only [List.cons_append, List.nil_append, List.mem_cons] at hu
                      rcases hu with h | h | h
                      · exact Or.inl h
                      · exact Or.inl h
                      · exact Or.inr h
                  rcases hmem with h | h
                  · exact Or.inl h
                  · exact (hrec h).symm
              · simp only [hge, if_false] at hu
                have hrec := ih prekey tb ta hb ha tB
                  { tA with heap := tA.heap.set p
                              { b with keys := b.keys.set (rnd 0 % b.nkeys) key } }
                  (reps + 1) (fun i => rnd (i + 1)) u
                rcases hlog : insert_key_log env bs fuel prekey tb ta hb ha tB
                    { tA with heap := tA.heap.set p
                                { b with keys := b.keys.set (rnd 0 % b.nkeys) key } }
                    (reps + 1) (fun i => rnd (i + 1)) with ⟨res, rest⟩
                rw [hlog] at hu hrec
                have hmem : u = (ta, ha) ∨ u ∈ rest := by
                  cases res with
                  | fault e =>
                    simp only [List.cons_append, List.nil_append, List.mem_cons] at hu
                    exact hu
                  | ok v =>
                    obtain ⟨r, x, y, n⟩ := v
                    simp only [List.cons_append, List.nil_append, List.mem_cons] at hu
                    exact hu
                rcases hmem with h | h
                · exact Or.inl h
                · exact (hrec h).symm



theorem insert_log_fst (env : Env) (fuel : Nat) (rnd : Nat → Nat) (T : XuckooNHashTable)
    (key : Int) :
    (xuckoon_hash_table_insert_log env fuel rnd T key).1 =
      xuckoon_hash_table_insert env fuel rnd T key := by
  unfold xuckoon_hash_table_insert_log xuckoon_hash_table_insert
  cases findEither env T key with
  | fault e => rfl
  | ok found =>
    cases found with
    | true => rfl
    | false =>
      simp only
      by_cases hle : T.table1.nkeys ≤ T.table2.nkeys
      · simp only [hle, if_true]
        have := insert_key_log_fst env T.bucketsize fuel key .first .second .first .second
          T.table1 T.table2 0 rnd
        simp only [hashOf] at this
        rw [← this]
        rcases insert_key_log env T.bucketsize fuel key .first .second .first .second
            T.table1 T.table2 0 rnd with ⟨res, uses⟩
        cases res with
        | fault e => rfl
        | ok v => obtain ⟨r, x, y, n⟩ := v; rfl
      · simp only [hle, if_false]
        have := insert_key_log_fst env T.bucketsize fuel key .second .first .second .first
          T.table2 T.table1 0 rnd
        simp only [hashOf] at this
        rw [← this]
        rcases insert_key_log env T.bucketsize fuel key .second .first .second .first
            T.table2 T.table1 0 rnd with ⟨res, uses⟩
        cases res with
        | fault e => rfl
        | ok v => obtain ⟨r, x, y, n⟩ := v; rfl

theorem insert_log_uses (env : Env) (fuel : Nat) (rnd : Nat → Nat) (T : XuckooNHashTable)
    (key : Int) (u : Role × Role)
    (hu : u ∈ (xuckoon_hash_table_insert_log env fuel rnd T key).2) :
    u = (.first, .first) ∨ u = (.second, .second) := by
  unfold xuckoon_hash_table_insert_log at hu
  cases hfind : findEither env T key with
  | fault e =>
    rw [hfind] at hu
    simpa using hu
  | ok found =>
    rw [hfind] at hu
    cases found with
    | true => simpa using hu
    | false =>
      simp only at hu
      by_cases hle : T.table1.nkeys ≤ T.table2.nkeys
      · simp only [hle, if_true] at hu
        have hrec := insert_key_log_uses env T.bucketsize fuel key .first .second .first .second
          T.table1 T.table2 0 rnd u
        rcases hlog : insert_key_log env T.bucketsize fuel key .first .second .first .second
            T.table1 T.table2 0 rnd with ⟨res, uses⟩
        rw [hlog] at hu hrec
        have hmem : u = (.first, .first) ∨ u = (.second, .second) ∨ u ∈ uses := by
          cases res with
          | fault e => simpa using hu
          | ok v => obtain ⟨r, x, y, n⟩ := v; simpa using hu
        rcases hmem with h | h | h
        · exact Or.inl h
        · exact Or.inr h
        · exact hrec h
      · simp only [hle, if_false] at hu
        have hrec := insert_key_log_uses env T.bucketsize fuel key .second .first .second .first
          T.table2 T.table1 0 rnd u
        rcases hlog : insert_key_log env T.bucketsize fuel key .second .first .second .first
            T.table2 T.table1 0 rnd with ⟨res, uses⟩
        rw [hlog] at hu hrec
        have hmem : u = (.first, .first) ∨ u = (.second, .second) ∨ u ∈ uses := by
          cases res with
          | fault e => simpa using hu
          | ok v => obtain ⟨r, x, y, n⟩ := v; simpa using hu
        rcases hmem with h | h | h
        · exact Or.inl h
        · exact Or.inr h
        · exact (hrec h).symm

/-! ## Which hash function addresses which table -/

/-- C27 as stated fails: there is no state (reachable or not), key, fuel and
random source for which a step of `xuckoon_hash_table_insert` uses `h2` on
`table1` or `h1` on `table2`.  For instance the insert of key 7 into `exTable`,
where `table1` holds more keys than `table2`, starts its chain in `table2`, and
addresses it with `h2`. -/
theorem asymmetric_addressing_counterexample :
    (¬ exTable.table1.nkeys ≤ exTable.table2.nkeys ∧
      (xuckoon_hash_table_insert_log exEnv 10 (fun _ => 0) exTable 7).2 =
        [(.first, .first), (.second, .second), (.second, .second)]) ∧
    ∀ (env : Env) (bs : Nat), ¬ ∃ (T : XuckooNHashTable) (key : Int) (fuel : Nat)
      (rnd : Nat → Nat), Reachable env bs T ∧
        ((Role.first, Role.second) ∈ (xuckoon_hash_table_insert_log env fuel rnd T key).2 ∨
         (Role.second, Role.first) ∈ (xuckoon_hash_table_insert_log env fuel rnd T key).2) := by
  refine ⟨⟨by decide, by decide⟩, ?_⟩
  rintro env bs ⟨T, key, fuel, rnd, _, hu | hu⟩
  · rcases insert_log_uses env fuel rnd T key _ hu with h | h <;> cases h
  · rcases insert_log_uses env fuel rnd T key _ hu with h | h <;> cases h

/-- C27, amended (addressing in insert and lookup): insert chooses by load in
which inner table the eviction chain starts, but it passes each table together
with its own hash function, and `insert_key` exchanges tables and hash functions
together: in every state, for every key, fuel and random source, every address
computed and every split performed by `xuckoon_hash_table_insert` uses `h1` on
`table1` or `h2` on `table2`, exactly as lookup does, whose two addresses are
computed with `h1` for `table1` and `h2` for `table2`.  The record of these uses
is a ghost component: leaving it out gives the functions themselves. -/
theorem symmetric_addressing (env : Env) (fuel : Nat) (rnd : Nat → Nat)
    (T : XuckooNHashTable) (key : Int) :
    (xuckoon_hash_table_insert_log env fuel rnd T key).1 =
      xuckoon_hash_table_insert env fuel rnd T key ∧
    (∀ u ∈ (xuckoon_hash_table_insert_log env fuel rnd T key).2,
      u = (Role.first, Role.first) ∨ u = (Role.second, Role.second)) ∧
    (xuckoon_hash_table_lookup_log env T key).1 = xuckoon_hash_table_lookup env T key ∧
    (xuckoon_hash_table_lookup_log env T key).2 =
      [(Role.first, Role.first), (Role.second, Role.second)] ∧
    (∀ (bs : Nat) (k : Int) (ta tb ha hb : Role) (tA tB : InnerTable) (reps : Nat),
      (insert_key_log env bs fuel k ta tb ha hb tA tB reps rnd).1 =
        insert_key env bs fuel k tA tB (hashOf env ha) (hashOf env hb) reps rnd ∧
      ∀ u ∈ (insert_key_log env bs fuel k ta tb ha hb tA tB reps rnd).2,
        u = (ta, ha) ∨ u = (tb, hb)) :=
  ⟨insert_log_fst env fuel rnd T key, insert_log_uses env fuel rnd T key, rfl, rfl,
    fun bs k ta tb ha hb tA tB reps =>
      ⟨insert_key_log_fst env bs fuel k ta tb ha hb tA tB reps rnd,
        insert_key_log_uses env bs fuel k ta tb ha hb tA tB reps rnd⟩⟩



/-! ### The teardown walk -/

theorem Struct.canonical_slot {bs : Nat} {h : Int → Int} {t : InnerTable} (hS : Struct bs h t)
    (p : Nat) (b : Bucket) (hb : t.heap[p]? = some b) :
    b.id < t.size ∧ t.buckets[b.id]? = some p := by
  have hok := hS.bucket_ok p b hb
  have hlt : b.id < t.size := by
    rw [hS.size_eq]
    exact Nat.lt_of_lt_of_le hok.id_lt (Nat.pow_le_pow_right (by decide) hok.depth_le)
  exact ⟨hlt, (hS.slots b.id p b hlt hb).mpr (Nat.mod_eq_of_lt hok.id_lt)⟩

theorem free_loop_spec {bs : Nat} {h : Int → Int} {t : InnerTable} (hS : Struct bs h t) :
    ∀ (i : Nat) (freed : List Nat), i ≤ t.size → freed.Nodup →
      (∀ p, p ∈ freed ↔ ∃ b, t.heap[p]? = some b ∧ i ≤ b.id) →
      ∃ L, free_loop t i freed = .ok L ∧ L.Nodup ∧ (∀ p, p ∈ L ↔ p < t.heap.length) ∧
        L.length = freed.length + (List.range i).countP (canonicalAt t) := by
  intro i
  induction i with
  | zero =>
    intro freed _ hnd hmem
    refine ⟨freed, rfl, hnd, ?_, by simp⟩
    intro p
    rw [hmem p]
    constructor
    · rintro ⟨b, hb, _⟩
      exact (List.getElem?_eq_some.mp hb).1
    · intro hp
      exact ⟨t.heap[p], List.getElem?_eq_getElem hp, Nat.zero_le _⟩
  | succ i ih =>
    intro freed hi hnd hmem
    obtain ⟨p, b, h1, h2, h3⟩ := hS.slot_bucket i (by omega)
    have hbk := (bucketAt_ok_iff t i p b).mpr ⟨h1, h2⟩
    have hle : b.id ≤ i := by rw [← h3]; exact Nat.mod_le _ _
    have hnot : p ∉ freed := by
      intro hin
      obtain ⟨b', hb', hge⟩ := (hmem p).mp hin
      rw [h2] at hb'
      cases hb'
      omega
    have hcanon : ∀ (q : Nat) (c : Bucket), t.heap[q]? = some c → c.id = i → q = p := by
      intro q c hc hid
      have := (hS.canonical_slot q c hc).2
      rw [hid, h1] at this
      exact (Option.some.inj this).symm
    rw [List.range_succ, List.countP_append]
    simp only [List.countP_cons, List.countP_nil, canonicalAt, hbk, Nat.zero_add]
    by_cases hid : b.id = i
    · obtain ⟨L, l1, l2, l3, l4⟩ := ih (p :: freed) (by omega) (List.nodup_cons.mpr ⟨hnot, hnd⟩)
        (by
          intro q
          rw [List.mem_cons, hmem q]
          constructor
          · rintro (rfl | ⟨c, hc, hge⟩)
            · exact ⟨b, h2, by omega⟩
            · exact ⟨c, hc, by omega⟩
          · rintro ⟨c, hc, hge⟩
            by_cases hci : c.id = i
            · exact Or.inl (hcanon q c hc hci)
            · exact Or.inr ⟨c, hc, by omega⟩)
      refine ⟨L, ?_, l2, l3, ?_⟩
      · rw [free_loop, hbk]
        simp only [hnot, if_false, hid, if_true]
        exact l1
      · rw [l4]
        simp only [List.length_cons, hid, decide_True, if_true]
        omega
    · obtain ⟨L, l1, l2, l3, l4⟩ := ih freed (by omega) hnd
        (by
          intro q
          rw [hmem q]
          constructor
          · rintro ⟨c, hc, hge⟩
            exact ⟨c, hc, by omega⟩
          · rintro ⟨c, hc, hge⟩
            have hci : c.id ≠ i := by
              intro hci
              have := hcanon q c hc hci
              subst this
              rw [h2] at hc
              cases hc
              exact hid hci
            exact ⟨c, hc, by omega⟩)
      refine ⟨L, ?_, l2, l3, ?_⟩
      · rw [free_loop, hbk]
        simp only [hnot, if_false, hid]
        exact l1
      · rw [l4]
        simp only [hid, decide_False, Bool.false_eq_true, if_false]
        omega

/-- Under the structural invariant the canonical slot invariant holds. -/
theorem Struct.canonical {bs : Nat} {h : Int → Int} {t : InnerTable} (hS : Struct bs h t) :
    Canonical t := by
  obtain ⟨L, l1, l2, l3, l4⟩ := free_loop_spec hS t.size [] (Nat.le_refl _) List.nodup_nil
    (by
      intro p
      constructor
      · intro hp; simp at hp
      · rintro ⟨b, hb, hge⟩
        have := (hS.canonical_slot p b hb).1
        omega)
  have hlen : L.length = t.heap.length := by
    have hperm : L.Perm (List.range t.heap.length) :=
      (List.perm_ext_iff_of_nodup l2 (List.nodup_range _)).mpr
        (fun p => by rw [l3 p, List.mem_range])
    rw [hperm.length_eq, List.length_range]
  refine ⟨?_, ?_, ?_, L, l1, l2, l3, by rw [hlen, hS.nbuckets_eq]⟩
  · intro p b hb
    exact (bucketAt_ok_iff t b.id p b).mpr ⟨(hS.canonical_slot p b hb).2, hb⟩
  · intro p q b c hb hc hid
    have e1 := (hS.canonical_slot p b hb).2
    have e2 := (hS.canonical_slot q c hc).2
    rw [hid, e2] at e1
    exact (Option.some.inj e1).symm
  · unfold canonicalSlots
    rw [hS.nbuckets_eq, ← hlen, l4]
    simp



/-! ## The victim at capacity 1, canonical slots and the size of the directory -/

/-- C28 (deterministic victim at capacity 1): with `bucketsize = 1`, in every
state and for every key and fuel, `xuckoon_hash_table_insert` gives the same
result (returned value and resulting table, or the same failure) for any two
random sources; a full bucket then holds one key, the victim index
`rand() % nkeys` is 0 whatever `rand()` returns, and the victim `keys[0]` is the
sole key of the bucket. -/
theorem deterministic_victim (env : Env) (fuel : Nat) (T : XuckooNHashTable) (key : Int)
    (hbs : T.bucketsize = 1) (rnd rnd' : Nat → Nat) :
    xuckoon_hash_table_insert env fuel rnd T key =
      xuckoon_hash_table_insert env fuel rnd' T key ∧
    ∀ (b : Bucket) (victim : Int), b.nkeys = T.bucketsize →
      b.keys[rnd 0 % b.nkeys]? = some victim →
      rnd 0 % b.nkeys = 0 ∧ b.keys[rnd' 0 % b.nkeys]? = some victim ∧
        bucketKeys b = [victim] := by
  constructor
  · unfold xuckoon_hash_table_insert
    rw [hbs]
    rw [insert_key_rnd_one env fuel key T.table1 T.table2 env.h1 env.h2 0 rnd rnd',
      insert_key_rnd_one env fuel key T.table2 T.table1 env.h2 env.h1 0 rnd rnd']
  · intro b victim hfull hv
    rw [hbs] at hfull
    rw [hfull, Nat.mod_one] at hv
    rw [hfull, Nat.mod_one, Nat.mod_one]
    refine ⟨rfl, hv, ?_⟩
    unfold bucketKeys
    rw [hfull]
    obtain ⟨hlt, hget⟩ := List.getElem?_eq_some.mp hv
    rw [List.take_one]
    cases hk : b.keys with
    | nil => rw [hk] at hlt; simp at hlt
    | cons k ks =>
      simp only [hk, List.getElem_cons_zero] at hget
      rw [hget]
      rfl

theorem deterministic_victim_witness :
    xuckoon_hash_table_insert exEnv 1003 (fun _ => 0) splitTable 1 =
      xuckoon_hash_table_insert exEnv 1003 (fun i => i + 1) splitTable 1 :=
  (deterministic_victim exEnv 1003 splitTable 1 rfl (fun _ => 0) (fun i => i + 1)).1

/-- C29 (canonical slot invariant): in every reachable state, in each inner
table every allocated bucket `b` is the bucket referenced at slot `b.id`, no two
allocated buckets have the same id, the number of slot indices `i` with
`buckets[i]->id == i` is `nbuckets`, and the walk of `free_inner_table` (from the
last slot down, freeing where the id is the index) reads no freed bucket and
frees every allocated bucket exactly once. -/
theorem canonical_slots (env : Env) (bs : Nat) (T : XuckooNHashTable)
    (hR : Reachable env bs T) : Canonical T.table1 ∧ Canonical T.table2 :=
  ⟨hR.ginv.inv1.struct.canonical, hR.ginv.inv2.struct.canonical⟩

theorem canonical_slots_witness :
    Canonical splitTableAfter.table1 ∧ Canonical splitTableAfter.table2 :=
  canonical_slots exEnv 1 splitTableAfter
    (Reachable.insert 1003 (fun _ => 0) splitTable 1 true splitTableAfter splitReach
      (split_run (fun _ => 0)))

/-- C30 (size/depth invariant): in every reachable state each inner table has
`size = 2^depth`, and its slot array has exactly `2^depth` entries. -/
theorem size_is_two_pow_depth (env : Env) (bs : Nat) (T : XuckooNHashTable)
    (hR : Reachable env bs T) :
    (T.table1.size = 2 ^ T.table1.depth ∧ T.table1.buckets.length = 2 ^ T.table1.depth) ∧
    (T.table2.size = 2 ^ T.table2.depth ∧ T.table2.buckets.length = 2 ^ T.table2.depth) := by
  have h1 := hR.ginv.inv1.struct
  have h2 := hR.ginv.inv2.struct
  exact ⟨⟨h1.size_eq, by rw [h1.len_eq, h1.size_eq]⟩, ⟨h2.size_eq, by rw [h2.len_eq, h2.size_eq]⟩⟩

theorem size_is_two_pow_depth_witness :
    (splitTableAfter.table1.size = 2 ^ splitTableAfter.table1.depth ∧
      splitTableAfter.table1.buckets.length = 2 ^ splitTableAfter.table1.depth) ∧
    (splitTableAfter.table2.size = 2 ^ splitTableAfter.table2.depth ∧
      splitTableAfter.table2.buckets.length = 2 ^ splitTableAfter.table2.depth) :=
  size_is_two_pow_depth exEnv 1 splitTableAfter
    (Reachable.insert 1003 (fun _ => 0) splitTable 1 true splitTableAfter splitReach
      (split_run (fun _ => 0)))



/-! ### Depth of the buckets, bounds of the addresses, key counters -/

theorem Struct.first_step {bs : Nat} {h : Int → Int} {t : InnerTable} (hS : Struct bs h t)
    (env : Env) (p : Nat) (b : Bucket) (hb : t.heap[p]? = some b) (td : InnerTable)
    (htd : (if b.depth = t.depth then double_table env t else .ok t) = .ok td) :
    Struct bs h td ∧ td.heap = t.heap ∧ b.depth + 1 ≤ td.depth := by
  have hok := hS.bucket_ok p b hb
  by_cases hd : b.depth = t.depth
  · rw [if_pos hd, double_table_eq] at htd
    split at htd
    · simp only [Res.ok.injEq] at htd
      subst htd
      exact ⟨hS.double, rfl, by show b.depth + 1 ≤ t.depth + 1; omega⟩
    · exact absurd htd (by simp)
  · rw [if_neg hd] at htd
    simp only [Res.ok.injEq] at htd
    subst htd
    have := hok.depth_le
    exact ⟨hS, rfl, by omega⟩

/-- The slot indices of the redirect loop of `split_bucket` are below the size
of the table. -/
theorem Struct.redirect_bound {bs : Nat} {h : Int → Int} {td : InnerTable}
    (hS : Struct bs h td) (p : Nat) (b : Bucket) (hb : td.heap[p]? = some b)
    (hd : b.depth + 1 ≤ td.depth) :
    ∃ bit_address, index (rightmostnbits b.depth (b.id : Int)) = .ok bit_address ∧
      ∀ n, n < 1 <<< (td.depth - (b.depth + 1)) →
        (n <<< (b.depth + 1)) ||| ((1 <<< b.depth) ||| bit_address) < td.size := by
  have hok := hS.bucket_ok p b hb
  have hf := hok.id_lt
  have hs : 2 ^ b.depth + b.id < 2 ^ (b.depth + 1) := by rw [pow_succ]; omega
  refine ⟨b.id, by rw [index_rightmostnbits, addr_natCast _ _ hf], ?_⟩
  intro n hn
  rw [Nat.shiftLeft_eq, Nat.one_mul] at hn
  rw [one_shiftLeft_or _ _ hf, shiftLeft_or _ _ _ hs, hS.size_eq]
  exact ((pattern_iff td.depth _ _ _ hd hs).mp ⟨n, hn, rfl⟩).1

theorem addressOf_lt (t : InnerTable) (h : Int → Int) (key : Int)
    (hsize : t.size = 2 ^ t.depth) :
    ∃ a, addressOf t h key = .ok a ∧ a < t.size :=
  ⟨addr t.depth (h key), addressOf_eq t h key, by rw [hsize]; exact addr_lt _ _⟩

theorem flatMap_length_sum :
    ∀ (l : List Bucket), (∀ b ∈ l, b.nkeys ≤ b.keys.length) →
      (l.flatMap bucketKeys).length = (l.map (fun b => b.nkeys)).sum := by
  intro l
  induction l with
  | nil => intro _; rfl
  | cons x xs ih =>
    intro hl
    have h1 := hl x (List.mem_cons_self _ _)
    have h2 := ih (fun b hb => hl b (List.mem_cons_of_mem _ hb))
    simp only [List.flatMap_cons, List.length_append, List.map_cons, List.sum_cons, h2,
      bucketKeys, List.length_take]
    omega

theorem Inv.nkeys_sum {bs : Nat} {h : Int → Int} {t : InnerTable} (hI : Inv bs h t) :
    t.nkeys = (t.heap.map (fun b => b.nkeys)).sum := by
  rw [hI.nkeys_eq]
  apply flatMap_length_sum
  intro b hb
  obtain ⟨p, hp⟩ := List.mem_iff_getElem?.mp hb
  have hok := hI.struct.bucket_ok p b hp
  rw [hok.keys_len]
  exact hok.nkeys_le

/-- A returning `insert_key` has incremented the key counter of the table in
which the chain ended: of the table passed as `tableA` after an even number of
evictions, of the table passed as `tableB` after an odd number. -/
theorem insert_key_counter (env : Env) (bs : Nat) :
    ∀ (fuel : Nat) (key : Int) (tA tB : InnerTable) (hA hB : Int → Int) (reps : Nat)
      (rnd : Nat → Nat) (r : Bool) (tA' tB' : InnerTable) (reps' : Nat),
      insert_key env bs fuel key tA tB hA hB reps rnd = .ok (r, tA', tB', reps') →
      reps ≤ reps' ∧
      ((reps' - reps) % 2 = 0 → tA'.nkeys = tA.nkeys + 1 ∧ tB'.nkeys = tB.nkeys) ∧
      ((reps' - reps) % 2 = 1 → tA'.nkeys = tA.nkeys ∧ tB'.nkeys = tB.nkeys + 1) := by
  intro fuel
  induction fuel with
  | zero =>
    intro key tA tB hA hB reps rnd r tA' tB' reps' hrun
    simp [insert_key] at hrun
  | succ fuel ih =>
    intro key tA tB hA hB reps rnd r tA' tB' reps' hrun
    unfold insert_key at hrun
    split at hrun
    · exact absurd hrun (by simp)
    · split at hrun
      · exact absurd hrun (by simp)
      · rename_i p b _
        simp only at hrun
        split at hrun
        · split at hrun
          · exact absurd hrun (by simp)
          · rename_i t1 h1
            simp only [Res.ok.injEq, Prod.mk.injEq] at hrun
            obtain ⟨rfl, rfl, rfl, rfl⟩ := hrun
            refine ⟨Nat.le_refl _, ?_, ?_⟩
            · intro _
              exact ⟨by show t1.nkeys + 1 = _; rw [appendKey_nkeys h1], rfl⟩
            · intro hodd
              simp at hodd
        · split at hrun
          · exact absurd hrun (by simp)
          · split at hrun
            · exact absurd hrun (by simp)
            · split at hrun
              · exact absurd hrun (by simp)
              · rename_i tA2 h2
                split at hrun
                · exact absurd hrun (by simp)
                · rename_i r0 tB0 tA0 reps0 hrec
                  simp only [Res.ok.injEq, Prod.mk.injEq] at hrun
                  obtain ⟨rfl, rfl, rfl, rfl⟩ := hrun
                  obtain ⟨g1, g2, g3⟩ := ih _ _ _ _ _ _ _ _ _ _ _ hrec
                  have hk : tA2.nkeys = tA.nkeys := by
                    split at h2
                    · have := split_bucket_nkeys h2
                      exact this
                    · simp only [Res.ok.injEq] at h2; subst h2; rfl
                  refine ⟨by omega, ?_, ?_⟩
                  · intro hev
                    have := g3 (by omega)
                    rw [hk] at this
                    exact ⟨this.2, this.1⟩
                  · intro hodd
                    have := g2 (by omega)
                    rw [hk] at this
                    exact ⟨this.2, this.1⟩



/-! ## Bucket depth, address bounds and key counters -/

/-- C31 (bucket depth bound): in every reachable state, in each inner table
(`table1` with `h1`, `table2` with `h2`) every allocated bucket, and so every
bucket referenced from a slot, has a depth (a natural number, so at least 0) of
at most the depth of the table; after the first step of `split_bucket` (the
doubling when the bucket has the depth of the table) the new depth
`b.depth + 1` is at most the depth of the table, so the shift amount
`table->depth - new_depth` is not negative, and `split_bucket` never ends in
undefined behaviour. -/
theorem bucket_depth_bound (env : Env) (bs : Nat) (T : XuckooNHashTable)
    (hR : Reachable env bs T) (t : InnerTable) (h : Int → Int)
    (ht : (t = T.table1 ∧ h = env.h1) ∨ (t = T.table2 ∧ h = env.h2)) :
    (∀ (p : Nat) (b : Bucket), t.heap[p]? = some b → 0 ≤ b.depth ∧ b.depth ≤ t.depth) ∧
    (∀ (i p : Nat) (b : Bucket), bucketAt t i = .ok (p, b) →
      b.depth ≤ t.depth ∧
      (∀ td, (if b.depth = t.depth then double_table env t else .ok t) = .ok td →
        b.depth + 1 ≤ td.depth ∧ ¬ td.depth < b.depth + 1) ∧
      split_bucket env t i bs h ≠ .fault .undefined) := by
  have hS : Struct bs h t := by
    rcases ht with ⟨rfl, rfl⟩ | ⟨rfl, rfl⟩
    · exact hR.ginv.inv1.struct
    · exact hR.ginv.inv2.struct
  refine ⟨fun p b hb => ⟨Nat.zero_le _, (hS.bucket_ok p b hb).depth_le⟩, ?_⟩
  intro i p b hb
  obtain ⟨h1, h2⟩ := (bucketAt_ok_iff t i p b).mp hb
  have hi : i < t.size := by rw [← hS.len_eq]; exact (List.getElem?_eq_some.mp h1).1
  refine ⟨(hS.bucket_ok p b h2).depth_le, ?_, ?_⟩
  · intro td htd
    have := (hS.first_step env p b h2 td htd).2.2
    exact ⟨this, by omega⟩
  · intro hund
    rcases split_bucket_spec env hS i hi with hf | ⟨t', hr, _⟩
    · rw [hf] at hund; cases hund
    · rw [hr] at hund; cases hund

theorem bucket_depth_bound_witness :
    (∀ (p : Nat) (b : Bucket), exTable.table1.heap[p]? = some b →
      0 ≤ b.depth ∧ b.depth ≤ exTable.table1.depth) ∧
    (∀ (i p : Nat) (b : Bucket), bucketAt exTable.table1 i = .ok (p, b) →
      b.depth ≤ exTable.table1.depth ∧
      (∀ td, (if b.depth = exTable.table1.depth then double_table exEnv exTable.table1
          else .ok exTable.table1) = .ok td →
        b.depth + 1 ≤ td.depth ∧ ¬ td.depth < b.depth + 1) ∧
      split_bucket exEnv exTable.table1 i 2 exEnv.h1 ≠ .fault .undefined) :=
  bucket_depth_bound exEnv 2 exTable exReach exTable.table1 exEnv.h1 (Or.inl ⟨rfl, rfl⟩)

/-- C32 (addresses are in bounds): for every hash value `x`, negative ones
included, and every depth `d`, `rightmostnbits(d, x)` is `x mod 2^d` (the
non-negative remainder) and lies in `[0, 2^d)`; for `d ≤ 30` the mask
`(1 << d) - 1` is computed within the range of `int`.  In every reachable state,
each inner table has `size = 2^depth` slots, so the address computed for any key
(by insert, by lookup, and by `reinsert_key` on the table as it is after the
first step of `split_bucket`) is a valid slot index, every slot index
`(prefix << new_depth) | suffix` of the redirect loop is below the size of the
table, lookup returns, and insert (for a capacity of at least 1) never ends in
undefined behaviour, which in this model is what any access outside an array
yields. -/
theorem addresses_in_bounds (env : Env) (bs : Nat) (T : XuckooNHashTable)
    (hR : Reachable env bs T) (t : InnerTable) (h : Int → Int)
    (ht : (t = T.table1 ∧ h = env.h1) ∨ (t = T.table2 ∧ h = env.h2)) :
    (∀ (d : Nat) (x : Int), rightmostnbits d x = x % (2 : Int) ^ d ∧
      0 ≤ rightmostnbits d x ∧ rightmostnbits d x < (2 : Int) ^ d) ∧
    (∀ d : Nat, d ≤ 30 → 1 <<< d ≤ 2 ^ 30 ∧ (((1 <<< d : Nat) : Int) - 1) < 2 ^ 31) ∧
    (t.size = 2 ^ t.depth ∧ t.buckets.length = t.size) ∧
    (∀ (g : Int → Int) (key : Int), ∃ a p b, addressOf t g key = .ok a ∧ a < t.size ∧
      bucketAt t a = .ok (p, b)) ∧
    (∀ (i p : Nat) (b : Bucket) (td : InnerTable), bucketAt t i = .ok (p, b) →
      (if b.depth = t.depth then double_table env t else .ok t) = .ok td →
      (td.size = 2 ^ td.depth ∧ td.buckets.length = td.size) ∧
      (∀ (g : Int → Int) (key : Int), ∃ a, addressOf td g key = .ok a ∧ a < td.size) ∧
      ∃ bit_address, index (rightmostnbits b.depth (b.id : Int)) = .ok bit_address ∧
        ∀ n, n < 1 <<< (td.depth - (b.depth + 1)) →
          (n <<< (b.depth + 1)) ||| ((1 <<< b.depth) ||| bit_address) < td.size) ∧
    (∀ key : Int, ∃ r, xuckoon_hash_table_lookup env T key = .ok r) ∧
    (1 ≤ bs → ∀ (fuel : Nat) (rnd : Nat → Nat) (key : Int),
      xuckoon_hash_table_insert env fuel rnd T key ≠ .fault .undefined) := by
  have hS : Struct bs h t := by
    rcases ht with ⟨rfl, rfl⟩ | ⟨rfl, rfl⟩
    · exact hR.ginv.inv1.struct
    · exact hR.ginv.inv2.struct
  refine ⟨?_, ?_, ⟨hS.size_eq, hS.len_eq⟩, ?_, ?_, ?_, ?_⟩
  · intro d x
    have hp : (0 : Int) < (2 : Int) ^ d := by positivity
    rw [rightmostnbits_eq_emod]
    exact ⟨rfl, Int.emod_nonneg _ (ne_of_gt hp), Int.emod_lt_of_pos _ hp⟩
  · intro d hd
    have h1 : 1 <<< d = 2 ^ d := by rw [Nat.shiftLeft_eq, Nat.one_mul]
    have h2 : 2 ^ d ≤ 2 ^ 30 := Nat.pow_le_pow_right (by decide) hd
    rw [h1]
    refine ⟨h2, ?_⟩
    have : ((2 ^ d : Nat) : Int) ≤ ((2 ^ 30 : Nat) : Int) := by exact_mod_cast h2
    have h3 : ((2 ^ 30 : Nat) : Int) < 2 ^ 31 := by norm_num
    omega
  · intro g key
    obtain ⟨a, ha, hlt⟩ := addressOf_lt t g key hS.size_eq
    obtain ⟨p, b, h1, h2, _⟩ := hS.slot_bucket a hlt
    exact ⟨a, p, b, ha, hlt, (bucketAt_ok_iff t a p b).mpr ⟨h1, h2⟩⟩
  · intro i p b td hb htd
    obtain ⟨_, h2⟩ := (bucketAt_ok_iff t i p b).mp hb
    obtain ⟨hSd, hheap, hdep⟩ := hS.first_step env p b h2 td htd
    refine ⟨⟨hSd.size_eq, hSd.len_eq⟩, fun g key => addressOf_lt td g key hSd.size_eq, ?_⟩
    exact hSd.redirect_bound p b (by rw [hheap]; exact h2) hdep
  · intro key
    exact ⟨_, lookup_eq hR.ginv key⟩
  · intro hbs fuel rnd key hund
    rcases hR.insert_total hbs fuel rnd key with ⟨r, T', hr⟩ | hr | ⟨hr, _⟩
    · rw [hr] at hund; cases hund
    · rw [hr] at hund; cases hund
    · rw [hr] at hund; cases hund

/-- C33 (per-table key counter is exact): in every reachable state the field
`nkeys` of each inner table is the number of keys stored in the table, which is
the sum of the fields `nkeys` of its buckets.  A returning `split_bucket` leaves
the counter of its table unchanged, the write of an eviction does not touch it,
and a returning `insert_key` has incremented exactly one counter by one: that of
the table in which the chain ended with a placement (the table passed as
`tableA` after an even number of evictions, the other one after an odd number). -/
theorem nkeys_exact (env : Env) (bs : Nat) (T : XuckooNHashTable) (hR : Reachable env bs T) :
    (T.table1.nkeys = (T.table1.heap.map (fun b => b.nkeys)).sum ∧
      T.table1.nkeys = (tableKeys T.table1).length) ∧
    (T.table2.nkeys = (T.table2.heap.map (fun b => b.nkeys)).sum ∧
      T.table2.nkeys = (tableKeys T.table2).length) ∧
    (∀ (t t' : InnerTable) (address : Nat) (h : Int → Int),
      split_bucket env t address bs h = .ok t' → t'.nkeys = t.nkeys) ∧
    (∀ (tA : InnerTable) (heap : List Bucket), ({ tA with heap := heap } : InnerTable).nkeys =
      tA.nkeys) ∧
    (∀ (fuel : Nat) (key : Int) (tA tB : InnerTable) (hA hB : Int → Int) (reps : Nat)
      (rnd : Nat → Nat) (r : Bool) (tA' tB' : InnerTable) (reps' : Nat),
      insert_key env bs fuel key tA tB hA hB reps rnd = .ok (r, tA', tB', reps') →
      reps ≤ reps' ∧
      ((reps' - reps) % 2 = 0 → tA'.nkeys = tA.nkeys + 1 ∧ tB'.nkeys = tB.nkeys) ∧
      ((reps' - reps) % 2 = 1 → tA'.nkeys = tA.nkeys ∧ tB'.nkeys = tB.nkeys + 1)) :=
  ⟨⟨hR.ginv.inv1.nkeys_sum, hR.ginv.inv1.nkeys_eq⟩,
    ⟨hR.ginv.inv2.nkeys_sum, hR.ginv.inv2.nkeys_eq⟩,
    fun _ _ _ _ hs => split_bucket_nkeys hs, fun _ _ => rfl, insert_key_counter env bs⟩

theorem nkeys_exact_witness :
    (exTable.table1.nkeys = (exTable.table1.heap.map (fun b => b.nkeys)).sum ∧
      exTable.table1.nkeys = (tableKeys exTable.table1).length) ∧
    (exTable.table2.nkeys = (exTable.table2.heap.map (fun b => b.nkeys)).sum ∧
      exTable.table2.nkeys = (tableKeys exTable.table2).length) :=
  ⟨(nkeys_exact exEnv 2 exTable exReach).1, (nkeys_exact exEnv 2 exTable exReach).2.1⟩



/-! ## The duplicate check of the extendible table (`xtndbln.c`) -/

theorem Xtndbln.slot_ok_iff (t : Xtndbln.XtndblNHashTable) (i p : Nat) (b : Bucket) :
    Xtndbln.bucketAt t i = .ok (p, b) ↔ t.buckets[i]? = some p ∧ t.heap[p]? = some b := by
  unfold Xtndbln.bucketAt
  cases h1 : t.buckets[i]? with
  | none => simp
  | some q =>
    simp only
    cases h2 : t.heap[q]? with
    | none =>
      simp only [Option.some.injEq]
      constructor
      · intro h; cases h
      · rintro ⟨rfl, h⟩; rw [h2] at h; cases h
    | some c =>
      simp only [Res.ok.injEq, Prod.mk.injEq, Option.some.injEq]
      constructor
      · rintro ⟨rfl, rfl⟩; exact ⟨rfl, h2⟩
      · rintro ⟨rfl, h⟩; rw [h2] at h; exact ⟨rfl, (Option.some.inj h)⟩

/-- The address with which the loop of `xtndbln_hash_table_insert` is left is
the address of the hash value in the table as it then is. -/
theorem Xtndbln.make_space_address (env : Env) (hash : Int) :
    ∀ (fuel : Nat) (t : Xtndbln.XtndblNHashTable) (a : Nat) (t1 : Xtndbln.XtndblNHashTable)
      (a1 : Nat), index (rightmostnbits t.depth hash) = .ok a →
      Xtndbln.make_space env hash fuel t a = .ok (t1, a1) →
      index (rightmostnbits t1.depth hash) = .ok a1 := by
  intro fuel
  induction fuel with
  | zero => intro t a t1 a1 _ hrun; simp [Xtndbln.make_space] at hrun
  | succ fuel ih =>
    intro t a t1 a1 ha hrun
    unfold Xtndbln.make_space at hrun
    split at hrun
    · exact absurd hrun (by simp)
    · split at hrun
      · split at hrun
        · exact absurd hrun (by simp)
        · rename_i t2 _
          split at hrun
          · exact absurd hrun (by simp)
          · rename_i a2 ha2
            exact ih t2 a2 t1 a1 ha2 hrun
      · simp only [Res.ok.injEq, Prod.mk.injEq] at hrun
        obtain ⟨rfl, rfl⟩ := hrun
        exact ha

/-- C35 as stated fails, against the comment of `xtndbln_hash_table_insert`
("returns true if insertion succeeds, false if it was already in there"): the
duplicate check compares the key with all `bucketsize` positions of the bucket,
not only with the `nkeys` used ones.  With capacity 2 and uninitialised
positions that happen to hold 7, after the insert of 5 into a fresh table the
key 7 is not in the table (lookup returns false), yet the insert of 7 returns
false and stores nothing. -/
theorem xtndbln_duplicate_check_counterexample :
    Xtndbln.xtndbln_hash_table_insert junkEnv 1 (Xtndbln.new_xtndbln_hash_table junkEnv 2) 5 =
      .ok (true, junkTable) ∧
    junkTable.heap.flatMap bucketKeys = [5] ∧
    Xtndbln.xtndbln_hash_table_lookup junkEnv junkTable 7 = .ok false ∧
    ∀ fuel, Xtndbln.xtndbln_hash_table_insert junkEnv fuel junkTable 7 = .ok (false, junkTable) :=
  ⟨by decide, by decide, by decide, fun _ => rfl⟩

/-- What `xtndbln_hash_table_insert` does return, for a key addressed to the
bucket `b` whose key array has `bucketsize` positions: it returns false exactly
when `b` is not empty and the key occurs at any position of the array, used or
not, and then leaves the table as it is; so when no position at or after `nkeys`
holds the key, it returns false exactly when lookup returned true before the
call.  When it returns true, the key is stored: lookup returns true after it. -/
theorem xtndbln_insert_result (env : Env) (fuel : Nat) (T : Xtndbln.XtndblNHashTable)
    (key : Int) (a p : Nat) (b : Bucket)
    (ha : index (rightmostnbits T.depth (env.h1 key)) = .ok a)
    (hb : Xtndbln.bucketAt T a = .ok (p, b))
    (hlen : b.keys.length = T.bucketsize) (hn : b.nkeys ≤ T.bucketsize)
    (r : Bool) (T' : Xtndbln.XtndblNHashTable)
    (hrun : Xtndbln.xtndbln_hash_table_insert env fuel T key = .ok (r, T')) :
    (r = false ↔ (b.nkeys ≠ 0 ∧ key ∈ b.keys)) ∧
    (r = false → T' = T) ∧
    (r = true → Xtndbln.xtndbln_hash_table_lookup env T' key = .ok true) ∧
    Xtndbln.xtndbln_hash_table_lookup env T key = .ok (decide (key ∈ bucketKeys b)) ∧
    ((∀ i, b.nkeys ≤ i → b.keys[i]? ≠ some key) →
      (r = false ↔ Xtndbln.xtndbln_hash_table_lookup env T key = .ok true)) := by
  have hcheck : (if b.nkeys ≠ 0 then find_loop b.keys key 0 T.bucketsize else .ok false) =
      .ok (decide (b.nkeys ≠ 0 ∧ key ∈ b.keys)) := by
    by_cases h0 : b.nkeys = 0
    · simp [h0]
    · rw [if_pos h0, find_loop_spec _ _ _ _ (by omega), ← hlen]
      simp [h0]
  have hlook : Xtndbln.xtndbln_hash_table_lookup env T key = .ok (decide (key ∈ bucketKeys b)) := by
    unfold Xtndbln.xtndbln_hash_table_lookup
    rw [ha]
    simp only [hb]
    by_cases h0 : b.nkeys = 0
    · simp [h0, bucketKeys]
    · rw [if_pos h0, find_loop_spec _ _ _ _ (by omega)]
      simp [bucketKeys]
  unfold Xtndbln.xtndbln_hash_table_insert at hrun
  simp only [ha, hb, hcheck] at hrun
  have hres : (r = false ↔ (b.nkeys ≠ 0 ∧ key ∈ b.keys)) ∧ (r = false → T' = T) ∧
      (r = true → Xtndbln.xtndbln_hash_table_lookup env T' key = .ok true) := by
    by_cases hfound : b.nkeys ≠ 0 ∧ key ∈ b.keys
    · rw [decide_eq_true hfound] at hrun
      simp only [Res.ok.injEq, Prod.mk.injEq] at hrun
      obtain ⟨rfl, rfl⟩ := hrun
      exact ⟨⟨fun _ => hfound, fun _ => rfl⟩, fun _ => rfl, fun h => by cases h⟩
    · rw [decide_eq_false hfound] at hrun
      simp only at hrun
      cases hms : Xtndbln.make_space env (env.h1 key) fuel T a with
      | fault e => rw [hms] at hrun; exact absurd hrun (by simp)
      | ok res =>
        obtain ⟨t1, a1⟩ := res
        rw [hms] at hrun
        simp only at hrun
        have ha1 := Xtndbln.make_space_address env (env.h1 key) fuel T a t1 a1 ha hms
        cases hb1 : Xtndbln.bucketAt t1 a1 with
        | fault e => rw [hb1] at hrun; exact absurd hrun (by simp)
        | ok pb =>
          obtain ⟨p1, b1⟩ := pb
          rw [hb1] at hrun
          simp only at hrun
          by_cases hroom : b1.nkeys < b1.keys.length
          · rw [if_pos hroom] at hrun
            simp only [Res.ok.injEq, Prod.mk.injEq] at hrun
            obtain ⟨rfl, rfl⟩ := hrun
            refine ⟨⟨fun h => (by cases h), fun h => absurd h hfound⟩, fun h => (by cases h), ?_⟩
            intro _
            obtain ⟨g1, g2⟩ := (Xtndbln.slot_ok_iff t1 a1 p1 b1).mp hb1
            have hp1 : p1 < t1.heap.length := (List.getElem?_eq_some.mp g2).1
            unfold Xtndbln.xtndbln_hash_table_lookup
            simp only [ha1]
            have hbk : Xtndbln.bucketAt
                { t1 with
                  heap := t1.heap.set p1
                    { b1 with keys := b1.keys.set b1.nkeys key, nkeys := b1.nkeys + 1 },
                  nkeys := t1.nkeys + 1 } a1 =
                .ok (p1, { b1 with keys := b1.keys.set b1.nkeys key, nkeys := b1.nkeys + 1 }) :=
              (Xtndbln.slot_ok_iff _ a1 p1 _).mpr ⟨g1, List.getElem?_set_self hp1⟩
            rw [hbk]
            simp only [ne_eq, Nat.add_one_ne_zero, not_false_eq_true, if_true]
            rw [find_loop_spec _ _ _ _ (by rw [List.length_set]; omega)]
            simp only [List.drop_zero, take_succ_set _ _ _ hroom, List.mem_append,
              List.mem_singleton, or_true, decide_True]
          · rw [if_neg hroom] at hrun
            exact absurd hrun (by simp)
  refine ⟨hres.1, hres.2.1, hres.2.2, hlook, ?_⟩
  intro hunused
  rw [hres.1, hlook]
  simp only [Res.ok.injEq, decide_eq_true_eq, bucketKeys]
  constructor
  · rintro ⟨_, hmem⟩
    obtain ⟨i, hi⟩ := List.mem_iff_getElem?.mp hmem
    have hlt : i < b.nkeys := by
      by_contra hge
      exact hunused i (by omega) hi
    exact List.mem_iff_getElem?.mpr ⟨i, by rw [List.getElem?_take, if_pos hlt]; exact hi⟩
  · intro hmem
    have hsub := List.mem_of_mem_take hmem
    refine ⟨?_, hsub⟩
    intro h0
    rw [h0] at hmem
    simp at hmem

theorem xtndbln_insert_result_witness :
    Xtndbln.xtndbln_hash_table_lookup junkEnv junkTable 5 = .ok true :=
  (xtndbln_insert_result junkEnv 1 (Xtndbln.new_xtndbln_hash_table junkEnv 2) 5 0 0
    (new_bucket junkEnv.junk 0 0 2) (by decide) (by decide) (by decide) (by decide) true
    junkTable (by decide)).2.2.1 rfl



/-! ## The flat cuckoo table (`cuckoo.c`) -/

theorem Cuckoo.slotOf_eq (size : Nat) (x : Int) (hx : 0 ≤ x) (hs : 0 < size) :
    Cuckoo.slotOf size x = .ok (x.toNat % size) ∧ x.toNat % size < size := by
  refine ⟨?_, Nat.mod_lt _ hs⟩
  unfold Cuckoo.slotOf
  rw [if_neg (by omega)]
  obtain ⟨n, rfl⟩ := Int.eq_ofNat_of_zero_le hx
  have : Int.tmod (n : Int) (size : Int) = ((n % size : Nat) : Int) := by
    rw [Int.tmod_eq_emod (by omega) (by omega)]
    rfl
  rw [this]
  rfl

theorem filterMap_singleton {α β : Type} (f : α → Option β) (x : α) :
    [x].filterMap f = (f x).toList := by
  cases h : f x <;> simp [List.filterMap, h]

theorem filterMap_range_update {α : Type} (f g : Nat → Option α) (a : Nat)
    (hfg : ∀ i, i ≠ a → f i = g i) :
    ∀ n, a < n →
      ((List.range n).filterMap g ++ (f a).toList).Perm
        ((List.range n).filterMap f ++ (g a).toList) := by
  have hsame : ∀ n, n ≤ a → (List.range n).filterMap g = (List.range n).filterMap f := by
    intro n hn
    apply List.filterMap_congr
    intro i hi
    rw [List.mem_range] at hi
    exact (hfg i (by omega)).symm
  intro n
  induction n with
  | zero => intro h; omega
  | succ n ih =>
    intro hlt
    rw [List.range_succ, List.filterMap_append, List.filterMap_append,
      filterMap_singleton, filterMap_singleton]
    by_cases han : a = n
    · subst han
      rw [hsame a (Nat.le_refl _), List.append_assoc, List.append_assoc]
      exact List.Perm.append_left _ List.perm_append_comm
    · have hn : f n = g n := hfg n (fun e => han e.symm)
      rw [hn]
      have := ih (by omega)
      rw [List.append_assoc, List.append_assoc]
      refine (List.Perm.append_left _ List.perm_append_comm).trans ?_
      rw [← List.append_assoc, ← List.append_assoc]
      refine (List.Perm.append_right _ this).trans ?_
      rw [List.append_assoc, List.append_assoc]
      exact List.Perm.append_left _ List.perm_append_comm

theorem Cuckoo.entry_lt {t : Cuckoo.InnerTable} {i : Nat} {k : Int}
    (h : Cuckoo.entry t i = some k) :
    t.inuse[i]? = some true ∧ t.slots[i]? = some k ∧ i < t.inuse.length := by
  unfold Cuckoo.entry at h
  split at h
  · rename_i hu
    exact ⟨hu, h, (List.getElem?_eq_some.mp hu).1⟩
  · cases h

theorem Cuckoo.mem_stored (t : Cuckoo.InnerTable) (k : Int) :
    k ∈ Cuckoo.stored t ↔ ∃ i, Cuckoo.entry t i = some k := by
  unfold Cuckoo.stored
  rw [List.mem_filterMap]
  constructor
  · rintro ⟨i, _, hi⟩; exact ⟨i, hi⟩
  · rintro ⟨i, hi⟩
    exact ⟨i, List.mem_range.mpr (Cuckoo.entry_lt hi).2.2, hi⟩

/-- The test of the duplicate check, at the address of the key, decides whether
the inner table stores the key. -/
theorem Cuckoo.holds_eq {h : Int → Int} {size : Nat} {t : Cuckoo.InnerTable}
    (hok : Cuckoo.TableOK h size t) (key : Int) (a : Nat)
    (ha : Cuckoo.slotOf size (h key) = .ok a) (hlt : a < size) :
    Cuckoo.holds t a key = .ok (decide (key ∈ Cuckoo.stored t)) := by
  have hu : a < t.inuse.length := by rw [hok.len_inuse]; exact hlt
  have hs : a < t.slots.length := by rw [hok.len_slots]; exact hlt
  have hat : ∀ i, Cuckoo.entry t i = some key → i = a := by
    intro i hi
    have := hok.placed i key hi
    rw [ha] at this
    cases this
    rfl
  unfold Cuckoo.holds
  rw [List.getElem?_eq_getElem hu]
  cases hin : t.inuse[a] with
  | false =>
    simp only
    congr 1
    symm
    apply decide_eq_false
    rw [Cuckoo.mem_stored]
    rintro ⟨i, hi⟩
    have := hat i hi
    subst this
    have := (Cuckoo.entry_lt hi).1
    rw [List.getElem?_eq_getElem hu, hin] at this
    cases this
  | true =>
    simp only
    rw [List.getElem?_eq_getElem hs]
    simp only
    congr 1
    apply decide_eq_decide.mpr
    have hent : Cuckoo.entry t a = some t.slots[a] := by
      unfold Cuckoo.entry
      rw [List.getElem?_eq_getElem hu, hin, if_pos rfl, List.getElem?_eq_getElem hs]
    rw [Cuckoo.mem_stored]
    constructor
    · intro e
      exact ⟨a, by rw [hent, e]⟩
    · rintro ⟨i, hi⟩
      have := hat i hi
      subst this
      rw [hent] at hi
      exact Option.some.inj hi

theorem Cuckoo.initialise_table_ok (env : Env) (h : Int → Int) (size : Nat)
    (t : Cuckoo.InnerTable) (hinit : Cuckoo.initialise_table env size = .ok t) :
    Cuckoo.TableOK h size t ∧ Cuckoo.stored t = [] := by
  unfold Cuckoo.initialise_table at hinit
  split at hinit
  · simp only [Res.ok.injEq] at hinit
    subst hinit
    have hent : ∀ i, Cuckoo.entry
        { slots := (List.range size).map env.junk, inuse := List.replicate size false,
          load := 0 } i = none := by
      intro i
      unfold Cuckoo.entry
      rw [if_neg]
      simp only
      intro hu
      have := List.getElem?_eq_some.mp hu
      obtain ⟨_, h2⟩ := this
      simp at h2
    have hst : Cuckoo.stored
        { slots := (List.range size).map env.junk, inuse := List.replicate size false,
          load := 0 } = [] := by
      unfold Cuckoo.stored
      rw [List.filterMap_eq_nil_iff]
      intro i _
      exact hent i
    refine ⟨⟨by simp, by simp, ?_, by rw [hst]; rfl⟩, hst⟩
    intro i k hk
    rw [hent i] at hk
    cases hk
  · cases hinit



theorem Cuckoo.stored_length_eq {t t' : Cuckoo.InnerTable} {l1 l2 : List Int}
    (h : (Cuckoo.stored t' ++ l1).Perm (Cuckoo.stored t ++ l2)) :
    (Cuckoo.stored t').length + l1.length = (Cuckoo.stored t).length + l2.length := by
  have := h.length_eq
  simpa using this

/-- The placement of a key in a slot that is not in use. -/
theorem Cuckoo.place_spec {h : Int → Int} {size : Nat} {t : Cuckoo.InnerTable}
    (hok : Cuckoo.TableOK h size t) (key : Int) (a : Nat)
    (ha : Cuckoo.slotOf size (h key) = .ok a) (hu : t.inuse[a]? = some false)
    (hs : a < t.slots.length) :
    Cuckoo.TableOK h size
      { slots := t.slots.set a key, inuse := t.inuse.set a true, load := t.load + 1 } ∧
    (Cuckoo.stored
      { slots := t.slots.set a key, inuse := t.inuse.set a true, load := t.load + 1 }).Perm
      (key :: Cuckoo.stored t) := by
  have hlu : a < t.inuse.length := (List.getElem?_eq_some.mp hu).1
  have hent : ∀ i, Cuckoo.entry
      { slots := t.slots.set a key, inuse := t.inuse.set a true, load := t.load + 1 } i =
      if i = a then some key else Cuckoo.entry t i := by
    intro i
    unfold Cuckoo.entry
    by_cases hia : i = a
    · subst hia
      simp only [if_true]
      rw [List.getElem?_set_self hlu, if_pos rfl, List.getElem?_set_self hs]
    · simp only [if_neg hia]
      rw [List.getElem?_set_ne (fun e => hia e.symm), List.getElem?_set_ne (fun e => hia e.symm)]
  have hold : Cuckoo.entry t a = none := by
    unfold Cuckoo.entry
    rw [hu, if_neg (by simp)]
  have hperm := filterMap_range_update (Cuckoo.entry t)
    (Cuckoo.entry
      { slots := t.slots.set a key, inuse := t.inuse.set a true, load := t.load + 1 }) a
    (by intro i hia; rw [hent i, if_neg hia]) t.inuse.length hlu
  rw [hold, hent a, if_pos rfl] at hperm
  simp only [Option.toList_none, List.append_nil, Option.toList_some] at hperm
  have hst : (Cuckoo.stored
      { slots := t.slots.set a key, inuse := t.inuse.set a true, load := t.load + 1 }).Perm
      (key :: Cuckoo.stored t) := by
    unfold Cuckoo.stored
    simp only [List.length_set]
    exact hperm.trans (List.perm_append_comm.trans (by simp))
  refine ⟨⟨?_, ?_, ?_, ?_⟩, hst⟩
  · simp only [List.length_set]; exact hok.len_slots
  · simp only [List.length_set]; exact hok.len_inuse
  · intro i k hk
    rw [hent i] at hk
    by_cases hia : i = a
    · rw [if_pos hia] at hk
      cases hk
      rw [hia]; exact ha
    · rw [if_neg hia] at hk
      exact hok.placed i k hk
  · show t.load + 1 = _
    rw [hst.length_eq, hok.load_eq]
    rfl

/-- The eviction write: the key of a slot in use is replaced. -/
theorem Cuckoo.evict_spec {h : Int → Int} {size : Nat} {t : Cuckoo.InnerTable}
    (hok : Cuckoo.TableOK h size t) (key prekey : Int) (a : Nat)
    (ha : Cuckoo.slotOf size (h key) = .ok a) (hu : t.inuse[a]? = some true)
    (hs : t.slots[a]? = some prekey) :
    Cuckoo.TableOK h size { t with slots := t.slots.set a key } ∧
    (prekey :: Cuckoo.stored { t with slots := t.slots.set a key }).Perm
      (key :: Cuckoo.stored t) := by
  have hlu : a < t.inuse.length := (List.getElem?_eq_some.mp hu).1
  have hls : a < t.slots.length := (List.getElem?_eq_some.mp hs).1
  have hent : ∀ i, Cuckoo.entry { t with slots := t.slots.set a key } i =
      if i = a then some key else Cuckoo.entry t i := by
    intro i
    unfold Cuckoo.entry
    by_cases hia : i = a
    · subst hia
      simp only [if_true]
      rw [hu, if_pos rfl, List.getElem?_set_self hls]
    · simp only [if_neg hia]
      rw [List.getElem?_set_ne (fun e => hia e.symm)]
  have hold : Cuckoo.entry t a = some prekey := by
    unfold Cuckoo.entry
    rw [hu, if_pos rfl, hs]
  have hperm := filterMap_range_update (Cuckoo.entry t)
    (Cuckoo.entry { t with slots := t.slots.set a key }) a
    (by intro i hia; rw [hent i, if_neg hia]) t.inuse.length hlu
  rw [hold, hent a, if_pos rfl] at hperm
  simp only [Option.toList_some] at hperm
  have hst : (prekey :: Cuckoo.stored { t with slots := t.slots.set a key }).Perm
      (key :: Cuckoo.stored t) := by
    unfold Cuckoo.stored
    refine (@List.perm_append_comm _ [prekey] _).trans ?_
    exact hperm.trans (List.perm_append_comm.trans (by simp))
  refine ⟨⟨?_, hok.len_inuse, ?_, ?_⟩, hst⟩
  · simp only [List.length_set]; exact hok.len_slots
  · intro i k hk
    rw [hent i] at hk
    by_cases hia : i = a
    · rw [if_pos hia] at hk
      cases hk
      rw [hia]; exact ha
    · rw [if_neg hia] at hk
      exact hok.placed i k hk
  · have hlen : (Cuckoo.stored { t with slots := t.slots.set a key }).length =
        (Cuckoo.stored t).length := by
      have := hst.length_eq
      simpa using this
    show t.load = _
    rw [hlen]
    exact hok.load_eq

theorem Cuckoo.Inv.deref_ok {env : Env} {T : Cuckoo.CuckooHashTable} (hI : Cuckoo.Inv env T)
    (A : Role) : Cuckoo.TableOK (hashOf env A) T.size (Cuckoo.deref T A) := by
  cases A
  · exact hI.ok1
  · exact hI.ok2

theorem Cuckoo.Inv.assign_ok {env : Env} {T : Cuckoo.CuckooHashTable} (hI : Cuckoo.Inv env T)
    (A : Role) (t : Cuckoo.InnerTable) (ht : Cuckoo.TableOK (hashOf env A) T.size t) :
    Cuckoo.Inv env (Cuckoo.assign T A t) ∧ (Cuckoo.assign T A t).size = T.size := by
  cases A
  · exact ⟨⟨hI.size_pos, ht, hI.ok2⟩, rfl⟩
  · exact ⟨⟨hI.size_pos, hI.ok1, ht⟩, rfl⟩

theorem Cuckoo.allStored_assign (T : Cuckoo.CuckooHashTable) (A : Role) (t : Cuckoo.InnerTable)
    (l1 l2 : List Int)
    (h : (l1 ++ Cuckoo.stored t).Perm (l2 ++ Cuckoo.stored (Cuckoo.deref T A))) :
    (l1 ++ Cuckoo.allStored (Cuckoo.assign T A t)).Perm (l2 ++ Cuckoo.allStored T) := by
  cases A
  · show (l1 ++ (Cuckoo.stored t ++ Cuckoo.stored T.table2)).Perm
      (l2 ++ (Cuckoo.stored T.table1 ++ Cuckoo.stored T.table2))
    rw [← List.append_assoc, ← List.append_assoc]
    exact List.Perm.append_right _ h
  · show (l1 ++ (Cuckoo.stored T.table1 ++ Cuckoo.stored t)).Perm
      (l2 ++ (Cuckoo.stored T.table1 ++ Cuckoo.stored T.table2))
    have h' : (l1 ++ Cuckoo.stored t).Perm (l2 ++ Cuckoo.stored T.table2) := h
    rw [← Multiset.coe_eq_coe] at h' ⊢
    simp only [← Multiset.coe_add] at h' ⊢
    calc (l1 : Multiset Int) + (↑(Cuckoo.stored T.table1) + ↑(Cuckoo.stored t))
        = ↑(Cuckoo.stored T.table1) + (↑l1 + ↑(Cuckoo.stored t)) := by abel
      _ = ↑(Cuckoo.stored T.table1) + (↑l2 + ↑(Cuckoo.stored T.table2)) := by rw [h']
      _ = _ := by abel

/-- The keys the rehash loop inserts are, up to order, the keys stored in the
old inner tables. -/
theorem Cuckoo.remaining_perm (old1 old2 : Cuckoo.InnerTable) :
    ∀ (n i : Nat), (Cuckoo.remaining old1 old2 i n).Perm
      ((List.range n).filterMap (fun j => Cuckoo.entry old1 (i + j)) ++
       (List.range n).filterMap (fun j => Cuckoo.entry old2 (i + j))) := by
  intro n
  induction n with
  | zero => intro i; simp [Cuckoo.remaining]
  | succ n ih =>
    intro i
    have e : ∀ (old : Cuckoo.InnerTable),
        (List.range (n + 1)).filterMap (fun j => Cuckoo.entry old (i + j)) =
        (Cuckoo.entry old i).toList ++
          (List.range n).filterMap (fun j => Cuckoo.entry old (i + 1 + j)) := by
      intro old
      rw [List.range_succ_eq_map, List.filterMap_cons, List.filterMap_map]
      have hf : ((fun j => Cuckoo.entry old (i + j)) ∘ Nat.succ) =
          (fun j => Cuckoo.entry old (i + 1 + j)) := by
        funext j
        show Cuckoo.entry old (i + (j + 1)) = _
        rw [show i + (j + 1) = i + 1 + j by omega]
      rw [hf]
      simp only [Nat.add_zero]
      cases Cuckoo.entry old i <;> rfl
    rw [Cuckoo.remaining, e old1, e old2]
    have := ih (i + 1)
    rw [← Multiset.coe_eq_coe] at this ⊢
    simp only [← Multiset.coe_add] at this ⊢
    rw [this]
    abel

theorem Cuckoo.remaining_all (T : Cuckoo.CuckooHashTable)
    (h1 : T.table1.inuse.length = T.size) (h2 : T.table2.inuse.length = T.size) :
    (Cuckoo.remaining T.table1 T.table2 0 T.size).Perm (Cuckoo.allStored T) := by
  have := Cuckoo.remaining_perm T.table1 T.table2 T.size 0
  simp only [Nat.zero_add] at this
  unfold Cuckoo.allStored Cuckoo.stored
  rw [h1, h2]
  exact this



theorem hashOf_nonneg (env : Env) (hnn : ∀ k, 0 ≤ env.h1 k ∧ 0 ≤ env.h2 k) (A : Role) (k : Int) :
    0 ≤ hashOf env A k := by
  cases A
  · exact (hnn k).1
  · exact (hnn k).2

/-- One statement of the rehash loop, for an insert function that keeps the
invariant and adds the key: the key of the old slot, if in use, is added. -/
theorem Cuckoo.rehash_slot_spec (env : Env)
    (ins : Cuckoo.CuckooHashTable → Int → Res (Bool × Cuckoo.CuckooHashTable))
    (hins : ∀ (T : Cuckoo.CuckooHashTable) (key : Int) (r : Bool) (T' : Cuckoo.CuckooHashTable),
      Cuckoo.Inv env T → (Cuckoo.allStored T).Nodup → ins T key = .ok (r, T') →
      Cuckoo.Inv env T' ∧
      ((r = false ∧ T' = T ∧ key ∈ Cuckoo.allStored T) ∨
       (r = true ∧ key ∉ Cuckoo.allStored T ∧
        (Cuckoo.allStored T').Perm (key :: Cuckoo.allStored T))))
    (old : Cuckoo.InnerTable) (i : Nat) (T T1 : Cuckoo.CuckooHashTable)
    (hI : Cuckoo.Inv env T)
    (hnd : (Cuckoo.allStored T ++ (Cuckoo.entry old i).toList).Nodup)
    (hrun : Cuckoo.rehash_slot ins old i T = .ok T1) :
    Cuckoo.Inv env T1 ∧
    (Cuckoo.allStored T1).Perm (Cuckoo.allStored T ++ (Cuckoo.entry old i).toList) := by
  unfold Cuckoo.rehash_slot at hrun
  cases hu : old.inuse[i]? with
  | none => rw [hu] at hrun; cases hrun
  | some u =>
    rw [hu] at hrun
    cases u with
    | false =>
      simp only [Res.ok.injEq] at hrun
      subst hrun
      have : Cuckoo.entry old i = none := by
        unfold Cuckoo.entry; rw [hu, if_neg (by simp)]
      rw [this]
      simpa using hI
    | true =>
      simp only at hrun
      cases hs : old.slots[i]? with
      | none => rw [hs] at hrun; cases hrun
      | some k =>
        rw [hs] at hrun
        simp only at hrun
        have hent : Cuckoo.entry old i = some k := by
          unfold Cuckoo.entry; rw [hu, if_pos rfl, hs]
        rw [hent] at hnd ⊢
        simp only [Option.toList_some] at hnd ⊢
        cases hres : ins T k with
        | fault e => rw [hres] at hrun; cases hrun
        | ok v =>
          obtain ⟨r, Tx⟩ := v
          rw [hres] at hrun
          simp only [Res.ok.injEq] at hrun
          subst hrun
          have hnd0 : (Cuckoo.allStored T).Nodup := (List.nodup_append.mp hnd).1
          obtain ⟨hIx, hc | hc⟩ := hins T k r Tx hI hnd0 hres
          · exfalso
            have := (List.nodup_append.mp hnd).2.2
            exact this hc.2.2 (List.mem_singleton_self k)
          · exact ⟨hIx, hc.2.2.trans (@List.perm_append_comm _ [k] _)⟩

/-- The functions `insert_key`, `double_table`, the rehash loop and
`cuckoo_hash_table_insert` of the flat cuckoo table, for non-negative hash
values: a returning call keeps the invariant; `insert_key` adds its key to the
stored keys, `double_table` keeps them, the rehash loop adds the keys of the old
slots in use, and the insert adds its key unless it is stored already. -/
theorem Cuckoo.run_spec (env : Env) (hnn : ∀ k, 0 ≤ env.h1 k ∧ 0 ≤ env.h2 k) :
    ∀ fuel : Nat,
      (∀ (key : Int) (T : Cuckoo.CuckooHashTable) (A B : Role) (reps : Nat) (r : Bool)
        (T' : Cuckoo.CuckooHashTable) (reps' : Nat),
        Cuckoo.Inv env T → (key :: Cuckoo.allStored T).Nodup →
        Cuckoo.insert_key env fuel key T A B (hashOf env A) (hashOf env B) reps =
          .ok (r, T', reps') →
        r = true ∧ Cuckoo.Inv env T' ∧
          (Cuckoo.allStored T').Perm (key :: Cuckoo.allStored T)) ∧
      (∀ (T T' : Cuckoo.CuckooHashTable),
        Cuckoo.Inv env T → (Cuckoo.allStored T).Nodup →
        Cuckoo.double_table env fuel T = .ok T' →
        Cuckoo.Inv env T' ∧ (Cuckoo.allStored T').Perm (Cuckoo.allStored T)) ∧
      (∀ (old1 old2 : Cuckoo.InnerTable) (n i : Nat) (T T' : Cuckoo.CuckooHashTable),
        Cuckoo.Inv env T → (Cuckoo.allStored T ++ Cuckoo.remaining old1 old2 i n).Nodup →
        Cuckoo.rehash env fuel old1 old2 i n T = .ok T' →
        Cuckoo.Inv env T' ∧
          (Cuckoo.allStored T').Perm (Cuckoo.allStored T ++ Cuckoo.remaining old1 old2 i n)) ∧
      (∀ (T : Cuckoo.CuckooHashTable) (key : Int) (r : Bool) (T' : Cuckoo.CuckooHashTable),
        Cuckoo.Inv env T → (Cuckoo.allStored T).Nodup →
        Cuckoo.cuckoo_hash_table_insert env fuel T key = .ok (r, T') →
        Cuckoo.Inv env T' ∧
        ((r = false ∧ T' = T ∧ key ∈ Cuckoo.allStored T) ∨
         (r = true ∧ key ∉ Cuckoo.allStored T ∧
          (Cuckoo.allStored T').Perm (key :: Cuckoo.allStored T)))) := by
  intro fuel
  induction fuel with
  | zero =>
    refine ⟨?_, ?_, ?_, ?_⟩
    · intro key T A B reps r T' reps' _ _ hrun
      simp [Cuckoo.insert_key] at hrun
    · intro T T' _ _ hrun
      simp [Cuckoo.double_table] at hrun
    · intro old1 old2 n i T T' hI _ hrun
      cases n with
      | zero =>
        rw [Cuckoo.rehash] at hrun
        simp only [Res.ok.injEq] at hrun
        subst hrun
        exact ⟨hI, by simp [Cuckoo.remaining]⟩
      | succ n => simp [Cuckoo.rehash] at hrun
    · intro T key r T' _ _ hrun
      simp [Cuckoo.cuckoo_hash_table_insert] at hrun
  | succ fuel ih =>
    obtain ⟨ihA, ihB, ihC, ihD⟩ := ih
    refine ⟨?_, ?_, ?_, ?_⟩
    · -- insert_key
      intro key T A B reps r T' reps' hI hnd hrun
      have hokA := hI.deref_ok A
      obtain ⟨ha, halt⟩ := Cuckoo.slotOf_eq T.size (hashOf env A key)
        (hashOf_nonneg env hnn A key) hI.size_pos
      have hlu : (hashOf env A key).toNat % T.size < (Cuckoo.deref T A).inuse.length := by
        rw [hokA.len_inuse]; exact halt
      have hls : (hashOf env A key).toNat % T.size < (Cuckoo.deref T A).slots.length := by
        rw [hokA.len_slots]; exact halt
      rw [Cuckoo.insert_key, ha] at hrun
      simp only at hrun
      rw [List.getElem?_eq_getElem hlu] at hrun
      cases hu : (Cuckoo.deref T A).inuse[(hashOf env A key).toNat % T.size] with
      | false =>
        rw [hu] at hrun
        simp only [hls, if_true, Res.ok.injEq, Prod.mk.injEq] at hrun
        obtain ⟨rfl, rfl, rfl⟩ := hrun
        have hu' : (Cuckoo.deref T A).inuse[(hashOf env A key).toNat % T.size]? = some false := by
          rw [List.getElem?_eq_getElem hlu, hu]
        obtain ⟨p1, p2⟩ := Cuckoo.place_spec hokA key _ ha hu' hls
        refine ⟨rfl, (hI.assign_ok A _ p1).1, ?_⟩
        have := Cuckoo.allStored_assign T A _ [] [key] (by simpa using p2)
        simpa using this
      | true =>
        rw [hu] at hrun
        simp only at hrun
        rw [List.getElem?_eq_getElem hls] at hrun
        simp only at hrun
        have hu' : (Cuckoo.deref T A).inuse[(hashOf env A key).toNat % T.size]? = some true := by
          rw [List.getElem?_eq_getElem hlu, hu]
        obtain ⟨p1, p2⟩ := Cuckoo.evict_spec hokA key
          (Cuckoo.deref T A).slots[(hashOf env A key).toNat % T.size] _ ha hu'
          (List.getElem?_eq_getElem hls)
        obtain ⟨hI1, _⟩ := hI.assign_ok A _ p1
        have hperm1 := Cuckoo.allStored_assign T A _
          [(Cuckoo.deref T A).slots[(hashOf env A key).toNat % T.size]] [key]
          (by simpa using p2)
        simp only [List.singleton_append] at hperm1
        have hnd1 := (hperm1.nodup_iff).mpr hnd
        cases hdbl : (if reps ≥ 1000 then
            Cuckoo.double_table env fuel
              (Cuckoo.assign T A
                { Cuckoo.deref T A with
                  slots := (Cuckoo.deref T A).slots.set
                    ((hashOf env A key).toNat % T.size) key })
            else .ok
              (Cuckoo.assign T A
                { Cuckoo.deref T A with
                  slots := (Cuckoo.deref T A).slots.set
                    ((hashOf env A key).toNat % T.size) key })) with
        | fault e => rw [hdbl] at hrun; cases hrun
        | ok T2 =>
          rw [hdbl] at hrun
          simp only at hrun
          have h2 : Cuckoo.Inv env T2 ∧ (Cuckoo.allStored T2).Perm
              (Cuckoo.allStored (Cuckoo.assign T A
                { Cuckoo.deref T A with
                  slots := (Cuckoo.deref T A).slots.set
                    ((hashOf env A key).toNat % T.size) key })) := by
            split at hdbl
            · exact ihB _ _ hI1 (List.nodup_cons.mp hnd1).2 hdbl
            · simp only [Res.ok.injEq] at hdbl
              subst hdbl
              exact ⟨hI1, List.Perm.refl _⟩
          have hnd2 : ((Cuckoo.deref T A).slots[(hashOf env A key).toNat % T.size] ::
              Cuckoo.allStored T2).Nodup :=
            ((h2.2.cons _).nodup_iff).mpr hnd1
          obtain ⟨g1, g2, g3⟩ := ihA _ T2 B A (reps + 1) r T' reps' h2.1 hnd2 hrun
          exact ⟨g1, g2, (g3.trans (h2.2.cons _)).trans hperm1⟩
    · -- double_table
      intro T T' hI hnd hrun
      rw [Cuckoo.double_table] at hrun
      cases hn1 : Cuckoo.initialise_table env (T.size * 2) with
      | fault e => rw [hn1] at hrun; cases hrun
      | ok new1 =>
        rw [hn1] at hrun
        simp only at hrun
        obtain ⟨o1, s1⟩ := Cuckoo.initialise_table_ok env env.h1 _ new1 hn1
        obtain ⟨o2, s2⟩ := Cuckoo.initialise_table_ok env env.h2 _ new1 hn1
        have hI0 : Cuckoo.Inv env { table1 := new1, table2 := new1, size := T.size * 2 } :=
          ⟨by have := hI.size_pos; show 0 < T.size * 2; omega, o1, o2⟩
        have hst0 : Cuckoo.allStored { table1 := new1, table2 := new1, size := T.size * 2 } = [] := by
          show Cuckoo.stored new1 ++ Cuckoo.stored new1 = []
          rw [s1]; rfl
        have hrem := Cuckoo.remaining_all T hI.ok1.len_inuse hI.ok2.len_inuse
        obtain ⟨g1, g2⟩ := ihC T.table1 T.table2 T.size 0 _ T' hI0
          (by rw [hst0, List.nil_append]; exact (hrem.nodup_iff).mpr hnd) hrun
        rw [hst0, List.nil_append] at g2
        exact ⟨g1, g2.trans hrem⟩
    · -- the rehash loop
      intro old1 old2 n i T T' hI hnd hrun
      cases n with
      | zero =>
        rw [Cuckoo.rehash] at hrun
        simp only [Res.ok.injEq] at hrun
        subst hrun
        exact ⟨hI, by simp [Cuckoo.remaining]⟩
      | succ n =>
        rw [Cuckoo.rehash] at hrun
        rw [Cuckoo.remaining] at hnd ⊢
        cases hr1 : Cuckoo.rehash_slot (Cuckoo.cuckoo_hash_table_insert env fuel) old1 i T with
        | fault e => rw [hr1] at hrun; cases hrun
        | ok T1 =>
          rw [hr1] at hrun
          simp only at hrun
          have hsub1 : (Cuckoo.allStored T ++ (Cuckoo.entry old1 i).toList).Sublist
              (Cuckoo.allStored T ++ ((Cuckoo.entry old1 i).toList ++
                (Cuckoo.entry old2 i).toList ++ Cuckoo.remaining old1 old2 (i + 1) n)) := by
            apply List.Sublist.append_left
            rw [List.append_assoc]
            exact List.sublist_append_left _ _
          obtain ⟨hI1, hp1⟩ := Cuckoo.rehash_slot_spec env _ ihD old1 i T T1 hI
            (hnd.sublist hsub1) hr1
          cases hr2 : Cuckoo.rehash_slot (Cuckoo.cuckoo_hash_table_insert env fuel) old2 i T1 with
          | fault e => rw [hr2] at hrun; cases hrun
          | ok T2 =>
            rw [hr2] at hrun
            simp only at hrun
            have hall : (Cuckoo.allStored T1 ++ ((Cuckoo.entry old2 i).toList ++
                Cuckoo.remaining old1 old2 (i + 1) n)).Perm
                (Cuckoo.allStored T ++ ((Cuckoo.entry old1 i).toList ++
                (Cuckoo.entry old2 i).toList ++ Cuckoo.remaining old1 old2 (i + 1) n)) := by
              have := hp1.append_right ((Cuckoo.entry old2 i).toList ++
                Cuckoo.remaining old1 old2 (i + 1) n)
              simpa [List.append_assoc] using this
            have hndA := (hall.nodup_iff).mpr hnd
            have hsub2 : (Cuckoo.allStored T1 ++ (Cuckoo.entry old2 i).toList).Sublist
                (Cuckoo.allStored T1 ++ ((Cuckoo.entry old2 i).toList ++
                  Cuckoo.remaining old1 old2 (i + 1) n)) := by
              apply List.Sublist.append_left
              exact List.sublist_append_left _ _
            obtain ⟨hI2, hp2⟩ := Cuckoo.rehash_slot_spec env _ ihD old2 i T1 T2 hI1
              (hndA.sublist hsub2) hr2
            have hall2 : (Cuckoo.allStored T2 ++ Cuckoo.remaining old1 old2 (i + 1) n).Perm
                (Cuckoo.allStored T1 ++ ((Cuckoo.entry old2 i).toList ++
                Cuckoo.remaining old1 old2 (i + 1) n)) := by
              have := hp2.append_right (Cuckoo.remaining old1 old2 (i + 1) n)
              simpa [List.append_assoc] using this
            obtain ⟨g1, g2⟩ := ihC old1 old2 n (i + 1) T2 T' hI2
              ((hall2.nodup_iff).mpr hndA) hrun
            exact ⟨g1, (g2.trans hall2).trans hall⟩
    · -- cuckoo_hash_table_insert
      intro T key r T' hI hnd hrun
      obtain ⟨ha1, hlt1⟩ := Cuckoo.slotOf_eq T.size (env.h1 key) (hnn key).1 hI.size_pos
      obtain ⟨ha2, hlt2⟩ := Cuckoo.slotOf_eq T.size (env.h2 key) (hnn key).2 hI.size_pos
      rw [Cuckoo.cuckoo_hash_table_insert, ha1, ha2] at hrun
      simp only at hrun
      rw [Cuckoo.holds_eq hI.ok1 key _ ha1 hlt1, Cuckoo.holds_eq hI.ok2 key _ ha2 hlt2] at hrun
      by_cases hm1 : key ∈ Cuckoo.stored T.table1
      · rw [decide_eq_true hm1] at hrun
        simp only [Res.ok.injEq, Prod.mk.injEq] at hrun
        obtain ⟨rfl, rfl⟩ := hrun
        exact ⟨hI, Or.inl ⟨rfl, rfl, List.mem_append_left _ hm1⟩⟩
      · rw [decide_eq_false hm1] at hrun
        simp only at hrun
        by_cases hm2 : key ∈ Cuckoo.stored T.table2
        · rw [decide_eq_true hm2] at hrun
          simp only [Res.ok.injEq, Prod.mk.injEq] at hrun
          obtain ⟨rfl, rfl⟩ := hrun
          exact ⟨hI, Or.inl ⟨rfl, rfl, List.mem_append_right _ hm2⟩⟩
        · rw [decide_eq_false hm2] at hrun
          simp only at hrun
          have hnot : key ∉ Cuckoo.allStored T := by
            intro hm
            rcases List.mem_append.mp hm with h | h
            · exact hm1 h
            · exact hm2 h
          cases hins : Cuckoo.insert_key env fuel key T .first .second env.h1 env.h2 0 with
          | fault e => rw [hins] at hrun; cases hrun
          | ok v =>
            obtain ⟨r0, T0, n0⟩ := v
            rw [hins] at hrun
            simp only [Res.ok.injEq, Prod.mk.injEq] at hrun
            obtain ⟨rfl, rfl⟩ := hrun
            obtain ⟨g1, g2, g3⟩ := ihA key T .first .second 0 r0 T0 n0 hI
              (List.nodup_cons.mpr ⟨hnot, hnd⟩) hins
            exact ⟨g2, Or.inr ⟨g1, hnot, g3⟩⟩



/-- For non-negative hash values and under the invariant, lookup decides whether
the key is stored. -/
theorem Cuckoo.lookup_stored (env : Env) (hnn : ∀ k, 0 ≤ env.h1 k ∧ 0 ≤ env.h2 k)
    {T : Cuckoo.CuckooHashTable} (hI : Cuckoo.Inv env T) (key : Int) :
    Cuckoo.cuckoo_hash_table_lookup env T key = .ok (decide (key ∈ Cuckoo.allStored T)) := by
  obtain ⟨ha1, hlt1⟩ := Cuckoo.slotOf_eq T.size (env.h1 key) (hnn key).1 hI.size_pos
  obtain ⟨ha2, hlt2⟩ := Cuckoo.slotOf_eq T.size (env.h2 key) (hnn key).2 hI.size_pos
  unfold Cuckoo.cuckoo_hash_table_lookup
  rw [ha1, ha2]
  simp only
  rw [Cuckoo.holds_eq hI.ok1 key _ ha1 hlt1, Cuckoo.holds_eq hI.ok2 key _ ha2 hlt2]
  unfold Cuckoo.allStored
  by_cases hm1 : key ∈ Cuckoo.stored T.table1
  · simp [hm1]
  · simp [hm1]

theorem Cuckoo.Reachable.inv {env : Env} (hnn : ∀ k, 0 ≤ env.h1 k ∧ 0 ≤ env.h2 k)
    {T : Cuckoo.CuckooHashTable} (hR : Cuckoo.Reachable env T) :
    Cuckoo.Inv env T ∧ (Cuckoo.allStored T).Nodup := by
  induction hR with
  | fresh size T hsize hnew =>
    unfold Cuckoo.new_cuckoo_hash_table at hnew
    cases hn1 : Cuckoo.initialise_table env size with
    | fault e => rw [hn1] at hnew; cases hnew
    | ok new1 =>
      rw [hn1] at hnew
      simp only [Res.ok.injEq] at hnew
      subst hnew
      obtain ⟨o1, s1⟩ := Cuckoo.initialise_table_ok env env.h1 _ new1 hn1
      obtain ⟨o2, _⟩ := Cuckoo.initialise_table_ok env env.h2 _ new1 hn1
      refine ⟨⟨hsize, o1, o2⟩, ?_⟩
      show (Cuckoo.stored new1 ++ Cuckoo.stored new1).Nodup
      rw [s1]
      exact List.nodup_nil
  | insert fuel T key r T' _ hrun ih =>
    obtain ⟨hI, hnd⟩ := ih
    obtain ⟨g1, g2 | g2⟩ := (Cuckoo.run_spec env hnn fuel).2.2.2 T key r T' hI hnd hrun
    · rw [g2.2.1]; exact ⟨hI, hnd⟩
    · exact ⟨g1, (g2.2.2.nodup_iff).mpr (List.nodup_cons.mpr ⟨g2.2.1, hnd⟩)⟩

/-! ### A chain of 1000 evictions in the cuckoo table of size 1 -/

theorem Cuckoo.evict_step (env : Env) (hA hB : Int → Int) (hnA : ∀ k, 0 ≤ hA k)
    (fuel : Nat) (x a b : Int) (reps : Nat) (hrep : reps < 1000) :
    Cuckoo.insert_key env (fuel + 1) x (cuckooFull a b) .first .second hA hB reps =
      Cuckoo.insert_key env fuel a (cuckooFull x b) .second .first hB hA (reps + 1) ∧
    Cuckoo.insert_key env (fuel + 1) x (cuckooFull a b) .second .first hA hB reps =
      Cuckoo.insert_key env fuel b (cuckooFull a x) .first .second hB hA (reps + 1) := by
  have hs : Cuckoo.slotOf 1 (hA x) = .ok 0 := by
    have := (Cuckoo.slotOf_eq 1 (hA x) (hnA x) (by decide)).1
    rw [this, Nat.mod_one]
  have hnot : ¬ reps ≥ 1000 := by omega
  constructor
  · rw [Cuckoo.insert_key]
    simp only [cuckooFull, hs, Cuckoo.deref, List.getElem?_cons_zero, hnot, if_false,
      Cuckoo.assign, List.set_cons_zero]
  · rw [Cuckoo.insert_key]
    simp only [cuckooFull, hs, Cuckoo.deref, List.getElem?_cons_zero, hnot, if_false,
      Cuckoo.assign, List.set_cons_zero]

theorem Cuckoo.evict_two (env : Env) (hA hB : Int → Int) (hnA : ∀ k, 0 ≤ hA k)
    (hnB : ∀ k, 0 ≤ hB k) (fuel : Nat) (x a b : Int) (reps : Nat) (hrep : reps + 2 ≤ 1000) :
    Cuckoo.insert_key env (fuel + 2) x (cuckooFull a b) .first .second hA hB reps =
      Cuckoo.insert_key env fuel b (cuckooFull x a) .first .second hA hB (reps + 2) := by
  rw [(Cuckoo.evict_step env hA hB hnA (fuel + 1) x a b reps (by omega)).1,
    (Cuckoo.evict_step env hB hA hnB fuel a x b (reps + 1) (by omega)).2]

theorem Cuckoo.evict_six (env : Env) (hA hB : Int → Int) (hnA : ∀ k, 0 ≤ hA k)
    (hnB : ∀ k, 0 ≤ hB k) (fuel : Nat) (x a b : Int) (reps : Nat) (hrep : reps + 6 ≤ 1000) :
    Cuckoo.insert_key env (fuel + 6) x (cuckooFull a b) .first .second hA hB reps =
      Cuckoo.insert_key env fuel x (cuckooFull a b) .first .second hA hB (reps + 6) := by
  rw [show fuel + 6 = (fuel + 4) + 2 from rfl,
    Cuckoo.evict_two env hA hB hnA hnB _ x a b reps (by omega),
    show fuel + 4 = (fuel + 2) + 2 from rfl,
    Cuckoo.evict_two env hA hB hnA hnB _ b x a (reps + 2) (by omega),
    Cuckoo.evict_two env hA hB hnA hnB _ a b x (reps + 2 + 2) (by omega)]

theorem Cuckoo.evict_many (env : Env) (hA hB : Int → Int) (hnA : ∀ k, 0 ≤ hA k)
    (hnB : ∀ k, 0 ≤ hB k) (x a b : Int) :
    ∀ (n fuel reps : Nat), reps + 6 * n ≤ 1000 →
      Cuckoo.insert_key env (fuel + 6 * n) x (cuckooFull a b) .first .second hA hB reps =
        Cuckoo.insert_key env fuel x (cuckooFull a b) .first .second hA hB (reps + 6 * n) := by
  intro n
  induction n with
  | zero => intro fuel reps _; rfl
  | succ n ih =>
    intro fuel reps hr
    rw [show fuel + 6 * (n + 1) = (fuel + 6 * n) + 6 by omega,
      Cuckoo.evict_six env hA hB hnA hnB _ x a b reps (by omega), ih fuel (reps + 6) (by omega),
      show reps + 6 + 6 * n = reps + 6 * (n + 1) by omega]

/-- The first 1000 evictions of a chain in a cuckoo table of size 1 whose two
slots are in use: no key is placed, the table is not doubled, and the chain
arrives at counter 1000 with the keys rotated. -/
theorem Cuckoo.evict_thousand (env : Env) (hA hB : Int → Int) (hnA : ∀ k, 0 ≤ hA k)
    (hnB : ∀ k, 0 ≤ hB k) (fuel : Nat) (x a b : Int) :
    Cuckoo.insert_key env (fuel + 1000) x (cuckooFull a b) .first .second hA hB 0 =
      Cuckoo.insert_key env fuel a (cuckooFull b x) .first .second hA hB 1000 := by
  rw [show fuel + 1000 = (fuel + 4) + 6 * 166 by omega,
    Cuckoo.evict_many env hA hB hnA hnB x a b 166 (fuel + 4) 0 (by omega),
    show fuel + 4 = (fuel + 2) + 2 from rfl,
    Cuckoo.evict_two env hA hB hnA hnB _ x a b _ (by omega),
    Cuckoo.evict_two env hA hB hnA hnB _ b x a _ (by omega)]

theorem absEnv_nonneg : ∀ k, 0 ≤ absEnv.h1 k ∧ 0 ≤ absEnv.h2 k :=
  fun _ => ⟨Int.natCast_nonneg _, Int.natCast_nonneg _⟩

theorem cuckooReach : Cuckoo.Reachable absEnv (cuckooFull 1 0) :=
  Cuckoo.Reachable.insert 5
    { table1 := { slots := [0], inuse := [true], load := 1 },
      table2 := { slots := [0], inuse := [false], load := 0 }, size := 1 } 1 true _
    (Cuckoo.Reachable.insert 5
      { table1 := { slots := [0], inuse := [false], load := 0 },
        table2 := { slots := [0], inuse := [false], load := 0 }, size := 1 } 0 true _
      (Cuckoo.Reachable.fresh 1 _ (by decide) (by decide)) (by decide))
    (by decide)

/-- The insert of the key 2 into the cuckoo table of size 1 holding 1 and 0:
1001 evictions, the last with a doubling of the table, then a placement. -/
theorem cuckooRun :
    Cuckoo.cuckoo_hash_table_insert absEnv 1012 (cuckooFull 1 0) 2 = .ok (true, cuckooDoubled) := by
  have hchain : Cuckoo.insert_key absEnv 1011 2 (cuckooFull 1 0) .first .second absEnv.h1
      absEnv.h2 0 = .ok (true, cuckooDoubled, 1001) := by
    rw [show (1011 : Nat) = 11 + 1000 from rfl,
      Cuckoo.evict_thousand absEnv absEnv.h1 absEnv.h2 (fun k => (absEnv_nonneg k).1)
        (fun k => (absEnv_nonneg k).2) 11 2 1 0]
    decide
  have h1 : Cuckoo.slotOf (cuckooFull 1 0).size (absEnv.h1 2) = .ok 0 := by decide
  have h2 : Cuckoo.slotOf (cuckooFull 1 0).size (absEnv.h2 2) = .ok 0 := by decide
  have h3 : Cuckoo.holds (cuckooFull 1 0).table1 0 2 = .ok false := by decide
  have h4 : Cuckoo.holds (cuckooFull 1 0).table2 0 2 = .ok false := by decide
  rw [show (1012 : Nat) = 1011 + 1 from rfl, Cuckoo.cuckoo_hash_table_insert, h1, h2]
  simp only [h3, h4, hchain]

/-- C36 (the flat cuckoo table keeps its keys across doubling): for hash
functions with non-negative values, in every state reachable from a new table of
initial size at least 1, after a completed `cuckoo_hash_table_insert` of `key`
(whatever its eviction chain did, doublings of the table with a rehash of every
key included) lookup returns true for `key` and for every key for which it
returned true before the call, exactly the keys stored before and `key` are
stored, no key is stored twice, and `table1.load + table2.load` is the number of
stored keys. -/
theorem cuckoo_keeps_keys (env : Env) (hnn : ∀ k, 0 ≤ env.h1 k ∧ 0 ≤ env.h2 k)
    (T : Cuckoo.CuckooHashTable) (hR : Cuckoo.Reachable env T) (fuel : Nat) (key : Int)
    (r : Bool) (T' : Cuckoo.CuckooHashTable)
    (hrun : Cuckoo.cuckoo_hash_table_insert env fuel T key = .ok (r, T')) :
    Cuckoo.cuckoo_hash_table_lookup env T' key = .ok true ∧
    (∀ k, Cuckoo.cuckoo_hash_table_lookup env T k = .ok true →
      Cuckoo.cuckoo_hash_table_lookup env T' k = .ok true) ∧
    T'.table1.load + T'.table2.load = (Cuckoo.allStored T').length ∧
    (Cuckoo.allStored T').Nodup ∧
    (∀ k, k ∈ Cuckoo.allStored T' ↔ k = key ∨ k ∈ Cuckoo.allStored T) ∧
    (∀ k, Cuckoo.cuckoo_hash_table_lookup env T' k = .ok (decide (k ∈ Cuckoo.allStored T'))) := by
  obtain ⟨hI, hnd⟩ := hR.inv hnn
  obtain ⟨hI', hnd'⟩ := (Cuckoo.Reachable.insert fuel T key r T' hR hrun).inv hnn
  have hmem : ∀ k, k ∈ Cuckoo.allStored T' ↔ k = key ∨ k ∈ Cuckoo.allStored T := by
    intro k
    obtain ⟨_, g | g⟩ := (Cuckoo.run_spec env hnn fuel).2.2.2 T key r T' hI hnd hrun
    · rw [g.2.1]
      constructor
      · intro h; exact Or.inr h
      · rintro (rfl | h)
        · exact g.2.2
        · exact h
    · rw [g.2.2.mem_iff, List.mem_cons]
  refine ⟨?_, ?_, ?_, hnd', hmem, fun k => Cuckoo.lookup_stored env hnn hI' k⟩
  · rw [Cuckoo.lookup_stored env hnn hI' key, decide_eq_true ((hmem key).mpr (Or.inl rfl))]
  · intro k hk
    rw [Cuckoo.lookup_stored env hnn hI k] at hk
    simp only [Res.ok.injEq, decide_eq_true_eq] at hk
    rw [Cuckoo.lookup_stored env hnn hI' k, decide_eq_true ((hmem k).mpr (Or.inr hk))]
  · rw [hI'.ok1.load_eq, hI'.ok2.load_eq]
    unfold Cuckoo.allStored
    rw [List.length_append]

theorem cuckoo_keeps_keys_witness :
    Cuckoo.cuckoo_hash_table_lookup absEnv cuckooDoubled 2 = .ok true ∧
    (∀ k, Cuckoo.cuckoo_hash_table_lookup absEnv (cuckooFull 1 0) k = .ok true →
      Cuckoo.cuckoo_hash_table_lookup absEnv cuckooDoubled k = .ok true) ∧
    cuckooDoubled.table1.load + cuckooDoubled.table2.load =
      (Cuckoo.allStored cuckooDoubled).length ∧
    (Cuckoo.allStored cuckooDoubled).Nodup ∧
    (∀ k, k ∈ Cuckoo.allStored cuckooDoubled ↔ k = 2 ∨ k ∈ Cuckoo.allStored (cuckooFull 1 0)) ∧
    (∀ k, Cuckoo.cuckoo_hash_table_lookup absEnv cuckooDoubled k =
      .ok (decide (k ∈ Cuckoo.allStored cuckooDoubled))) :=
  cuckoo_keeps_keys absEnv absEnv_nonneg (cuckooFull 1 0) cuckooReach 1012 2 true cuckooDoubled
    cuckooRun


theorem forall₂_getElem? {α β : Type} {R : α → β → Prop} {l1 : List α} {l2 : List β}
    (h : List.Forall₂ R l1 l2) :
    ∀ (p : Nat) (b : β), l2[p]? = some b → ∃ a, l1[p]? = some a ∧ R a b := by
  induction h with
  | nil => intro p b hb; simp at hb
  | cons hab _ ih =>
    intro p b hb
    cases p with
    | zero =>
      simp only [List.getElem?_cons_zero, Option.some.injEq] at hb
      subst hb
      exact ⟨_, by simp, hab⟩
    | succ p =>
      simp only [List.getElem?_cons_succ] at hb
      obtain ⟨a, ha, hr⟩ := ih p b hb
      exact ⟨a, by simpa using ha, hr⟩

theorem forall₂_set {α β : Type} {R : α → β → Prop} {l1 : List α} {l2 : List β}
    (h : List.Forall₂ R l1 l2) :
    ∀ (p : Nat) (a : α) (b : β), R a b → List.Forall₂ R (l1.set p a) (l2.set p b) := by
  induction h with
  | nil => intro p a b _; simp
  | cons hab hrest ih =>
    intro p a b hr
    cases p with
    | zero => simp only [List.set_cons_zero]; exact List.Forall₂.cons hr hrest
    | succ p => simp only [List.set_cons_succ]; exact List.Forall₂.cons hab (ih p a b hr)

theorem forall₂_snoc {α β : Type} {R : α → β → Prop} {l1 : List α} {l2 : List β}
    (h : List.Forall₂ R l1 l2) (a : α) (b : β) (hr : R a b) :
    List.Forall₂ R (l1 ++ [a]) (l2 ++ [b]) := by
  induction h with
  | nil => exact List.Forall₂.cons hr List.Forall₂.nil
  | cons hab _ ih => exact List.Forall₂.cons hab ih

/-- The slot array of the single-key table: what a slot refers to. -/
theorem Xuckoo.slot_ok_one (t : Xuckoo.InnerTable) (i p : Nat) (b : Xuckoo.Bucket)
    (h1 : t.buckets[i]? = some p) (h2 : t.heap[p]? = some b) :
    Xuckoo.bucketAt t i = .ok (p, b) := by
  unfold Xuckoo.bucketAt
  rw [h1]
  simp only
  rw [h2]

/-- Corresponding tables have corresponding buckets behind every slot. -/
theorem TableRel.bucketAt_sim {t1 : Xuckoo.InnerTable} {t : InnerTable} (hR : TableRel t1 t)
    (a p : Nat) (b : Bucket) (hb : Xuckoon.bucketAt t a = .ok (p, b)) :
    ∃ b1, Xuckoo.bucketAt t1 a = .ok (p, b1) ∧ t1.heap[p]? = some b1 ∧ BucketRel b1 b := by
  obtain ⟨h1, h2⟩ := (bucketAt_ok_iff t a p b).mp hb
  obtain ⟨b1, hb1, hrel⟩ := forall₂_getElem? hR.heap p b h2
  exact ⟨b1, Xuckoo.slot_ok_one t1 a p b1 (by rw [hR.buckets]; exact h1) hb1, hb1, hrel⟩

/-- The two address computations agree on corresponding tables. -/
theorem TableRel.addressOf_sim {t1 : Xuckoo.InnerTable} {t : InnerTable} (hR : TableRel t1 t)
    (h : Int → Int) (key : Int) :
    Xuckoo.addressOf t1 h key = .ok (addr t.depth (h key)) := by
  unfold Xuckoo.addressOf
  rw [hR.depth]
  exact index_rightmostnbits _ _

/-- The membership tests of the two variants agree on corresponding tables. -/
theorem TableRel.holds_sim {t1 : Xuckoo.InnerTable} {t : InnerTable} (hR : TableRel t1 t)
    {h : Int → Int} (hS : Struct 1 h t) (a : Nat) (ha : a < t.size) (key : Int) :
    Xuckoo.holds t1 a key = find_key t a key := by
  obtain ⟨p, b, h1, h2, _⟩ := hS.slot_bucket a ha
  have hb := (bucketAt_ok_iff t a p b).mpr ⟨h1, h2⟩
  obtain ⟨b1, hb1, _, hid, hdep, hlen, hfull⟩ := hR.bucketAt_sim a p b hb
  unfold Xuckoo.holds find_key
  rw [hb1, hb]
  simp only
  rcases hfull with ⟨hf, hn, hk⟩ | ⟨hf, hn⟩
  · rw [hf, hn, if_pos (by decide)]
    rw [find_loop, hk]
    simp only
    by_cases hkey : b1.key = key
    · rw [if_pos hkey]; simp [hkey]
    · rw [if_neg hkey, find_loop]; simp [hkey]
  · rw [hf, hn, if_neg (by decide)]
    simp

/-- Doubling the slot array: the two variants agree. -/
theorem TableRel.double_sim {t1 : Xuckoo.InnerTable} {t : InnerTable} (hR : TableRel t1 t)
    (env : Env) :
    (Xuckoo.double_table env t1 = .fault .tableTooLarge ∧
      double_table env t = .fault .tableTooLarge) ∨
    ∃ t1' t', Xuckoo.double_table env t1 = .ok t1' ∧ double_table env t = .ok t' ∧
      TableRel t1' t' := by
  unfold Xuckoo.double_table double_table
  simp only
  rw [hR.size]
  by_cases hlt : t.size * 2 < env.MAX_TABLE_SIZE
  · right
    rw [if_pos hlt, if_pos hlt]
    refine ⟨_, _, rfl, rfl, ?_⟩
    refine ⟨hR.heap, ?_, ?_, ?_, hR.nbuckets, hR.nkeys⟩
    · show t1.buckets ++ t1.buckets.take t.size = t.buckets ++ t.buckets.take t.size
      rw [hR.buckets]
    · rfl
    · show t1.depth + 1 = t.depth + 1
      rw [hR.depth]
  · left
    rw [if_neg hlt, if_neg hlt]
    exact ⟨rfl, rfl⟩

/-- Reinserting a key after a split: when the n-key engine at capacity 1 finds
room, the single-key variant stores the key in the corresponding bucket. -/
theorem TableRel.reinsert_sim {t1 : Xuckoo.InnerTable} {t : InnerTable} (hR : TableRel t1 t)
    (key : Int) (h : Int → Int) (t' : InnerTable)
    (hrun : Xuckoon.reinsert_key t key h = .ok t') :
    ∃ t1', Xuckoo.reinsert_key t1 key h = .ok t1' ∧ TableRel t1' t' := by
  unfold Xuckoon.reinsert_key at hrun
  rw [addressOf_eq] at hrun
  simp only at hrun
  split at hrun
  · exact absurd hrun (by simp)
  · rename_i p b hb
    obtain ⟨b1, hb1, _, hid, hdep, hlen, hfull⟩ := hR.bucketAt_sim _ p b hb
    unfold appendKey at hrun
    split at hrun
    · rename_i hlt
      simp only [Res.ok.injEq] at hrun
      subst hrun
      have hn : b.nkeys = 0 := by omega
      unfold Xuckoo.reinsert_key
      rw [hR.addressOf_sim]
      simp only
      rw [hb1]
      refine ⟨_, rfl, ?_⟩
      refine ⟨?_, hR.buckets, hR.size, hR.depth, hR.nbuckets, hR.nkeys⟩
      refine forall₂_set hR.heap p _ _ ⟨hid, hdep, ?_, Or.inl ⟨rfl, ?_, ?_⟩⟩
      · show (b.keys.set b.nkeys key).length = 1
        rw [List.length_set]; exact hlen
      · show b.nkeys + 1 = 1
        omega
      · show (b.keys.set b.nkeys key)[0]? = some key
        rw [hn, List.getElem?_set_self (by omega)]
    · exact absurd hrun (by simp)


theorem TableRel.split_rest_sim {t1 : Xuckoo.InnerTable} {t : InnerTable} (hR : TableRel t1 t)
    (env : Env) (address : Nat) (h : Int → Int) (p : Nat) (b : Bucket)
    (hb : bucketAt t address = .ok (p, b)) (hfull : b.nkeys = 1) (t' : InnerTable)
    (hrun : split_rest env t address 1 h = .ok t') :
    ∃ t1', Xuckoo.split_rest env t1 address h = .ok t1' ∧ TableRel t1' t' := by
  obtain ⟨b1, hb1, hh1, hid, hdep, hlen, hf⟩ := hR.bucketAt_sim address p b hb
  have hkey : b.keys[0]? = some b1.key := by
    rcases hf with ⟨_, _, c⟩ | ⟨_, c⟩
    · exact c
    · omega
  have hf1 : b1.full = true := by
    rcases hf with ⟨c, _, _⟩ | ⟨_, c⟩
    · exact c
    · omega
  have hp : p < t.heap.length :=
    (List.getElem?_eq_some.mp ((bucketAt_ok_iff t address p b).mp hb).2).1
  have hlen2 : t1.heap.length = t.heap.length := hR.heap.length_eq
  unfold split_rest at hrun
  rw [hb] at hrun
  simp only at hrun
  split at hrun
  · exact absurd hrun (by simp)
  · rename_i bit hbit
    split at hrun
    · exact absurd hrun (by simp)
    · rename_i hdepth
      split at hrun
      · exact absurd hrun (by simp)
      · rename_i B hred
        rw [hfull, reinsert_loop] at hrun
        simp only at hrun
        rw [List.getElem?_set_self (by
          simp only [List.length_append, List.length_set, List.length_singleton]; omega)] at hrun
        simp only at hrun
        rw [hkey] at hrun
        simp only at hrun
        split at hrun
        · exact absurd hrun (by simp)
        · rename_i tx hre
          rw [reinsert_loop] at hrun
          simp only [Res.ok.injEq] at hrun
          subst hrun
          have hR3 : TableRel
              { t1 with
                heap := ((t1.heap.set p { b1 with depth := b1.depth + 1 }) ++
                  [Xuckoo.new_bucket env.junk ((1 <<< b1.depth) ||| b1.id) (b1.depth + 1)]).set p
                    { b1 with depth := b1.depth + 1, full := false },
                buckets := B, nbuckets := t1.nbuckets + 1 }
              { t with
                heap := ((t.heap.set p { b with depth := b.depth + 1, nkeys := 1 }) ++
                  [new_bucket env.junk ((1 <<< b.depth) ||| b.id) (b.depth + 1) 1]).set p
                    { b with depth := b.depth + 1, nkeys := 0 },
                buckets := B, nbuckets := t.nbuckets + 1 } := by
            refine ⟨?_, rfl, hR.size, hR.depth, ?_, hR.nkeys⟩
            · refine forall₂_set (forall₂_snoc (forall₂_set hR.heap p _ _ ?_) _ _ ?_) p _ _ ?_
              · exact ⟨hid, by show b1.depth + 1 = b.depth + 1; rw [hdep], hlen,
                  Or.inl ⟨hf1, rfl, hkey⟩⟩
              · refine ⟨?_, ?_, rfl, Or.inr ⟨rfl, rfl⟩⟩
                · show (1 <<< b1.depth) ||| b1.id = (1 <<< b.depth) ||| b.id
                  rw [hid, hdep]
                · show b1.depth + 1 = b.depth + 1
                  rw [hdep]
              · exact ⟨hid, by show b1.depth + 1 = b.depth + 1; rw [hdep], hlen,
                  Or.inr ⟨rfl, rfl⟩⟩
            · show t1.nbuckets + 1 = t.nbuckets + 1
              rw [hR.nbuckets]
          obtain ⟨t1', hre1, hrel⟩ := hR3.reinsert_sim b1.key h _ hre
          refine ⟨t1', ?_, hrel⟩
          unfold Xuckoo.split_rest
          rw [hb1]
          simp only
          rw [hid, hdep, hbit]
          simp only
          rw [hR.depth, if_neg hdepth]
          simp only [List.length_set]
          rw [hlen2, hR.buckets]
          simp only [List.length_set] at hred
          rw [hred]
          simp only
          rw [← hid, ← hdep, ← hR.depth]
          exact hre1

/-- Splitting a full bucket: the two variants fail together, or both return and
the results correspond. -/
theorem TableRel.split_sim {t1 : Xuckoo.InnerTable} {t : InnerTable} (hR : TableRel t1 t)
    (env : Env) {h : Int → Int} (hS : Struct 1 h t) (address : Nat) (p : Nat) (b : Bucket)
    (hb : bucketAt t address = .ok (p, b)) (hfull : b.nkeys = 1) :
    (Xuckoo.split_bucket env t1 address h = .fault .tableTooLarge ∧
      split_bucket env t address 1 h = .fault .tableTooLarge) ∨
    ∃ t1' t', Xuckoo.split_bucket env t1 address h = .ok t1' ∧
      split_bucket env t address 1 h = .ok t' ∧ TableRel t1' t' ∧ Struct 1 h t' := by
  obtain ⟨b1, hb1, hh1, hid, hdep, hlen, hf⟩ := hR.bucketAt_sim address p b hb
  obtain ⟨hs1, hs2⟩ := (bucketAt_ok_iff t address p b).mp hb
  have ha : address < t.size := by
    rw [← hS.len_eq]
    exact (List.getElem?_eq_some.mp hs1).1
  rcases split_bucket_spec env hS address ha with hfault | ⟨t', hok, hS', _⟩
  · left
    refine ⟨?_, hfault⟩
    unfold split_bucket at hfault
    unfold Xuckoo.split_bucket
    rw [hb] at hfault
    rw [hb1]
    simp only at hfault ⊢
    rw [hdep, hR.depth]
    by_cases hd : b.depth = t.depth
    · rw [if_pos hd] at hfault ⊢
      rcases hR.double_sim env with ⟨g1, _⟩ | ⟨t1d, td, _, g2, _⟩
      · rw [g1]
      · rw [g2] at hfault
        simp only at hfault
        obtain ⟨tx, hx, _⟩ := split_rest_spec env hS.double address p b
          (by
            show (t.buckets ++ t.buckets.take t.size)[address]? = some p
            rw [List.getElem?_append_left (by rw [hS.len_eq]; exact ha)]
            exact hs1)
          hs2 (by show b.depth < t.depth + 1; omega)
        have htd : td = { t with buckets := t.buckets ++ t.buckets.take t.size,
                                 size := t.size * 2, depth := t.depth + 1 } := by
          unfold double_table at g2
          simp only at g2
          split at g2
          · exact (Res.ok.inj g2).symm
          · exact absurd g2 (by simp)
        rw [htd, hx] at hfault
        exact absurd hfault (by simp)
    · rw [if_neg hd] at hfault
      simp only at hfault
      have hlt : b.depth < t.depth := by
        have := (hS.bucket_ok p b hs2).depth_le
        omega
      obtain ⟨tx, hx, _⟩ := split_rest_spec env hS address p b hs1 hs2 hlt
      rw [hx] at hfault
      exact absurd hfault (by simp)
  · right
    have hok2 := hok
    unfold split_bucket at hok
    rw [hb] at hok
    simp only at hok
    split at hok
    · exact absurd hok (by simp)
    · rename_i td htd
      have hrd : ∃ t1d, (if b1.depth = t1.depth then Xuckoo.double_table env t1 else .ok t1)
          = .ok t1d ∧ TableRel t1d td := by
        rw [hdep, hR.depth]
        by_cases hd : b.depth = t.depth
        · rw [if_pos hd] at htd ⊢
          rcases hR.double_sim env with ⟨_, g2⟩ | ⟨t1d, td2, g1, g2, g3⟩
          · rw [g2] at htd; exact absurd htd (by simp)
          · rw [g2] at htd
            have := Res.ok.inj htd
            subst this
            exact ⟨t1d, g1, g3⟩
        · rw [if_neg hd] at htd ⊢
          have := Res.ok.inj htd
          subst this
          exact ⟨t1, rfl, hR⟩
      obtain ⟨t1d, hd1, hRd⟩ := hrd
      obtain ⟨hSd, hheap, _⟩ := hS.first_step env p b hs2 td htd
      have hbd : bucketAt td address = .ok (p, b) := by
        refine (bucketAt_ok_iff td address p b).mpr ⟨?_, by rw [hheap]; exact hs2⟩
        by_cases hd : b.depth = t.depth
        · rw [if_pos hd] at htd
          unfold double_table at htd
          simp only at htd
          split at htd
          · have := Res.ok.inj htd
            subst this
            show (t.buckets ++ t.buckets.take t.size)[address]? = some p
            rw [List.getElem?_append_left (by rw [hS.len_eq]; exact ha)]
            exact hs1
          · exact absurd htd (by simp)
        · rw [if_neg hd] at htd
          have := Res.ok.inj htd
          subst this
          exact hs1
      obtain ⟨t1', hx1, hrel⟩ := hRd.split_rest_sim env address h p b hbd hfull t' hok
      refine ⟨t1', t', ?_, hok2, hrel, hS'⟩
      unfold Xuckoo.split_bucket
      rw [hb1]
      simp only
      rw [hd1]
      exact hx1


/-- The recursive insertion of the single-key variant and of the n-key engine at
capacity 1 run in lockstep: on corresponding tables they fail with the same
fault, or both return, with the same flag and counter and corresponding tables. -/
theorem TableRel.insert_key_sim (env : Env) :
    ∀ (fuel : Nat) (key : Int) (tA1 tB1 : Xuckoo.InnerTable) (tA tB : InnerTable)
      (hA hB : Int → Int) (reps : Nat) (rnd : Nat → Nat),
      TableRel tA1 tA → TableRel tB1 tB → Struct 1 hA tA → Struct 1 hB tB →
      (∃ e, Xuckoo.insert_key env fuel key tA1 tB1 hA hB reps = .fault e ∧
        insert_key env 1 fuel key tA tB hA hB reps rnd = .fault e) ∨
      (∃ r tA1' tB1' tA' tB' n,
        Xuckoo.insert_key env fuel key tA1 tB1 hA hB reps = .ok (r, tA1', tB1', n) ∧
        insert_key env 1 fuel key tA tB hA hB reps rnd = .ok (r, tA', tB', n) ∧
        TableRel tA1' tA' ∧ TableRel tB1' tB') := by
  intro fuel
  induction fuel with
  | zero =>
    intro key tA1 tB1 tA tB hA hB reps rnd _ _ _ _
    exact Or.inl ⟨.outOfFuel, rfl, rfl⟩
  | succ fuel ih =>
    intro key tA1 tB1 tA tB hA hB reps rnd hRA hRB hSA hSB
    obtain ⟨p, b, hs1, hs2, hpl, _⟩ := hSA.home key
    have hb := (bucketAt_ok_iff tA _ p b).mpr ⟨hs1, hs2⟩
    obtain ⟨b1, hb1, hh1, hid, hdep, hlen, hf⟩ := hRA.bucketAt_sim _ p b hb
    rw [Xuckoo.insert_key, insert_key, hRA.addressOf_sim, addressOf_eq]
    simp only
    rw [hb1, hb]
    simp only
    rcases hf with ⟨hf1, hn, hkey⟩ | ⟨hf1, hn⟩
    · -- the bucket is full
      rw [if_neg (show ¬ b1.full = false by rw [hf1]; decide),
        if_neg (show ¬ b.nkeys ≠ 1 by omega), if_neg (show ¬ b.nkeys = 0 by omega)]
      have hri : rnd 0 % b.nkeys = 0 := by rw [hn]; exact Nat.mod_one _
      rw [hri, hkey]
      simp only
      have hSx := (replace_spec hSA p b key b1.key 0 hs2 (by omega) hkey hpl).1
      have hRx : TableRel { tA1 with heap := tA1.heap.set p { b1 with key := key } }
          { tA with heap := tA.heap.set p { b with keys := b.keys.set 0 key } } := by
        refine ⟨forall₂_set hRA.heap p _ _ ⟨hid, hdep, ?_, Or.inl ⟨hf1, hn, ?_⟩⟩,
          hRA.buckets, hRA.size, hRA.depth, hRA.nbuckets, hRA.nkeys⟩
        · show (b.keys.set 0 key).length = 1
          rw [List.length_set]; exact hlen
        · show (b.keys.set 0 key)[0]? = some key
          rw [List.getElem?_set_self (by omega)]
      have hbx : bucketAt { tA with heap := tA.heap.set p { b with keys := b.keys.set 0 key } }
          (addr tA.depth (hA key)) = .ok (p, { b with keys := b.keys.set 0 key }) := by
        refine (bucketAt_ok_iff _ _ _ _).mpr ⟨hs1, ?_⟩
        show (tA.heap.set p _)[p]? = _
        rw [List.getElem?_set_self (List.getElem?_eq_some.mp hs2).1]
      have hstep :
          ((if reps ≥ 1000 then
              Xuckoo.split_bucket env { tA1 with heap := tA1.heap.set p { b1 with key := key } }
                (addr tA.depth (hA key)) hA
            else .ok { tA1 with heap := tA1.heap.set p { b1 with key := key } })
              = .fault .tableTooLarge ∧
           (if reps ≥ 1000 then
              split_bucket env { tA with heap := tA.heap.set p { b with keys := b.keys.set 0 key } }
                (addr tA.depth (hA key)) 1 hA
            else .ok { tA with heap := tA.heap.set p { b with keys := b.keys.set 0 key } })
              = .fault .tableTooLarge) ∨
          ∃ t1' t',
           (if reps ≥ 1000 then
              Xuckoo.split_bucket env { tA1 with heap := tA1.heap.set p { b1 with key := key } }
                (addr tA.depth (hA key)) hA
            else .ok { tA1 with heap := tA1.heap.set p { b1 with key := key } }) = .ok t1' ∧
           (if reps ≥ 1000 then
              split_bucket env { tA with heap := tA.heap.set p { b with keys := b.keys.set 0 key } }
                (addr tA.depth (hA key)) 1 hA
            else .ok { tA with heap := tA.heap.set p { b with keys := b.keys.set 0 key } })
              = .ok t' ∧ TableRel t1' t' ∧ Struct 1 hA t' := by
        by_cases hreps : reps ≥ 1000
        · rw [if_pos hreps, if_pos hreps]
          exact hRx.split_sim env hSx _ p _ hbx hn
        · rw [if_neg hreps, if_neg hreps]
          exact Or.inr ⟨_, _, rfl, rfl, hRx, hSx⟩
      rcases hstep with ⟨g1, g2⟩ | ⟨t1', t', g1, g2, hR2, hS2⟩
      · rw [g1, g2]
        exact Or.inl ⟨_, rfl, rfl⟩
      · rw [g1, g2]
        simp only
        rcases ih b1.key tB1 t1' tB t' hB hA (reps + 1) (fun i => rnd (i + 1)) hRB hR2 hSB hS2
          with ⟨e, e1, e2⟩ | ⟨r, tB1', tA1', tB', tA', n, e1, e2, hRB', hRA'⟩
        · rw [e1, e2]
          exact Or.inl ⟨_, rfl, rfl⟩
        · rw [e1, e2]
          exact Or.inr ⟨r, tA1', tB1', tA', tB', n, rfl, rfl, hRA', hRB'⟩
    · -- the bucket is empty
      rw [if_pos hf1, if_pos (show b.nkeys ≠ 1 by omega)]
      unfold appendKey
      rw [if_pos (show b.nkeys < b.keys.length by omega)]
      simp only
      refine Or.inr ⟨true, _, _, _, _, reps, rfl, rfl, ?_, hRB⟩
      refine ⟨forall₂_set hRA.heap p _ _ ⟨hid, hdep, ?_, Or.inl ⟨rfl, ?_, ?_⟩⟩,
        hRA.buckets, hRA.size, hRA.depth, hRA.nbuckets, ?_⟩
      · show (b.keys.set b.nkeys key).length = 1
        rw [List.length_set]; exact hlen
      · show b.nkeys + 1 = 1
        omega
      · show (b.keys.set b.nkeys key)[0]? = some key
        rw [hn, List.getElem?_set_self (by omega)]
      · show tA1.nkeys + 1 = tA.nkeys + 1
        rw [hRA.nkeys]


theorem Corr.findEither_sim {T1 : Xuckoo.XuckooHashTable} {T : XuckooNHashTable}
    (hC : Corr T1 T) (env : Env) (hG : GInv env 1 T) (key : Int) :
    Xuckoo.findEither env T1 key = findEither env T key := by
  unfold Xuckoo.findEither findEither
  rw [hC.rel1.addressOf_sim, hC.rel2.addressOf_sim, addressOf_eq, addressOf_eq]
  simp only
  rw [hC.rel1.holds_sim hG.inv1.struct _ (hG.inv1.struct.addr_lt_size _) key,
    hC.rel2.holds_sim hG.inv2.struct _ (hG.inv2.struct.addr_lt_size _) key]

/-- The fresh tables of the two variants correspond. -/
theorem Corr.fresh (env : Env) :
    Corr (Xuckoo.new_xuckoo_hash_table env) (new_xuckoon_hash_table env 1) := by
  have h : TableRel (Xuckoo.initialise_table env.junk) (initialise_table env.junk 1) :=
    ⟨List.Forall₂.cons ⟨rfl, rfl, rfl, Or.inr ⟨rfl, rfl⟩⟩ List.Forall₂.nil,
      rfl, rfl, rfl, rfl, rfl⟩
  exact ⟨h, h, rfl⟩

/-- One insert call: the two variants fail with the same fault, or return the
same flag and leave corresponding structures. -/
theorem Corr.insert_sim {T1 : Xuckoo.XuckooHashTable} {T : XuckooNHashTable}
    (hC : Corr T1 T) (env : Env) (hG : GInv env 1 T) (fuel : Nat) (rnd : Nat → Nat)
    (key : Int) :
    (∃ e, Xuckoo.xuckoo_hash_table_insert env fuel T1 key = .fault e ∧
      xuckoon_hash_table_insert env fuel rnd T key = .fault e) ∨
    (∃ r T1' T', Xuckoo.xuckoo_hash_table_insert env fuel T1 key = .ok (r, T1') ∧
      xuckoon_hash_table_insert env fuel rnd T key = .ok (r, T') ∧ Corr T1' T') := by
  unfold Xuckoo.xuckoo_hash_table_insert xuckoon_hash_table_insert
  rw [hC.findEither_sim env hG key, hC.bucketsize_eq]
  cases findEither env T key with
  | fault e => exact Or.inl ⟨e, rfl, rfl⟩
  | ok found =>
    cases found with
    | true => exact Or.inr ⟨false, T1, T, rfl, rfl, hC⟩
    | false =>
      simp only
      rw [hC.rel1.nkeys, hC.rel2.nkeys]
      by_cases hle : T.table1.nkeys ≤ T.table2.nkeys
      · rw [if_pos hle, if_pos hle]
        rcases TableRel.insert_key_sim env fuel key T1.table1 T1.table2 T.table1 T.table2
          env.h1 env.h2 0 rnd hC.rel1 hC.rel2 hG.inv1.struct hG.inv2.struct
          with ⟨e, e1, e2⟩ | ⟨r, tA1, tB1, tA, tB, n, e1, e2, hRA, hRB⟩
        · rw [e1, e2]
          exact Or.inl ⟨e, rfl, rfl⟩
        · rw [e1, e2]
          exact Or.inr ⟨r, _, _, rfl, rfl, hRA, hRB, rfl⟩
      · rw [if_neg hle, if_neg hle]
        rcases TableRel.insert_key_sim env fuel key T1.table2 T1.table1 T.table2 T.table1
          env.h2 env.h1 0 rnd hC.rel2 hC.rel1 hG.inv2.struct hG.inv1.struct
          with ⟨e, e1, e2⟩ | ⟨r, tA1, tB1, tA, tB, n, e1, e2, hRA, hRB⟩
        · rw [e1, e2]
          exact Or.inl ⟨e, rfl, rfl⟩
        · rw [e1, e2]
          exact Or.inr ⟨r, _, _, rfl, rfl, hRB, hRA, rfl⟩

/-- A sequence of calls from corresponding reachable states: the two variants
stop with the same fault, which is the table-size assertion, or the exhausted
fuel of an insert whose fuel was at most `1002 + 2 * MAX_TABLE_SIZE`, or both
complete, with the same flags and corresponding final structures. -/
theorem Corr.runOps_sim (env : Env) :
    ∀ (ops : List Op) (T1 : Xuckoo.XuckooHashTable) (T : XuckooNHashTable),
      Corr T1 T → Reachable env 1 T →
      (∃ e, (e = .tableTooLarge ∨
            (e = .outOfFuel ∧ ∃ key fuel rnd, Op.insert key fuel rnd ∈ ops ∧
              fuel ≤ 1002 + 2 * env.MAX_TABLE_SIZE)) ∧
        Xuckoo.runOps env ops T1 = .fault e ∧ runOps env ops T = .fault e) ∨
      (∃ rs T1' T', Xuckoo.runOps env ops T1 = .ok (rs, T1') ∧
        runOps env ops T = .ok (rs, T') ∧ Corr T1' T' ∧ Reachable env 1 T') := by
  intro ops
  induction ops with
  | nil =>
    intro T1 T hC hR
    exact Or.inr ⟨[], T1, T, rfl, rfl, hC, hR⟩
  | cons op ops ih =>
    intro T1 T hC hR
    have hG := hR.ginv
    cases op with
    | insert key fuel rnd =>
      rw [Xuckoo.runOps, runOps]
      rcases hC.insert_sim env hG fuel rnd key with ⟨e, e1, e2⟩ | ⟨r, T1a, Ta, e1, e2, hCa⟩
      · rw [e1, e2]
        refine Or.inl ⟨e, ?_, rfl, rfl⟩
        rcases hR.insert_total (le_refl 1) fuel rnd key with ⟨r, T', g⟩ | g | ⟨g, hfuel⟩
        · rw [g] at e2; exact absurd e2 (by simp)
        · rw [g] at e2
          simp only [Res.fault.injEq] at e2
          exact Or.inl e2.symm
        · rw [g] at e2
          simp only [Res.fault.injEq] at e2
          exact Or.inr ⟨e2.symm, key, fuel, rnd, List.mem_cons_self _ _, hfuel⟩
      · rw [e1, e2]
        simp only
        have hRa : Reachable env 1 Ta := Reachable.insert fuel rnd T key r Ta hR e2
        rcases ih T1a Ta hCa hRa with ⟨e, he, g1, g2⟩ | ⟨rs, T1', T', g1, g2, hC', hR'⟩
        · rw [g1, g2]
          refine Or.inl ⟨e, ?_, rfl, rfl⟩
          rcases he with he | ⟨he, k, f, rd, hm, hf⟩
          · exact Or.inl he
          · exact Or.inr ⟨he, k, f, rd, List.mem_cons_of_mem _ hm, hf⟩
        · rw [g1, g2]
          exact Or.inr ⟨r :: rs, T1', T', rfl, rfl, hC', hR'⟩
    | lookup key =>
      rw [Xuckoo.runOps, runOps]
      unfold Xuckoo.xuckoo_hash_table_lookup xuckoon_hash_table_lookup
      rw [hC.findEither_sim env hG key, findEither_eq hG.inv1.struct hG.inv2.struct]
      simp only
      rcases ih T1 T hC hR with ⟨e, he, g1, g2⟩ | ⟨rs, T1', T', g1, g2, hC', hR'⟩
      · rw [g1, g2]
        refine Or.inl ⟨e, ?_, rfl, rfl⟩
        rcases he with he | ⟨he, k, f, rd, hm, hf⟩
        · exact Or.inl he
        · exact Or.inr ⟨he, k, f, rd, List.mem_cons_of_mem _ hm, hf⟩
      · rw [g1, g2]
        exact Or.inr ⟨_ :: rs, T1', T', rfl, rfl, hC', hR'⟩



/-- The calls `exOps` on fresh tables: both variants return the same six flags,
and the final structures are `exSingle` and `exCapacityOne`. -/
theorem single_key_example :
    Xuckoo.runOps exEnv exOps (Xuckoo.new_xuckoo_hash_table exEnv) =
      .ok ([true, true, true, false, false, true], exSingle) ∧
    runOps exEnv exOps (new_xuckoon_hash_table exEnv 1) =
      .ok ([true, true, true, false, false, true], exCapacityOne) := by
  constructor <;> decide

/-- C34: the single-key variant equals the n-key engine at capacity 1.  For the
same hash functions and every sequence of insert and lookup calls on fresh
tables, the calls of `xuckoo.c` and the calls of `xuckoon.c` with bucketsize 1
either stop at the same call with the same fault (the table-size assertion; in
the model also the exhausted fuel of an insert that was given at most
`1002 + 2 * MAX_TABLE_SIZE` steps), or all return, with the same results, and the
final structures correspond: same slot arrays, sizes, depths, `nkeys`,
`nbuckets`, bucket ids and depths, and a bucket is full exactly when the
corresponding bucket has `nkeys = 1`, with the same key. -/
theorem xuckoo_refines_xuckoon (env : Env) (ops : List Op) :
    (∃ e, (e = .tableTooLarge ∨
          (e = .outOfFuel ∧ ∃ key fuel rnd, Op.insert key fuel rnd ∈ ops ∧
            fuel ≤ 1002 + 2 * env.MAX_TABLE_SIZE)) ∧
      Xuckoo.runOps env ops (Xuckoo.new_xuckoo_hash_table env) = .fault e ∧
      runOps env ops (new_xuckoon_hash_table env 1) = .fault e) ∨
    (∃ rs T1 T,
      Xuckoo.runOps env ops (Xuckoo.new_xuckoo_hash_table env) = .ok (rs, T1) ∧
      runOps env ops (new_xuckoon_hash_table env 1) = .ok (rs, T) ∧ Corr T1 T) := by
  rcases Corr.runOps_sim env ops _ _ (Corr.fresh env) Reachable.fresh
    with h | ⟨rs, T1, T, h1, h2, hC, _⟩
  · exact Or.inl h
  · exact Or.inr ⟨rs, T1, T, h1, h2, hC⟩


/-! ## Instances on tables with split buckets -/

/-- The eviction chain of the insert of key 4 into `splitTable`: 1003 evictions,
the last three with a forced split (table1, table2, table1), then a placement. -/
theorem deep_chain (rnd : Nat → Nat) :
    insert_key exEnv 1 3051 4 (cexSingle 0) (cexSingle 2) exEnv.h1 exEnv.h2 0 rnd =
      .ok (true, deepTable.table1, deepTable.table2, 1003) := by
  rw [show (3051 : Nat) = 2051 + 1000 from rfl, thousand_steps,
    insert_key_rnd_one exEnv 2051 0 (cexSingle 2) (cexSingle 4) exEnv.h1 exEnv.h2 1000 rnd
      (fun _ => 0)]
  decide

theorem deep_run (rnd : Nat → Nat) :
    xuckoon_hash_table_insert exEnv 3051 rnd splitTable 4 = .ok (true, deepTable) := by
  have hfind : findEither exEnv splitTable 4 = .ok false := by decide
  unfold xuckoon_hash_table_insert
  rw [hfind]
  simp only
  rw [if_pos (show splitTable.table1.nkeys ≤ splitTable.table2.nkeys by decide)]
  have := deep_chain rnd
  simp only [splitTable] at this ⊢
  rw [this]
  rfl

theorem deepReach : Reachable exEnv 1 deepTable :=
  Reachable.insert 3051 (fun _ => 0) splitTable 4 true deepTable splitReach
    (deep_run (fun _ => 0))

theorem deepStruct : Struct 1 exEnv.h1 deepTable.table1 := deepReach.ginv.inv1.struct


/-- The address invariant in the reachable state `deepTable` (directories of 4
and 2 slots, a bucket of depth 1 behind the slots 1 and 3), and after
`double_table` and `split_bucket` (with doubling) applied to its first table. -/
theorem address_invariant_witness :
    (AddrInv deepTable.table1 ∧ AddrInv deepTable.table2) ∧
    AddrInv deepDoubled ∧ AddrInv deepSplit :=
  ⟨(address_invariant exEnv 1).2.1 deepTable deepReach,
    (address_invariant exEnv 1).2.2.1 exEnv.h1 deepTable.table1 deepDoubled deepStruct
      (by decide),
    (address_invariant exEnv 1).2.2.2 exEnv.h1 deepTable.table1 deepSplit 0 deepStruct
      (by decide) (by decide)⟩

/-- Two inserts with an eviction chain.  The insert of 4 into `splitTable`
evicts 1003 times, splits three buckets and returns the table `deepTable`; the
insert of 3 into `cexTable` (ceiling 2) evicts 1000 times and then fails the size
assertion. -/
theorem insert_terminates_witness :
    xuckoon_hash_table_insert exEnv 3051 (fun _ => 0) splitTable 4 = .ok (true, deepTable) ∧
    xuckoon_hash_table_insert cexEnv 1007 (fun _ => 0) cexTable 3 = .fault .tableTooLarge ∧
    ((∃ r T', xuckoon_hash_table_insert exEnv 3051 (fun _ => 0) splitTable 4 = .ok (r, T')) ∨
      xuckoon_hash_table_insert exEnv 3051 (fun _ => 0) splitTable 4 =
        .fault .tableTooLarge) ∧
    ((∃ r T', xuckoon_hash_table_insert cexEnv 1007 (fun _ => 0) cexTable 3 = .ok (r, T')) ∨
      xuckoon_hash_table_insert cexEnv 1007 (fun _ => 0) cexTable 3 =
        .fault .tableTooLarge) :=
  ⟨deep_run _,
    by rw [cex_insert_eq, show (1007 : Nat) = 1000 + 1 + 6 from rfl,
      cex_chain_asserts 1000 6 3 1 2 0 _ rfl],
    insert_terminates exEnv 1 (by decide) splitTable splitReach 4 (fun _ => 0) 3051 (by decide),
    insert_terminates cexEnv 1 (by decide) cexTable cexReach 3 (fun _ => 0) 1007 (by decide)⟩

/-- Key placement in the reachable state `deepTable` (depths 2 and 1), after the
write of an eviction (8 overwrites 4 at address 0), after `double_table`, and
after `split_bucket` with doubling, which moves the key 4 to the new bucket. -/
theorem key_placement_witness :
    (KeyPlaced exEnv.h1 deepTable.table1 ∧ KeyPlaced exEnv.h2 deepTable.table2) ∧
    KeyPlaced exEnv.h1 deepEvicted ∧ KeyPlaced exEnv.h1 deepDoubled ∧
    KeyPlaced exEnv.h1 deepSplit :=
  ⟨(key_placement exEnv 1).1 deepTable deepReach,
    (key_placement exEnv 1).2.1 exEnv.h1 deepTable.table1 8 0 0 0
      { id := 0, depth := 2, nkeys := 1, keys := [4] } deepStruct (by decide) (by decide)
      (by decide),
    (key_placement exEnv 1).2.2.1 exEnv.h1 deepTable.table1 deepDoubled deepStruct (by decide),
    (key_placement exEnv 1).2.2.2 exEnv.h1 deepTable.table1 deepSplit 0 deepStruct (by decide)
      (by decide)⟩

/-- The bucket of id 1 and depth 1 in the first table of `deepTable` (depth 2):
it is referenced from exactly the two odd slots. -/
theorem reference_count_witness :
    (∀ i, i < deepTable.table1.size →
      (deepTable.table1.buckets[i]? = some 1 ↔ i % 2 ^ 1 = 1)) ∧
    deepTable.table1.buckets.count 1 = 2 ^ (deepTable.table1.depth - 1) ∧
    deepTable.table1.buckets.length = deepTable.table1.size ∧ 1 ≤ deepTable.table1.depth ∧
    1 < 2 ^ 1 :=
  reference_count exEnv 1 deepTable deepReach deepTable.table1 (Or.inl rfl) 1
    { id := 1, depth := 1, nkeys := 0, keys := [0] } rfl

/-- Addresses in the first table of `deepTable` (4 slots): the address of the
negative hash value -3 at depth 2, the address of every key under every hash
function, the slot indices of the redirect loop for the bucket behind slot 1
(depth 1 in a table of depth 2) and for the bucket behind slot 0 (depth 2, so
that the table is doubled first), lookup and insert. -/
theorem addresses_in_bounds_witness :
    (rightmostnbits 2 (-3) = (-3) % (2 : Int) ^ 2 ∧ 0 ≤ rightmostnbits 2 (-3) ∧
      rightmostnbits 2 (-3) < (2 : Int) ^ 2) ∧
    (deepTable.table1.size = 2 ^ deepTable.table1.depth ∧
      deepTable.table1.buckets.length = deepTable.table1.size) ∧
    (∀ (g : Int → Int) (key : Int), ∃ a p b, addressOf deepTable.table1 g key = .ok a ∧
      a < deepTable.table1.size ∧ bucketAt deepTable.table1 a = .ok (p, b)) ∧
    (∃ bit_address, index (rightmostnbits 1 ((1 : Nat) : Int)) = .ok bit_address ∧
      ∀ n, n < 1 <<< (deepTable.table1.depth - (1 + 1)) →
        (n <<< (1 + 1)) ||| ((1 <<< 1) ||| bit_address) < deepTable.table1.size) ∧
    (∃ bit_address, index (rightmostnbits 2 ((0 : Nat) : Int)) = .ok bit_address ∧
      ∀ n, n < 1 <<< (deepDoubled.depth - (2 + 1)) →
        (n <<< (2 + 1)) ||| ((1 <<< 2) ||| bit_address) < deepDoubled.size) ∧
    (∀ key : Int, ∃ r, xuckoon_hash_table_lookup exEnv deepTable key = .ok r) ∧
    (∀ (fuel : Nat) (rnd : Nat → Nat) (key : Int),
      xuckoon_hash_table_insert exEnv fuel rnd deepTable key ≠ .fault .undefined) :=
  ⟨(addresses_in_bounds exEnv 1 deepTable deepReach deepTable.table1 exEnv.h1
      (Or.inl ⟨rfl, rfl⟩)).1 2 (-3),
    (addresses_in_bounds exEnv 1 deepTable deepReach deepTable.table1 exEnv.h1
      (Or.inl ⟨rfl, rfl⟩)).2.2.1,
    (addresses_in_bounds exEnv 1 deepTable deepReach deepTable.table1 exEnv.h1
      (Or.inl ⟨rfl, rfl⟩)).2.2.2.1,
    ((addresses_in_bounds exEnv 1 deepTable deepReach deepTable.table1 exEnv.h1
      (Or.inl ⟨rfl, rfl⟩)).2.2.2.2.1 1 1 { id := 1, depth := 1, nkeys := 0, keys := [0] }
      deepTable.table1 rfl rfl).2.2,
    ((addresses_in_bounds exEnv 1 deepTable deepReach deepTable.table1 exEnv.h1
      (Or.inl ⟨rfl, rfl⟩)).2.2.2.2.1 0 0 { id := 0, depth := 2, nkeys := 1, keys := [4] }
      deepDoubled rfl (by decide)).2.2,
    (addresses_in_bounds exEnv 1 deepTable deepReach deepTable.table1 exEnv.h1
      (Or.inl ⟨rfl, rfl⟩)).2.2.2.2.2.1,
    (addresses_in_bounds exEnv 1 deepTable deepReach deepTable.table1 exEnv.h1
      (Or.inl ⟨rfl, rfl⟩)).2.2.2.2.2.2 (by decide)⟩


end Xuckoon
